import Mathlib

/-!
# Resource-grid mapping and precoding engine

A shallow embedding of `lib/phy/support/resource_grid_impl.cpp` (the grid
constructor, `set_all_zero` and the two `map` algorithms) together with the
collaborators it calls (bounded bit patterns, RE pattern lists, the grid
writer, RE buffers, the precoding kernel and the symbol source).

Conventions of the embedding.

* Resource elements are elements of a commutative semiring `α` with decidable
  equality (the comparison `== 1.0F` of the bypass test is `= 1`).
* A `bounded_bitset` is the list of its bits, index 0 first.
* `unsigned` quantities are natural numbers; the operations in which a wrap
  can happen are reduced modulo `2 ^ 32` explicitly.
* The constant `MAX_RB` (the capacity of a selection mask is `MAX_RB * NRE`
  bits) is declared in a header that is not part of the sources at hand; the
  streamed mapping, which uses it, takes it as a parameter.
* `srsran_assert` is a fatal check: the operation stops and returns
  `Except.error` with the name of the check and the state reached.
* The grid writer records every `put` call, and the symbol source every
  `pop_symbols` call, in a log, so that statements about the calls that are
  issued and their order can be made.
-/

namespace srsran

/-! ## Constants -/

/-- Modelled from the spec: number of subcarriers of a resource block (12); the constant is declared in a header outside this development. -/
def NRE : Nat := 12

/-- Modelled from the spec: maximum number of OFDM symbols of a slot (symbols 0..13). -/
def MAX_NSYMB_PER_SLOT : Nat := 14

/-- Reduction of a natural number to the range of `unsigned`. -/
def u32 (x : Nat) : Nat := x % 2 ^ 32

/-- Subtraction of two `unsigned` values, wrapping modulo `2 ^ 32`. -/
def u32_sub (a b : Nat) : Nat := (a % 2 ^ 32 + 2 ^ 32 - b % 2 ^ 32) % 2 ^ 32

/-- Modelled from the spec: `divide_ceil(x, y)`, the ceiling of `x / y`. -/
def divide_ceil (x y : Nat) : Nat := (x + (y - 1)) / y

/-! ## Bounded bit patterns -/

namespace bounded_bitset

/-- Modelled from the spec: `bounded_bitset::count()`, the population count. -/
def count (m : List Bool) : Nat := m.count true

/-- Modelled from the spec: `bounded_bitset::none()`, true when no bit is set. -/
def none (m : List Bool) : Bool := m.all (fun b => !b)

/-- Modelled from the spec: `bounded_bitset::find_highest()`, the index of the highest set bit, or `-1` when no bit is set. -/
def find_highest : List Bool → Int
  | [] => -1
  | b :: m =>
    if 0 ≤ find_highest m then find_highest m + 1
    else if b then 0 else -1

/-- Modelled from the spec: `bounded_bitset::find_lowest()`, the index of the lowest set bit, or `-1` when no bit is set. -/
def find_lowest : List Bool → Int
  | [] => -1
  | true :: _ => 0
  | false :: m => if 0 ≤ find_lowest m then find_lowest m + 1 else -1

/-- Modelled from the spec: `bounded_bitset::resize(n)`, truncating or zero-extending to `n` bits. -/
def resize (m : List Bool) (n : Nat) : List Bool :=
  m.take n ++ List.replicate (n - m.length) false

/-- Modelled from the spec: `bounded_bitset::slice(start, end)`, the pattern of the bits `start .. end - 1`. -/
def slice (m : List Bool) (startpos endpos : Nat) : List Bool :=
  (m.drop startpos).take (endpos - startpos)

/-- Bit `k` of a pattern; bits outside the pattern read as unset. -/
def test (m : List Bool) (k : Nat) : Bool := m.getD k false

end bounded_bitset

/-! ## RE pattern lists -/

/-- Modelled from the spec: an RE pattern, seen through the only thing the mapping needs, namely whether it contains subcarrier `k` of OFDM symbol `l` (`covers l k`). -/
structure re_pattern where
  covers : Nat → Nat → Bool

/-- Modelled from the spec: a list of RE patterns (`re_pattern_list`); the default-constructed list is empty. -/
abbrev re_pattern_list := List re_pattern

namespace re_pattern_list

/-- Union of the patterns of a list at symbol `l`, subcarrier `k`. -/
def covers (pl : re_pattern_list) (l k : Nat) : Bool := pl.any (fun p => p.covers l k)

/-- Bitwise update of a mask: bit `k0 + i` of the result is `f (k0 + i) b` for the `i`-th bit `b`. -/
def update_mask (f : Nat → Bool → Bool) : Nat → List Bool → List Bool
  | _, [] => []
  | k, b :: m => f k b :: update_mask f (k + 1) m

/-- Modelled from the spec: `re_pattern_list::get_inclusion_mask(mask, symbol)`, which sets in the caller's mask the bits of the union of the patterns. -/
def get_inclusion_mask (pl : re_pattern_list) (mask : List Bool) (l : Nat) : List Bool :=
  update_mask (fun k b => b || pl.covers l k) 0 mask

/-- Modelled from the spec: `re_pattern_list::get_exclusion_mask(mask, symbol)`, which clears in the caller's mask the bits of the union of the patterns. -/
def get_exclusion_mask (pl : re_pattern_list) (mask : List Bool) (l : Nat) : List Bool :=
  update_mask (fun k b => b && !pl.covers l k) 0 mask

end re_pattern_list

/-! ## RE buffers, precoding configuration, precoding kernel -/

/-- Modelled from the spec: an RE buffer (`re_buffer_reader`, and the scratch buffers of the grid): `nof_slices` slices of `nof_re` resource elements each, over a backing store `data slice index`. -/
structure re_buffer (α : Type) where
  nof_slices : Nat
  nof_re : Nat
  data : Nat → Nat → α

namespace re_buffer

variable {α : Type}

/-- Modelled from the spec: `get_slice(i)`, the `nof_re` elements of slice `i`. -/
def get_slice (b : re_buffer α) (i : Nat) : List α := (List.range b.nof_re).map (b.data i)

/-- Modelled from the spec: `resize(nof_slices, nof_re)`, which changes the dimensions and leaves the backing store alone. -/
def resize (b : re_buffer α) (s n : Nat) : re_buffer α := { b with nof_slices := s, nof_re := n }

/-- Modelled from the spec: a view `(buffer, offset, count)` over the REs `offset .. offset + count - 1` of every slice. -/
def view (b : re_buffer α) (offset cnt : Nat) : re_buffer α :=
  { nof_slices := b.nof_slices, nof_re := cnt, data := fun s i => b.data s (offset + i) }

end re_buffer

/-- Modelled from the spec: the weight matrix of one PRG, `coefficient layer port`. -/
structure precoding_weight_matrix (α : Type) where
  nof_layers : Nat
  nof_ports : Nat
  coefficient : Nat → Nat → α

/-- Modelled from the spec: `get_port_coefficients(port)`, the coefficients of a port, one per layer. -/
def precoding_weight_matrix.get_port_coefficients {α : Type} (w : precoding_weight_matrix α)
    (port : Nat) : List α :=
  (List.range w.nof_layers).map (fun l => w.coefficient l port)

/-- Modelled from the spec: the precoding configuration: number of layers, of ports, of PRGs, PRG size in resource blocks, and `coefficient layer port prg`. -/
structure precoding_configuration (α : Type) where
  nof_layers : Nat
  nof_ports : Nat
  nof_prg : Nat
  prg_size : Nat
  coefficient : Nat → Nat → Nat → α

namespace precoding_configuration

variable {α : Type}

def get_nof_layers (c : precoding_configuration α) : Nat := c.nof_layers

def get_nof_ports (c : precoding_configuration α) : Nat := c.nof_ports

def get_nof_prg (c : precoding_configuration α) : Nat := c.nof_prg

def get_prg_size (c : precoding_configuration α) : Nat := c.prg_size

def get_coefficient (c : precoding_configuration α) (i_layer i_port i_prg : Nat) : α :=
  c.coefficient i_layer i_port i_prg

def get_prg_coefficients (c : precoding_configuration α) (i_prg : Nat) :
    precoding_weight_matrix α :=
  { nof_layers := c.nof_layers, nof_ports := c.nof_ports,
    coefficient := fun l p => c.coefficient l p i_prg }

end precoding_configuration

namespace channel_precoder

variable {α : Type} [CommSemiring α]

/-- Modelled from the spec: the precoding kernel for one port, `apply_precoding_port(port_re, input, port_coefficients)`: RE `r` of the port is the sum over the layers `l` of `port_coefficients[l] * input[l][r]`. The list returned is what the kernel stores in `port_re`. -/
def apply_precoding_port (input : re_buffer α) (port_coefficients : List α) : List α :=
  (List.range input.nof_re).map (fun r =>
    ((List.range input.nof_slices).map
      (fun l => port_coefficients.getD l 0 * input.data l r)).sum)

/-- Modelled from the spec: the precoding kernel `apply_precoding(output, input, weights)`, which precodes every port of the weight matrix into the same-numbered slice of the output view; the output view covers the REs `offset .. offset + input.nof_re - 1` of the buffer `output`. -/
def apply_precoding (output : re_buffer α) (offset : Nat) (input : re_buffer α)
    (w : precoding_weight_matrix α) : re_buffer α :=
  { output with
    data := fun p i =>
      if p < w.nof_ports ∧ offset ≤ i ∧ i < offset + input.nof_re then
        (apply_precoding_port input (w.get_port_coefficients p)).getD (i - offset) 0
      else output.data p i }

end channel_precoder

/-- Modelled from the spec: `srsvec::sc_prod(x, h, z)`, the scalar product `z[i] = x[i] * h`. -/
def sc_prod {α : Type} [Mul α] (x : List α) (h : α) : List α := x.map (fun v => v * h)

/-! ## Fatal checks and loops -/

/-- The fatal checks of the mapping. `out_of_fuel` is not a behaviour of the program: it marks a run of the model whose loop budget ended before the loop did. -/
inductive fatal where
  | input_layers
  | precoding_ports
  | unmapped
  | precoding_fill
  | total_re
  | antennas_range
  | layers_range
  | pending_zero
  | pop_symbols
  | out_of_fuel
  deriving DecidableEq, Repr

/-- Outcome of an operation on a state `σ`: the new state, or the fatal check that stopped it together with the state at that point. -/
abbrev outcome (σ : Type) := Except (fatal × σ) σ

/-- The state an operation ends in, whether it returns or stops at a fatal check. -/
def outcome.state {σ : Type} : outcome σ → σ
  | .ok s => s
  | .error e => e.2

/-- A `for` loop over the indices of a list whose body may stop with a fatal check. -/
def for_loop {σ : Type} (body : σ → Nat → outcome σ) : List Nat → σ → outcome σ
  | [], s => .ok s
  | i :: rest, s =>
    match body s i with
    | .ok s1 => for_loop body rest s1
    | .error e => .error e

/-! ## The resource grid and its writer -/

/-- One call of `resource_grid_writer::put`, as recorded in the log of the grid. -/
structure put_call (α : Type) where
  port : Nat
  symbol : Nat
  k_init : Nat
  mask : List Bool
  values : List α

/-- The state of a `resource_grid_impl`: dimensions, per-port empty flags, the grid buffer `rg_buffer port symbol subcarrier`, the two scratch buffers, and the log of the writer calls. -/
structure resource_grid_impl (α : Type) where
  nof_ports : Nat
  nof_symb : Nat
  nof_subc : Nat
  empty : Nat → Bool
  rg_buffer : Nat → Nat → Nat → α
  layer_mapping_buffer : re_buffer α
  precoding_buffer : re_buffer α
  put_log : List (put_call α)

namespace resource_grid_impl

variable {α : Type}

/-- Body of the constructor loop: zero the view of a port and flag it empty. -/
def zero_port [Zero α] (g : resource_grid_impl α) (port : Nat) : resource_grid_impl α :=
  { g with
    rg_buffer := fun p l k => if p = port then 0 else g.rg_buffer p l k
    empty := fun p => if p = port then true else g.empty p }

/-- The constructor `resource_grid_impl(nof_ports, nof_symb, nof_subc, precoder)`. The memory reserved for the grid buffer and the flags before the loop runs is the arbitrary content `raw`, `raw_empty`. -/
def create [Zero α] (nof_ports_ nof_symb_ nof_subc_ : Nat) (raw : Nat → Nat → Nat → α)
    (raw_empty : Nat → Bool) (scratch : Nat → Nat → α) : resource_grid_impl α :=
  (List.range nof_ports_).foldl zero_port
    { nof_ports := nof_ports_, nof_symb := nof_symb_, nof_subc := nof_subc_,
      empty := raw_empty, rg_buffer := raw,
      layer_mapping_buffer := ⟨nof_ports_, nof_subc_ * nof_symb_, scratch⟩,
      precoding_buffer := ⟨nof_ports_, nof_subc_ * nof_symb_, scratch⟩,
      put_log := [] }

/-- Body of the loop of `set_all_zero`. -/
def set_all_zero_port [Zero α] (g : resource_grid_impl α) (port : Nat) : resource_grid_impl α :=
  if !g.empty port then zero_port g port else g

/-- The method `set_all_zero()`. -/
def set_all_zero [Zero α] (g : resource_grid_impl α) : resource_grid_impl α :=
  (List.range g.nof_ports).foldl set_all_zero_port g

/-- Modelled from the spec: the inner loop of `put`: the values are written to the set bits of the mask in ascending order, bit `i` of the mask being subcarrier `k + i`; the values that were not used are returned. -/
def put_row (row : Nat → α) : Nat → List Bool → List α → (Nat → α) × List α
  | _, [], vs => (row, vs)
  | k, false :: m, vs => put_row row (k + 1) m vs
  | _, true :: _, [] => (row, [])
  | k, true :: m, v :: vs => put_row (fun j => if j = k then v else row j) (k + 1) m vs

/-- Modelled from the spec: `resource_grid_writer::put(port, l, k_init, mask, symbols)`: writes the values to the set bits of the mask of symbol `l` of the port, clears the empty flag of the port and returns the unconsumed tail of the values. The call is appended to the log. -/
def put (g : resource_grid_impl α) (port l k_init : Nat) (mask : List Bool) (symbols : List α) :
    resource_grid_impl α × List α :=
  let r := put_row (g.rg_buffer port l) k_init mask symbols
  ({ g with
     rg_buffer := fun p s k => if p = port ∧ s = l then r.1 k else g.rg_buffer p s k
     empty := fun p => if p = port then false else g.empty p
     put_log := g.put_log ++ [⟨port, l, k_init, mask, symbols⟩] }, r.2)

end resource_grid_impl

/-! ## The symbol source of the streamed variant -/

/-- Modelled from the spec: the symbol source (`symbol_buffer`): the maximum pull size, the symbols not pulled yet, and the log of the sizes pulled. -/
structure symbol_buffer (α : Type) where
  max_block_size : Nat
  symbols : List α
  pop_log : List Nat

namespace symbol_buffer

variable {α : Type}

def get_max_block_size (b : symbol_buffer α) : Nat := b.max_block_size

/-- Modelled from the spec: `pop_symbols(n)` returns exactly `n` symbols, or fails (`none`) if fewer remain. The call is appended to the log in both cases. -/
def pop_symbols (b : symbol_buffer α) (n : Nat) : Option (List α) × symbol_buffer α :=
  if n ≤ b.symbols.length then
    (some (b.symbols.take n),
      { b with symbols := b.symbols.drop n, pop_log := b.pop_log ++ [n] })
  else (none, { b with pop_log := b.pop_log ++ [n] })

end symbol_buffer

/-! ## The buffered-input mapping -/

/-- Modelled from the spec: update of one element of an RE buffer through a slice span. -/
def re_buffer.set {α : Type} (b : re_buffer α) (slice i : Nat) (v : α) : re_buffer α :=
  { b with data := fun s j => if s = slice ∧ j = i then v else b.data s j }

/-- Modelled from the spec: a kernel storing its result `vals` in the span of slice `slice`. -/
def re_buffer.write_slice {α : Type} [Zero α] (b : re_buffer α) (slice : Nat) (vals : List α) :
    re_buffer α :=
  { b with data := fun s j => if s = slice ∧ j < vals.length then vals.getD j 0 else b.data s j }

/-- The symbol RE mask before the search of the highest subcarrier: a mask of `size` unset bits, through `get_inclusion_mask` of the pattern list and then `get_exclusion_mask` of the reserved list. -/
def selection_mask (size : Nat) (pattern reserved : re_pattern_list) (i_symbol : Nat) :
    List Bool :=
  re_pattern_list.get_exclusion_mask reserved
    (re_pattern_list.get_inclusion_mask pattern (List.replicate size false) i_symbol) i_symbol

/-- Loop state of the buffered `map`: the grid and the counter `i_re_buffer`. -/
structure map_state (α : Type) where
  grid : resource_grid_impl α
  i_re_buffer : Nat

/-- Loop state of the PRG loop of the buffered `map`. -/
structure prg_state (α : Type) where
  precoding_buffer : re_buffer α
  i_re_buffer : Nat
  i_precoding_buffer : Nat
  i_subc : Nat

namespace resource_grid_impl

variable {α : Type} [CommSemiring α] [DecidableEq α]

/-- Body of the PRG loop of the buffered `map` (general path). -/
def map_prg (input : re_buffer α) (precoding : precoding_configuration α) (prg_size : Nat)
    (symbol_re_mask : List Bool) (st : prg_state α) (i_prg : Nat) : prg_state α :=
  let prg_weights := precoding.get_prg_coefficients i_prg
  let nof_subc_prg := min prg_size (u32_sub symbol_re_mask.length st.i_subc)
  let prg_re_mask := bounded_bitset.slice symbol_re_mask st.i_subc (st.i_subc + nof_subc_prg)
  let nof_re_prg := bounded_bitset.count prg_re_mask
  let input_re_prg := input.view st.i_re_buffer nof_re_prg
  { precoding_buffer :=
      channel_precoder.apply_precoding st.precoding_buffer st.i_precoding_buffer input_re_prg
        prg_weights
    i_re_buffer := st.i_re_buffer + nof_re_prg
    i_precoding_buffer := st.i_precoding_buffer + nof_re_prg
    i_subc := st.i_subc + nof_subc_prg }

/-- Body of the port loop of the buffered `map` (general path). -/
def map_port (i_symbol : Nat) (symbol_re_mask : List Bool) (g : resource_grid_impl α)
    (i_tx_port : Nat) : outcome (resource_grid_impl α) :=
  let port_data := g.precoding_buffer.get_slice i_tx_port
  let r := g.put i_tx_port i_symbol 0 symbol_re_mask port_data
  if r.2.isEmpty then .ok r.1 else .error (.unmapped, r.1)

/-- The test of the bypass path. -/
def bypass (precoding : precoding_configuration α) : Bool :=
  precoding.get_nof_layers = 1 ∧ precoding.get_nof_ports = 1 ∧ precoding.get_nof_prg = 1 ∧
    precoding.get_coefficient 0 0 0 = 1

/-- The bypass path of the buffered `map` for one symbol. -/
def map_bypass (input : re_buffer α) (i_symbol : Nat) (symbol_re_mask : List Bool)
    (st : map_state α) : outcome (map_state α) :=
  let nof_re_symbol := bounded_bitset.count symbol_re_mask
  let input_re_symbol := input.view st.i_re_buffer nof_re_symbol
  let r := st.grid.put 0 i_symbol 0 symbol_re_mask (input_re_symbol.get_slice 0)
  if r.2.isEmpty then .ok ⟨r.1, st.i_re_buffer + nof_re_symbol⟩
  else .error (.unmapped, ⟨r.1, st.i_re_buffer⟩)

/-- The general path of the buffered `map` for one symbol. -/
def map_general (input : re_buffer α) (precoding : precoding_configuration α) (i_symbol : Nat)
    (symbol_re_mask : List Bool) (st : map_state α) : outcome (map_state α) :=
  let nof_precoding_ports := precoding.get_nof_ports
  let prg_size := u32 (precoding.get_prg_size * NRE)
  let nof_re_symbol := bounded_bitset.count symbol_re_mask
  let pb0 := st.grid.precoding_buffer
  let pb1 :=
    if nof_re_symbol ≠ pb0.nof_re ∨ nof_precoding_ports ≠ pb0.nof_slices then
      pb0.resize nof_precoding_ports nof_re_symbol
    else pb0
  let prg := (List.range precoding.get_nof_prg).foldl
    (map_prg input precoding prg_size symbol_re_mask) ⟨pb1, st.i_re_buffer, 0, 0⟩
  let g0 : resource_grid_impl α := { st.grid with precoding_buffer := prg.precoding_buffer }
  if prg.i_precoding_buffer ≠ prg.precoding_buffer.nof_re then
    .error (.precoding_fill, ⟨g0, prg.i_re_buffer⟩)
  else
    match for_loop (map_port i_symbol symbol_re_mask) (List.range nof_precoding_ports) g0 with
    | .ok g1 => .ok ⟨g1, prg.i_re_buffer⟩
    | .error e => .error (e.1, ⟨e.2, prg.i_re_buffer⟩)

/-- Body of the symbol loop of the buffered `map`. -/
def map_symbol (input : re_buffer α) (pattern reserved : re_pattern_list)
    (precoding : precoding_configuration α) (st : map_state α) (i_symbol : Nat) :
    outcome (map_state α) :=
  let mask := selection_mask st.grid.nof_subc pattern reserved i_symbol
  let i_highest_subc := bounded_bitset.find_highest mask
  if i_highest_subc < 0 then .ok st
  else
    let symbol_re_mask :=
      bounded_bitset.resize mask (divide_ceil (i_highest_subc + 1).toNat NRE * NRE)
    if bypass precoding then map_bypass input i_symbol symbol_re_mask st
    else map_general input precoding i_symbol symbol_re_mask st

/-- The symbol loop of the buffered `map`, from a grid and the counter at zero. -/
def map_loop (g : resource_grid_impl α) (input : re_buffer α) (pattern reserved : re_pattern_list)
    (precoding : precoding_configuration α) : outcome (map_state α) :=
  for_loop (map_symbol input pattern reserved precoding) (List.range MAX_NSYMB_PER_SLOT) ⟨g, 0⟩

/-- The method `map(const re_buffer_reader&, pattern, reserved, precoding)`. -/
def map (g : resource_grid_impl α) (input : re_buffer α) (pattern reserved : re_pattern_list)
    (precoding : precoding_configuration α) : outcome (resource_grid_impl α) :=
  if input.nof_slices ≠ precoding.get_nof_layers then .error (.input_layers, g)
  else if ¬ precoding.get_nof_ports ≤ g.nof_ports then .error (.precoding_ports, g)
  else
    match map_loop g input pattern reserved precoding with
    | .error e => .error (e.1, e.2.grid)
    | .ok st =>
      if st.i_re_buffer = input.nof_re then .ok st.grid else .error (.total_re, st.grid)

/-- The method `map(const re_buffer_reader&, pattern, precoding)`, which maps with an empty list of reserved patterns. -/
def map3 (g : resource_grid_impl α) (input : re_buffer α) (pattern : re_pattern_list)
    (precoding : precoding_configuration α) : outcome (resource_grid_impl α) :=
  map g input pattern [] precoding

end resource_grid_impl

/-! ## The streamed-input mapping -/

/-- Loop state of the streamed `map`: the grid and the symbol source. -/
structure stream_state (α : Type) where
  grid : resource_grid_impl α
  buffer : symbol_buffer α

namespace resource_grid_impl

variable {α : Type} [CommSemiring α] [DecidableEq α]

/-- The layer-map loops of the streamed `map`: `layer_data[i_re] = block[i_re * nof_layers + i_layer]` for every layer and every RE of the block. -/
def layer_map (nof_layers nof_re_block : Nat) (block : List α) (lmb : re_buffer α) :
    re_buffer α :=
  (List.range nof_layers).foldl
    (fun b i_layer =>
      (List.range nof_re_block).foldl
        (fun b1 i_re => b1.set i_layer i_re (block.getD (i_re * nof_layers + i_layer) 0)) b)
    lmb

/-- Body of the port loop of the multi-layer branch of the streamed `map`. -/
def stream_port (prg_weights : precoding_weight_matrix α) (i_symbol k_init : Nat)
    (block_mask : List Bool) (g : resource_grid_impl α) (i_port : Nat) : resource_grid_impl α :=
  let pb := g.precoding_buffer.write_slice 0
    (channel_precoder.apply_precoding_port g.layer_mapping_buffer
      (prg_weights.get_port_coefficients i_port))
  (put { g with precoding_buffer := pb } i_port i_symbol k_init block_mask (pb.get_slice 0)).1

/-- One block of the streamed `map`: pop, layer map, precode and write. -/
def map_block (prg_weights : precoding_weight_matrix α) (nof_layers nof_antennas : Nat)
    (i_symbol k_init : Nat) (block_mask : List Bool) (st : stream_state α) :
    outcome (stream_state α) :=
  let nof_re_block := bounded_bitset.count block_mask
  let nof_symbols_block := nof_re_block * nof_layers
  let buffer1 := (st.buffer.pop_symbols nof_symbols_block).2
  match (st.buffer.pop_symbols nof_symbols_block).1 with
  | none => .error (.pop_symbols, ⟨st.grid, buffer1⟩)
  | some block =>
    if nof_layers = 1 ∧ nof_antennas = 1 then
      let pb := (st.grid.precoding_buffer.resize nof_antennas nof_re_block).write_slice 0
        (sc_prod block ((prg_weights.get_port_coefficients 0).getD 0 0))
      let r := put { st.grid with precoding_buffer := pb } 0 i_symbol k_init block_mask
        (pb.get_slice 0)
      .ok ⟨r.1, buffer1⟩
    else
      let lmb := layer_map nof_layers nof_re_block block
        (st.grid.layer_mapping_buffer.resize nof_layers nof_re_block)
      let pb := st.grid.precoding_buffer.resize nof_antennas nof_re_block
      let g1 := (List.range nof_layers).foldl
        (stream_port prg_weights i_symbol k_init block_mask)
        { st.grid with layer_mapping_buffer := lmb, precoding_buffer := pb }
      .ok ⟨g1, buffer1⟩

/-- The `while (subc_offset != nof_subc_prg)` loop of the streamed `map`, with a budget of iterations. -/
def map_blocks (prg_weights : precoding_weight_matrix α)
    (max_block_size nof_layers nof_antennas i_symbol i_subc : Nat) (prg_re_mask : List Bool)
    (nof_subc_prg : Nat) : Nat → Nat → stream_state α → outcome (stream_state α)
  | 0, subc_offset, st =>
    if subc_offset = nof_subc_prg then .ok st else .error (.out_of_fuel, st)
  | fuel + 1, subc_offset, st =>
    if subc_offset = nof_subc_prg then .ok st
    else
      let max_nof_subc_block := max_block_size / nof_layers
      let nof_subc_pending := u32_sub nof_subc_prg subc_offset
      if nof_subc_pending = 0 then .error (.pending_zero, st)
      else
        let nof_subc_block := min nof_subc_pending max_nof_subc_block
        let block_mask :=
          bounded_bitset.slice prg_re_mask subc_offset (subc_offset + nof_subc_block)
        match map_block prg_weights nof_layers nof_antennas i_symbol (i_subc + subc_offset)
            block_mask st with
        | .error e => .error e
        | .ok st1 =>
          map_blocks prg_weights max_block_size nof_layers nof_antennas i_symbol i_subc
            prg_re_mask nof_subc_prg fuel (subc_offset + nof_subc_block) st1

/-- Body of the PRG loop of the streamed `map`. -/
def map_stream_prg (fuel : Nat) (precoding : precoding_configuration α)
    (max_block_size i_symbol : Nat) (symbol_re_mask : List Bool) (i_highest_subc : Int)
    (st : stream_state α) (i_prg : Nat) : outcome (stream_state α) :=
  let prg_size := u32 (precoding.get_prg_size * NRE)
  let prg_weights := precoding.get_prg_coefficients i_prg
  let i_subc := u32 (i_prg * prg_size)
  let nof_subc_prg := min prg_size (u32_sub (i_highest_subc + 1).toNat i_subc)
  let prg_re_mask := bounded_bitset.slice symbol_re_mask i_subc (u32 (i_subc + nof_subc_prg))
  if bounded_bitset.none prg_re_mask then .ok st
  else
    let subc_offset := (bounded_bitset.find_lowest prg_re_mask).toNat
    map_blocks prg_weights max_block_size precoding.get_nof_layers precoding.get_nof_ports
      i_symbol i_subc prg_re_mask nof_subc_prg fuel subc_offset st

/-- Body of the symbol loop of the streamed `map`. -/
def map_stream_symbol (MAX_RB fuel : Nat) (pattern reserved : re_pattern_list)
    (precoding : precoding_configuration α) (max_block_size : Nat) (st : stream_state α)
    (i_symbol : Nat) : outcome (stream_state α) :=
  let symbol_re_mask := selection_mask (MAX_RB * NRE) pattern reserved i_symbol
  let i_highest_subc := bounded_bitset.find_highest symbol_re_mask
  if i_highest_subc < 0 then .ok st
  else
    for_loop (map_stream_prg fuel precoding max_block_size i_symbol symbol_re_mask i_highest_subc)
      (List.range precoding.get_nof_prg) st

/-- The method `map(symbol_buffer&, pattern, reserved, precoding)`; `MAX_RB` is the constant of that name and `fuel` bounds the iterations of each run of the block loop. -/
def map_stream (MAX_RB fuel : Nat) (g : resource_grid_impl α) (buffer : symbol_buffer α)
    (pattern reserved : re_pattern_list) (precoding : precoding_configuration α) :
    outcome (stream_state α) :=
  let max_block_size := buffer.get_max_block_size
  let nof_layers := precoding.get_nof_layers
  let nof_antennas := precoding.get_nof_ports
  if ¬ (1 ≤ nof_antennas ∧ nof_antennas ≤ g.nof_ports) then
    .error (.antennas_range, ⟨g, buffer⟩)
  else if ¬ (1 ≤ nof_layers ∧ nof_layers ≤ nof_antennas) then
    .error (.layers_range, ⟨g, buffer⟩)
  else
    for_loop (map_stream_symbol MAX_RB fuel pattern reserved precoding max_block_size)
      (List.range MAX_NSYMB_PER_SLOT) ⟨g, buffer⟩

end resource_grid_impl

/-! ## Auxiliary definitions of the specification -/

/-- Number of set bits of a mask below bit `k`: the position, among the values of a `put`, of the value written at bit `k`. -/
def rank (m : List Bool) (k : Nat) : Nat := bounded_bitset.count (m.take k)

/-- The cells written by a `put` of `n` values at the mask `m`, bit 0 of the mask being subcarrier `k`, in the order in which they are written. -/
def mask_cells (port l : Nat) : Nat → List Bool → Nat → List (Nat × Nat × Nat)
  | _, [], _ => []
  | k, false :: m, n => mask_cells port l (k + 1) m n
  | _, true :: _, 0 => []
  | k, true :: m, n + 1 => (port, l, k) :: mask_cells port l (k + 1) m n

/-- The cells `(port, symbol, subcarrier)` written by a sequence of `put` calls, in the order in which they are written. -/
def written_cells {α : Type} : List (put_call α) → List (Nat × Nat × Nat)
  | [] => []
  | c :: cs => mask_cells c.port c.symbol c.k_init c.mask c.values.length ++ written_cells cs

/-- The symbol RE mask after the resize to the highest subcarrier, ceiled to a resource block. -/
def truncated_mask (size : Nat) (pattern reserved : re_pattern_list) (i_symbol : Nat) :
    List Bool :=
  bounded_bitset.resize (selection_mask size pattern reserved i_symbol)
    (divide_ceil
      (bounded_bitset.find_highest (selection_mask size pattern reserved i_symbol) + 1).toNat
      NRE * NRE)

/-- Number of REs selected in the symbols below `n`. -/
def total_selected (size : Nat) (pattern reserved : re_pattern_list) : Nat → Nat
  | 0 => 0
  | n + 1 => total_selected size pattern reserved n +
      bounded_bitset.count (selection_mask size pattern reserved n)

/-- The value the precoding kernel gives port `p` at input RE `j` with the weights of PRG `i_prg`: the sum over the layers of the input of `coefficient * layer`. -/
def precoded_re {α : Type} [CommSemiring α] (input : re_buffer α)
    (precoding : precoding_configuration α) (i_prg p j : Nat) : α :=
  ((List.range input.nof_slices).map
    (fun l => ((precoding.get_prg_coefficients i_prg).get_port_coefficients p).getD l 0 *
      input.data l j)).sum

/-- The grid after the port loop of the general path has run for the ports below `n`, as a function of the grid before the loop. -/
def ports_written {α : Type} (g : resource_grid_impl α) (s : Nat) (m : List Bool) (n : Nat) :
    resource_grid_impl α :=
  { g with
    rg_buffer := fun p1 s1 k1 =>
      if p1 < n ∧ s1 = s ∧ bounded_bitset.test m k1 = true then
        g.precoding_buffer.data p1 (rank m k1)
      else g.rg_buffer p1 s1 k1
    empty := fun p1 => if p1 < n then false else g.empty p1
    put_log := g.put_log ++
      (List.range n).map (fun p => ⟨p, s, 0, m, g.precoding_buffer.get_slice p⟩) }

/-- Port, symbol, first subcarrier, mask and number of values of a `put` call. -/
def put_call.shape {α : Type} (c : put_call α) : Nat × Nat × Nat × List Bool × Nat :=
  (c.port, c.symbol, c.k_init, c.mask, c.values.length)

/-- The `put` calls the buffered `map` issues for symbol `s`: none if the mask is empty, else one per precoding port in ascending order, each with the truncated mask and one value per selected RE. -/
def symbol_shapes (size : Nat) (pattern reserved : re_pattern_list) (nof_ports s : Nat) :
    List (Nat × Nat × Nat × List Bool × Nat) :=
  if bounded_bitset.find_highest (selection_mask size pattern reserved s) < 0 then []
  else (List.range nof_ports).map (fun p =>
    (p, s, 0, truncated_mask size pattern reserved s,
      bounded_bitset.count (selection_mask size pattern reserved s)))

/-- The `put` calls the buffered `map` issues for the symbols below `n`. -/
def map_shapes (size : Nat) (pattern reserved : re_pattern_list) (nof_ports : Nat) :
    Nat → List (Nat × Nat × Nat × List Bool × Nat)
  | 0 => []
  | n + 1 => map_shapes size pattern reserved nof_ports n ++
      symbol_shapes size pattern reserved nof_ports n

/-- Every selected subcarrier lies in one of the `nof_prg` PRG windows. -/
def prgs_cover {α : Type} (size : Nat) (pattern reserved : re_pattern_list)
    (precoding : precoding_configuration α) : Prop :=
  ∀ s, s < MAX_NSYMB_PER_SLOT →
    bounded_bitset.find_highest (selection_mask size pattern reserved s) <
      ((precoding.get_nof_prg * u32 (precoding.get_prg_size * NRE) : Nat) : Int)

instance {α : Type} (size : Nat) (pattern reserved : re_pattern_list)
    (precoding : precoding_configuration α) : Decidable (prgs_cover size pattern reserved precoding) := by
  unfold prgs_cover
  infer_instance

/-- What one iteration of the symbol loop of the buffered `map` does to the loop state when the mask `m` of the symbol is written on the ports below `nof_ports` with the values `val port subcarrier`. -/
structure symbol_written {α : Type} (nof_ports s : Nat) (m : List Bool) (val : Nat → Nat → α)
    (st st1 : map_state α) : Prop where
  i_re : st1.i_re_buffer = st.i_re_buffer + bounded_bitset.count m
  nof_ports_eq : st1.grid.nof_ports = st.grid.nof_ports
  nof_subc_eq : st1.grid.nof_subc = st.grid.nof_subc
  nof_symb_eq : st1.grid.nof_symb = st.grid.nof_symb
  cell : ∀ p s1 k, st1.grid.rg_buffer p s1 k =
    if p < nof_ports ∧ s1 = s ∧ bounded_bitset.test m k = true then val p k
    else st.grid.rg_buffer p s1 k
  empty : ∀ p, st1.grid.empty p = if p < nof_ports then false else st.grid.empty p
  log : st1.grid.put_log.map put_call.shape =
    st.grid.put_log.map put_call.shape ++
      (List.range nof_ports).map (fun p => (p, s, 0, m, bounded_bitset.count m))

/-- Invariant of the PRG loop of the general path after `n` iterations. -/
structure prg_inv {α : Type} [CommSemiring α] (input : re_buffer α)
    (precoding : precoding_configuration α) (P : Nat) (m : List Bool) (pb1 : re_buffer α)
    (i_re0 n : Nat) (st : prg_state α) : Prop where
  i_subc : st.i_subc = min (n * P) m.length
  i_pb : st.i_precoding_buffer = rank m st.i_subc
  i_re : st.i_re_buffer = i_re0 + rank m st.i_subc
  nof_re : st.precoding_buffer.nof_re = pb1.nof_re
  nof_slices : st.precoding_buffer.nof_slices = pb1.nof_slices
  data : ∀ p k, p < precoding.nof_ports → k < st.i_subc → bounded_bitset.test m k = true →
    st.precoding_buffer.data p (rank m k) = precoded_re input precoding (k / P) p (i_re0 + rank m k)

/-- What one iteration of the symbol loop of the buffered `map` does to the loop state at symbol `s`, the selected REs being written on the ports below `nof_ports` with the values `val port subcarrier`: the counter advances by the number of selected REs, the selected cells of the symbol are written and no other, and one `put` per port is issued unless the mask is empty. -/
structure symbol_step {α : Type} (size : Nat) (pattern reserved : re_pattern_list)
    (nof_ports : Nat) (val : Nat → Nat → α) (s : Nat) (st st1 : map_state α) : Prop where
  i_re : st1.i_re_buffer =
    st.i_re_buffer + bounded_bitset.count (selection_mask size pattern reserved s)
  nof_ports_eq : st1.grid.nof_ports = st.grid.nof_ports
  nof_subc_eq : st1.grid.nof_subc = st.grid.nof_subc
  nof_symb_eq : st1.grid.nof_symb = st.grid.nof_symb
  cell : ∀ p s1 k, st1.grid.rg_buffer p s1 k =
    if p < nof_ports ∧ s1 = s ∧
        bounded_bitset.test (selection_mask size pattern reserved s) k = true then val p k
    else st.grid.rg_buffer p s1 k
  empty : ∀ p, st1.grid.empty p =
    if p < nof_ports ∧ 0 ≤ bounded_bitset.find_highest (selection_mask size pattern reserved s)
    then false else st.grid.empty p
  log : st1.grid.put_log.map put_call.shape =
    st.grid.put_log.map put_call.shape ++ symbol_shapes size pattern reserved nof_ports s

/-- The value the buffered `map` writes at the selected RE `(s, k)` of port `p` when the counter of input REs is `i_re` at the start of the symbol: the input RE of index `i_re` plus the rank of `k` in the mask, copied from layer 0 on the bypass path and precoded with the weights of the PRG of `k` on the general path. -/
def symbol_value {α : Type} [CommSemiring α] [DecidableEq α] (input : re_buffer α)
    (precoding : precoding_configuration α) (size : Nat) (pattern reserved : re_pattern_list)
    (i_re p s k : Nat) : α :=
  if resource_grid_impl.bypass precoding then
    input.data 0 (i_re + rank (selection_mask size pattern reserved s) k)
  else
    precoded_re input precoding (k / u32 (precoding.get_prg_size * NRE)) p
      (i_re + rank (selection_mask size pattern reserved s) k)

/-- The value the buffered `map` writes at the selected RE `(s, k)` of port `p`: the input RE whose index is the rank of `(s, k)` among the selected REs in (symbol, subcarrier) order. -/
def mapped_value {α : Type} [CommSemiring α] [DecidableEq α] (input : re_buffer α)
    (precoding : precoding_configuration α) (size : Nat) (pattern reserved : re_pattern_list)
    (p s k : Nat) : α :=
  symbol_value input precoding size pattern reserved (total_selected size pattern reserved s) p s k

/-- State of the symbol loop of the buffered `map` after the symbols below `n`, from the grid `g` and the counter at zero, the selected REs being written with the values `val port symbol subcarrier`. -/
structure map_inv {α : Type} (g : resource_grid_impl α) (pattern reserved : re_pattern_list)
    (nof_ports : Nat) (val : Nat → Nat → Nat → α) (n : Nat) (st : map_state α) : Prop where
  i_re : st.i_re_buffer = total_selected g.nof_subc pattern reserved n
  nof_ports_eq : st.grid.nof_ports = g.nof_ports
  nof_subc_eq : st.grid.nof_subc = g.nof_subc
  nof_symb_eq : st.grid.nof_symb = g.nof_symb
  cell : ∀ p s k, st.grid.rg_buffer p s k =
    if p < nof_ports ∧ s < n ∧
        bounded_bitset.test (selection_mask g.nof_subc pattern reserved s) k = true then
      val p s k
    else g.rg_buffer p s k
  empty : ∀ p, st.grid.empty p =
    if p < nof_ports ∧
        ∃ s, s < n ∧ 0 ≤ bounded_bitset.find_highest (selection_mask g.nof_subc pattern reserved s)
    then false else g.empty p
  log : st.grid.put_log.map put_call.shape =
    g.put_log.map put_call.shape ++ map_shapes g.nof_subc pattern reserved nof_ports n

namespace resource_grid_impl

variable {α : Type} [CommSemiring α] [DecidableEq α]

/-- The symbol loop body of the buffered `map` with the bypass test removed: every symbol goes through the general path. Used to compare the two paths. -/
def map_symbol_general (input : re_buffer α) (pattern reserved : re_pattern_list)
    (precoding : precoding_configuration α) (st : map_state α) (i_symbol : Nat) :
    outcome (map_state α) :=
  let mask := selection_mask st.grid.nof_subc pattern reserved i_symbol
  let i_highest_subc := bounded_bitset.find_highest mask
  if i_highest_subc < 0 then .ok st
  else
    let symbol_re_mask :=
      bounded_bitset.resize mask (divide_ceil (i_highest_subc + 1).toNat NRE * NRE)
    map_general input precoding i_symbol symbol_re_mask st

/-- The buffered `map` with the bypass test removed. -/
def map_via_general (g : resource_grid_impl α) (input : re_buffer α)
    (pattern reserved : re_pattern_list) (precoding : precoding_configuration α) :
    outcome (resource_grid_impl α) :=
  if input.nof_slices ≠ precoding.get_nof_layers then .error (.input_layers, g)
  else if ¬ precoding.get_nof_ports ≤ g.nof_ports then .error (.precoding_ports, g)
  else
    match for_loop (map_symbol_general input pattern reserved precoding)
        (List.range MAX_NSYMB_PER_SLOT) ⟨g, 0⟩ with
    | .error e => .error (e.1, e.2.grid)
    | .ok st =>
      if st.i_re_buffer = input.nof_re then .ok st.grid else .error (.total_re, st.grid)

end resource_grid_impl

/-- The cells written by a sequence of `put` calls given by their shapes, in the order in which they are written. -/
def shape_cells : List (Nat × Nat × Nat × List Bool × Nat) → List (Nat × Nat × Nat)
  | [] => []
  | c :: cs => mask_cells c.1 c.2.1 c.2.2.1 c.2.2.2.1 c.2.2.2.2 ++ shape_cells cs

/-- The `pop_symbols` calls between two states of the streamed `map` all have a size `n = r * nof_layers` with `r` at most `max_block_size / nof_layers`, hence at most `max_block_size`. -/
def pops_bounded {α : Type} (max_block_size nof_layers : Nat) (a b : stream_state α) : Prop :=
  ∃ added, b.buffer.pop_log = a.buffer.pop_log ++ added ∧
    ∀ n, n ∈ added → n ≤ max_block_size ∧
      ∃ r, n = r * nof_layers ∧ r ≤ max_block_size / nof_layers

/-- Between the grids `a` and `b` only ports below `L` were touched: the cells and the empty flag of every port at or above `L` are the same, and every `put` added to the log is on a port below `L`. -/
def ports_below_only {α : Type} (L : Nat) (a b : resource_grid_impl α) : Prop :=
  (∀ p, L ≤ p → (∀ s k, b.rg_buffer p s k = a.rg_buffer p s k) ∧ b.empty p = a.empty p) ∧
    ∃ added, b.put_log = a.put_log ++ added ∧ ∀ c, c ∈ added → c.port < L

/-- Cell `a` comes strictly before cell `b` in the lexicographic order of (symbol, subcarrier). -/
def cell_before (a b : Nat × Nat × Nat) : Prop :=
  a.2.1 < b.2.1 ∨ (a.2.1 = b.2.1 ∧ a.2.2 < b.2.2)

instance : DecidableRel cell_before := fun a b => by
  unfold cell_before
  infer_instance

/-- A sequence of written cells is strictly ascending in (symbol, subcarrier): every cell comes strictly before every cell written after it. -/
def cells_ascending (cs : List (Nat × Nat × Nat)) : Prop := List.Pairwise cell_before cs

instance (cs : List (Nat × Nat × Nat)) : Decidable (cells_ascending cs) := by
  unfold cells_ascending
  infer_instance

/-- A sequence of written cells is ordered port by port: the symbol never decreases along the sequence, and the cells of any one port are strictly ascending in (symbol, subcarrier). -/
def cells_ordered (cs : List (Nat × Nat × Nat)) : Prop :=
  List.Pairwise (fun a b => a.2.1 ≤ b.2.1 ∧ (a.1 = b.1 → cell_before a b)) cs

/-- The `put` calls added to the log `log0` to make `log` wrote cells that are ordered port by port and all lie strictly before subcarrier `k` of symbol `s`. -/
def writes_inv {α : Type} (log0 log : List (put_call α)) (s k : Nat) : Prop :=
  ∃ added, log = log0 ++ added ∧ cells_ordered (written_cells added) ∧
    ∀ c, c ∈ written_cells added → c.2.1 < s ∨ (c.2.1 = s ∧ c.2.2 < k)

/-- The same inside the port loop of a block of symbol `s` that occupies the subcarriers `k_init .. k_init + len - 1`: the cells written lie before subcarrier `k0` of the symbol, or in the block on a port below `j`. -/
def block_inv {α : Type} (log0 log : List (put_call α)) (s k0 k_init len j : Nat) : Prop :=
  ∃ added, log = log0 ++ added ∧ cells_ordered (written_cells added) ∧
    ∀ c, c ∈ written_cells added →
      (c.2.1 < s ∨ (c.2.1 = s ∧ c.2.2 < k0)) ∨
        (c.2.1 = s ∧ c.1 < j ∧ k_init ≤ c.2.2 ∧ c.2.2 < k_init + len)

/-! ## Views over the input of the buffered mapping -/

/-- A view taken over the input of the buffered `map`: the index of its first RE, its number of REs, and the mask (slice) its REs are mapped to. -/
structure input_view where
  offset : Nat
  nof_re : Nat
  mask : List Bool
  deriving DecidableEq

/-- The view covers the input RE of index `j`. -/
def input_view.reads (v : input_view) (j : Nat) : Bool := decide (v.offset ≤ j ∧ j < v.offset + v.nof_re)

namespace resource_grid_impl

variable {α : Type} [CommSemiring α] [DecidableEq α]

/-- The view `input_re_prg` an iteration of the PRG loop of the buffered `map` takes over the input when it is entered in state `st`. -/
def prg_view (prg_size : Nat) (symbol_re_mask : List Bool) (st : prg_state α) : input_view :=
  let nof_subc_prg := min prg_size (u32_sub symbol_re_mask.length st.i_subc)
  let prg_re_mask := bounded_bitset.slice symbol_re_mask st.i_subc (st.i_subc + nof_subc_prg)
  let nof_re_prg := bounded_bitset.count prg_re_mask
  ⟨st.i_re_buffer, nof_re_prg, prg_re_mask⟩

/-- The views taken by the first `n` iterations of the PRG loop started in state `st0`, in the order in which they are taken. -/
def prg_views (input : re_buffer α) (precoding : precoding_configuration α) (prg_size : Nat)
    (symbol_re_mask : List Bool) (st0 : prg_state α) : Nat → List input_view
  | 0 => []
  | n + 1 => prg_views input precoding prg_size symbol_re_mask st0 n ++
      [prg_view prg_size symbol_re_mask
        ((List.range n).foldl (map_prg input precoding prg_size symbol_re_mask) st0)]

/-- The views an iteration of the symbol loop of the buffered `map` takes over the input: none for a symbol with an empty mask, the view `input_re_symbol` on the bypass path, one view per PRG on the general path. -/
def symbol_views (input : re_buffer α) (pattern reserved : re_pattern_list)
    (precoding : precoding_configuration α) (st : map_state α) (i_symbol : Nat) :
    List input_view :=
  let mask := selection_mask st.grid.nof_subc pattern reserved i_symbol
  let i_highest_subc := bounded_bitset.find_highest mask
  if i_highest_subc < 0 then []
  else
    let symbol_re_mask :=
      bounded_bitset.resize mask (divide_ceil (i_highest_subc + 1).toNat NRE * NRE)
    let nof_re_symbol := bounded_bitset.count symbol_re_mask
    if bypass precoding then [⟨st.i_re_buffer, nof_re_symbol, symbol_re_mask⟩]
    else
      let pb0 := st.grid.precoding_buffer
      let pb1 :=
        if nof_re_symbol ≠ pb0.nof_re ∨ precoding.get_nof_ports ≠ pb0.nof_slices then
          pb0.resize precoding.get_nof_ports nof_re_symbol
        else pb0
      prg_views input precoding (u32 (precoding.get_prg_size * NRE)) symbol_re_mask
        ⟨pb1, st.i_re_buffer, 0, 0⟩ precoding.get_nof_prg

/-- The views the symbol loop of the buffered `map` takes over the input in its first `n` iterations, in the order in which they are taken; an iteration that is not reached because an earlier one stopped at a fatal check takes none. -/
def map_views (g : resource_grid_impl α) (input : re_buffer α) (pattern reserved : re_pattern_list)
    (precoding : precoding_configuration α) : Nat → List input_view
  | 0 => []
  | n + 1 => map_views g input pattern reserved precoding n ++
      match for_loop (map_symbol input pattern reserved precoding) (List.range n) ⟨g, 0⟩ with
      | .ok st => symbol_views input pattern reserved precoding st n
      | .error _ => []

end resource_grid_impl

/-- The views are the consecutive ranges that start at `o`: each one starts where the one before it ended. -/
def contiguous_from : Nat → List input_view → Prop
  | _, [] => True
  | o, v :: vs => v.offset = o ∧ contiguous_from (o + v.nof_re) vs

/-- Total number of REs of a sequence of views. -/
def views_nof_re (vs : List input_view) : Nat := (vs.map input_view.nof_re).sum

/-! ## The span returned by the writer -/

/-- The span of unmapped values the writer of the grid returns for a call: the values after one per set bit of the mask. -/
def unmapped_tail {α : Type} (c : put_call α) : List α := c.values.drop (bounded_bitset.count c.mask)

/-! ## Log-likelihood ratios -/

/-- Modelled from the spec: a log-likelihood ratio, held as its integer value. The largest finite value `LLR_MAX` and the value `LLR_INFTY` of `LLR_INFINITY` are parameters of the operations. -/
structure log_likelihood_ratio where
  value : Int
  deriving DecidableEq

namespace log_likelihood_ratio

/-- Modelled from the spec: the finite values are those of magnitude at most `LLR_MAX`. -/
def is_finite (LLR_MAX : Int) (a : log_likelihood_ratio) : Bool :=
  decide (-LLR_MAX ≤ a.value ∧ a.value ≤ LLR_MAX)

/-- Clamp of an integer to `[-LLR_MAX, LLR_MAX]`. -/
def clamp_value (LLR_MAX : Int) (v : Int) : Int := max (-LLR_MAX) (min v LLR_MAX)

/-- Modelled from the spec: negation. -/
def neg (a : log_likelihood_ratio) : log_likelihood_ratio := ⟨-a.value⟩

/-- Modelled from the spec: the saturating sum: the clamped integer sum for two finite values, 0 for two opposite infinite values, and else the infinite operand. -/
def add (LLR_MAX : Int) (a b : log_likelihood_ratio) : log_likelihood_ratio :=
  if is_finite LLR_MAX a ∧ is_finite LLR_MAX b then ⟨clamp_value LLR_MAX (a.value + b.value)⟩
  else if ¬ is_finite LLR_MAX a ∧ ¬ is_finite LLR_MAX b ∧ a.value = -b.value then ⟨0⟩
  else if ¬ is_finite LLR_MAX a then a
  else b

/-- Modelled from the spec: the difference is the saturating sum with the negated operand. -/
def sub (LLR_MAX : Int) (a b : log_likelihood_ratio) : log_likelihood_ratio :=
  add LLR_MAX a (neg b)

/-- Modelled from the spec: the sum that is promoted to an infinity when the integer sum leaves `[-LLR_MAX, LLR_MAX]`. -/
def promotion_sum (LLR_MAX LLR_INFTY : Int) (a b : log_likelihood_ratio) : log_likelihood_ratio :=
  let tmp := a.value + b.value
  if LLR_MAX < |tmp| then (if 0 < tmp then ⟨LLR_INFTY⟩ else ⟨-LLR_INFTY⟩) else ⟨tmp⟩

/-- The assertions of the unit test on negation, sum, difference, promotion sum and saturation (`llr0 = 0`, `llr1 = 2`, then `llr0 = -100`, `llr1 = 100`). -/
def test_arithmetic (LLR_MAX LLR_INFTY : Int) : Bool :=
  let llr0 : log_likelihood_ratio := ⟨0⟩
  let llr1 : log_likelihood_ratio := ⟨2⟩
  decide ((⟨-2⟩ : log_likelihood_ratio) = neg llr1) &&
  decide ((⟨2⟩ : log_likelihood_ratio) = add LLR_MAX llr0 llr1) &&
  decide ((⟨-2⟩ : log_likelihood_ratio) = sub LLR_MAX llr0 llr1) &&
  decide ((⟨2⟩ : log_likelihood_ratio) = promotion_sum LLR_MAX LLR_INFTY llr0 llr1) &&
  decide ((⟨LLR_MAX⟩ : log_likelihood_ratio) = add LLR_MAX llr1 ⟨119⟩) &&
  decide ((⟨-LLR_MAX⟩ : log_likelihood_ratio) = sub LLR_MAX ⟨-100⟩ ⟨100⟩)

/-- The assertions of the unit test on the special cases: after `llr0 += llr1` (`llr0 = 2`, `llr1 = 2`) the difference is 0 and the sums with `LLR_INFINITY` are `LLR_INFINITY`, `LLR_INFINITY - LLR_INFINITY` is 0, and the promotion sums of `LLR_MAX` with `LLR_MAX` and of `LLR_INFINITY` with `LLR_MAX` are `LLR_INFINITY`. -/
def test_infinity (LLR_MAX LLR_INFTY : Int) : Bool :=
  let llr1 : log_likelihood_ratio := ⟨2⟩
  let llr0 : log_likelihood_ratio := add LLR_MAX ⟨0⟩ llr1
  let inf : log_likelihood_ratio := ⟨LLR_INFTY⟩
  decide ((⟨2⟩ : log_likelihood_ratio) = llr0) &&
  decide ((⟨0⟩ : log_likelihood_ratio) = sub LLR_MAX llr0 llr1) &&
  decide (inf = sub LLR_MAX inf llr1) &&
  decide (inf = add LLR_MAX llr0 inf) &&
  decide ((⟨0⟩ : log_likelihood_ratio) = sub LLR_MAX inf inf) &&
  decide (inf = promotion_sum LLR_MAX LLR_INFTY ⟨LLR_MAX⟩ ⟨LLR_MAX⟩) &&
  decide (inf = promotion_sum LLR_MAX LLR_INFTY inf ⟨LLR_MAX⟩)

end log_likelihood_ratio

/-! ## Auxiliary definitions for the blocks of the streamed mapping -/

/-- Every `put` call added to the log `log0` to make `log` passes one value per set bit of its mask. -/
def puts_sized {α : Type} (log0 log : List (put_call α)) : Prop :=
  ∃ added, log = log0 ++ added ∧
    ∀ c, c ∈ added → c.values.length = bounded_bitset.count c.mask

namespace resource_grid_impl

variable {α : Type} [CommSemiring α] [DecidableEq α]

/-- One block of the streamed `map` with the single-layer test removed: the block goes through the layer map and the port loop. Used to compare the two branches. -/
def map_block_general (prg_weights : precoding_weight_matrix α) (nof_layers nof_antennas : Nat)
    (i_symbol k_init : Nat) (block_mask : List Bool) (st : stream_state α) :
    outcome (stream_state α) :=
  let nof_re_block := bounded_bitset.count block_mask
  let nof_symbols_block := nof_re_block * nof_layers
  let buffer1 := (st.buffer.pop_symbols nof_symbols_block).2
  match (st.buffer.pop_symbols nof_symbols_block).1 with
  | none => .error (.pop_symbols, ⟨st.grid, buffer1⟩)
  | some block =>
    let lmb := layer_map nof_layers nof_re_block block
      (st.grid.layer_mapping_buffer.resize nof_layers nof_re_block)
    let pb := st.grid.precoding_buffer.resize nof_antennas nof_re_block
    let g1 := (List.range nof_layers).foldl
      (stream_port prg_weights i_symbol k_init block_mask)
      { st.grid with layer_mapping_buffer := lmb, precoding_buffer := pb }
    .ok ⟨g1, buffer1⟩

end resource_grid_impl

/-- Number of REs selected before subcarrier `k` of symbol `s`, in (symbol, subcarrier) order. -/
def selected_before (size : Nat) (pattern reserved : re_pattern_list) (s k : Nat) : Nat :=
  total_selected size pattern reserved s + rank (selection_mask size pattern reserved s) k

/-- State of the streamed `map`, started from the grid `g0` and the symbol source `b0`, when it has mapped exactly the selected REs before subcarrier `k` of symbol `s`: the sizes pulled add up to `L` symbols per such RE, the source has lost that many symbols, and the cells written are those REs on every port below `L`. -/
structure stream_inv {α : Type} (L size : Nat) (pattern reserved : re_pattern_list)
    (g0 : resource_grid_impl α) (b0 : symbol_buffer α) (s k : Nat) (st : stream_state α) :
    Prop where
  pops : ∃ added, st.buffer.pop_log = b0.pop_log ++ added ∧
    added.sum = L * selected_before size pattern reserved s k
  symbols : st.buffer.symbols = b0.symbols.drop (L * selected_before size pattern reserved s k)
  puts : ∃ added, st.grid.put_log = g0.put_log ++ added ∧
    ∀ c : Nat × Nat × Nat, c ∈ written_cells added ↔
      (c.1 < L ∧ bounded_bitset.test (selection_mask size pattern reserved c.2.1) c.2.2 = true ∧
        (c.2.1 < s ∨ (c.2.1 = s ∧ c.2.2 < k)))

/-! ## Allocation of a DRB logical channel -/

namespace du_ue_bearer_manager

/-- Modelled from the spec: `uint_to_lcid`, the conversion of an unsigned number to the 16-bit `lcid_t`. -/
def uint_to_lcid (x : Nat) : Nat := x % 2 ^ 16

/-- Modelled from the spec: `std::adjacent_find(first, last, p)`, as an index into the list: the position of the first element of the first adjacent pair that satisfies `p`, or the length of the list when there is none. -/
def adjacent_find (p : Nat → Nat → Bool) : List Nat → Nat
  | [] => 0
  | [_] => 1
  | a :: b :: rest => if p a b then 0 else adjacent_find p (b :: rest) + 1

/-- The method `allocate_lcid()`; `drb_lcids` are the LCIDs of the DRBs of the manager in the order of the table, and `LCID_MIN_DRB`, `LCID_MAX_DRB` are the constants of those names. -/
def allocate_lcid (LCID_MIN_DRB LCID_MAX_DRB : Nat) (drb_lcids : List Nat) : Option Nat :=
  let used_lcids := drb_lcids.insertionSort (fun a b => a ≤ b)
  if used_lcids.isEmpty ∨ used_lcids.getD 0 0 > LCID_MIN_DRB then some LCID_MIN_DRB
  else
    let it := adjacent_find (fun l r => decide (l + 1 < r)) used_lcids
    let it1 := if it = used_lcids.length then it - 1 else it
    let lcid := uint_to_lcid (u32 (used_lcids.getD it1 0 + 1))
    if lcid > LCID_MAX_DRB then none else some lcid

/-- The last value of the run of consecutive values at the head of the ascending list `a :: rest`: the element the iterator of `allocate_lcid` ends on. -/
def run_end : Nat → List Nat → Nat
  | a, [] => a
  | a, b :: rest => if a + 1 < b then a else run_end b rest

end du_ue_bearer_manager

/-! ## Conversion of measurement types to RRC ASN.1 -/

/-- Modelled from the spec: the member `periodicity_and_offset` of `cu_cp_ssb_mtc`, one optional value per periodicity. -/
structure cu_cp_periodicity_and_offset where
  sf5 : Option Nat
  sf10 : Option Nat
  sf20 : Option Nat
  sf40 : Option Nat
  sf80 : Option Nat
  sf160 : Option Nat

/-- Modelled from the spec: the type `cu_cp_ssb_mtc`. -/
structure cu_cp_ssb_mtc where
  periodicity_and_offset : cu_cp_periodicity_and_offset
  dur : Nat

/-- Modelled from the spec: the alternatives of the ASN.1 choice `periodicity_and_offset` of `ssb_mtc_s`; `nulltype` is the state of a choice with no alternative selected. -/
inductive periodicity_and_offset_types where
  | sf5
  | sf10
  | sf20
  | sf40
  | sf80
  | sf160
  | nulltype
  deriving DecidableEq, Repr

/-- Modelled from the spec: the ASN.1 choice `periodicity_and_offset` of `ssb_mtc_s`: the alternative selected, the value stored, and whether an accessor was called for an alternative other than the one selected. -/
structure periodicity_and_offset_c where
  type_ : periodicity_and_offset_types
  c : Nat
  invalid_access : Bool
  deriving DecidableEq, Repr

namespace periodicity_and_offset_c

/-- Modelled from the spec: `set_sf5()`, ..., `set_sf160()`: selects the alternative. -/
def set (x : periodicity_and_offset_c) (t : periodicity_and_offset_types) :
    periodicity_and_offset_c :=
  { x with type_ := t }

/-- Modelled from the spec: the assignment `sf5() = v`, ..., `sf160() = v` through the accessor of alternative `t`: the value is stored, and the access is flagged invalid when `t` is not the alternative selected. -/
def assign (x : periodicity_and_offset_c) (t : periodicity_and_offset_types) (v : Nat) :
    periodicity_and_offset_c :=
  { x with c := v, invalid_access := x.invalid_access || decide (x.type_ ≠ t) }

end periodicity_and_offset_c

/-- Modelled from the spec: the ASN.1 type `ssb_mtc_s`, with the messages logged as errors by the conversion. -/
structure ssb_mtc_s where
  periodicity_and_offset : periodicity_and_offset_c
  dur : Nat
  errors : List String
  deriving DecidableEq, Repr

/-- The function `ssb_mtc_to_rrc_asn1`. -/
def ssb_mtc_to_rrc_asn1 (ssb_mtc : cu_cp_ssb_mtc) : ssb_mtc_s :=
  let asn1_ssb_mtc : ssb_mtc_s := ⟨⟨.nulltype, 0, false⟩, 0, []⟩
  let asn1_ssb_mtc : ssb_mtc_s :=
    match ssb_mtc.periodicity_and_offset.sf5 with
    | some v =>
      { asn1_ssb_mtc with periodicity_and_offset :=
          (asn1_ssb_mtc.periodicity_and_offset.set .sf5).assign .sf5 v }
    | none =>
    match ssb_mtc.periodicity_and_offset.sf10 with
    | some v =>
      { asn1_ssb_mtc with periodicity_and_offset :=
          (asn1_ssb_mtc.periodicity_and_offset.set .sf10).assign .sf10 v }
    | none =>
    match ssb_mtc.periodicity_and_offset.sf20 with
    | some v =>
      { asn1_ssb_mtc with periodicity_and_offset :=
          (asn1_ssb_mtc.periodicity_and_offset.set .sf20).assign .sf20 v }
    | none =>
    match ssb_mtc.periodicity_and_offset.sf40 with
    | some v =>
      { asn1_ssb_mtc with periodicity_and_offset :=
          (asn1_ssb_mtc.periodicity_and_offset.set .sf40).assign .sf40 v }
    | none =>
    match ssb_mtc.periodicity_and_offset.sf80 with
    | some v =>
      { asn1_ssb_mtc with periodicity_and_offset :=
          (asn1_ssb_mtc.periodicity_and_offset.set .sf10).assign .sf80 v }
    | none =>
    match ssb_mtc.periodicity_and_offset.sf160 with
    | some v =>
      { asn1_ssb_mtc with periodicity_and_offset :=
          (asn1_ssb_mtc.periodicity_and_offset.set .sf160).assign .sf160 v }
    | none =>
      { asn1_ssb_mtc with errors := asn1_ssb_mtc.errors ++ ["Invalid SSB MTC configuration."] }
  { asn1_ssb_mtc with dur := ssb_mtc.dur }

/-- The field of `periodicity_and_offset` that decides the conversion: the first of `sf5`, `sf10`, `sf20`, `sf40`, `sf80`, `sf160` that holds a value, with that value. -/
def first_periodicity (p : cu_cp_periodicity_and_offset) :
    Option (periodicity_and_offset_types × Nat) :=
  match p.sf5, p.sf10, p.sf20, p.sf40, p.sf80, p.sf160 with
  | some v, _, _, _, _, _ => some (.sf5, v)
  | none, some v, _, _, _, _ => some (.sf10, v)
  | none, none, some v, _, _, _ => some (.sf20, v)
  | none, none, none, some v, _, _ => some (.sf40, v)
  | none, none, none, none, some v, _ => some (.sf80, v)
  | none, none, none, none, none, some v => some (.sf160, v)
  | none, none, none, none, none, none => none

/-- Modelled from the spec: the type `cu_cp_gap_cfg`. -/
structure cu_cp_gap_cfg where
  gap_offset : Nat
  mgl : Nat
  mgrp : Nat
  mgta : Nat
  deriving DecidableEq, Repr

/-- Modelled from the spec: a setup-or-release member of the measurement configuration: the release flag and the optional setup. -/
structure cu_cp_setup_release (T : Type) where
  is_release : Bool
  setup : Option T

/-- Modelled from the spec: the members `meas_gap_cfg` and `meas_gap_sharing_cfg` of `cu_cp_meas_cfg`, each optional and each holding the optional member for FR2. -/
structure cu_cp_meas_gaps where
  meas_gap_cfg : Option (Option (cu_cp_setup_release cu_cp_gap_cfg))
  meas_gap_sharing_cfg : Option (Option (cu_cp_setup_release String))

/-- Modelled from the spec: an ASN.1 setup-or-release choice. -/
inductive setup_release_c (T : Type) where
  | nulltype
  | release
  | setup (v : T)
  deriving DecidableEq, Repr

/-- Modelled from the spec: the members of the ASN.1 type `meas_cfg_s` for the measurement gaps, with the messages logged as errors by the conversion. -/
structure meas_gaps_s where
  meas_gap_cfg_present : Bool
  gap_fr2_present : Bool
  gap_fr2 : setup_release_c cu_cp_gap_cfg
  meas_gap_sharing_cfg_present : Bool
  gap_sharing_fr2_present : Bool
  gap_sharing_fr2 : setup_release_c String
  errors : List String
  deriving DecidableEq, Repr

/-- What stops the conversion: `value()` called on an optional that holds no value. -/
inductive conversion_fault where
  | bad_optional_access
  deriving DecidableEq, Repr

/-- Modelled from the spec: `optional<T>::value()`, which has no result when the optional holds no value. -/
def optional_value {T : Type} : Option T → Except conversion_fault T
  | some v => .ok v
  | none => .error .bad_optional_access

/-- The section `meas gap cfg` of the function `meas_config_to_rrc_asn1`. -/
def meas_gap_cfg_to_rrc_asn1 (meas_cfg : cu_cp_meas_gaps) (asn1_meas_cfg : meas_gaps_s) :
    Except conversion_fault meas_gaps_s :=
  match meas_cfg.meas_gap_cfg with
  | none => .ok asn1_meas_cfg
  | some meas_gap_cfg =>
    let a1 := { asn1_meas_cfg with meas_gap_cfg_present := true }
    match meas_gap_cfg with
    | none => .ok a1
    | some gap_fr2 =>
      let a2 := { a1 with gap_fr2_present := true }
      if gap_fr2.is_release then .ok { a2 with gap_fr2 := .release }
      else if gap_fr2.setup.isSome then
        match optional_value gap_fr2.setup with
        | .error e => .error e
        | .ok setup =>
          .ok { a2 with gap_fr2 := .setup ⟨setup.gap_offset, setup.mgl, setup.mgrp, setup.mgta⟩ }
      else .ok { a2 with errors := a2.errors ++ ["Invalid gap fr2."] }

/-- The section `meas gap sharing cfg` of the function `meas_config_to_rrc_asn1`. -/
def meas_gap_sharing_cfg_to_rrc_asn1 (meas_cfg : cu_cp_meas_gaps) (asn1_meas_cfg : meas_gaps_s) :
    Except conversion_fault meas_gaps_s :=
  match meas_cfg.meas_gap_sharing_cfg with
  | none => .ok asn1_meas_cfg
  | some meas_gap_sharing_cfg =>
    let a1 := { asn1_meas_cfg with meas_gap_sharing_cfg_present := true }
    match meas_gap_sharing_cfg with
    | none => .ok a1
    | some gap_sharing_fr2 =>
      let a2 := { a1 with gap_sharing_fr2_present := true }
      if gap_sharing_fr2.is_release then .ok { a2 with gap_sharing_fr2 := .release }
      else
        match optional_value gap_sharing_fr2.setup with
        | .error e => .error e
        | .ok setup =>
          if ¬ setup.isEmpty then .ok { a2 with gap_sharing_fr2 := .setup setup }
          else .ok { a2 with errors := a2.errors ++ ["Invalid gap sharing fr2."] }

/-- The last two sections of the function `meas_config_to_rrc_asn1`, from the ASN.1 object as the sections before them left it. -/
def meas_gaps_to_rrc_asn1 (meas_cfg : cu_cp_meas_gaps) (asn1_meas_cfg : meas_gaps_s) :
    Except conversion_fault meas_gaps_s :=
  match meas_gap_cfg_to_rrc_asn1 meas_cfg asn1_meas_cfg with
  | .error e => .error e
  | .ok a => meas_gap_sharing_cfg_to_rrc_asn1 meas_cfg a

/-! ## Concrete scenarios -/

namespace scenario

/-- A grid of one port, 14 symbols and 12 subcarriers (one resource block), as constructed. -/
def grid : resource_grid_impl Int :=
  resource_grid_impl.create 1 14 12 (fun _ _ _ => 0) (fun _ => true) (fun _ _ => 0)

/-- A grid of two ports, 14 symbols and 12 subcarriers, as constructed. -/
def grid2 : resource_grid_impl Int :=
  resource_grid_impl.create 2 14 12 (fun _ _ _ => 0) (fun _ => true) (fun _ _ => 0)

/-- The pattern list selecting the 12 subcarriers of symbol 0 and nothing else. -/
def pattern : re_pattern_list := [⟨fun l k => l == 0 && decide (k < 12)⟩]

/-- The reserved pattern list excluding the odd subcarriers of every symbol. -/
def reserved_odd : re_pattern_list := [⟨fun _ k => k % 2 == 1⟩]

/-- One layer of 12 REs with the values 1, 2, ..., 12. -/
def input12 : re_buffer Int := ⟨1, 12, fun _ i => (i : Int) + 1⟩

/-- One layer of 6 REs with the values 1, 2, ..., 6. -/
def input6 : re_buffer Int := ⟨1, 6, fun _ i => (i : Int) + 1⟩

/-- One layer of 5 REs: one RE less than the 6 selected under `reserved_odd`. -/
def input5 : re_buffer Int := ⟨1, 5, fun _ i => (i : Int) + 1⟩

/-- Two layers of 12 REs: layer 0 holds 1..12 and layer 1 holds 101..112. -/
def input2x12 : re_buffer Int := ⟨2, 12, fun l i => 100 * (l : Int) + (i : Int) + 1⟩

/-- One layer, one port, one PRG of one resource block, coefficient 1: the bypass configuration. -/
def precoding : precoding_configuration Int := ⟨1, 1, 1, 1, fun _ _ _ => 1⟩

/-- One layer, one port, one PRG of one resource block, coefficient 2: the general path. -/
def precoding_gain : precoding_configuration Int := ⟨1, 1, 1, 1, fun _ _ _ => 2⟩

/-- Two layers, two ports, one PRG of one resource block, identity weights. -/
def precoding_identity : precoding_configuration Int :=
  ⟨2, 2, 1, 1, fun l p _ => if l = p then 1 else 0⟩

/-- The pattern list selecting the subcarriers 0..3 of symbol 0. -/
def pattern4 : re_pattern_list := [⟨fun l k => l == 0 && decide (k < 4)⟩]

/-- One layer on two ports, one PRG of one resource block, every coefficient 1. -/
def precoding_1x2 : precoding_configuration Int := ⟨1, 2, 1, 1, fun _ _ _ => 1⟩

/-- A symbol source with a maximum pull size of 4 holding the symbols 1, 2, 3, 4. -/
def stream4 : symbol_buffer Int := ⟨4, [1, 2, 3, 4], []⟩

/-- A symbol source with a maximum pull size of 1 holding the symbols 1, ..., 8. -/
def stream_narrow : symbol_buffer Int := ⟨1, [1, 2, 3, 4, 5, 6, 7, 8], []⟩

/-- A symbol source with a maximum pull size of 4 holding the symbols 1, ..., 8. -/
def stream8 : symbol_buffer Int := ⟨4, [1, 2, 3, 4, 5, 6, 7, 8], []⟩

/-- A grid of two ports in use: port 0 is flagged empty and holds zeros, port 1 is flagged non-empty and holds 7 in every cell. -/
def grid_dirty : resource_grid_impl Int :=
  { nof_ports := 2, nof_symb := 14, nof_subc := 12,
    empty := fun p => decide (p = 0),
    rg_buffer := fun p _ _ => if p = 0 then 0 else 7,
    layer_mapping_buffer := ⟨2, 168, fun _ _ => 0⟩,
    precoding_buffer := ⟨2, 168, fun _ _ => 0⟩,
    put_log := [] }

/-- Two layers, two ports, two PRGs of one resource block; the coefficient of layer `l`, port `p`, PRG `i` is `1 + l + 2 p + 4 i`. -/
def precoding_2prg : precoding_configuration Int :=
  ⟨2, 2, 2, 1, fun l p i => 1 + (l : Int) + 2 * (p : Int) + 4 * (i : Int)⟩

/-- A grid of two ports, 14 symbols and 24 subcarriers (two resource blocks), as constructed. -/
def grid2x24 : resource_grid_impl Int :=
  resource_grid_impl.create 2 14 24 (fun _ _ _ => 0) (fun _ => true) (fun _ _ => 0)

/-- The pattern list selecting the 24 subcarriers of symbol 0 and nothing else. -/
def pattern24 : re_pattern_list := [⟨fun l k => l == 0 && decide (k < 24)⟩]

/-- Two layers of 24 REs: layer 0 holds 1..24 and layer 1 holds 101..124. -/
def input2x24 : re_buffer Int := ⟨2, 24, fun l i => 100 * (l : Int) + (i : Int) + 1⟩

/-- An SSB MTC whose only periodicity is `sf80`, with the value 7, and a duration of 1. -/
def ssb_mtc_sf80 : cu_cp_ssb_mtc := ⟨⟨none, none, none, none, some 7, none⟩, 1⟩

/-- Measurement gaps with no gap configuration and a gap sharing for FR2 that is not a release and has no setup. -/
def gaps_sharing_no_setup : cu_cp_meas_gaps := ⟨none, some (some ⟨false, none⟩)⟩

/-- Measurement gaps with a gap for FR2 that is not a release and has no setup, and no gap sharing configuration. -/
def gaps_fr2_no_setup : cu_cp_meas_gaps := ⟨some (some ⟨false, none⟩), none⟩

/-- The ASN.1 members for the measurement gaps before the conversion: nothing present. -/
def gaps_asn1_init : meas_gaps_s := ⟨false, false, .nulltype, false, false, .nulltype, []⟩

end scenario

end srsran

namespace srsran
open bounded_bitset

theorem u32_sub_of_le {a b : Nat} (hb : b ≤ a) (ha : a < 2 ^ 32) : u32_sub a b = a - b := by
  unfold u32_sub
  have h1 : a % 2 ^ 32 = a := Nat.mod_eq_of_lt ha
  have h2 : b % 2 ^ 32 = b := Nat.mod_eq_of_lt (by omega)
  rw [h1, h2]
  have : a + 2 ^ 32 - b = (a - b) + 2 ^ 32 := by omega
  rw [this, Nat.add_mod_right]
  exact Nat.mod_eq_of_lt (by omega)

theorem u32_lt (x : Nat) : u32 x < 2 ^ 32 := Nat.mod_lt _ (by norm_num)

theorem u32_of_lt {x : Nat} (h : x < 2 ^ 32) : u32 x = x := Nat.mod_eq_of_lt h

namespace bounded_bitset

theorem test_nil (k : Nat) : test [] k = false := by simp [test]

theorem test_cons_zero (b : Bool) (m : List Bool) : test (b :: m) 0 = b := by simp [test]

theorem test_cons_succ (b : Bool) (m : List Bool) (k : Nat) : test (b :: m) (k + 1) = test m k := by
  simp [test]

theorem test_of_length_le {m : List Bool} {k : Nat} (h : m.length ≤ k) : test m k = false := by
  simp [test, List.getD, List.getElem?_eq_none h]

theorem test_lt_length {m : List Bool} {k : Nat} (h : test m k = true) : k < m.length := by
  by_contra hc
  rw [test_of_length_le (by omega)] at h
  exact Bool.noConfusion h

theorem count_nil : count [] = 0 := rfl

theorem count_cons (b : Bool) (m : List Bool) : count (b :: m) = (if b then 1 else 0) + count m := by
  cases b
  · simp [count, List.count_cons]
  · simp [count, List.count_cons]; omega

theorem count_append (a b : List Bool) : count (a ++ b) = count a + count b := by
  simp [count, List.count_append]

theorem count_le_length (m : List Bool) : count m ≤ m.length := List.count_le_length _ _

theorem count_eq_zero_iff (m : List Bool) : count m = 0 ↔ ∀ k, test m k = false := by
  induction m with
  | nil => simp [count_nil, test_nil]
  | cons b m ih =>
    rw [count_cons]
    constructor
    · intro h k
      cases b
      · simp at h
        cases k with
        | zero => simp [test_cons_zero]
        | succ k => rw [test_cons_succ]; exact (ih.mp h) k
      · simp at h
    · intro h
      have h0 := h 0
      rw [test_cons_zero] at h0
      subst h0
      simp
      exact ih.mpr (fun k => by have := h (k + 1); rwa [test_cons_succ] at this)

theorem none_eq_true_iff (m : List Bool) : none m = true ↔ ∀ k, test m k = false := by
  induction m with
  | nil => simp [none, test_nil]
  | cons b m ih =>
    simp only [none, List.all_cons, Bool.and_eq_true] at ih ⊢
    constructor
    · rintro ⟨hb, hm⟩ k
      cases k with
      | zero => rw [test_cons_zero]; simpa using hb
      | succ k => rw [test_cons_succ]; exact (ih.mp hm) k
    · intro h
      refine ⟨?_, ih.mpr (fun k => by have := h (k + 1); rwa [test_cons_succ] at this)⟩
      have h0 := h 0
      rw [test_cons_zero] at h0
      simp [h0]

theorem find_highest_ge (m : List Bool) : -1 ≤ find_highest m := by
  induction m with
  | nil => simp [find_highest]
  | cons b m ih =>
    unfold find_highest
    split
    · omega
    · split <;> omega

theorem find_highest_lt_length (m : List Bool) : find_highest m < m.length := by
  induction m with
  | nil => simp [find_highest]
  | cons b m ih =>
    unfold find_highest
    simp only [List.length_cons, Nat.cast_add, Nat.cast_one]
    split
    · omega
    · split <;> omega

theorem find_highest_neg_iff (m : List Bool) : find_highest m < 0 ↔ ∀ k, test m k = false := by
  induction m with
  | nil => simp [find_highest, test_nil]
  | cons b m ih =>
    unfold find_highest
    constructor
    · intro h k
      split at h
      · omega
      · rename_i hneg
        split at h
        · omega
        · rename_i hb
          cases k with
          | zero => rw [test_cons_zero]; simpa using hb
          | succ k => rw [test_cons_succ]; exact (ih.mp (by omega)) k
    · intro h
      have hm : find_highest m < 0 :=
        ih.mpr (fun k => by have := h (k + 1); rwa [test_cons_succ] at this)
      have h0 := h 0
      rw [test_cons_zero] at h0
      subst h0
      rw [if_neg (by omega)]
      simp

theorem test_find_highest (m : List Bool) (h : 0 ≤ find_highest m) :
    test m (find_highest m).toNat = true := by
  induction m with
  | nil => simp [find_highest] at h
  | cons b m ih =>
    unfold find_highest at h ⊢
    by_cases hm : 0 ≤ find_highest m
    · rw [if_pos hm]
      have : (find_highest m + 1).toNat = (find_highest m).toNat + 1 := by omega
      rw [this, test_cons_succ]
      exact ih hm
    · rw [if_neg hm] at h ⊢
      by_cases hb : b = true
      · subst hb; simp [test_cons_zero]
      · simp [hb] at h

theorem le_find_highest (m : List Bool) (k : Nat) (h : test m k = true) :
    (k : Int) ≤ find_highest m := by
  induction m generalizing k with
  | nil => simp [test_nil] at h
  | cons b m ih =>
    unfold find_highest
    cases k with
    | zero =>
      rw [test_cons_zero] at h
      subst h
      split
      · omega
      · simp
    | succ k =>
      rw [test_cons_succ] at h
      have := ih k h
      rw [if_pos (by omega)]
      push_cast
      omega

theorem length_resize (m : List Bool) (n : Nat) : (resize m n).length = n := by
  simp [resize]
  omega

theorem test_eq (m : List Bool) (k : Nat) : test m k = (m[k]?).getD false := by
  simp [test, List.getD_eq_getElem?_getD]

theorem test_resize (m : List Bool) (n k : Nat) :
    test (resize m n) k = (decide (k < n) && test m k) := by
  rw [test_eq, test_eq]
  unfold resize
  by_cases hk : k < n
  · by_cases hl : k < m.length
    · have h1 : k < (List.take n m).length := by simp; omega
      simp [List.getElem?_append_left h1, List.getElem?_take, hk]
    · have h1 : (List.take n m).length ≤ k := by simp; omega
      have h2 : m[k]? = Option.none := List.getElem?_eq_none (by omega)
      rw [List.getElem?_append_right h1, h2]
      simp only [hk, List.getElem?_replicate]
      split <;> simp
  · have h1 : (List.take n m ++ List.replicate (n - m.length) false).length ≤ k := by
      simp; omega
    simp [List.getElem?_eq_none h1, hk]

end bounded_bitset
end srsran

namespace srsran
open bounded_bitset

namespace bounded_bitset

theorem test_take (m : List Bool) (n k : Nat) :
    test (m.take n) k = (decide (k < n) && test m k) := by
  rw [test_eq, test_eq, List.getElem?_take]
  by_cases hk : k < n <;> simp [hk]

theorem test_drop (m : List Bool) (n k : Nat) : test (m.drop n) k = test m (n + k) := by
  rw [test_eq, test_eq, List.getElem?_drop]

theorem test_slice (m : List Bool) (a b k : Nat) :
    test (slice m a b) k = (decide (k < b - a) && test m (a + k)) := by
  unfold slice
  rw [test_take, test_drop]

theorem length_slice (m : List Bool) (a b : Nat) :
    (slice m a b).length = min (b - a) (m.length - a) := by
  simp [slice]

theorem count_eq_of_all_false {m : List Bool} (h : ∀ k, test m k = false) : count m = 0 :=
  (count_eq_zero_iff m).mpr h

theorem count_take_add (m : List Bool) (a b : Nat) :
    count (m.take (a + b)) = count (m.take a) + count (slice m a (a + b)) := by
  unfold slice
  rw [Nat.add_sub_cancel_left, List.take_add, count_append]

theorem count_take_of_le {m : List Bool} {n : Nat} (h : m.length ≤ n) :
    count (m.take n) = count m := by
  rw [List.take_of_length_le h]

theorem count_resize {m : List Bool} {n : Nat} (h : ∀ k, n ≤ k → test m k = false) :
    count (resize m n) = count m := by
  unfold resize
  rw [count_append]
  have h1 : count (List.replicate (n - m.length) false) = 0 := by
    simp [count, List.count_replicate]
  have h2 : count (m.drop n) = 0 := by
    apply count_eq_of_all_false
    intro k
    rw [test_drop]
    exact h _ (by omega)
  have h3 : count m = count (m.take n) + count (m.drop n) := by
    rw [← count_append, List.take_append_drop]
  omega

end bounded_bitset

theorem rank_zero (m : List Bool) : rank m 0 = 0 := by simp [rank, count_nil]

theorem rank_nil (k : Nat) : rank [] k = 0 := by simp [rank, count_nil]

theorem rank_cons_succ (b : Bool) (m : List Bool) (k : Nat) :
    rank (b :: m) (k + 1) = (if b then 1 else 0) + rank m k := by
  simp [rank, count_cons]

theorem rank_le_count (m : List Bool) (k : Nat) : rank m k ≤ count m := by
  unfold rank
  have h3 : count m = count (m.take k) + count (m.drop k) := by
    rw [← count_append, List.take_append_drop]
  omega

theorem rank_lt_count {m : List Bool} {k : Nat} (h : test m k = true) : rank m k < count m := by
  induction m generalizing k with
  | nil => simp [test_nil] at h
  | cons b m ih =>
    cases k with
    | zero =>
      rw [test_cons_zero] at h
      subst h
      rw [rank_zero, count_cons]
      simp
    | succ k =>
      rw [test_cons_succ] at h
      rw [rank_cons_succ, count_cons]
      have := ih h
      omega

theorem rank_mono (m : List Bool) {a b : Nat} (h : a ≤ b) : rank m a ≤ rank m b := by
  obtain ⟨c, rfl⟩ := Nat.exists_eq_add_of_le h
  unfold rank
  rw [count_take_add]
  omega

theorem rank_lt_rank {m : List Bool} {a b : Nat} (h : a < b) (ha : test m a = true) :
    rank m a < rank m b := by
  induction m generalizing a b with
  | nil => simp [test_nil] at ha
  | cons x m ih =>
    cases b with
    | zero => omega
    | succ b =>
      cases a with
      | zero =>
        rw [test_cons_zero] at ha
        subst ha
        rw [rank_zero, rank_cons_succ]
        simp
      | succ a =>
        rw [test_cons_succ] at ha
        rw [rank_cons_succ, rank_cons_succ]
        have := ih (by omega : a < b) ha
        omega

namespace re_pattern_list

theorem length_update_mask (f : Nat → Bool → Bool) (k : Nat) (m : List Bool) :
    (update_mask f k m).length = m.length := by
  induction m generalizing k with
  | nil => rfl
  | cons b m ih => simp [update_mask, ih]

theorem test_update_mask (f : Nat → Bool → Bool) (k0 : Nat) (m : List Bool) (i : Nat) :
    test (update_mask f k0 m) i = (decide (i < m.length) && f (k0 + i) (test m i)) := by
  induction m generalizing k0 i with
  | nil => simp [update_mask, test_nil]
  | cons b m ih =>
    cases i with
    | zero => simp [update_mask, test_cons_zero]
    | succ i =>
      simp only [update_mask, test_cons_succ, ih, List.length_cons]
      have : k0 + 1 + i = k0 + (i + 1) := by omega
      rw [this]
      by_cases h : i < m.length <;> simp [h]

end re_pattern_list

theorem test_replicate_false (n k : Nat) : test (List.replicate n false) k = false := by
  rw [test_eq, List.getElem?_replicate]
  split <;> simp

theorem length_selection_mask (size : Nat) (pattern reserved : re_pattern_list) (s : Nat) :
    (selection_mask size pattern reserved s).length = size := by
  simp [selection_mask, re_pattern_list.get_exclusion_mask, re_pattern_list.get_inclusion_mask,
    re_pattern_list.length_update_mask]

/-- The selection mask is the union of the inclusion patterns minus the union of the reserved patterns, restricted to the `size` subcarriers of the mask. -/
theorem test_selection_mask (size : Nat) (pattern reserved : re_pattern_list) (s k : Nat) :
    test (selection_mask size pattern reserved s) k =
      (decide (k < size) && re_pattern_list.covers pattern s k &&
        !re_pattern_list.covers reserved s k) := by
  simp only [selection_mask, re_pattern_list.get_exclusion_mask,
    re_pattern_list.get_inclusion_mask, re_pattern_list.test_update_mask,
    re_pattern_list.length_update_mask, List.length_replicate, test_replicate_false, Nat.zero_add,
    Bool.false_or]
  by_cases h : k < size <;> simp [h]

theorem divide_ceil_NRE_bounds (x : Nat) :
    x ≤ divide_ceil x NRE * NRE ∧ divide_ceil x NRE * NRE < x + NRE := by
  unfold divide_ceil NRE
  omega

theorem test_truncated_mask (size : Nat) (pattern reserved : re_pattern_list) (s k : Nat) :
    test (truncated_mask size pattern reserved s) k =
      test (selection_mask size pattern reserved s) k := by
  unfold truncated_mask
  rw [test_resize]
  by_cases h : test (selection_mask size pattern reserved s) k = true
  · have h1 := le_find_highest _ _ h
    have h2 := (divide_ceil_NRE_bounds
      (find_highest (selection_mask size pattern reserved s) + 1).toNat).1
    have : k < divide_ceil (find_highest (selection_mask size pattern reserved s) + 1).toNat NRE
        * NRE := by omega
    simp [this]
  · simp at h
    simp [h]

theorem count_eq_of_test_eq {a b : List Bool} (h : ∀ k, test a k = test b k) :
    count a = count b := by
  induction a generalizing b with
  | nil =>
    rw [count_nil]
    exact (count_eq_of_all_false (fun k => by rw [← h k, test_nil])).symm
  | cons x a ih =>
    cases b with
    | nil =>
      rw [count_nil]
      exact count_eq_of_all_false (fun k => by rw [h k, test_nil])
    | cons y b =>
      have h0 := h 0
      rw [test_cons_zero, test_cons_zero] at h0
      subst h0
      have h1 : ∀ k, test a k = test b k := fun k => by
        have := h (k + 1)
        simpa only [test_cons_succ] using this
      rw [count_cons, count_cons, ih h1]

theorem count_truncated_mask (size : Nat) (pattern reserved : re_pattern_list) (s : Nat) :
    count (truncated_mask size pattern reserved s) =
      count (selection_mask size pattern reserved s) :=
  count_eq_of_test_eq (test_truncated_mask size pattern reserved s)

theorem rank_eq_of_test_eq {a b : List Bool} (h : ∀ k, test a k = test b k) (k : Nat) :
    rank a k = rank b k := by
  unfold rank
  apply count_eq_of_test_eq
  intro j
  rw [test_take, test_take, h]

end srsran

namespace srsran
open bounded_bitset

namespace resource_grid_impl

variable {α : Type}

theorem put_row_snd (row : Nat → α) (k0 : Nat) (m : List Bool) (vs : List α) :
    (put_row row k0 m vs).2 = vs.drop (count m) := by
  induction m generalizing row k0 vs with
  | nil => simp [put_row, count_nil]
  | cons b m ih =>
    cases b with
    | false => simp [put_row, count_cons, ih]
    | true =>
      cases vs with
      | nil => simp [put_row]
      | cons v vs =>
        simp only [put_row, count_cons, ih, if_true]
        rw [Nat.add_comm, List.drop_succ_cons]

theorem put_row_fst (row : Nat → α) (k0 : Nat) (m : List Bool) (vs : List α) (j : Nat) :
    (put_row row k0 m vs).1 j =
      if k0 ≤ j ∧ test m (j - k0) = true then (vs[rank m (j - k0)]?).getD (row j)
      else row j := by
  induction m generalizing row k0 vs with
  | nil => simp [put_row, test_nil]
  | cons b m ih =>
    cases b with
    | false =>
      simp only [put_row, ih]
      by_cases hj : k0 + 1 ≤ j
      · have e : j - k0 = (j - (k0 + 1)) + 1 := by omega
        rw [e, test_cons_succ, rank_cons_succ]
        have h1 : k0 ≤ j := by omega
        simp [hj, h1]
      · rw [if_neg (fun h => hj h.1)]
        by_cases h0 : k0 ≤ j
        · have e : j - k0 = 0 := by omega
          rw [e, test_cons_zero]
          simp
        · rw [if_neg (fun h => h0 h.1)]
    | true =>
      cases vs with
      | nil => simp [put_row]
      | cons v vs =>
        simp only [put_row, ih]
        by_cases hj : k0 + 1 ≤ j
        · have e : j - k0 = (j - (k0 + 1)) + 1 := by omega
          rw [e, test_cons_succ, rank_cons_succ]
          have h1 : k0 ≤ j := by omega
          have h2 : j ≠ k0 := by omega
          have e2 : (if true = true then 1 else 0) + rank m (j - (k0 + 1))
              = rank m (j - (k0 + 1)) + 1 := by simp; omega
          rw [e2, List.getElem?_cons_succ]
          simp [hj, h1, h2]
        · rw [if_neg (fun h => hj h.1)]
          by_cases h0 : k0 ≤ j
          · have e : j = k0 := by omega
            subst e
            simp [test_cons_zero, rank_zero]
          · have h2 : j ≠ k0 := by omega
            simp [h0, h2]

/-- The cell `(p, s, k)` of the grid after a `put`. -/
theorem put_rg_buffer (g : resource_grid_impl α) (port l k_init : Nat) (mask : List Bool)
    (vs : List α) (p s k : Nat) :
    (g.put port l k_init mask vs).1.rg_buffer p s k =
      if p = port ∧ s = l ∧ k_init ≤ k ∧ test mask (k - k_init) = true then
        (vs[rank mask (k - k_init)]?).getD (g.rg_buffer p s k)
      else g.rg_buffer p s k := by
  simp only [put, put_row_fst]
  by_cases h1 : p = port ∧ s = l
  · obtain ⟨rfl, rfl⟩ := h1
    simp
  · rw [if_neg h1, if_neg (fun h => h1 ⟨h.1, h.2.1⟩)]

theorem put_snd (g : resource_grid_impl α) (port l k_init : Nat) (mask : List Bool)
    (vs : List α) : (g.put port l k_init mask vs).2 = vs.drop (count mask) := by
  simp [put, put_row_snd]

theorem put_empty (g : resource_grid_impl α) (port l k_init : Nat) (mask : List Bool)
    (vs : List α) (p : Nat) :
    (g.put port l k_init mask vs).1.empty p = if p = port then false else g.empty p := rfl

theorem put_put_log (g : resource_grid_impl α) (port l k_init : Nat) (mask : List Bool)
    (vs : List α) :
    (g.put port l k_init mask vs).1.put_log = g.put_log ++ [⟨port, l, k_init, mask, vs⟩] := rfl

end resource_grid_impl

theorem mem_mask_cells (port l k0 : Nat) (m : List Bool) (n : Nat) (c : Nat × Nat × Nat) :
    c ∈ mask_cells port l k0 m n ↔
      c.1 = port ∧ c.2.1 = l ∧ k0 ≤ c.2.2 ∧ test m (c.2.2 - k0) = true ∧
        rank m (c.2.2 - k0) < n := by
  obtain ⟨p, s, k⟩ := c
  induction m generalizing k0 n with
  | nil => simp [mask_cells, test_nil]
  | cons b m ih =>
    cases b with
    | false =>
      simp only [mask_cells, ih]
      constructor
      · rintro ⟨h1, h2, h3, h4, h5⟩
        have e : k - k0 = (k - (k0 + 1)) + 1 := by omega
        refine ⟨h1, h2, by omega, ?_, ?_⟩
        · rw [e, test_cons_succ]; exact h4
        · rw [e, rank_cons_succ]; simpa using h5
      · rintro ⟨h1, h2, h3, h4, h5⟩
        by_cases hk : k = k0
        · subst hk
          simp [test_cons_zero] at h4
        · have e : k - k0 = (k - (k0 + 1)) + 1 := by omega
          rw [e, test_cons_succ] at h4
          rw [e, rank_cons_succ] at h5
          exact ⟨h1, h2, by omega, h4, by simpa using h5⟩
    | true =>
      cases n with
      | zero => simp [mask_cells]
      | succ n =>
        simp only [mask_cells, List.mem_cons, ih, Prod.mk.injEq]
        constructor
        · rintro (⟨h1, h2, h3⟩ | ⟨h1, h2, h3, h4, h5⟩)
          · subst h3
            simp [h1, h2, test_cons_zero, rank_zero]
          · have e : k - k0 = (k - (k0 + 1)) + 1 := by omega
            refine ⟨h1, h2, by omega, ?_, ?_⟩
            · rw [e, test_cons_succ]; exact h4
            · rw [e, rank_cons_succ]; simp; omega
        · rintro ⟨h1, h2, h3, h4, h5⟩
          by_cases hk : k = k0
          · left; exact ⟨h1, h2, hk⟩
          · right
            have e : k - k0 = (k - (k0 + 1)) + 1 := by omega
            rw [e, test_cons_succ] at h4
            rw [e, rank_cons_succ] at h5
            simp at h5
            exact ⟨h1, h2, by omega, h4, by omega⟩

theorem written_cells_append {α : Type} (a b : List (put_call α)) :
    written_cells (a ++ b) = written_cells a ++ written_cells b := by
  induction a with
  | nil => rfl
  | cons c a ih => simp [written_cells, ih]

theorem written_cells_singleton {α : Type} (c : put_call α) :
    written_cells [c] = mask_cells c.port c.symbol c.k_init c.mask c.values.length := by
  simp [written_cells]

end srsran

namespace srsran
open bounded_bitset

theorem for_loop_append {σ : Type} (body : σ → Nat → outcome σ) (a b : List Nat) (s : σ) :
    for_loop body (a ++ b) s =
      match for_loop body a s with
      | .ok s1 => for_loop body b s1
      | .error e => .error e := by
  induction a generalizing s with
  | nil => rfl
  | cons i a ih =>
    simp only [List.cons_append, for_loop]
    cases body s i with
    | ok s1 => exact ih s1
    | error e => rfl

theorem for_loop_range_succ {σ : Type} (body : σ → Nat → outcome σ) (n : Nat) (s s1 : σ)
    (h : for_loop body (List.range n) s = .ok s1) :
    for_loop body (List.range (n + 1)) s = body s1 n := by
  rw [List.range_succ, for_loop_append, h]
  simp only [for_loop]
  cases body s1 n <;> rfl

theorem for_loop_range_succ_error {σ : Type} (body : σ → Nat → outcome σ) (n : Nat) (s : σ)
    (e : fatal × σ) (h : for_loop body (List.range n) s = .error e) :
    for_loop body (List.range (n + 1)) s = .error e := by
  rw [List.range_succ, for_loop_append, h]

namespace resource_grid_impl

variable {α : Type} [CommSemiring α] [DecidableEq α]

omit [CommSemiring α] [DecidableEq α] in
theorem length_get_slice (b : re_buffer α) (i : Nat) : (b.get_slice i).length = b.nof_re := by
  simp [re_buffer.get_slice]

omit [CommSemiring α] [DecidableEq α] in
theorem getElem?_get_slice (b : re_buffer α) (i r : Nat) (h : r < b.nof_re) :
    (b.get_slice i)[r]? = some (b.data i r) := by
  simp [re_buffer.get_slice, List.getElem?_map, List.getElem?_range h]

omit [CommSemiring α] [DecidableEq α] in
theorem grid_eq {a b : resource_grid_impl α} (h1 : a.nof_ports = b.nof_ports)
    (h2 : a.nof_symb = b.nof_symb) (h3 : a.nof_subc = b.nof_subc)
    (h4 : ∀ p, a.empty p = b.empty p) (h5 : ∀ p s k, a.rg_buffer p s k = b.rg_buffer p s k)
    (h6 : a.layer_mapping_buffer = b.layer_mapping_buffer)
    (h7 : a.precoding_buffer = b.precoding_buffer) (h8 : a.put_log = b.put_log) : a = b := by
  cases a
  cases b
  simp only at h1 h2 h3 h4 h5 h6 h7 h8
  have e4 := funext h4
  have e5 : _ = _ := funext (fun p => funext (fun s => funext (h5 p s)))
  subst h1 h2 h3 e4 e5 h6 h7 h8
  rfl

/-- The port loop of the general path writes, for every port below `n`, the slice of the port at the set bits of the mask. -/
theorem for_loop_map_port (s : Nat) (m : List Bool) (g : resource_grid_impl α)
    (hre : g.precoding_buffer.nof_re = count m) (n : Nat) :
    for_loop (map_port s m) (List.range n) g = .ok (ports_written g s m n) := by
  induction n with
  | zero =>
    simp only [List.range_zero, for_loop]
    congr 1
    apply grid_eq <;> simp [ports_written]
  | succ n ih =>
    rw [for_loop_range_succ _ _ _ _ ih]
    unfold map_port
    have hs : ((ports_written g s m n).put n s 0 m
        ((ports_written g s m n).precoding_buffer.get_slice n)).2 = [] := by
      rw [put_snd]
      apply List.drop_eq_nil_of_le
      rw [length_get_slice]
      show g.precoding_buffer.nof_re ≤ count m
      omega
    simp only [hs, List.isEmpty_nil, if_true]
    congr 1
    apply grid_eq
    · rfl
    · rfl
    · rfl
    · intro p1
      simp only [put, ports_written]
      by_cases h : p1 = n
      · subst h; simp
      · by_cases h2 : p1 < n
        · have : p1 < n + 1 := by omega
          simp [h, h2, this]
        · have : ¬ p1 < n + 1 := by omega
          simp [h, h2, this]
    · intro p1 s1 k1
      rw [put_rg_buffer]
      simp only [ports_written, Nat.zero_le, Nat.sub_zero, true_and]
      by_cases hp : p1 = n
      · subst hp
        by_cases hs1 : s1 = s
        · subst hs1
          by_cases ht : test m k1 = true
          · have hr : rank m k1 < g.precoding_buffer.nof_re := by
              rw [hre]; exact rank_lt_count ht
            simp [ht, getElem?_get_slice _ _ _ hr]
          · simp [ht]
        · simp [hs1]
      · by_cases h1 : p1 < n
        · have : p1 < n + 1 := by omega
          simp [hp, h1, this]
        · have : ¬ p1 < n + 1 := by omega
          simp [hp, h1, this]
    · rfl
    · rfl
    · simp [put, ports_written, List.range_succ]

end resource_grid_impl
end srsran

namespace srsran
open bounded_bitset

namespace resource_grid_impl

variable {α : Type} [CommSemiring α] [DecidableEq α]

omit [DecidableEq α] in
theorem getD_apply_precoding_port (input : re_buffer α) (coefs : List α) (r : Nat)
    (h : r < input.nof_re) :
    (channel_precoder.apply_precoding_port input coefs).getD r 0 =
      ((List.range input.nof_slices).map (fun l => coefs.getD l 0 * input.data l r)).sum := by
  simp [channel_precoder.apply_precoding_port, List.getD_eq_getElem?_getD, List.getElem?_map,
    List.getElem?_range h]

omit [DecidableEq α] in
theorem length_apply_precoding_port (input : re_buffer α) (coefs : List α) :
    (channel_precoder.apply_precoding_port input coefs).length = input.nof_re := by
  simp [channel_precoder.apply_precoding_port]

omit [DecidableEq α] in
theorem prg_inv_step (input : re_buffer α) (precoding : precoding_configuration α) (P : Nat)
    (m : List Bool) (pb1 : re_buffer α) (i_re0 n : Nat) (st : prg_state α)
    (hlen : m.length < 2 ^ 32) (h : prg_inv input precoding P m pb1 i_re0 n st) :
    prg_inv input precoding P m pb1 i_re0 (n + 1) (map_prg input precoding P m st n) := by
  have hi := h.i_subc
  have hile : st.i_subc ≤ m.length := by rw [hi]; exact Nat.min_le_right _ _
  have hsub : u32_sub m.length st.i_subc = m.length - st.i_subc := u32_sub_of_le hile hlen
  have hnew : st.i_subc + min P (m.length - st.i_subc) = min ((n + 1) * P) m.length := by
    rw [hi, Nat.add_mul, Nat.one_mul]
    simp only [Nat.min_def]
    split_ifs <;> omega
  have hrank : rank m (st.i_subc + min P (m.length - st.i_subc)) =
      rank m st.i_subc + count (slice m st.i_subc (st.i_subc + min P (m.length - st.i_subc))) := by
    unfold rank
    exact count_take_add _ _ _
  refine ⟨?_, ?_, ?_, ?_, ?_, ?_⟩
  · simp only [map_prg, hsub]; exact hnew
  · simp only [map_prg, hsub, hrank, h.i_pb]
  · simp only [map_prg, hsub, hrank, h.i_re]; omega
  · simp only [map_prg, channel_precoder.apply_precoding]; exact h.nof_re
  · simp only [map_prg, channel_precoder.apply_precoding]; exact h.nof_slices
  · intro p k hp hk ht
    simp only [map_prg, hsub] at hk
    simp only [map_prg, hsub, channel_precoder.apply_precoding, re_buffer.view,
      precoding_configuration.get_prg_coefficients]
    by_cases hold : k < st.i_subc
    · have hr : rank m k < rank m st.i_subc := rank_lt_rank hold ht
      have hc : ¬ (p < precoding.nof_ports ∧ st.i_precoding_buffer ≤ rank m k ∧
          rank m k < st.i_precoding_buffer +
            count (slice m st.i_subc (st.i_subc + min P (m.length - st.i_subc)))) := by
        rw [h.i_pb]; omega
      rw [if_neg hc]
      exact h.data p k hp hold ht
    · have hr1 : rank m st.i_subc ≤ rank m k := rank_mono m (by omega)
      have hr2 : rank m k < rank m (st.i_subc + min P (m.length - st.i_subc)) :=
        rank_lt_rank hk ht
      have hc : p < precoding.nof_ports ∧ st.i_precoding_buffer ≤ rank m k ∧
          rank m k < st.i_precoding_buffer +
            count (slice m st.i_subc (st.i_subc + min P (m.length - st.i_subc))) := by
        rw [h.i_pb]; omega
      rw [if_pos hc]
      have hPpos : 0 < P := by
        by_contra h0
        have : P = 0 := by omega
        subst this
        simp at hk
        omega
      have hin : st.i_subc = n * P := by
        rw [hi]
        apply Nat.min_eq_left
        by_contra hc2
        have : st.i_subc = m.length := by rw [hi]; exact Nat.min_eq_right (by omega)
        rw [this] at hk
        simp at hk
        omega
      have hdiv : k / P = n := by
        apply Nat.div_eq_of_lt_le
        · rw [← hin]; omega
        · rw [Nat.succ_mul, ← hin]
          have := Nat.min_le_left P (m.length - st.i_subc)
          omega
      have hidx : rank m k - st.i_precoding_buffer <
          count (slice m st.i_subc (st.i_subc + min P (m.length - st.i_subc))) := by
        rw [h.i_pb]; omega
      rw [getD_apply_precoding_port _ _ _ hidx]
      simp only [precoded_re, precoding_configuration.get_prg_coefficients, hdiv]
      have e : st.i_re_buffer + (rank m k - st.i_precoding_buffer) = i_re0 + rank m k := by
        rw [h.i_re, h.i_pb]; omega
      rw [e]

omit [DecidableEq α] in
theorem prg_inv_fold (input : re_buffer α) (precoding : precoding_configuration α) (P : Nat)
    (m : List Bool) (pb1 : re_buffer α) (i_re0 : Nat) (hlen : m.length < 2 ^ 32) (n : Nat) :
    prg_inv input precoding P m pb1 i_re0 n
      ((List.range n).foldl (map_prg input precoding P m) ⟨pb1, i_re0, 0, 0⟩) := by
  induction n with
  | zero =>
    refine ⟨?_, ?_, ?_, ?_, ?_, ?_⟩ <;> simp [rank_zero]
  | succ n ih =>
    rw [List.range_succ, List.foldl_append]
    exact prg_inv_step input precoding P m pb1 i_re0 n _ hlen ih

theorem rank_eq_count_of {m : List Bool} {i : Nat} (h : ∀ k, i ≤ k → test m k = false) :
    rank m i = count m := by
  unfold rank
  have h2 : count (m.drop i) = 0 := by
    apply count_eq_of_all_false
    intro k
    rw [test_drop]
    exact h _ (by omega)
  have h3 : count m = count (m.take i) + count (m.drop i) := by
    rw [← count_append, List.take_append_drop]
  omega

/-- The general path of the buffered `map` for one symbol, when every set bit of the mask lies in a PRG window: every precoding port receives at every set bit the precoded value of the next input RE. -/
theorem map_general_ok (input : re_buffer α) (precoding : precoding_configuration α) (s : Nat)
    (m : List Bool) (st : map_state α) (hlen : m.length < 2 ^ 32)
    (hcover : ∀ k, test m k = true →
      k < precoding.get_nof_prg * u32 (precoding.get_prg_size * NRE)) :
    ∃ st1, map_general input precoding s m st = .ok st1 ∧
      symbol_written precoding.get_nof_ports s m
        (fun p k => precoded_re input precoding (k / u32 (precoding.get_prg_size * NRE)) p
          (st.i_re_buffer + rank m k)) st st1 := by
  generalize hpb1 : (if count m ≠ st.grid.precoding_buffer.nof_re ∨
      precoding.get_nof_ports ≠ st.grid.precoding_buffer.nof_slices then
      st.grid.precoding_buffer.resize precoding.get_nof_ports (count m)
    else st.grid.precoding_buffer) = pb1
  have hpb1re : pb1.nof_re = count m := by
    rw [← hpb1]
    split
    · rfl
    · rename_i hc
      have := not_or.mp hc
      have h1 := not_not.mp this.1
      exact h1.symm
  have hinv := prg_inv_fold input precoding (u32 (precoding.get_prg_size * NRE)) m pb1
    st.i_re_buffer hlen precoding.get_nof_prg
  generalize hprg : (List.range precoding.get_nof_prg).foldl
    (map_prg input precoding (u32 (precoding.get_prg_size * NRE)) m)
    ⟨pb1, st.i_re_buffer, 0, 0⟩ = prg at hinv
  have hrk : rank m prg.i_subc = count m := by
    apply rank_eq_count_of
    intro k hk
    by_contra hc
    have ht : test m k = true := by simpa using hc
    have h1 := hcover k ht
    have h2 := test_lt_length ht
    rw [hinv.i_subc] at hk
    have := Nat.le_min.mpr ⟨Nat.le_of_lt h1, Nat.le_of_lt h2⟩
    simp only [Nat.min_def] at hk
    split_ifs at hk <;> omega
  have hfill : prg.i_precoding_buffer = prg.precoding_buffer.nof_re := by
    rw [hinv.i_pb, hrk, hinv.nof_re, hpb1re]
  have hloop := for_loop_map_port s m { st.grid with precoding_buffer := prg.precoding_buffer }
    (by show prg.precoding_buffer.nof_re = count m; rw [hinv.nof_re, hpb1re])
    precoding.get_nof_ports
  refine ⟨⟨ports_written { st.grid with precoding_buffer := prg.precoding_buffer } s m
    precoding.get_nof_ports, prg.i_re_buffer⟩, ?_, ?_⟩
  · unfold map_general
    simp only [hpb1, hprg]
    rw [if_neg (not_not.mpr hfill), hloop]
  · refine ⟨?_, rfl, rfl, rfl, ?_, ?_, ?_⟩
    · show prg.i_re_buffer = st.i_re_buffer + count m
      rw [hinv.i_re, hrk]
    · intro p s1 k
      simp only [ports_written]
      by_cases hc : p < precoding.get_nof_ports ∧ s1 = s ∧ test m k = true
      · rw [if_pos hc, if_pos hc]
        apply hinv.data p k hc.1 _ hc.2.2
        rw [hinv.i_subc]
        exact Nat.lt_min.mpr ⟨hcover k hc.2.2, test_lt_length hc.2.2⟩
      · rw [if_neg hc, if_neg hc]
    · intro p
      rfl
    · simp only [ports_written, List.map_append, List.map_map]
      congr 1
      apply List.map_congr_left
      intro p _
      simp only [Function.comp, put_call.shape, length_get_slice]
      rw [hinv.nof_re, hpb1re]

end resource_grid_impl
end srsran

namespace srsran
open bounded_bitset

namespace resource_grid_impl

variable {α : Type} [CommSemiring α] [DecidableEq α]

omit [CommSemiring α] [DecidableEq α] in
/-- The bypass path of the buffered `map` for one symbol: port 0 receives at every set bit of the mask the next RE of input layer 0. -/
theorem map_bypass_ok (input : re_buffer α) (s : Nat) (m : List Bool) (st : map_state α) :
    ∃ st1, map_bypass input s m st = .ok st1 ∧
      symbol_written 1 s m (fun _ k => input.data 0 (st.i_re_buffer + rank m k)) st st1 := by
  have hs : (st.grid.put 0 s 0 m ((input.view st.i_re_buffer (count m)).get_slice 0)).2 = [] := by
    rw [put_snd]
    apply List.drop_eq_nil_of_le
    rw [length_get_slice]
    exact Nat.le_refl _
  refine ⟨⟨(st.grid.put 0 s 0 m ((input.view st.i_re_buffer (count m)).get_slice 0)).1,
    st.i_re_buffer + count m⟩, ?_, ?_⟩
  · unfold map_bypass
    simp only [hs, List.isEmpty_nil, if_true]
  · refine ⟨rfl, rfl, rfl, rfl, ?_, ?_, ?_⟩
    · intro p s1 k
      rw [put_rg_buffer]
      simp only [Nat.zero_le, Nat.sub_zero, true_and, Nat.lt_one_iff]
      by_cases hc : p = 0 ∧ s1 = s ∧ test m k = true
      · rw [if_pos hc, if_pos hc]
        have hr : rank m k < (input.view st.i_re_buffer (count m)).nof_re :=
          rank_lt_count hc.2.2
        rw [getElem?_get_slice _ _ _ hr]
        rfl
      · rw [if_neg hc, if_neg hc]
    · intro p
      rw [put_empty]
      simp only [Nat.lt_one_iff]
    · rw [put_put_log]
      simp [put_call.shape, length_get_slice, re_buffer.view, List.range_succ]

theorem bypass_nof_ports {precoding : precoding_configuration α} (h : bypass precoding = true) :
    precoding.get_nof_ports = 1 := by
  simp only [bypass, decide_eq_true_eq] at h
  exact h.2.1

omit [CommSemiring α] [DecidableEq α] in
theorem length_truncated_mask_lt (size : Nat) (pattern reserved : re_pattern_list) (s : Nat)
    (h0 : 0 ≤ find_highest (selection_mask size pattern reserved s)) :
    (truncated_mask size pattern reserved s).length < size + NRE := by
  unfold truncated_mask
  rw [length_resize]
  have h1 := find_highest_lt_length (selection_mask size pattern reserved s)
  rw [length_selection_mask] at h1
  have h2 := (divide_ceil_NRE_bounds
    (find_highest (selection_mask size pattern reserved s) + 1).toNat).2
  omega

omit [CommSemiring α] [DecidableEq α] in
/-- A symbol whose mask is empty leaves the loop state as it is. -/
theorem symbol_step_skip (size : Nat) (pattern reserved : re_pattern_list) (nof_ports : Nat)
    (val : Nat → Nat → α) (s : Nat) (st : map_state α)
    (hneg : find_highest (selection_mask size pattern reserved s) < 0) :
    symbol_step size pattern reserved nof_ports val s st st := by
  refine ⟨?_, rfl, rfl, rfl, ?_, ?_, ?_⟩
  · rw [(count_eq_zero_iff _).mpr ((find_highest_neg_iff _).mp hneg)]
    rfl
  · intro p s1 k
    have := (find_highest_neg_iff _).mp hneg k
    simp [this]
  · intro p
    have : ¬ 0 ≤ find_highest (selection_mask size pattern reserved s) := by omega
    simp [this]
  · simp [symbol_shapes, hneg]

omit [CommSemiring α] [DecidableEq α] in
/-- A symbol whose truncated mask is written as `symbol_written` says makes a `symbol_step`. -/
theorem symbol_step_of_written (size : Nat) (pattern reserved : re_pattern_list)
    (nof_ports : Nat) (val val1 : Nat → Nat → α) (s : Nat) (st st1 : map_state α)
    (h0 : 0 ≤ find_highest (selection_mask size pattern reserved s))
    (hw : symbol_written nof_ports s (truncated_mask size pattern reserved s) val1 st st1)
    (hval : ∀ p k, val1 p k = val p k) :
    symbol_step size pattern reserved nof_ports val s st st1 := by
  have htest := test_truncated_mask size pattern reserved s
  have hcount := count_truncated_mask size pattern reserved s
  refine ⟨?_, hw.nof_ports_eq, hw.nof_subc_eq, hw.nof_symb_eq, ?_, ?_, ?_⟩
  · rw [hw.i_re, hcount]
  · intro p s1 k
    rw [hw.cell, htest, hval]
  · intro p
    rw [hw.empty]
    simp [h0]
  · rw [hw.log]
    have hneg : ¬ find_highest (selection_mask size pattern reserved s) < 0 := by omega
    simp only [symbol_shapes, hneg, if_false, hcount]

/-- One iteration of the symbol loop of the buffered `map`: it returns, and makes a `symbol_step` with the values of `symbol_value`. -/
theorem map_symbol_ok (input : re_buffer α) (pattern reserved : re_pattern_list)
    (precoding : precoding_configuration α) (st : map_state α) (s : Nat)
    (hsize : st.grid.nof_subc + NRE ≤ 2 ^ 32)
    (hcov : bypass precoding = true ∨
      find_highest (selection_mask st.grid.nof_subc pattern reserved s) <
        ((precoding.get_nof_prg * u32 (precoding.get_prg_size * NRE) : Nat) : Int)) :
    ∃ st1, map_symbol input pattern reserved precoding st s = .ok st1 ∧
      symbol_step st.grid.nof_subc pattern reserved precoding.get_nof_ports
        (fun p k => symbol_value input precoding st.grid.nof_subc pattern reserved
          st.i_re_buffer p s k) s st st1 := by
  by_cases hneg : find_highest (selection_mask st.grid.nof_subc pattern reserved s) < 0
  · refine ⟨st, ?_, symbol_step_skip _ _ _ _ _ _ _ hneg⟩
    unfold map_symbol
    simp only [hneg, if_true]
  · have h0 : 0 ≤ find_highest (selection_mask st.grid.nof_subc pattern reserved s) := by omega
    have htest := test_truncated_mask st.grid.nof_subc pattern reserved s
    have hrank := rank_eq_of_test_eq htest
    by_cases hb : bypass precoding = true
    · obtain ⟨st1, h1, h2⟩ := map_bypass_ok input s
        (truncated_mask st.grid.nof_subc pattern reserved s) st
      rw [← bypass_nof_ports hb] at h2
      refine ⟨st1, ?_, symbol_step_of_written _ _ _ _ _ _ _ _ _ h0 h2 ?_⟩
      · unfold map_symbol
        simp only [hneg, if_false, hb, if_true]
        exact h1
      · intro p k
        simp only [symbol_value, hb, if_true, hrank]
    · have hcov1 := hcov.resolve_left hb
      have hlen : (truncated_mask st.grid.nof_subc pattern reserved s).length < 2 ^ 32 := by
        have := length_truncated_mask_lt st.grid.nof_subc pattern reserved s h0
        unfold NRE at *
        omega
      obtain ⟨st1, h1, h2⟩ := map_general_ok input precoding s
        (truncated_mask st.grid.nof_subc pattern reserved s) st hlen (by
          intro k hk
          rw [htest] at hk
          have := le_find_highest _ _ hk
          omega)
      refine ⟨st1, ?_, symbol_step_of_written _ _ _ _ _ _ _ _ _ h0 h2 ?_⟩
      · unfold map_symbol
        simp only [hneg, if_false, hb]
        exact h1
      · intro p k
        simp only [symbol_value, hb, hrank]
        rfl

/-- One iteration of the symbol loop with the bypass test removed: it returns, and makes a `symbol_step` with the precoded values. -/
theorem map_symbol_general_ok (input : re_buffer α) (pattern reserved : re_pattern_list)
    (precoding : precoding_configuration α) (st : map_state α) (s : Nat)
    (hsize : st.grid.nof_subc + NRE ≤ 2 ^ 32)
    (hcov : find_highest (selection_mask st.grid.nof_subc pattern reserved s) <
        ((precoding.get_nof_prg * u32 (precoding.get_prg_size * NRE) : Nat) : Int)) :
    ∃ st1, map_symbol_general input pattern reserved precoding st s = .ok st1 ∧
      symbol_step st.grid.nof_subc pattern reserved precoding.get_nof_ports
        (fun p k => precoded_re input precoding (k / u32 (precoding.get_prg_size * NRE)) p
          (st.i_re_buffer + rank (selection_mask st.grid.nof_subc pattern reserved s) k))
        s st st1 := by
  by_cases hneg : find_highest (selection_mask st.grid.nof_subc pattern reserved s) < 0
  · refine ⟨st, ?_, symbol_step_skip _ _ _ _ _ _ _ hneg⟩
    unfold map_symbol_general
    simp only [hneg, if_true]
  · have h0 : 0 ≤ find_highest (selection_mask st.grid.nof_subc pattern reserved s) := by omega
    have htest := test_truncated_mask st.grid.nof_subc pattern reserved s
    have hrank := rank_eq_of_test_eq htest
    have hlen : (truncated_mask st.grid.nof_subc pattern reserved s).length < 2 ^ 32 := by
      have := length_truncated_mask_lt st.grid.nof_subc pattern reserved s h0
      unfold NRE at *
      omega
    obtain ⟨st1, h1, h2⟩ := map_general_ok input precoding s
      (truncated_mask st.grid.nof_subc pattern reserved s) st hlen (by
        intro k hk
        rw [htest] at hk
        have := le_find_highest _ _ hk
        omega)
    refine ⟨st1, ?_, symbol_step_of_written _ _ _ _ _ _ _ _ _ h0 h2 ?_⟩
    · unfold map_symbol_general
      simp only [hneg, if_false]
      exact h1
    · intro p k
      simp only [hrank]

end resource_grid_impl
end srsran

namespace srsran
open bounded_bitset

namespace resource_grid_impl

variable {α : Type} [CommSemiring α] [DecidableEq α]

omit [CommSemiring α] [DecidableEq α] in
/-- A loop over the symbols whose body makes a `symbol_step` at every symbol runs to its end without a fatal check, and its state after the symbols below `n` is the one described by `map_inv`. -/
theorem loop_inv (g : resource_grid_impl α) (pattern reserved : re_pattern_list)
    (nof_ports : Nat) (body : map_state α → Nat → outcome (map_state α))
    (val : Nat → Nat → Nat → Nat → α)
    (hbody : ∀ st s, s < MAX_NSYMB_PER_SLOT → st.grid.nof_subc = g.nof_subc →
      ∃ st1, body st s = .ok st1 ∧
        symbol_step g.nof_subc pattern reserved nof_ports
          (fun p k => val st.i_re_buffer p s k) s st st1)
    (n : Nat) (hn : n ≤ MAX_NSYMB_PER_SLOT) :
    ∃ st, for_loop body (List.range n) ⟨g, 0⟩ = .ok st ∧
      map_inv g pattern reserved nof_ports
        (fun p s k => val (total_selected g.nof_subc pattern reserved s) p s k) n st := by
  induction n with
  | zero =>
    refine ⟨⟨g, 0⟩, rfl, ?_⟩
    refine ⟨rfl, rfl, rfl, rfl, ?_, ?_, ?_⟩
    · intro p s k; simp
    · intro p; simp
    · simp [map_shapes]
  | succ n ih =>
    obtain ⟨st, hst, hinv⟩ := ih (by omega)
    obtain ⟨st1, h1, hstep⟩ := hbody st n (by omega) hinv.nof_subc_eq
    refine ⟨st1, ?_, ?_⟩
    · rw [for_loop_range_succ _ _ _ _ hst]
      exact h1
    · refine ⟨?_, ?_, ?_, ?_, ?_, ?_, ?_⟩
      · rw [hstep.i_re, hinv.i_re]
        rfl
      · rw [hstep.nof_ports_eq, hinv.nof_ports_eq]
      · rw [hstep.nof_subc_eq, hinv.nof_subc_eq]
      · rw [hstep.nof_symb_eq, hinv.nof_symb_eq]
      · intro p s k
        rw [hstep.cell, hinv.cell, hinv.i_re]
        by_cases hs : s = n
        · subst hs
          by_cases hc : p < nof_ports ∧
              test (selection_mask g.nof_subc pattern reserved s) k = true
          · have c1 : p < nof_ports ∧ s = s ∧
                test (selection_mask g.nof_subc pattern reserved s) k = true := ⟨hc.1, rfl, hc.2⟩
            have c2 : p < nof_ports ∧ s < s + 1 ∧
                test (selection_mask g.nof_subc pattern reserved s) k = true :=
              ⟨hc.1, by omega, hc.2⟩
            rw [if_pos c1, if_pos c2]
          · have c1 : ¬ (p < nof_ports ∧ s = s ∧
                test (selection_mask g.nof_subc pattern reserved s) k = true) :=
              fun h => hc ⟨h.1, h.2.2⟩
            have c2 : ¬ (p < nof_ports ∧ s < s + 1 ∧
                test (selection_mask g.nof_subc pattern reserved s) k = true) :=
              fun h => hc ⟨h.1, h.2.2⟩
            have c3 : ¬ (p < nof_ports ∧ s < s ∧
                test (selection_mask g.nof_subc pattern reserved s) k = true) :=
              fun h => hc ⟨h.1, h.2.2⟩
            rw [if_neg c1, if_neg c2, if_neg c3]
        · have c1 : ¬ (p < nof_ports ∧ s = n ∧
              test (selection_mask g.nof_subc pattern reserved n) k = true) :=
            fun h => hs h.2.1
          rw [if_neg c1]
          apply if_congr _ rfl rfl
          constructor
          · rintro ⟨a, b, c⟩; exact ⟨a, by omega, c⟩
          · rintro ⟨a, b, c⟩; exact ⟨a, by omega, c⟩
      · intro p
        rw [hstep.empty, hinv.empty]
        by_cases hp : p < nof_ports
        · by_cases h0 : 0 ≤ find_highest (selection_mask g.nof_subc pattern reserved n)
          · have c2 : p < nof_ports ∧ ∃ s, s < n + 1 ∧
                0 ≤ find_highest (selection_mask g.nof_subc pattern reserved s) :=
              ⟨hp, n, by omega, h0⟩
            rw [if_pos ⟨hp, h0⟩, if_pos c2]
          · rw [if_neg (fun h => h0 h.2)]
            apply if_congr _ rfl rfl
            constructor
            · rintro ⟨a, s, hs, hh⟩
              exact ⟨a, s, by omega, hh⟩
            · rintro ⟨a, s, hs, hh⟩
              refine ⟨a, s, ?_, hh⟩
              by_contra hc
              have : s = n := by omega
              subst this
              exact h0 hh
        · rw [if_neg (fun h => hp h.1), if_neg (fun h => hp h.1), if_neg (fun h => hp h.1)]
      · rw [hstep.log, hinv.log, List.append_assoc]
        rfl

/-- The symbol loop of the buffered `map` runs to its end without a fatal check when the width of the grid fits `unsigned` and either the bypass path is taken or every selected subcarrier lies in a PRG window; its final state is the one described by `map_inv` with the values of `mapped_value`. -/
theorem map_loop_ok (g : resource_grid_impl α) (input : re_buffer α)
    (pattern reserved : re_pattern_list) (precoding : precoding_configuration α)
    (hsize : g.nof_subc + NRE ≤ 2 ^ 32)
    (hcov : bypass precoding = true ∨ prgs_cover g.nof_subc pattern reserved precoding) :
    ∃ st, map_loop g input pattern reserved precoding = .ok st ∧
      map_inv g pattern reserved precoding.get_nof_ports
        (mapped_value input precoding g.nof_subc pattern reserved) MAX_NSYMB_PER_SLOT st := by
  have h := loop_inv g pattern reserved precoding.get_nof_ports
    (map_symbol input pattern reserved precoding)
    (symbol_value input precoding g.nof_subc pattern reserved) (by
      intro st s hs hsub
      have := map_symbol_ok input pattern reserved precoding st s (by rw [hsub]; exact hsize) (by
        rw [hsub]
        rcases hcov with h | h
        · exact Or.inl h
        · exact Or.inr (h s hs))
      rw [hsub] at this
      exact this) MAX_NSYMB_PER_SLOT (Nat.le_refl _)
  exact h

/-- With matching layer and port counts in addition, the buffered `map` returns normally exactly when the input declares as many REs as are selected, and the final check fires otherwise. -/
theorem map_result (g : resource_grid_impl α) (input : re_buffer α)
    (pattern reserved : re_pattern_list) (precoding : precoding_configuration α)
    (hsize : g.nof_subc + NRE ≤ 2 ^ 32)
    (hcov : bypass precoding = true ∨ prgs_cover g.nof_subc pattern reserved precoding)
    (hl : input.nof_slices = precoding.get_nof_layers)
    (hp : precoding.get_nof_ports ≤ g.nof_ports) :
    ∃ st, map_loop g input pattern reserved precoding = .ok st ∧
      map_inv g pattern reserved precoding.get_nof_ports
        (mapped_value input precoding g.nof_subc pattern reserved) MAX_NSYMB_PER_SLOT st ∧
      map g input pattern reserved precoding =
        if total_selected g.nof_subc pattern reserved MAX_NSYMB_PER_SLOT = input.nof_re then
          .ok st.grid
        else .error (.total_re, st.grid) := by
  obtain ⟨st, h1, h2⟩ := map_loop_ok g input pattern reserved precoding hsize hcov
  refine ⟨st, h1, h2, ?_⟩
  unfold map
  rw [if_neg (not_not.mpr hl), if_neg (not_not.mpr hp), h1]
  simp only [h2.i_re]

end resource_grid_impl
end srsran

namespace srsran
open bounded_bitset

theorem written_cells_eq_shape_cells {α : Type} (log : List (put_call α)) :
    written_cells log = shape_cells (log.map put_call.shape) := by
  induction log with
  | nil => rfl
  | cons c log ih => simp [written_cells, shape_cells, put_call.shape, ih]

theorem shape_cells_append (a b : List (Nat × Nat × Nat × List Bool × Nat)) :
    shape_cells (a ++ b) = shape_cells a ++ shape_cells b := by
  induction a with
  | nil => rfl
  | cons c a ih => simp [shape_cells, ih]

theorem mem_shape_cells (l : List (Nat × Nat × Nat × List Bool × Nat)) (c : Nat × Nat × Nat) :
    c ∈ shape_cells l ↔ ∃ x, x ∈ l ∧ c ∈ mask_cells x.1 x.2.1 x.2.2.1 x.2.2.2.1 x.2.2.2.2 := by
  induction l with
  | nil => simp [shape_cells]
  | cons x l ih => simp [shape_cells, ih]

theorem mem_shape_cells_symbol_shapes (size : Nat) (pattern reserved : re_pattern_list)
    (nof_ports s : Nat) (c : Nat × Nat × Nat) :
    c ∈ shape_cells (symbol_shapes size pattern reserved nof_ports s) ↔
      c.1 < nof_ports ∧ c.2.1 = s ∧ test (selection_mask size pattern reserved s) c.2.2 = true := by
  rw [mem_shape_cells]
  unfold symbol_shapes
  by_cases hneg : find_highest (selection_mask size pattern reserved s) < 0
  · rw [if_pos hneg]
    have := (find_highest_neg_iff _).mp hneg c.2.2
    simp [this]
  · rw [if_neg hneg]
    constructor
    · rintro ⟨x, hx, hc⟩
      rw [List.mem_map] at hx
      obtain ⟨p, hp, rfl⟩ := hx
      rw [mem_mask_cells] at hc
      simp only [Nat.sub_zero, test_truncated_mask] at hc
      exact ⟨by rw [hc.1]; exact List.mem_range.mp hp, hc.2.1, hc.2.2.2.1⟩
    · rintro ⟨h1, h2, h3⟩
      refine ⟨_, List.mem_map.mpr ⟨c.1, List.mem_range.mpr h1, rfl⟩, ?_⟩
      rw [mem_mask_cells]
      simp only [Nat.sub_zero, test_truncated_mask, Nat.zero_le, true_and]
      refine ⟨h2, h3, ?_⟩
      rw [rank_eq_of_test_eq (test_truncated_mask size pattern reserved s)]
      exact rank_lt_count h3

theorem mem_shape_cells_map_shapes (size : Nat) (pattern reserved : re_pattern_list)
    (nof_ports n : Nat) (c : Nat × Nat × Nat) :
    c ∈ shape_cells (map_shapes size pattern reserved nof_ports n) ↔
      c.1 < nof_ports ∧ c.2.1 < n ∧
        test (selection_mask size pattern reserved c.2.1) c.2.2 = true := by
  induction n with
  | zero => simp [map_shapes, shape_cells]
  | succ n ih =>
    simp only [map_shapes, shape_cells_append, List.mem_append, ih,
      mem_shape_cells_symbol_shapes]
    constructor
    · rintro (⟨h1, h2, h3⟩ | ⟨h1, h2, h3⟩)
      · exact ⟨h1, by omega, h3⟩
      · exact ⟨h1, by omega, by rw [h2]; exact h3⟩
    · rintro ⟨h1, h2, h3⟩
      by_cases h : c.2.1 = n
      · right; exact ⟨h1, h, by rw [← h]; exact h3⟩
      · left; exact ⟨h1, by omega, h3⟩

/-- The cells written since the log had the entries of `g`: those of the shapes added. -/
theorem written_cells_drop {α : Type} (log0 log1 : List (put_call α))
    (added : List (Nat × Nat × Nat × List Bool × Nat))
    (h : log1.map put_call.shape = log0.map put_call.shape ++ added) :
    written_cells (log1.drop log0.length) = shape_cells added := by
  rw [written_cells_eq_shape_cells, List.map_drop, h]
  have : log0.length = (log0.map put_call.shape).length := by simp
  rw [this, List.drop_left]

theorem getD_get_port_coefficients {α : Type} [Zero α] (w : precoding_weight_matrix α)
    (p l : Nat) (h : l < w.nof_layers) :
    (w.get_port_coefficients p).getD l 0 = w.coefficient l p := by
  simp [precoding_weight_matrix.get_port_coefficients, List.getD_eq_getElem?_getD,
    List.getElem?_map, List.getElem?_range h]

end srsran

namespace srsran
open bounded_bitset

theorem for_loop_range_succ_ok {σ : Type} (body : σ → Nat → outcome σ) (n : Nat) (s s2 : σ)
    (h : for_loop body (List.range (n + 1)) s = .ok s2) :
    ∃ s1, for_loop body (List.range n) s = .ok s1 ∧ body s1 n = .ok s2 := by
  cases h1 : for_loop body (List.range n) s with
  | error e =>
    rw [for_loop_range_succ_error _ _ _ _ h1] at h
    exact Except.noConfusion h
  | ok s1 =>
    rw [for_loop_range_succ _ _ _ _ h1] at h
    exact ⟨s1, rfl, h⟩

namespace resource_grid_impl

variable {α : Type} [CommSemiring α] [DecidableEq α]

/-- When the general path of a symbol returns, it has consumed one input RE per set bit of the mask. -/
theorem map_general_counter (input : re_buffer α) (precoding : precoding_configuration α)
    (s : Nat) (m : List Bool) (st st1 : map_state α) (hlen : m.length < 2 ^ 32)
    (h : map_general input precoding s m st = .ok st1) :
    st1.i_re_buffer = st.i_re_buffer + count m ∧ st1.grid.nof_subc = st.grid.nof_subc := by
  generalize hpb1 : (if count m ≠ st.grid.precoding_buffer.nof_re ∨
      precoding.get_nof_ports ≠ st.grid.precoding_buffer.nof_slices then
      st.grid.precoding_buffer.resize precoding.get_nof_ports (count m)
    else st.grid.precoding_buffer) = pb1
  have hpb1re : pb1.nof_re = count m := by
    rw [← hpb1]
    split
    · rfl
    · rename_i hc
      have := not_or.mp hc
      exact (not_not.mp this.1).symm
  have hinv := prg_inv_fold input precoding (u32 (precoding.get_prg_size * NRE)) m pb1
    st.i_re_buffer hlen precoding.get_nof_prg
  generalize hprg : (List.range precoding.get_nof_prg).foldl
    (map_prg input precoding (u32 (precoding.get_prg_size * NRE)) m)
    ⟨pb1, st.i_re_buffer, 0, 0⟩ = prg at hinv
  unfold map_general at h
  simp only [hpb1, hprg] at h
  by_cases hfill : prg.i_precoding_buffer = prg.precoding_buffer.nof_re
  · have hloop := for_loop_map_port s m
      { st.grid with precoding_buffer := prg.precoding_buffer }
      (by show prg.precoding_buffer.nof_re = count m; rw [hinv.nof_re, hpb1re])
      precoding.get_nof_ports
    rw [if_neg (not_not.mpr hfill), hloop] at h
    simp only [Except.ok.injEq] at h
    subst h
    refine ⟨?_, rfl⟩
    show prg.i_re_buffer = st.i_re_buffer + count m
    rw [hinv.i_re, ← hinv.i_pb, hfill, hinv.nof_re, hpb1re]
  · rw [if_pos hfill] at h
    exact Except.noConfusion h

/-- When an iteration of the symbol loop returns, it has consumed one input RE per selected RE of the symbol. -/
theorem map_symbol_counter (input : re_buffer α) (pattern reserved : re_pattern_list)
    (precoding : precoding_configuration α) (st st1 : map_state α) (s : Nat)
    (hsize : st.grid.nof_subc + NRE ≤ 2 ^ 32)
    (h : map_symbol input pattern reserved precoding st s = .ok st1) :
    st1.i_re_buffer = st.i_re_buffer +
        count (selection_mask st.grid.nof_subc pattern reserved s) ∧
      st1.grid.nof_subc = st.grid.nof_subc := by
  by_cases hneg : find_highest (selection_mask st.grid.nof_subc pattern reserved s) < 0
  · unfold map_symbol at h
    simp only [hneg, if_true, Except.ok.injEq] at h
    subst h
    rw [(count_eq_zero_iff _).mpr ((find_highest_neg_iff _).mp hneg)]
    exact ⟨rfl, rfl⟩
  · have h0 : 0 ≤ find_highest (selection_mask st.grid.nof_subc pattern reserved s) := by omega
    have hcount := count_truncated_mask st.grid.nof_subc pattern reserved s
    by_cases hb : bypass precoding = true
    · obtain ⟨st2, h1, h2⟩ := map_bypass_ok input s
        (truncated_mask st.grid.nof_subc pattern reserved s) st
      unfold map_symbol at h
      simp only [hneg, if_false, hb, if_true] at h
      have e : st2 = st1 := by
        have := h1.symm.trans h
        simpa using this
      subst e
      exact ⟨by rw [h2.i_re, hcount], h2.nof_subc_eq⟩
    · have hlen : (truncated_mask st.grid.nof_subc pattern reserved s).length < 2 ^ 32 := by
        have := length_truncated_mask_lt st.grid.nof_subc pattern reserved s h0
        unfold NRE at *
        omega
      unfold map_symbol at h
      simp only [hneg, if_false, hb] at h
      have := map_general_counter input precoding s
        (truncated_mask st.grid.nof_subc pattern reserved s) st st1 hlen h
      exact ⟨by rw [this.1, hcount], this.2⟩

/-- When the symbol loop returns, the counter of input REs is the number of selected REs. -/
theorem map_loop_counter (g : resource_grid_impl α) (input : re_buffer α)
    (pattern reserved : re_pattern_list) (precoding : precoding_configuration α)
    (hsize : g.nof_subc + NRE ≤ 2 ^ 32) (n : Nat) (st : map_state α)
    (h : for_loop (map_symbol input pattern reserved precoding) (List.range n) ⟨g, 0⟩ = .ok st) :
    st.i_re_buffer = total_selected g.nof_subc pattern reserved n ∧
      st.grid.nof_subc = g.nof_subc := by
  induction n generalizing st with
  | zero =>
    simp only [List.range_zero, for_loop, Except.ok.injEq] at h
    subst h
    exact ⟨rfl, rfl⟩
  | succ n ih =>
    obtain ⟨s1, h1, h2⟩ := for_loop_range_succ_ok _ _ _ _ h
    have i1 := ih s1 h1
    have i2 := map_symbol_counter input pattern reserved precoding s1 st n
      (by rw [i1.2]; exact hsize) h2
    rw [i1.2] at i2
    exact ⟨by rw [i2.1, i1.1]; rfl, i2.2⟩

end resource_grid_impl
end srsran

namespace srsran
open bounded_bitset resource_grid_impl

/-- C1 (coverage of the buffered map). From a grid whose ports are all flagged empty and whose cells are all zero, with matching layer and port counts, PRGs that cover every selected subcarrier and an input declaring as many REs as are selected, `map` returns a grid in which the cells written by the call are exactly the cells `(p, s, k)` with `p` below the precoding port count, `s` in 0..13 and bit `k` set in the selection mask of `s`; every cell not written is still zero, and every port at or above the precoding port count is still flagged empty. -/
theorem C1_map_coverage {α : Type} [CommSemiring α] [DecidableEq α]
    (g : resource_grid_impl α) (input : re_buffer α) (pattern reserved : re_pattern_list)
    (precoding : precoding_configuration α)
    (hempty : ∀ p, g.empty p = true) (hzero : ∀ p s k, g.rg_buffer p s k = 0)
    (hsize : g.nof_subc + NRE ≤ 2 ^ 32)
    (hl : input.nof_slices = precoding.get_nof_layers)
    (hp : precoding.get_nof_ports ≤ g.nof_ports)
    (hcov : prgs_cover g.nof_subc pattern reserved precoding)
    (hre : input.nof_re = total_selected g.nof_subc pattern reserved MAX_NSYMB_PER_SLOT) :
    ∃ g1, map g input pattern reserved precoding = .ok g1 ∧
      (∀ p s k, (p, s, k) ∈ written_cells (g1.put_log.drop g.put_log.length) ↔
        p < precoding.get_nof_ports ∧ s < MAX_NSYMB_PER_SLOT ∧
          test (selection_mask g.nof_subc pattern reserved s) k = true) ∧
      (∀ p s k, (p, s, k) ∉ written_cells (g1.put_log.drop g.put_log.length) →
        g1.rg_buffer p s k = 0) ∧
      (∀ p, precoding.get_nof_ports ≤ p → g1.empty p = true) := by
  obtain ⟨st, _, hinv, hmap⟩ :=
    map_result g input pattern reserved precoding hsize (Or.inr hcov) hl hp
  rw [if_pos hre.symm] at hmap
  have hw : ∀ p s k, (p, s, k) ∈ written_cells (st.grid.put_log.drop g.put_log.length) ↔
      p < precoding.get_nof_ports ∧ s < MAX_NSYMB_PER_SLOT ∧
        test (selection_mask g.nof_subc pattern reserved s) k = true := by
    intro p s k
    rw [written_cells_drop _ _ _ hinv.log, mem_shape_cells_map_shapes]
  refine ⟨st.grid, hmap, hw, ?_, ?_⟩
  · intro p s k hn
    rw [hinv.cell, if_neg (fun h => hn ((hw p s k).mpr h))]
    exact hzero p s k
  · intro p hge
    rw [hinv.empty, if_neg (fun h => by omega)]
    exact hempty p

/-- C1 at the one-PRB scenario: pattern on symbol 0, odd subcarriers reserved, one layer of 6 REs, gain 2. -/
theorem C1_map_coverage_witness :
    (∀ p, scenario.grid.empty p = true) ∧ (∀ p s k, scenario.grid.rg_buffer p s k = 0) ∧
    scenario.grid.nof_subc + NRE ≤ 2 ^ 32 ∧
    scenario.input6.nof_slices = scenario.precoding_gain.get_nof_layers ∧
    scenario.precoding_gain.get_nof_ports ≤ scenario.grid.nof_ports ∧
    prgs_cover scenario.grid.nof_subc scenario.pattern scenario.reserved_odd
      scenario.precoding_gain ∧
    scenario.input6.nof_re =
      total_selected scenario.grid.nof_subc scenario.pattern scenario.reserved_odd
        MAX_NSYMB_PER_SLOT ∧
    ∃ g1, map scenario.grid scenario.input6 scenario.pattern scenario.reserved_odd
        scenario.precoding_gain = .ok g1 ∧
      (∀ p s k, (p, s, k) ∈ written_cells (g1.put_log.drop scenario.grid.put_log.length) ↔
        p < scenario.precoding_gain.get_nof_ports ∧ s < MAX_NSYMB_PER_SLOT ∧
          test (selection_mask scenario.grid.nof_subc scenario.pattern scenario.reserved_odd s)
            k = true) ∧
      (∀ p s k, (p, s, k) ∉ written_cells (g1.put_log.drop scenario.grid.put_log.length) →
        g1.rg_buffer p s k = 0) ∧
      (∀ p, scenario.precoding_gain.get_nof_ports ≤ p → g1.empty p = true) :=
  have h1 : ∀ p, scenario.grid.empty p = true := fun p => by
    simp [scenario.grid, create, zero_port, List.range_succ]
  have h2 : ∀ p s k, scenario.grid.rg_buffer p s k = 0 := fun p s k => by
    simp [scenario.grid, create, zero_port, List.range_succ]
  ⟨h1, h2, by decide, by decide, by decide, by decide, by decide,
    C1_map_coverage scenario.grid scenario.input6 scenario.pattern scenario.reserved_odd
      scenario.precoding_gain h1 h2 (by decide) (by decide) (by decide) (by decide) (by decide)⟩

end srsran

namespace srsran
open bounded_bitset resource_grid_impl

/-- C2 (conservation in the buffered map). On a grid whose width fits `unsigned`: if `map` returns normally then its symbol loop has consumed as many input REs as are selected in the symbols 0..13 (the sum of the counts of the selection masks), and that number is the declared RE count of the input; an input whose declared RE count differs from that sum never lets `map` return normally; and the check that stops it is the final one whenever the checks before it pass, that is, when the layer and port counts match and the PRGs cover the selected subcarriers (or the bypass path is taken). -/
theorem C2_map_conservation {α : Type} [CommSemiring α] [DecidableEq α]
    (g : resource_grid_impl α) (input : re_buffer α) (pattern reserved : re_pattern_list)
    (precoding : precoding_configuration α) (hsize : g.nof_subc + NRE ≤ 2 ^ 32) :
    (∀ g1, map g input pattern reserved precoding = .ok g1 →
      ∃ st, map_loop g input pattern reserved precoding = .ok st ∧
        st.i_re_buffer = total_selected g.nof_subc pattern reserved MAX_NSYMB_PER_SLOT ∧
        st.i_re_buffer = input.nof_re) ∧
    (input.nof_re ≠ total_selected g.nof_subc pattern reserved MAX_NSYMB_PER_SLOT →
      ∃ e, map g input pattern reserved precoding = .error e) ∧
    (input.nof_slices = precoding.get_nof_layers → precoding.get_nof_ports ≤ g.nof_ports →
      (bypass precoding = true ∨ prgs_cover g.nof_subc pattern reserved precoding) →
      input.nof_re ≠ total_selected g.nof_subc pattern reserved MAX_NSYMB_PER_SLOT →
      ∃ g1, map g input pattern reserved precoding = .error (.total_re, g1)) := by
  have part1 : ∀ g1, map g input pattern reserved precoding = .ok g1 →
      ∃ st, map_loop g input pattern reserved precoding = .ok st ∧
        st.i_re_buffer = total_selected g.nof_subc pattern reserved MAX_NSYMB_PER_SLOT ∧
        st.i_re_buffer = input.nof_re := by
    intro g1 h
    unfold map at h
    split at h
    · exact Except.noConfusion h
    · split at h
      · exact Except.noConfusion h
      · cases hloop : map_loop g input pattern reserved precoding with
        | error e =>
          rw [hloop] at h
          exact Except.noConfusion h
        | ok st =>
          rw [hloop] at h
          simp only at h
          split at h
          · rename_i heq
            exact ⟨st, rfl,
              (map_loop_counter g input pattern reserved precoding hsize _ st hloop).1, heq⟩
          · exact Except.noConfusion h
  refine ⟨part1, ?_, ?_⟩
  · intro hne
    cases hm : map g input pattern reserved precoding with
    | error e => exact ⟨e, rfl⟩
    | ok g1 =>
      obtain ⟨st, _, h2, h3⟩ := part1 g1 hm
      exact absurd (h3.symm.trans h2) hne
  · intro hl hp hcov hne
    obtain ⟨st, _, _, hmap⟩ := map_result g input pattern reserved precoding hsize hcov hl hp
    rw [if_neg (fun h => hne h.symm)] at hmap
    exact ⟨st.grid, hmap⟩

/-- C2 at the one-PRB scenario: with the odd subcarriers of symbol 0 reserved, 6 REs are selected; an input of 6 REs is mapped and exactly 6 REs are consumed, and an input of 5 REs stops at the final check. -/
theorem C2_map_conservation_witness :
    scenario.grid.nof_subc + NRE ≤ 2 ^ 32 ∧
    total_selected scenario.grid.nof_subc scenario.pattern scenario.reserved_odd
      MAX_NSYMB_PER_SLOT = 6 ∧
    (∃ st, map_loop scenario.grid scenario.input6 scenario.pattern scenario.reserved_odd
        scenario.precoding = .ok st ∧ st.i_re_buffer = 6) ∧
    (∃ g1, map scenario.grid scenario.input5 scenario.pattern scenario.reserved_odd
        scenario.precoding = .error (.total_re, g1)) := by
  have hT : total_selected scenario.grid.nof_subc scenario.pattern scenario.reserved_odd
      MAX_NSYMB_PER_SLOT = 6 := by decide
  have hC := C2_map_conservation scenario.grid scenario.input6 scenario.pattern
    scenario.reserved_odd scenario.precoding (by decide)
  have hC5 := C2_map_conservation scenario.grid scenario.input5 scenario.pattern
    scenario.reserved_odd scenario.precoding (by decide)
  obtain ⟨st, _, _, hmap⟩ := map_result scenario.grid scenario.input6 scenario.pattern
    scenario.reserved_odd scenario.precoding (by decide) (Or.inl (by decide)) (by decide)
    (by decide)
  rw [if_pos (hT.trans (by decide))] at hmap
  obtain ⟨st1, h1, h2, _⟩ := hC.1 _ hmap
  exact ⟨by decide, hT, ⟨st1, h1, by rw [h2, hT]⟩,
    hC5.2.2 (by decide) (by decide) (Or.inl (by decide)) (by decide)⟩

theorem prg_index_lt_of_cover {α : Type} (size : Nat) (pattern reserved : re_pattern_list)
    (precoding : precoding_configuration α) (s k : Nat)
    (hcov : prgs_cover size pattern reserved precoding) (hs : s < MAX_NSYMB_PER_SLOT)
    (hk : test (selection_mask size pattern reserved s) k = true) :
    k / u32 (precoding.get_prg_size * NRE) < precoding.get_nof_prg := by
  have h1 := le_find_highest _ _ hk
  have h2 := hcov s hs
  have h3 : k < precoding.get_nof_prg * u32 (precoding.get_prg_size * NRE) := by omega
  rw [Nat.mul_comm] at h3
  exact Nat.div_lt_of_lt_mul h3

/-- C3 (identity precoding in the buffered map). With 2 layers, 2 ports and the identity weight matrix in every PRG, PRGs covering the selected subcarriers, and the kernel that computes port `p` as the sum over the layers of `W[p][l] * layer l`, `map` returns a grid in which every selected RE `(s, k)` of port `i` (`i` = 0, 1) holds the RE of input layer `i` whose index is the rank of `(s, k)` among the selected REs ordered by symbol then subcarrier. -/
theorem C3_identity_precoding {α : Type} [CommSemiring α] [DecidableEq α]
    (g : resource_grid_impl α) (input : re_buffer α) (pattern reserved : re_pattern_list)
    (precoding : precoding_configuration α) (hsize : g.nof_subc + NRE ≤ 2 ^ 32)
    (hL : precoding.get_nof_layers = 2) (hP : precoding.get_nof_ports = 2)
    (hW : ∀ l p i_prg, l < 2 → p < 2 → i_prg < precoding.get_nof_prg →
      precoding.get_coefficient l p i_prg = if l = p then 1 else 0)
    (hl : input.nof_slices = precoding.get_nof_layers)
    (hp : precoding.get_nof_ports ≤ g.nof_ports)
    (hcov : prgs_cover g.nof_subc pattern reserved precoding)
    (hre : input.nof_re = total_selected g.nof_subc pattern reserved MAX_NSYMB_PER_SLOT) :
    ∃ g1, map g input pattern reserved precoding = .ok g1 ∧
      ∀ i s k, i < 2 → s < MAX_NSYMB_PER_SLOT →
        test (selection_mask g.nof_subc pattern reserved s) k = true →
        g1.rg_buffer i s k =
          input.data i (total_selected g.nof_subc pattern reserved s +
            rank (selection_mask g.nof_subc pattern reserved s) k) := by
  obtain ⟨st, _, hinv, hmap⟩ :=
    map_result g input pattern reserved precoding hsize (Or.inr hcov) hl hp
  rw [if_pos hre.symm] at hmap
  refine ⟨st.grid, hmap, ?_⟩
  intro i s k hi hs hk
  rw [hinv.cell, if_pos ⟨by rw [hP]; exact hi, hs, hk⟩]
  have hnb : bypass precoding = false := by
    simp [bypass, hL]
  have hdiv := prg_index_lt_of_cover g.nof_subc pattern reserved precoding s k hcov hs hk
  have hin : input.nof_slices = 2 := by rw [hl, hL]
  have hnl : (precoding.get_prg_coefficients
      (k / u32 (precoding.get_prg_size * NRE))).nof_layers = 2 := hL
  simp only [mapped_value, symbol_value, hnb, precoded_re, hin, Bool.false_eq_true, if_false]
  simp only [List.range_succ, List.range_zero, List.nil_append, List.map_cons, List.map_nil,
    List.singleton_append, List.sum_cons, List.sum_nil,
    getD_get_port_coefficients _ _ _ (by rw [hnl]; decide : 0 < _),
    getD_get_port_coefficients _ _ _ (by rw [hnl]; decide : 1 < _)]
  have w0 := hW 0 i _ (by decide) hi hdiv
  have w1 := hW 1 i _ (by decide) hi hdiv
  simp only [precoding_configuration.get_coefficient] at w0 w1
  simp only [precoding_configuration.get_prg_coefficients, w0, w1]
  have hi2 : i = 0 ∨ i = 1 := by omega
  rcases hi2 with rfl | rfl <;> simp

/-- C3 at a two-port grid of one PRB: two layers of 12 REs, all subcarriers of symbol 0 selected, identity weights. -/
theorem C3_identity_precoding_witness :
    scenario.grid2.nof_subc + NRE ≤ 2 ^ 32 ∧
    scenario.precoding_identity.get_nof_layers = 2 ∧
    scenario.precoding_identity.get_nof_ports = 2 ∧
    scenario.input2x12.nof_slices = scenario.precoding_identity.get_nof_layers ∧
    scenario.precoding_identity.get_nof_ports ≤ scenario.grid2.nof_ports ∧
    prgs_cover scenario.grid2.nof_subc scenario.pattern [] scenario.precoding_identity ∧
    scenario.input2x12.nof_re =
      total_selected scenario.grid2.nof_subc scenario.pattern [] MAX_NSYMB_PER_SLOT ∧
    ∃ g1, map scenario.grid2 scenario.input2x12 scenario.pattern [] scenario.precoding_identity
        = .ok g1 ∧
      ∀ i s k, i < 2 → s < MAX_NSYMB_PER_SLOT →
        test (selection_mask scenario.grid2.nof_subc scenario.pattern [] s) k = true →
        g1.rg_buffer i s k =
          scenario.input2x12.data i
            (total_selected scenario.grid2.nof_subc scenario.pattern [] s +
              rank (selection_mask scenario.grid2.nof_subc scenario.pattern [] s) k) :=
  ⟨by decide, by decide, by decide, by decide, by decide, by decide, by decide,
    C3_identity_precoding scenario.grid2 scenario.input2x12 scenario.pattern []
      scenario.precoding_identity (by decide) (by decide) (by decide)
      (fun l p i_prg _ _ _ => rfl) (by decide) (by decide) (by decide) (by decide)⟩

end srsran

namespace srsran
open bounded_bitset resource_grid_impl

/-- C4 (bypass equivalence in the buffered map). For one layer, one port, one PRG with coefficient 1 whose window covers the selected subcarriers, and the kernel that multiplies each RE by the weight, `map` (which takes the bypass branch) and the same mapping through the general branch end alike: both return, with grids equal cell for cell and port flag for port flag, or both stop at the same fatal check with such grids. -/
theorem C4_bypass_equivalence {α : Type} [CommSemiring α] [DecidableEq α]
    (g : resource_grid_impl α) (input : re_buffer α) (pattern reserved : re_pattern_list)
    (precoding : precoding_configuration α) (hsize : g.nof_subc + NRE ≤ 2 ^ 32)
    (hL : precoding.get_nof_layers = 1) (hP : precoding.get_nof_ports = 1)
    (hG : precoding.get_nof_prg = 1) (hc : precoding.get_coefficient 0 0 0 = 1)
    (hcov : prgs_cover g.nof_subc pattern reserved precoding) :
    match map g input pattern reserved precoding,
      map_via_general g input pattern reserved precoding with
    | .ok g1, .ok g2 =>
      (∀ p s k, g1.rg_buffer p s k = g2.rg_buffer p s k) ∧ (∀ p, g1.empty p = g2.empty p)
    | .error e1, .error e2 =>
      e1.1 = e2.1 ∧ (∀ p s k, e1.2.rg_buffer p s k = e2.2.rg_buffer p s k) ∧
        (∀ p, e1.2.empty p = e2.2.empty p)
    | _, _ => False := by
  by_cases hl : input.nof_slices = precoding.get_nof_layers
  swap
  · have e1 : map g input pattern reserved precoding = .error (.input_layers, g) := by
      unfold map; rw [if_pos hl]
    have e2 : map_via_general g input pattern reserved precoding = .error (.input_layers, g) := by
      unfold map_via_general; rw [if_pos hl]
    rw [e1, e2]
    exact ⟨rfl, fun _ _ _ => rfl, fun _ => rfl⟩
  by_cases hp : precoding.get_nof_ports ≤ g.nof_ports
  swap
  · have e1 : map g input pattern reserved precoding = .error (.precoding_ports, g) := by
      unfold map; rw [if_neg (not_not.mpr hl), if_pos hp]
    have e2 : map_via_general g input pattern reserved precoding =
        .error (.precoding_ports, g) := by
      unfold map_via_general; rw [if_neg (not_not.mpr hl), if_pos hp]
    rw [e1, e2]
    exact ⟨rfl, fun _ _ _ => rfl, fun _ => rfl⟩
  have hb : bypass precoding = true := by
    simp [bypass, hL, hP, hG, hc]
  obtain ⟨st1, _, hinv1, hmap1⟩ :=
    map_result g input pattern reserved precoding hsize (Or.inl hb) hl hp
  obtain ⟨st2, hloop2, hinv2⟩ := loop_inv g pattern reserved precoding.get_nof_ports
    (map_symbol_general input pattern reserved precoding)
    (fun i_re p s k => precoded_re input precoding (k / u32 (precoding.get_prg_size * NRE)) p
      (i_re + rank (selection_mask g.nof_subc pattern reserved s) k)) (by
      intro st s hs hsub
      have := map_symbol_general_ok input pattern reserved precoding st s
        (by rw [hsub]; exact hsize) (by rw [hsub]; exact hcov s hs)
      rw [hsub] at this
      exact this) MAX_NSYMB_PER_SLOT (Nat.le_refl _)
  have hmap2 : map_via_general g input pattern reserved precoding =
      if total_selected g.nof_subc pattern reserved MAX_NSYMB_PER_SLOT = input.nof_re then
        .ok st2.grid
      else .error (.total_re, st2.grid) := by
    unfold map_via_general
    rw [if_neg (not_not.mpr hl), if_neg (not_not.mpr hp), hloop2]
    simp only [hinv2.i_re]
  have hcell : ∀ p s k, st1.grid.rg_buffer p s k = st2.grid.rg_buffer p s k := by
    intro p s k
    rw [hinv1.cell, hinv2.cell]
    by_cases hcnd : p < precoding.get_nof_ports ∧ s < MAX_NSYMB_PER_SLOT ∧
        test (selection_mask g.nof_subc pattern reserved s) k = true
    · rw [if_pos hcnd, if_pos hcnd]
      have hp0 : p = 0 := by have := hcnd.1; omega
      have hdiv := prg_index_lt_of_cover g.nof_subc pattern reserved precoding s k hcov
        hcnd.2.1 hcnd.2.2
      have hd0 : k / u32 (precoding.get_prg_size * NRE) = 0 := by
        rw [hG] at hdiv
        exact Nat.lt_one_iff.mp hdiv
      have hin : input.nof_slices = 1 := by rw [hl, hL]
      have hnl : (precoding.get_prg_coefficients 0).nof_layers = 1 := hL
      subst hp0
      simp only [mapped_value, symbol_value, hb, if_true, precoded_re, hin, hd0]
      simp only [List.range_succ, List.range_zero, List.nil_append, List.map_cons, List.map_nil,
        List.sum_cons, List.sum_nil,
        getD_get_port_coefficients _ _ _ (by rw [hnl]; decide : 0 < _)]
      simp only [precoding_configuration.get_coefficient] at hc
      simp [precoding_configuration.get_prg_coefficients, hc]
    · rw [if_neg hcnd, if_neg hcnd]
  have hempty : ∀ p, st1.grid.empty p = st2.grid.empty p := by
    intro p
    rw [hinv1.empty, hinv2.empty]
  rw [hmap1, hmap2]
  by_cases hre : total_selected g.nof_subc pattern reserved MAX_NSYMB_PER_SLOT = input.nof_re
  · rw [if_pos hre, if_pos hre]
    exact ⟨hcell, hempty⟩
  · rw [if_neg hre, if_neg hre]
    exact ⟨rfl, hcell, hempty⟩

/-- C4 at the one-PRB scenario: one layer of 6 REs, odd subcarriers reserved, coefficient 1. -/
theorem C4_bypass_equivalence_witness :
    scenario.grid.nof_subc + NRE ≤ 2 ^ 32 ∧
    scenario.precoding.get_nof_layers = 1 ∧ scenario.precoding.get_nof_ports = 1 ∧
    scenario.precoding.get_nof_prg = 1 ∧ scenario.precoding.get_coefficient 0 0 0 = 1 ∧
    prgs_cover scenario.grid.nof_subc scenario.pattern scenario.reserved_odd
      scenario.precoding ∧
    match map scenario.grid scenario.input6 scenario.pattern scenario.reserved_odd
        scenario.precoding,
      map_via_general scenario.grid scenario.input6 scenario.pattern scenario.reserved_odd
        scenario.precoding with
    | .ok g1, .ok g2 =>
      (∀ p s k, g1.rg_buffer p s k = g2.rg_buffer p s k) ∧ (∀ p, g1.empty p = g2.empty p)
    | .error e1, .error e2 =>
      e1.1 = e2.1 ∧ (∀ p s k, e1.2.rg_buffer p s k = e2.2.rg_buffer p s k) ∧
        (∀ p, e1.2.empty p = e2.2.empty p)
    | _, _ => False :=
  ⟨by decide, by decide, by decide, by decide, by decide, by decide,
    C4_bypass_equivalence scenario.grid scenario.input6 scenario.pattern scenario.reserved_odd
      scenario.precoding (by decide) (by decide) (by decide) (by decide) (by decide)
      (by decide)⟩

theorem map_bypass_eq {α : Type} (input : re_buffer α) (s : Nat) (m : List Bool)
    (st : map_state α) :
    map_bypass input s m st =
      .ok ⟨(st.grid.put 0 s 0 m ((input.view st.i_re_buffer (count m)).get_slice 0)).1,
        st.i_re_buffer + count m⟩ := by
  have hs : (st.grid.put 0 s 0 m ((input.view st.i_re_buffer (count m)).get_slice 0)).2 = [] := by
    rw [put_snd]
    apply List.drop_eq_nil_of_le
    rw [length_get_slice]
    exact Nat.le_refl _
  unfold map_bypass
  simp only [hs, List.isEmpty_nil, if_true]

/-- C5 (bypass path of the buffered map). When there is one layer, one precoding port, one PRG and coefficient (0,0,0) is 1, the iteration of the symbol loop for a symbol with a non-empty mask returns after exactly one `put`: the next `count(mask)` REs of input layer 0, written to port 0 of the symbol from subcarrier 0 at the truncated mask; the cell at a set bit `k` receives the input RE whose index is the counter plus the rank of `k` in the mask, no other cell changes, and the counter advances by `count(mask)`. -/
theorem C5_bypass_path {α : Type} [CommSemiring α] [DecidableEq α]
    (input : re_buffer α) (pattern reserved : re_pattern_list)
    (precoding : precoding_configuration α) (st : map_state α) (s : Nat)
    (hL : precoding.get_nof_layers = 1) (hP : precoding.get_nof_ports = 1)
    (hG : precoding.get_nof_prg = 1) (hc : precoding.get_coefficient 0 0 0 = 1)
    (hne : 0 ≤ find_highest (selection_mask st.grid.nof_subc pattern reserved s)) :
    ∃ st1, map_symbol input pattern reserved precoding st s = .ok st1 ∧
      st1.i_re_buffer = st.i_re_buffer +
        count (selection_mask st.grid.nof_subc pattern reserved s) ∧
      st1.grid.put_log = st.grid.put_log ++
        [⟨0, s, 0, truncated_mask st.grid.nof_subc pattern reserved s,
          (List.range (count (selection_mask st.grid.nof_subc pattern reserved s))).map
            (fun i => input.data 0 (st.i_re_buffer + i))⟩] ∧
      (∀ p s1 k, st1.grid.rg_buffer p s1 k =
        if p = 0 ∧ s1 = s ∧ test (selection_mask st.grid.nof_subc pattern reserved s) k = true
        then input.data 0
          (st.i_re_buffer + rank (selection_mask st.grid.nof_subc pattern reserved s) k)
        else st.grid.rg_buffer p s1 k) := by
  have hb : bypass precoding = true := by
    simp [bypass, hL, hP, hG, hc]
  have hneg : ¬ find_highest (selection_mask st.grid.nof_subc pattern reserved s) < 0 := by
    omega
  have htest := test_truncated_mask st.grid.nof_subc pattern reserved s
  have hcount := count_truncated_mask st.grid.nof_subc pattern reserved s
  have hrank := rank_eq_of_test_eq htest
  have hsym : map_symbol input pattern reserved precoding st s =
      map_bypass input s (truncated_mask st.grid.nof_subc pattern reserved s) st := by
    unfold map_symbol
    simp only [hneg, if_false, hb, if_true]
    rfl
  obtain ⟨st2, h1, h2⟩ := map_bypass_ok input s
    (truncated_mask st.grid.nof_subc pattern reserved s) st
  have heq := map_bypass_eq input s (truncated_mask st.grid.nof_subc pattern reserved s) st
  refine ⟨st2, by rw [hsym, h1], by rw [h2.i_re, hcount], ?_, ?_⟩
  · rw [Except.ok.inj (h1.symm.trans heq)]
    simp only [put_put_log, re_buffer.get_slice, re_buffer.view, hcount]
  · intro p s1 k
    rw [h2.cell, htest, hrank]
    simp only [Nat.lt_one_iff]

end srsran

namespace srsran
open bounded_bitset resource_grid_impl

theorem scenario_test_selection (s k : Nat) :
    test (selection_mask 12 scenario.pattern [] s) k = true ↔ s = 0 ∧ k < 12 := by
  rw [test_selection_mask]
  simp [scenario.pattern, re_pattern_list.covers]

/-- C5 at the one-PRB scenario (1 port, 14 symbols, 12 subcarriers, all 12 subcarriers of symbol 0 selected, input values 1..12): the iteration for symbol 0 consumes 12 REs, and after `map` the cells 0..11 of symbol 0 of port 0 hold the input in order and every other cell is zero. -/
theorem C5_bypass_path_witness :
    scenario.precoding.get_nof_layers = 1 ∧ scenario.precoding.get_nof_ports = 1 ∧
    scenario.precoding.get_nof_prg = 1 ∧ scenario.precoding.get_coefficient 0 0 0 = 1 ∧
    0 ≤ find_highest (selection_mask scenario.grid.nof_subc scenario.pattern [] 0) ∧
    (∃ st1, map_symbol scenario.input12 scenario.pattern [] scenario.precoding
        ⟨scenario.grid, 0⟩ 0 = .ok st1 ∧
      st1.i_re_buffer = 0 + count (selection_mask scenario.grid.nof_subc scenario.pattern [] 0) ∧
      st1.grid.put_log = scenario.grid.put_log ++
        [⟨0, 0, 0, truncated_mask scenario.grid.nof_subc scenario.pattern [] 0,
          (List.range (count (selection_mask scenario.grid.nof_subc scenario.pattern [] 0))).map
            (fun i => scenario.input12.data 0 (0 + i))⟩] ∧
      (∀ p s1 k, st1.grid.rg_buffer p s1 k =
        if p = 0 ∧ s1 = 0 ∧
          test (selection_mask scenario.grid.nof_subc scenario.pattern [] 0) k = true
        then scenario.input12.data 0
          (0 + rank (selection_mask scenario.grid.nof_subc scenario.pattern [] 0) k)
        else scenario.grid.rg_buffer p s1 k)) ∧
    count (selection_mask scenario.grid.nof_subc scenario.pattern [] 0) = 12 ∧
    ∃ g1, map scenario.grid scenario.input12 scenario.pattern [] scenario.precoding = .ok g1 ∧
      (∀ k, k < 12 → g1.rg_buffer 0 0 k = (k : Int) + 1) ∧
      (∀ p s k, ¬ (p = 0 ∧ s = 0 ∧ k < 12) → g1.rg_buffer p s k = 0) := by
  refine ⟨by decide, by decide, by decide, by decide, by decide,
    C5_bypass_path scenario.input12 scenario.pattern [] scenario.precoding ⟨scenario.grid, 0⟩ 0
      (by decide) (by decide) (by decide) (by decide) (by decide), by decide, ?_⟩
  obtain ⟨st, _, hinv, hmap⟩ := map_result scenario.grid scenario.input12 scenario.pattern []
    scenario.precoding (by decide) (Or.inl (by decide)) (by decide) (by decide)
  rw [if_pos (by decide)] at hmap
  have hsub : scenario.grid.nof_subc = 12 := by decide
  have hzero : ∀ p s k, scenario.grid.rg_buffer p s k = 0 := fun p s k => by
    simp [scenario.grid, create, zero_port, List.range_succ]
  have hrank : ∀ k, k < 12 → rank (selection_mask 12 scenario.pattern [] 0) k = k := by decide
  refine ⟨st.grid, hmap, ?_, ?_⟩
  · intro k hk
    rw [hinv.cell, hsub, if_pos ⟨by decide, by decide, (scenario_test_selection 0 k).mpr ⟨rfl, hk⟩⟩]
    have hb : bypass scenario.precoding = true := by decide
    simp only [mapped_value, symbol_value, hb, if_true, total_selected, hrank k hk,
      scenario.input12, Nat.zero_add]
  · intro p s k hn
    rw [hinv.cell, hsub, if_neg, hzero]
    rintro ⟨h1, _, h3⟩
    have := (scenario_test_selection s k).mp h3
    have hp1 : p < 1 := h1
    exact hn ⟨by omega, this.1, this.2⟩

end srsran

namespace srsran
open bounded_bitset resource_grid_impl

/-- A relation between states that is reflexive, transitive and kept by every iteration of the body, whether it returns or stops, is kept by the whole loop. -/
theorem for_loop_state_rel {σ : Type} (R : σ → σ → Prop) (hrefl : ∀ s, R s s)
    (htrans : ∀ a b c, R a b → R b c → R a c) (body : σ → Nat → outcome σ)
    (hbody : ∀ s i, R s (body s i).state) (l : List Nat) (s : σ) :
    R s (for_loop body l s).state := by
  induction l generalizing s with
  | nil => exact hrefl s
  | cons i rest ih =>
    simp only [for_loop]
    have h1 := hbody s i
    cases hb : body s i with
    | ok s1 =>
      rw [hb] at h1
      exact htrans _ _ _ h1 (ih s1)
    | error e =>
      rw [hb] at h1
      exact h1

/-- C6 (empty symbols are skipped). For a symbol whose resolved mask has no set bit, that is, every subcarrier of the inclusion patterns at the symbol is also in the reserved patterns, the iteration of the symbol loop of the buffered `map` and that of the streamed `map` return with the state they were given: no `put` is logged, the input counter is unchanged, no `pop_symbols` is logged, and no fatal check fires. -/
theorem C6_empty_symbol_skipped {α : Type} [CommSemiring α] [DecidableEq α]
    (input : re_buffer α) (pattern reserved : re_pattern_list)
    (precoding : precoding_configuration α) (st : map_state α)
    (MAX_RB fuel max_block_size : Nat)
    (sst : stream_state α) (s : Nat)
    (h : ∀ k, re_pattern_list.covers pattern s k = true →
      re_pattern_list.covers reserved s k = true) :
    map_symbol input pattern reserved precoding st s = .ok st ∧
      map_stream_symbol MAX_RB fuel pattern reserved precoding max_block_size sst s = .ok sst := by
  have hneg : ∀ size, find_highest (selection_mask size pattern reserved s) < 0 := by
    intro size
    rw [find_highest_neg_iff]
    intro k
    rw [test_selection_mask]
    by_cases hc : re_pattern_list.covers pattern s k = true
    · simp [h k hc]
    · simp [hc]
  constructor
  · unfold map_symbol
    simp only [hneg, if_true]
  · unfold map_stream_symbol
    simp only [hneg, if_true]

/-- C6 at the one-PRB scenario: symbol 1 is not selected by the pattern. -/
theorem C6_empty_symbol_skipped_witness :
    (∀ k, re_pattern_list.covers scenario.pattern 1 k = true →
      re_pattern_list.covers scenario.reserved_odd 1 k = true) ∧
    map_symbol scenario.input12 scenario.pattern scenario.reserved_odd scenario.precoding
        ⟨scenario.grid, 0⟩ 1 = .ok ⟨scenario.grid, 0⟩ ∧
      map_stream_symbol 275 8 scenario.pattern scenario.reserved_odd scenario.precoding 4
        ⟨scenario.grid, ⟨4, [1, 2, 3, 4], []⟩⟩ 1 = .ok ⟨scenario.grid, ⟨4, [1, 2, 3, 4], []⟩⟩ :=
  have h : ∀ k, re_pattern_list.covers scenario.pattern 1 k = true →
      re_pattern_list.covers scenario.reserved_odd 1 k = true := fun k hk => by
    simp [scenario.pattern, re_pattern_list.covers] at hk
  ⟨h, C6_empty_symbol_skipped scenario.input12 scenario.pattern scenario.reserved_odd
    scenario.precoding ⟨scenario.grid, 0⟩ 275 8 4 ⟨scenario.grid, ⟨4, [1, 2, 3, 4], []⟩⟩ 1 h⟩

namespace resource_grid_impl

variable {α : Type} [CommSemiring α] [DecidableEq α]

omit [CommSemiring α] [DecidableEq α] in
theorem pops_bounded_refl (mx L : Nat) (a : stream_state α) : pops_bounded mx L a a :=
  ⟨[], by simp, by simp⟩

omit [CommSemiring α] [DecidableEq α] in
theorem pops_bounded_trans (mx L : Nat) (a b c : stream_state α)
    (h1 : pops_bounded mx L a b) (h2 : pops_bounded mx L b c) : pops_bounded mx L a c := by
  obtain ⟨x, hx, px⟩ := h1
  obtain ⟨y, hy, py⟩ := h2
  refine ⟨x ++ y, by rw [hy, hx, List.append_assoc], ?_⟩
  intro n hn
  rcases List.mem_append.mp hn with h | h
  · exact px n h
  · exact py n h

omit [CommSemiring α] [DecidableEq α] in
theorem pops_bounded_of_log_eq (mx L : Nat) (a b : stream_state α)
    (h : b.buffer.pop_log = a.buffer.pop_log) : pops_bounded mx L a b :=
  ⟨[], by simp [h], by simp⟩

theorem map_block_pop_log (w : precoding_weight_matrix α) (L A s k : Nat) (m : List Bool)
    (st : stream_state α) :
    (map_block w L A s k m st).state.buffer.pop_log = st.buffer.pop_log ++ [count m * L] := by
  unfold map_block
  simp only [symbol_buffer.pop_symbols]
  by_cases hn : count m * L ≤ st.buffer.symbols.length
  · simp only [hn, if_true]
    split <;> rfl
  · simp only [hn, if_false]
    rfl

theorem map_blocks_pops_bounded (w : precoding_weight_matrix α) (mx L A s i_subc : Nat)
    (prg_re_mask : List Bool) (nsp fuel off : Nat) (st : stream_state α) :
    pops_bounded mx L st (map_blocks w mx L A s i_subc prg_re_mask nsp fuel off st).state := by
  induction fuel generalizing off st with
  | zero =>
    unfold map_blocks
    split <;> exact pops_bounded_refl _ _ _
  | succ fuel ih =>
    unfold map_blocks
    by_cases h1 : off = nsp
    · rw [if_pos h1]; exact pops_bounded_refl _ _ _
    · rw [if_neg h1]
      by_cases h2 : u32_sub nsp off = 0
      · simp only [h2, if_true]; exact pops_bounded_refl _ _ _
      · simp only [h2, if_false]
        have hlog := map_block_pop_log w L A s (i_subc + off)
          (slice prg_re_mask off (off + min (u32_sub nsp off) (mx / L))) st
        have hb : pops_bounded mx L st (map_block w L A s (i_subc + off)
            (slice prg_re_mask off (off + min (u32_sub nsp off) (mx / L))) st).state := by
          refine ⟨_, hlog, ?_⟩
          intro n hn
          rw [List.mem_singleton] at hn
          have hc : count (slice prg_re_mask off (off + min (u32_sub nsp off) (mx / L)))
              ≤ mx / L := by
            have h3 := count_le_length
              (slice prg_re_mask off (off + min (u32_sub nsp off) (mx / L)))
            rw [length_slice] at h3
            have h4 : off + min (u32_sub nsp off) (mx / L) - off ≤ mx / L := by
              rw [Nat.add_sub_cancel_left]; exact Nat.min_le_right _ _
            have h5 := Nat.min_le_left
              (off + min (u32_sub nsp off) (mx / L) - off) (prg_re_mask.length - off)
            omega
          refine ⟨?_, _, hn, hc⟩
          rw [hn]
          exact Nat.le_trans (Nat.mul_le_mul_right L hc) (Nat.div_mul_le_self mx L)
        cases hmb : map_block w L A s (i_subc + off)
            (slice prg_re_mask off (off + min (u32_sub nsp off) (mx / L))) st with
        | error e =>
          rw [hmb] at hb
          exact hb
        | ok st1 =>
          rw [hmb] at hb
          exact pops_bounded_trans _ _ _ _ _ hb (ih _ st1)

theorem map_stream_prg_pops_bounded (fuel : Nat) (precoding : precoding_configuration α)
    (mx s : Nat) (m : List Bool) (h : Int) (st : stream_state α) (i_prg : Nat) :
    pops_bounded mx precoding.get_nof_layers st
      (map_stream_prg fuel precoding mx s m h st i_prg).state := by
  unfold map_stream_prg
  simp only
  split
  · exact pops_bounded_refl _ _ _
  · exact map_blocks_pops_bounded _ _ _ _ _ _ _ _ _ _ _

theorem map_stream_symbol_pops_bounded (MAX_RB fuel : Nat) (pattern reserved : re_pattern_list)
    (precoding : precoding_configuration α) (mx : Nat) (st : stream_state α) (s : Nat) :
    pops_bounded mx precoding.get_nof_layers st
      (map_stream_symbol MAX_RB fuel pattern reserved precoding mx st s).state := by
  unfold map_stream_symbol
  simp only
  split
  · exact pops_bounded_refl _ _ _
  · exact for_loop_state_rel _ (pops_bounded_refl _ _) (pops_bounded_trans _ _) _
      (fun s1 i => map_stream_prg_pops_bounded _ _ _ _ _ _ s1 i) _ _

end resource_grid_impl

/-- C7 (pull-size bound of the streamed map). In every run of `map(symbol_buffer&, ...)` (for every value of `MAX_RB`), whether it returns or stops at a fatal check or the loop budget ends, every `pop_symbols(n)` call made has `n = r * nof_layers` with `r` at most `floor(max_block_size / nof_layers)`, so `n` is a multiple of `nof_layers` and at most `buffer.get_max_block_size()`. -/
theorem C7_pull_size_bound {α : Type} [CommSemiring α] [DecidableEq α] (MAX_RB fuel : Nat)
    (g : resource_grid_impl α) (buffer : symbol_buffer α) (pattern reserved : re_pattern_list)
    (precoding : precoding_configuration α) :
    ∃ pops, (map_stream MAX_RB fuel g buffer pattern reserved precoding).state.buffer.pop_log =
        buffer.pop_log ++ pops ∧
      ∀ n, n ∈ pops → n ≤ buffer.get_max_block_size ∧
        ∃ r, n = r * precoding.get_nof_layers ∧
          r ≤ buffer.get_max_block_size / precoding.get_nof_layers := by
  unfold map_stream
  simp only
  split
  · exact ⟨[], by simp [outcome.state], by simp⟩
  · split
    · exact ⟨[], by simp [outcome.state], by simp⟩
    · have h := for_loop_state_rel
        (pops_bounded buffer.get_max_block_size precoding.get_nof_layers)
        (pops_bounded_refl _ _) (pops_bounded_trans _ _)
        (map_stream_symbol MAX_RB fuel pattern reserved precoding buffer.get_max_block_size)
        (fun s1 i => map_stream_symbol_pops_bounded MAX_RB fuel pattern reserved precoding
          buffer.get_max_block_size s1 i)
        (List.range MAX_NSYMB_PER_SLOT) ⟨g, buffer⟩
      exact h

end srsran

namespace srsran
open bounded_bitset resource_grid_impl

namespace resource_grid_impl

variable {α : Type} [CommSemiring α] [DecidableEq α]

omit [CommSemiring α] [DecidableEq α] in
theorem set_data (b : re_buffer α) (i j : Nat) (v : α) (l r : Nat) :
    (b.set i j v).data l r = if l = i ∧ r = j then v else b.data l r := rfl

omit [CommSemiring α] [DecidableEq α] in
theorem foldl_set_data (i_layer : Nat) (f : Nat → α) (R : Nat) (b : re_buffer α) (l r : Nat) :
    ((List.range R).foldl (fun b1 i_re => b1.set i_layer i_re (f i_re)) b).data l r =
      if l = i_layer ∧ r < R then f r else b.data l r := by
  induction R with
  | zero => simp
  | succ R ih =>
    rw [List.range_succ, List.foldl_append]
    simp only [List.foldl_cons, List.foldl_nil]
    rw [set_data]
    by_cases h : l = i_layer ∧ r = R
    · obtain ⟨rfl, rfl⟩ := h
      simp
    · rw [if_neg h, ih]
      apply if_congr _ rfl rfl
      constructor
      · rintro ⟨a, b⟩; exact ⟨a, by omega⟩
      · rintro ⟨a, b⟩
        refine ⟨a, ?_⟩
        by_contra hc
        exact h ⟨a, by omega⟩

omit [DecidableEq α] in
/-- The layer-map loops, in closed form. -/
theorem layer_map_data (L R : Nat) (block : List α) (lmb : re_buffer α) (l r : Nat) :
    (layer_map L R block lmb).data l r =
      if l < L ∧ r < R then block.getD (r * L + l) 0 else lmb.data l r := by
  unfold layer_map
  generalize hL : L = L0
  have aux : ∀ n, ((List.range n).foldl
      (fun b i_layer =>
        (List.range R).foldl
          (fun b1 i_re => b1.set i_layer i_re (block.getD (i_re * L0 + i_layer) 0)) b)
      lmb).data l r =
      if l < n ∧ r < R then block.getD (r * L0 + l) 0 else lmb.data l r := by
    intro n
    induction n with
    | zero => simp
    | succ n ih =>
      rw [List.range_succ, List.foldl_append]
      simp only [List.foldl_cons, List.foldl_nil]
      rw [foldl_set_data n (fun i_re => block.getD (i_re * L0 + n) 0), ih]
      by_cases h : l = n ∧ r < R
      · obtain ⟨rfl, hr⟩ := h
        simp [hr]
      · rw [if_neg h]
        apply if_congr _ rfl rfl
        constructor
        · rintro ⟨a, b⟩; exact ⟨by omega, b⟩
        · rintro ⟨a, b⟩
          refine ⟨?_, b⟩
          by_contra hc
          exact h ⟨by omega, b⟩
  exact aux L0

end resource_grid_impl

/-- C8 (layer de-interleaving in the streamed map). For a block of `R * L` popped symbols, the layer-map loops of the multi-layer path leave in the layer-mapping buffer `layer[l][r] = block[r * L + l]` for every layer `l < L` and RE `r < R`; equivalently the symbol at position `k` of the block is stored in layer `k mod L` at RE index `k div L`. -/
theorem C8_layer_deinterleaving {α : Type} [CommSemiring α] (L R : Nat) (block : List α)
    (lmb : re_buffer α) (hlen : block.length = R * L) :
    (∀ l r, l < L → r < R →
      block[r * L + l]? = some ((layer_map L R block lmb).data l r)) ∧
    (∀ k, k < R * L → block[k]? = some ((layer_map L R block lmb).data (k % L) (k / L))) := by
  have h1 : ∀ l r, l < L → r < R →
      block[r * L + l]? = some ((layer_map L R block lmb).data l r) := by
    intro l r hl hr
    rw [layer_map_data, if_pos ⟨hl, hr⟩]
    have hlt : r * L + l < block.length := by
      rw [hlen]
      calc r * L + l < r * L + L := by omega
        _ = (r + 1) * L := by rw [Nat.add_mul, Nat.one_mul]
        _ ≤ R * L := Nat.mul_le_mul_right L hr
    rw [List.getD_eq_getElem?_getD, List.getElem?_eq_getElem hlt]
    rfl
  refine ⟨h1, ?_⟩
  intro k hk
  have hL : 0 < L := by
    rcases Nat.eq_zero_or_pos L with h | h
    · rw [h] at hk; simp at hk
    · exact h
  have h2 := h1 (k % L) (k / L) (Nat.mod_lt k hL)
    (Nat.div_lt_of_lt_mul (by rw [Nat.mul_comm]; exact hk))
  rw [Nat.div_add_mod'] at h2
  exact h2

/-- C8 with two layers and a block of 8 symbols: layer 0 receives the even positions and layer 1 the odd positions. -/
theorem C8_layer_deinterleaving_witness :
    ([10, 11, 20, 21, 30, 31, 40, 41] : List Int).length = 4 * 2 ∧
    ((∀ l r, l < 2 → r < 4 →
      ([10, 11, 20, 21, 30, 31, 40, 41] : List Int)[r * 2 + l]? =
        some ((layer_map 2 4 [10, 11, 20, 21, 30, 31, 40, 41]
          scenario.grid2.layer_mapping_buffer).data l r)) ∧
    (∀ k, k < 4 * 2 → ([10, 11, 20, 21, 30, 31, 40, 41] : List Int)[k]? =
      some ((layer_map 2 4 [10, 11, 20, 21, 30, 31, 40, 41]
        scenario.grid2.layer_mapping_buffer).data (k % 2) (k / 2)))) ∧
    ((layer_map 2 4 ([10, 11, 20, 21, 30, 31, 40, 41] : List Int)
      scenario.grid2.layer_mapping_buffer).resize 2 4).get_slice 0 = [10, 20, 30, 40] ∧
    ((layer_map 2 4 ([10, 11, 20, 21, 30, 31, 40, 41] : List Int)
      scenario.grid2.layer_mapping_buffer).resize 2 4).get_slice 1 = [11, 21, 31, 41] :=
  ⟨by decide, C8_layer_deinterleaving 2 4 [10, 11, 20, 21, 30, 31, 40, 41]
    scenario.grid2.layer_mapping_buffer (by decide), by decide, by decide⟩

end srsran

namespace srsran
open bounded_bitset resource_grid_impl

theorem ports_below_only_refl {α : Type} (L : Nat) (a : resource_grid_impl α) :
    ports_below_only L a a :=
  ⟨fun _ _ => ⟨fun _ _ => rfl, rfl⟩, [], by simp, by simp⟩

theorem ports_below_only_trans {α : Type} (L : Nat) (a b c : resource_grid_impl α)
    (h1 : ports_below_only L a b) (h2 : ports_below_only L b c) : ports_below_only L a c := by
  obtain ⟨c1, x, hx, px⟩ := h1
  obtain ⟨c2, y, hy, py⟩ := h2
  refine ⟨?_, x ++ y, by rw [hy, hx, List.append_assoc], ?_⟩
  · intro p hp
    refine ⟨fun s k => ?_, ?_⟩
    · rw [(c2 p hp).1, (c1 p hp).1]
    · rw [(c2 p hp).2, (c1 p hp).2]
  · intro n hn
    rcases List.mem_append.mp hn with h | h
    · exact px n h
    · exact py n h

theorem ports_below_only_of_eq {α : Type} (L : Nat) (g g1 : resource_grid_impl α)
    (h1 : g1.rg_buffer = g.rg_buffer) (h2 : g1.empty = g.empty) (h3 : g1.put_log = g.put_log) :
    ports_below_only L g g1 :=
  ⟨fun _ _ => ⟨fun _ _ => by rw [h1], by rw [h2]⟩, [], by simp [h3], by simp⟩

/-- A `put` on a port below `L` touches only ports below `L`, whatever the scratch buffers hold. -/
theorem ports_below_only_put {α : Type} (L : Nat) (g g1 : resource_grid_impl α)
    (port l k_init : Nat) (mask : List Bool) (vs : List α) (hport : port < L)
    (h1 : g1.rg_buffer = g.rg_buffer) (h2 : g1.empty = g.empty) (h3 : g1.put_log = g.put_log) :
    ports_below_only L g (g1.put port l k_init mask vs).1 := by
  refine ⟨?_, [⟨port, l, k_init, mask, vs⟩], by rw [put_put_log, h3], ?_⟩
  · intro p hp
    have hne : p ≠ port := by omega
    refine ⟨fun s k => ?_, ?_⟩
    · rw [put_rg_buffer, if_neg (fun h => hne h.1), h1]
    · rw [put_empty, if_neg hne, h2]
  · intro c hc
    rw [List.mem_singleton] at hc
    rw [hc]
    exact hport

namespace resource_grid_impl

variable {α : Type} [CommSemiring α] [DecidableEq α]

omit [DecidableEq α] in
theorem stream_ports_below_only (w : precoding_weight_matrix α) (s k : Nat) (m : List Bool)
    (L n : Nat) (hn : n ≤ L) (g : resource_grid_impl α) :
    ports_below_only L g ((List.range n).foldl (stream_port w s k m) g) := by
  induction n with
  | zero => exact ports_below_only_refl L g
  | succ n ih =>
    rw [List.range_succ, List.foldl_append]
    simp only [List.foldl_cons, List.foldl_nil]
    refine ports_below_only_trans L _ _ _ (ih (by omega)) ?_
    unfold stream_port
    exact ports_below_only_put L _ _ n s k m _ (by omega) rfl rfl rfl

theorem map_block_ports_below_only (w : precoding_weight_matrix α) (L A s k : Nat)
    (m : List Bool) (st : stream_state α) :
    ports_below_only L st.grid (map_block w L A s k m st).state.grid := by
  unfold map_block
  simp only
  split
  · exact ports_below_only_refl L _
  · split
    · rename_i hc
      exact ports_below_only_put L _ _ 0 s k m _ (by omega) rfl rfl rfl
    · exact ports_below_only_trans L _ _ _
        (ports_below_only_of_eq L st.grid _ rfl rfl rfl)
        (stream_ports_below_only w s k m L L (Nat.le_refl L) _)

theorem map_blocks_ports_below_only (w : precoding_weight_matrix α) (mx L A s i_subc : Nat)
    (prg_re_mask : List Bool) (nsp fuel off : Nat) (st : stream_state α) :
    ports_below_only L st.grid
      (map_blocks w mx L A s i_subc prg_re_mask nsp fuel off st).state.grid := by
  induction fuel generalizing off st with
  | zero =>
    unfold map_blocks
    split <;> exact ports_below_only_refl _ _
  | succ fuel ih =>
    unfold map_blocks
    by_cases h1 : off = nsp
    · rw [if_pos h1]; exact ports_below_only_refl _ _
    · rw [if_neg h1]
      by_cases h2 : u32_sub nsp off = 0
      · simp only [h2, if_true]; exact ports_below_only_refl _ _
      · simp only [h2, if_false]
        have hb := map_block_ports_below_only w L A s (i_subc + off)
          (slice prg_re_mask off (off + min (u32_sub nsp off) (mx / L))) st
        cases hmb : map_block w L A s (i_subc + off)
            (slice prg_re_mask off (off + min (u32_sub nsp off) (mx / L))) st with
        | error e =>
          rw [hmb] at hb
          exact hb
        | ok st1 =>
          rw [hmb] at hb
          exact ports_below_only_trans _ _ _ _ hb (ih _ st1)

theorem map_stream_prg_ports_below_only (fuel : Nat) (precoding : precoding_configuration α)
    (mx s : Nat) (m : List Bool) (h : Int) (st : stream_state α) (i_prg : Nat) :
    ports_below_only precoding.get_nof_layers st.grid
      (map_stream_prg fuel precoding mx s m h st i_prg).state.grid := by
  unfold map_stream_prg
  simp only
  split
  · exact ports_below_only_refl _ _
  · exact map_blocks_ports_below_only _ _ _ _ _ _ _ _ _ _ _

theorem map_stream_symbol_ports_below_only (MAX_RB fuel : Nat)
    (pattern reserved : re_pattern_list) (precoding : precoding_configuration α) (mx : Nat)
    (st : stream_state α) (s : Nat) :
    ports_below_only precoding.get_nof_layers st.grid
      (map_stream_symbol MAX_RB fuel pattern reserved precoding mx st s).state.grid := by
  unfold map_stream_symbol
  simp only
  split
  · exact ports_below_only_refl _ _
  · exact for_loop_state_rel
      (fun a b : stream_state α => ports_below_only precoding.get_nof_layers a.grid b.grid)
      (fun a => ports_below_only_refl _ a.grid)
      (fun a b c => ports_below_only_trans _ a.grid b.grid c.grid) _
      (fun s1 i => map_stream_prg_ports_below_only _ _ _ _ _ _ s1 i) _ _

/-- In every run of the streamed `map` only the ports below `nof_layers` are touched. -/
theorem map_stream_ports_below_only (MAX_RB fuel : Nat) (g : resource_grid_impl α)
    (buffer : symbol_buffer α) (pattern reserved : re_pattern_list)
    (precoding : precoding_configuration α) :
    ports_below_only precoding.get_nof_layers g
      (map_stream MAX_RB fuel g buffer pattern reserved precoding).state.grid := by
  unfold map_stream
  simp only
  split
  · exact ports_below_only_refl _ _
  · split
    · exact ports_below_only_refl _ _
    · have h := for_loop_state_rel
        (fun a b : stream_state α => ports_below_only precoding.get_nof_layers a.grid b.grid)
        (fun a => ports_below_only_refl _ a.grid)
        (fun a b c => ports_below_only_trans _ a.grid b.grid c.grid)
        (map_stream_symbol MAX_RB fuel pattern reserved precoding buffer.get_max_block_size)
        (fun s1 i => map_stream_symbol_ports_below_only MAX_RB fuel pattern reserved precoding
          buffer.get_max_block_size s1 i)
        (List.range MAX_NSYMB_PER_SLOT) ⟨g, buffer⟩
      exact h

end resource_grid_impl

/-- C9 (the streamed map and the antenna ports): what the code does with one layer on two ports. On a two-port grid, with one layer precoded onto two ports with every coefficient 1, the subcarriers 0..3 of symbol 0 selected and the symbols 1, 2, 3, 4 in the source: for every mask capacity and loop budget no `put` is issued on port 1, whose cells stay zero and whose empty flag stays set; with the capacity of one resource block the call returns after one pull of 4 symbols and a single `put`, which writes 1, 2, 3, 4 on port 0, while the precoding kernel gives 1, 2, 3, 4 for port 1 as well from the layer-mapped block. -/
theorem C9_stream_port_above_layers_unwritten :
    (∀ MAX_RB fuel,
      (∀ c, c ∈ (map_stream MAX_RB fuel scenario.grid2 scenario.stream4 scenario.pattern4 []
        scenario.precoding_1x2).state.grid.put_log → c.port = 0) ∧
      (∀ s k, (map_stream MAX_RB fuel scenario.grid2 scenario.stream4 scenario.pattern4 []
        scenario.precoding_1x2).state.grid.rg_buffer 1 s k = 0) ∧
      (map_stream MAX_RB fuel scenario.grid2 scenario.stream4 scenario.pattern4 []
        scenario.precoding_1x2).state.grid.empty 1 = true) ∧
    (match map_stream 1 8 scenario.grid2 scenario.stream4 scenario.pattern4 []
        scenario.precoding_1x2 with
      | .ok _ => true
      | .error _ => false) = true ∧
    (map_stream 1 8 scenario.grid2 scenario.stream4 scenario.pattern4 []
      scenario.precoding_1x2).state.buffer.pop_log = [4] ∧
    (map_stream 1 8 scenario.grid2 scenario.stream4 scenario.pattern4 []
      scenario.precoding_1x2).state.grid.put_log.map put_call.shape =
        [(0, 0, 0, [true, true, true, true], 4)] ∧
    (List.range 4).map ((map_stream 1 8 scenario.grid2 scenario.stream4 scenario.pattern4 []
      scenario.precoding_1x2).state.grid.rg_buffer 0 0) = [1, 2, 3, 4] ∧
    channel_precoder.apply_precoding_port
      (layer_map 1 4 [1, 2, 3, 4] (scenario.grid2.layer_mapping_buffer.resize 1 4))
      ((scenario.precoding_1x2.get_prg_coefficients 0).get_port_coefficients 1) =
        [1, 2, 3, 4] := by
  refine ⟨?_, by decide, by decide, by decide, by decide, by decide⟩
  intro MAX_RB fuel
  obtain ⟨h1, added, h2, h3⟩ := map_stream_ports_below_only MAX_RB fuel scenario.grid2
    scenario.stream4 scenario.pattern4 [] scenario.precoding_1x2
  have hlog : scenario.grid2.put_log = [] := by
    simp [scenario.grid2, create, zero_port, List.range_succ]
  have hzero : ∀ s k, scenario.grid2.rg_buffer 1 s k = 0 := fun s k => by
    simp [scenario.grid2, create, zero_port, List.range_succ]
  have hempty : scenario.grid2.empty 1 = true := by decide
  have hL : scenario.precoding_1x2.get_nof_layers = 1 := rfl
  refine ⟨?_, ?_, ?_⟩
  · intro c hc
    rw [h2, hlog, List.nil_append] at hc
    have := h3 c hc
    rw [hL] at this
    omega
  · intro s k
    rw [(h1 1 (by rw [hL])).1, hzero]
  · rw [(h1 1 (by rw [hL])).2, hempty]

end srsran

namespace srsran
open bounded_bitset resource_grid_impl

/-- A loop over `0 .. n - 1` whose iteration `i` takes a state satisfying `I i` to one satisfying `I (i + 1)`, whether it returns or stops, ends in a state satisfying any `Q` that every `I i` implies. -/
theorem for_loop_range_inv {σ : Type} (body : σ → Nat → outcome σ) (I : Nat → σ → Prop)
    (Q : σ → Prop) (n : Nat) (hQ : ∀ i s, i ≤ n → I i s → Q s)
    (hstep : ∀ i s, i < n → I i s → I (i + 1) (body s i).state) (s0 : σ) (h0 : I 0 s0) :
    Q (for_loop body (List.range n) s0).state := by
  have aux : ∀ k, k ≤ n →
      match for_loop body (List.range k) s0 with
      | .ok s1 => I k s1
      | .error e => Q e.2 := by
    intro k
    induction k with
    | zero => intro _; exact h0
    | succ k ih =>
      intro hk
      have ihk := ih (by omega)
      cases hprev : for_loop body (List.range k) s0 with
      | error e =>
        rw [hprev] at ihk
        rw [for_loop_range_succ_error _ _ _ _ hprev]
        exact ihk
      | ok s1 =>
        rw [hprev] at ihk
        rw [for_loop_range_succ _ _ _ _ hprev]
        have hs := hstep k s1 (by omega) ihk
        cases hb : body s1 k with
        | ok s2 =>
          rw [hb] at hs
          exact hs
        | error e =>
          rw [hb] at hs
          exact hQ (k + 1) e.2 hk hs
  have h := aux n (Nat.le_refl n)
  cases hfin : for_loop body (List.range n) s0 with
  | ok s1 =>
    rw [hfin] at h
    exact hQ n s1 (Nat.le_refl n) h
  | error e =>
    rw [hfin] at h
    exact h

theorem pairwise_mask_cells (port l k0 : Nat) (m : List Bool) (n : Nat) :
    List.Pairwise (fun a b : Nat × Nat × Nat => a.2.2 < b.2.2) (mask_cells port l k0 m n) := by
  induction m generalizing k0 n with
  | nil => simp [mask_cells]
  | cons b m ih =>
    cases b with
    | false => simpa [mask_cells] using ih (k0 + 1) n
    | true =>
      cases n with
      | zero => simp [mask_cells]
      | succ n =>
        simp only [mask_cells, List.pairwise_cons]
        refine ⟨?_, ih (k0 + 1) n⟩
        intro c hc
        have := (mem_mask_cells _ _ _ _ _ _).mp hc
        show k0 < c.2.2
        omega

theorem mem_mask_cells_bounds {port l k0 : Nat} {m : List Bool} {n : Nat} {c : Nat × Nat × Nat}
    (h : c ∈ mask_cells port l k0 m n) :
    c.1 = port ∧ c.2.1 = l ∧ k0 ≤ c.2.2 ∧ c.2.2 < k0 + m.length := by
  have h1 := (mem_mask_cells _ _ _ _ _ _).mp h
  have h2 := test_lt_length h1.2.2.2.1
  exact ⟨h1.1, h1.2.1, h1.2.2.1, by omega⟩

theorem writes_inv_refl {α : Type} (log0 : List (put_call α)) (s k : Nat) :
    writes_inv log0 log0 s k :=
  ⟨[], by simp, by simp [written_cells, cells_ordered], by simp [written_cells]⟩

theorem writes_inv_mono {α : Type} {log0 log : List (put_call α)} {s k s1 k1 : Nat}
    (h : writes_inv log0 log s k) (hle : s < s1 ∨ (s = s1 ∧ k ≤ k1)) :
    writes_inv log0 log s1 k1 := by
  obtain ⟨added, h1, h2, h3⟩ := h
  refine ⟨added, h1, h2, ?_⟩
  intro c hc
  have := h3 c hc
  omega

theorem block_inv_of_writes {α : Type} {log0 log : List (put_call α)} {s k0 : Nat}
    (k_init len : Nat) (h : writes_inv log0 log s k0) :
    block_inv log0 log s k0 k_init len 0 := by
  obtain ⟨added, h1, h2, h3⟩ := h
  exact ⟨added, h1, h2, fun c hc => Or.inl (h3 c hc)⟩

theorem writes_of_block_inv {α : Type} {log0 log : List (put_call α)} {s k0 k_init len j : Nat}
    (h : block_inv log0 log s k0 k_init len j) (hk : k0 ≤ k_init + len) :
    writes_inv log0 log s (k_init + len) := by
  obtain ⟨added, h1, h2, h3⟩ := h
  refine ⟨added, h1, h2, ?_⟩
  intro c hc
  have := h3 c hc
  omega

/-- A `put` on port `j` inside the block keeps the block invariant, for the ports below `j + 1`. -/
theorem block_inv_snoc {α : Type} {log0 log : List (put_call α)} {s k0 k_init len j : Nat}
    (call : put_call α) (hport : call.port = j) (hs : call.symbol = s)
    (hk : call.k_init = k_init) (hm : call.mask.length ≤ len) (hk0 : k0 ≤ k_init)
    (h : block_inv log0 log s k0 k_init len j) :
    block_inv log0 (log ++ [call]) s k0 k_init len (j + 1) := by
  obtain ⟨added, h1, h2, h3⟩ := h
  have hnew : ∀ c, c ∈ mask_cells call.port call.symbol call.k_init call.mask
      call.values.length → c.1 = j ∧ c.2.1 = s ∧ k_init ≤ c.2.2 ∧ c.2.2 < k_init + len := by
    intro c hc
    have := mem_mask_cells_bounds hc
    rw [hport, hs, hk] at this
    exact ⟨this.1, this.2.1, this.2.2.1, by omega⟩
  refine ⟨added ++ [call], by rw [h1, List.append_assoc], ?_, ?_⟩
  · rw [written_cells_append, written_cells_singleton]
    unfold cells_ordered
    rw [List.pairwise_append]
    refine ⟨h2, ?_, ?_⟩
    · apply List.Pairwise.imp_of_mem _ (pairwise_mask_cells _ _ _ _ _)
      intro a b ha hb hab
      have ha1 := hnew a ha
      have hb1 := hnew b hb
      refine ⟨by omega, ?_⟩
      intro _
      unfold cell_before
      omega
    · intro a ha b hb
      have hb1 := hnew b hb
      have ha1 := h3 a ha
      refine ⟨by omega, ?_⟩
      intro hp
      unfold cell_before
      omega
  · intro c hc
    rw [written_cells_append, written_cells_singleton, List.mem_append] at hc
    rcases hc with hc | hc
    · have := h3 c hc
      omega
    · have := hnew c hc
      omega

end srsran

namespace srsran
open bounded_bitset resource_grid_impl

namespace resource_grid_impl

variable {α : Type} [CommSemiring α] [DecidableEq α]

/-! ### Order of the writes of the buffered map -/

omit [CommSemiring α] [DecidableEq α] in
theorem map_port_state (s : Nat) (m : List Bool) (g : resource_grid_impl α) (j : Nat) :
    (map_port s m g j).state = (g.put j s 0 m (g.precoding_buffer.get_slice j)).1 := by
  unfold map_port
  simp only
  split <;> rfl

omit [CommSemiring α] [DecidableEq α] in
theorem map_ports_writes (log0 : List (put_call α)) (s : Nat) (m : List Bool) (n : Nat)
    (g : resource_grid_impl α) (h : writes_inv log0 g.put_log s 0) :
    writes_inv log0 (for_loop (map_port s m) (List.range n) g).state.put_log s m.length := by
  have := for_loop_range_inv (map_port s m)
    (fun j g1 => block_inv log0 g1.put_log s 0 0 m.length j)
    (fun g1 => writes_inv log0 g1.put_log s m.length) n
    (fun i g1 _ hI => by
      have := writes_of_block_inv hI (by omega)
      simpa using this)
    (fun i g1 _ hI => by
      show block_inv log0 (map_port s m g1 i).state.put_log s 0 0 m.length (i + 1)
      rw [map_port_state, put_put_log]
      exact block_inv_snoc _ rfl rfl rfl (Nat.le_refl _) (Nat.le_refl _) hI)
    g (block_inv_of_writes 0 m.length h)
  exact this

theorem map_general_writes (log0 : List (put_call α)) (input : re_buffer α)
    (precoding : precoding_configuration α) (s : Nat) (m : List Bool) (st : map_state α)
    (h : writes_inv log0 st.grid.put_log s 0) :
    writes_inv log0 (map_general input precoding s m st).state.grid.put_log s m.length := by
  unfold map_general
  simp only
  generalize (if count m ≠ st.grid.precoding_buffer.nof_re ∨
      precoding.get_nof_ports ≠ st.grid.precoding_buffer.nof_slices then
      st.grid.precoding_buffer.resize precoding.get_nof_ports (count m)
    else st.grid.precoding_buffer) = pb1
  generalize (List.range precoding.get_nof_prg).foldl
    (map_prg input precoding (u32 (precoding.get_prg_size * NRE)) m)
    ⟨pb1, st.i_re_buffer, 0, 0⟩ = prg
  by_cases hfill : prg.i_precoding_buffer ≠ prg.precoding_buffer.nof_re
  · rw [if_pos hfill]
    exact writes_inv_mono h (Or.inr ⟨rfl, Nat.zero_le _⟩)
  · rw [if_neg hfill]
    have hp := map_ports_writes log0 s m precoding.get_nof_ports
      { st.grid with precoding_buffer := prg.precoding_buffer } h
    cases hloop : for_loop (map_port s m) (List.range precoding.get_nof_ports)
        { st.grid with precoding_buffer := prg.precoding_buffer } with
    | ok g1 =>
      rw [hloop] at hp
      exact hp
    | error e =>
      rw [hloop] at hp
      exact hp

omit [CommSemiring α] [DecidableEq α] in
theorem map_bypass_writes (log0 : List (put_call α)) (input : re_buffer α) (s : Nat)
    (m : List Bool) (st : map_state α) (h : writes_inv log0 st.grid.put_log s 0) :
    writes_inv log0 (map_bypass input s m st).state.grid.put_log s m.length := by
  have hlog : (map_bypass input s m st).state.grid.put_log =
      st.grid.put_log ++ [⟨0, s, 0, m, (input.view st.i_re_buffer (count m)).get_slice 0⟩] := by
    unfold map_bypass
    simp only
    split <;> rfl
  rw [hlog]
  have := writes_of_block_inv
    (block_inv_snoc (⟨0, s, 0, m, (input.view st.i_re_buffer (count m)).get_slice 0⟩ :
      put_call α) rfl rfl rfl (Nat.le_refl _) (Nat.le_refl _)
      (block_inv_of_writes 0 m.length h)) (by omega)
  simpa using this

theorem map_symbol_writes (log0 : List (put_call α)) (input : re_buffer α)
    (pattern reserved : re_pattern_list) (precoding : precoding_configuration α)
    (st : map_state α) (s : Nat) (h : writes_inv log0 st.grid.put_log s 0) :
    writes_inv log0 (map_symbol input pattern reserved precoding st s).state.grid.put_log
      (s + 1) 0 := by
  unfold map_symbol
  simp only
  split
  · exact writes_inv_mono h (Or.inl (Nat.lt_succ_self s))
  · split
    · exact writes_inv_mono (map_bypass_writes log0 input s _ st h) (Or.inl (Nat.lt_succ_self s))
    · exact writes_inv_mono (map_general_writes log0 input precoding s _ st h)
        (Or.inl (Nat.lt_succ_self s))

/-- The writes of the buffered `map`, in every run, are ordered port by port. -/
theorem map_writes_ordered (g : resource_grid_impl α) (input : re_buffer α)
    (pattern reserved : re_pattern_list) (precoding : precoding_configuration α) :
    ∃ added, (map g input pattern reserved precoding).state.put_log = g.put_log ++ added ∧
      cells_ordered (written_cells added) := by
  have hloop := for_loop_range_inv (map_symbol input pattern reserved precoding)
    (fun s st => writes_inv g.put_log st.grid.put_log s 0)
    (fun st => ∃ added, st.grid.put_log = g.put_log ++ added ∧
      cells_ordered (written_cells added)) MAX_NSYMB_PER_SLOT
    (fun i st _ hI => by
      obtain ⟨added, h1, h2, _⟩ := hI
      exact ⟨added, h1, h2⟩)
    (fun i st _ hI => map_symbol_writes g.put_log input pattern reserved precoding st i hI)
    ⟨g, 0⟩ (writes_inv_refl _ _ _)
  have hnil : ∃ added, g.put_log = g.put_log ++ added ∧
      cells_ordered (written_cells added) :=
    ⟨[], by simp, by simp [written_cells, cells_ordered]⟩
  unfold map
  split
  · exact hnil
  · split
    · exact hnil
    · have hl : for_loop (map_symbol input pattern reserved precoding)
          (List.range MAX_NSYMB_PER_SLOT) ⟨g, 0⟩ =
          map_loop g input pattern reserved precoding := rfl
      rw [hl] at hloop
      split
      · rename_i e heq
        rw [heq] at hloop
        exact hloop
      · rename_i st heq
        rw [heq] at hloop
        split <;> exact hloop

end resource_grid_impl
end srsran

namespace srsran
open bounded_bitset resource_grid_impl

theorem find_lowest_lt_length (m : List Bool) : find_lowest m < m.length := by
  induction m with
  | nil => simp [find_lowest]
  | cons b m ih =>
    cases b with
    | true =>
      simp only [find_lowest, List.length_cons, Nat.cast_add, Nat.cast_one]
      omega
    | false =>
      simp only [find_lowest, List.length_cons, Nat.cast_add, Nat.cast_one]
      split <;> omega

theorem u32_le (x : Nat) : u32 x ≤ x := Nat.mod_le _ _

namespace resource_grid_impl

variable {α : Type} [CommSemiring α] [DecidableEq α]

/-! ### Order of the writes of the streamed map -/

omit [DecidableEq α] in
theorem stream_port_put_log (w : precoding_weight_matrix α) (s k : Nat) (m : List Bool)
    (g : resource_grid_impl α) (i : Nat) :
    ∃ vals, (stream_port w s k m g i).put_log = g.put_log ++ [⟨i, s, k, m, vals⟩] :=
  ⟨_, rfl⟩

omit [DecidableEq α] in
theorem stream_ports_block_inv (log0 : List (put_call α)) (w : precoding_weight_matrix α)
    (s k0 k len : Nat) (m : List Bool) (hm : m.length ≤ len) (hk0 : k0 ≤ k) (n : Nat)
    (g : resource_grid_impl α) (h : block_inv log0 g.put_log s k0 k len 0) :
    block_inv log0 ((List.range n).foldl (stream_port w s k m) g).put_log s k0 k len n := by
  induction n with
  | zero => exact h
  | succ n ih =>
    rw [List.range_succ, List.foldl_append]
    simp only [List.foldl_cons, List.foldl_nil]
    obtain ⟨vals, hv⟩ := stream_port_put_log w s k m
      ((List.range n).foldl (stream_port w s k m) g) n
    rw [hv]
    exact block_inv_snoc _ rfl rfl rfl hm hk0 ih

theorem map_block_writes (log0 : List (put_call α)) (w : precoding_weight_matrix α)
    (L A s k0 k : Nat) (m : List Bool) (st : stream_state α) (hk0 : k0 ≤ k)
    (h : writes_inv log0 st.grid.put_log s k0) :
    writes_inv log0 (map_block w L A s k m st).state.grid.put_log s (k + m.length) := by
  unfold map_block
  simp only
  split
  · exact writes_inv_mono h (Or.inr ⟨rfl, by omega⟩)
  · rename_i block _
    split
    · have hb : block_inv log0 (st.grid.put_log ++ [(⟨0, s, k, m,
          (((st.grid.precoding_buffer.resize A (count m)).write_slice 0
            (sc_prod block ((w.get_port_coefficients 0).getD 0 0))).get_slice 0)⟩ :
            put_call α)]) s k0 k m.length (0 + 1) :=
        block_inv_snoc _ rfl rfl rfl (Nat.le_refl _) hk0 (block_inv_of_writes k m.length h)
      exact writes_of_block_inv hb (by omega)
    · have := writes_of_block_inv
        (stream_ports_block_inv log0 w s k0 k m.length m (Nat.le_refl _) hk0 L
          { st.grid with
            layer_mapping_buffer := layer_map L (count m) block
              (st.grid.layer_mapping_buffer.resize L (count m))
            precoding_buffer := st.grid.precoding_buffer.resize A (count m) }
          (block_inv_of_writes k m.length h)) (by omega)
      exact this

theorem map_blocks_writes (log0 : List (put_call α)) (w : precoding_weight_matrix α)
    (mx L A s i_subc : Nat) (prg_re_mask : List Bool) (nsp : Nat) (hnsp : nsp < 2 ^ 32)
    (fuel off : Nat) (st : stream_state α) (hoff : off ≤ nsp)
    (h : writes_inv log0 st.grid.put_log s (i_subc + off)) :
    writes_inv log0
      (map_blocks w mx L A s i_subc prg_re_mask nsp fuel off st).state.grid.put_log s
      (i_subc + nsp) := by
  induction fuel generalizing off st with
  | zero =>
    unfold map_blocks
    split <;> exact writes_inv_mono h (Or.inr ⟨rfl, by omega⟩)
  | succ fuel ih =>
    unfold map_blocks
    by_cases h1 : off = nsp
    · rw [if_pos h1]
      exact writes_inv_mono h (Or.inr ⟨rfl, by omega⟩)
    · rw [if_neg h1]
      have hsub : u32_sub nsp off = nsp - off := u32_sub_of_le hoff hnsp
      by_cases h2 : u32_sub nsp off = 0
      · simp only [h2, if_true]
        exact writes_inv_mono h (Or.inr ⟨rfl, by omega⟩)
      · simp only [h2, if_false]
        have hlen : (slice prg_re_mask off (off + min (u32_sub nsp off) (mx / L))).length ≤
            min (u32_sub nsp off) (mx / L) := by
          rw [length_slice, Nat.add_sub_cancel_left]
          exact Nat.min_le_left _ _
        have hle : min (u32_sub nsp off) (mx / L) ≤ nsp - off := by
          rw [hsub]; exact Nat.min_le_left _ _
        have hb := map_block_writes log0 w L A s (i_subc + off) (i_subc + off)
          (slice prg_re_mask off (off + min (u32_sub nsp off) (mx / L))) st (Nat.le_refl _) h
        cases hmb : map_block w L A s (i_subc + off)
            (slice prg_re_mask off (off + min (u32_sub nsp off) (mx / L))) st with
        | error e =>
          rw [hmb] at hb
          exact writes_inv_mono hb (Or.inr ⟨rfl, by omega⟩)
        | ok st1 =>
          rw [hmb] at hb
          exact ih (off + min (u32_sub nsp off) (mx / L)) st1 (by omega)
            (writes_inv_mono hb (Or.inr ⟨rfl, by omega⟩))

theorem map_stream_prg_writes (log0 : List (put_call α)) (fuel : Nat)
    (precoding : precoding_configuration α) (mx s : Nat) (m : List Bool) (hh : Int)
    (st : stream_state α) (i_prg : Nat)
    (hnw : i_prg * u32 (precoding.get_prg_size * NRE) < 2 ^ 32)
    (h : writes_inv log0 st.grid.put_log s (i_prg * u32 (precoding.get_prg_size * NRE))) :
    writes_inv log0 (map_stream_prg fuel precoding mx s m hh st i_prg).state.grid.put_log s
      ((i_prg + 1) * u32 (precoding.get_prg_size * NRE)) := by
  have hsucc : (i_prg + 1) * u32 (precoding.get_prg_size * NRE) =
      i_prg * u32 (precoding.get_prg_size * NRE) + u32 (precoding.get_prg_size * NRE) := by
    rw [Nat.add_mul, Nat.one_mul]
  have hi : u32 (i_prg * u32 (precoding.get_prg_size * NRE)) =
      i_prg * u32 (precoding.get_prg_size * NRE) := u32_of_lt hnw
  unfold map_stream_prg
  simp only [hi]
  generalize hnsp : min (u32 (precoding.get_prg_size * NRE))
    (u32_sub (hh + 1).toNat (i_prg * u32 (precoding.get_prg_size * NRE))) = nsp
  have hnspP : nsp ≤ u32 (precoding.get_prg_size * NRE) := by
    rw [← hnsp]; exact Nat.min_le_left _ _
  have hnsplt : nsp < 2 ^ 32 := Nat.lt_of_le_of_lt hnspP (u32_lt _)
  split
  · exact writes_inv_mono h (Or.inr ⟨rfl, by omega⟩)
  · have hoff : (find_lowest (slice m (i_prg * u32 (precoding.get_prg_size * NRE))
        (u32 (i_prg * u32 (precoding.get_prg_size * NRE) + nsp)))).toNat ≤ nsp := by
      have h1 := find_lowest_lt_length (slice m (i_prg * u32 (precoding.get_prg_size * NRE))
        (u32 (i_prg * u32 (precoding.get_prg_size * NRE) + nsp)))
      have h2 := length_slice m (i_prg * u32 (precoding.get_prg_size * NRE))
        (u32 (i_prg * u32 (precoding.get_prg_size * NRE) + nsp))
      have h3 := u32_le (i_prg * u32 (precoding.get_prg_size * NRE) + nsp)
      have h4 := Nat.min_le_left
        (u32 (i_prg * u32 (precoding.get_prg_size * NRE) + nsp) -
          i_prg * u32 (precoding.get_prg_size * NRE))
        (m.length - i_prg * u32 (precoding.get_prg_size * NRE))
      omega
    have := map_blocks_writes log0 (precoding.get_prg_coefficients i_prg) mx
      precoding.get_nof_layers precoding.get_nof_ports s
      (i_prg * u32 (precoding.get_prg_size * NRE))
      (slice m (i_prg * u32 (precoding.get_prg_size * NRE))
        (u32 (i_prg * u32 (precoding.get_prg_size * NRE) + nsp))) nsp hnsplt fuel _ st hoff
      (writes_inv_mono h (Or.inr ⟨rfl, by omega⟩))
    exact writes_inv_mono this (Or.inr ⟨rfl, by omega⟩)

theorem map_stream_symbol_writes (log0 : List (put_call α)) (MAX_RB fuel : Nat)
    (pattern reserved : re_pattern_list) (precoding : precoding_configuration α) (mx : Nat)
    (st : stream_state α) (s : Nat)
    (hnw : precoding.get_nof_prg * u32 (precoding.get_prg_size * NRE) < 2 ^ 32)
    (h : writes_inv log0 st.grid.put_log s 0) :
    writes_inv log0
      (map_stream_symbol MAX_RB fuel pattern reserved precoding mx st s).state.grid.put_log
      (s + 1) 0 := by
  unfold map_stream_symbol
  simp only
  split
  · exact writes_inv_mono h (Or.inl (Nat.lt_succ_self s))
  · have := for_loop_range_inv
      (map_stream_prg fuel precoding mx s (selection_mask (MAX_RB * NRE) pattern reserved s)
        (find_highest (selection_mask (MAX_RB * NRE) pattern reserved s)))
      (fun i st1 => writes_inv log0 st1.grid.put_log s
        (i * u32 (precoding.get_prg_size * NRE)))
      (fun st1 => writes_inv log0 st1.grid.put_log (s + 1) 0) precoding.get_nof_prg
      (fun i st1 _ hI => writes_inv_mono hI (Or.inl (Nat.lt_succ_self s)))
      (fun i st1 hi hI => by
        have hle : i * u32 (precoding.get_prg_size * NRE) ≤
            precoding.get_nof_prg * u32 (precoding.get_prg_size * NRE) :=
          Nat.mul_le_mul_right _ (Nat.le_of_lt hi)
        exact map_stream_prg_writes log0 fuel precoding mx s _ _ st1 i (by omega) hI)
      st (by simpa using h)
    exact this

/-- The writes of the streamed `map`, in every run, are ordered port by port when the PRG windows together fit `unsigned`. -/
theorem map_stream_writes_ordered (MAX_RB fuel : Nat) (g : resource_grid_impl α)
    (buffer : symbol_buffer α) (pattern reserved : re_pattern_list)
    (precoding : precoding_configuration α)
    (hnw : precoding.get_nof_prg * u32 (precoding.get_prg_size * NRE) < 2 ^ 32) :
    ∃ added, (map_stream MAX_RB fuel g buffer pattern reserved precoding).state.grid.put_log =
        g.put_log ++ added ∧ cells_ordered (written_cells added) := by
  have hnil : ∃ added, g.put_log = g.put_log ++ added ∧
      cells_ordered (written_cells added) :=
    ⟨[], by simp, by simp [written_cells, cells_ordered]⟩
  unfold map_stream
  simp only
  split
  · exact hnil
  · split
    · exact hnil
    · have := for_loop_range_inv
        (map_stream_symbol MAX_RB fuel pattern reserved precoding buffer.get_max_block_size)
        (fun s st => writes_inv g.put_log st.grid.put_log s 0)
        (fun st => ∃ added, st.grid.put_log = g.put_log ++ added ∧
          cells_ordered (written_cells added)) MAX_NSYMB_PER_SLOT
        (fun i st _ hI => by
          obtain ⟨added, h1, h2, _⟩ := hI
          exact ⟨added, h1, h2⟩)
        (fun i st _ hI => map_stream_symbol_writes g.put_log MAX_RB fuel pattern reserved
          precoding buffer.get_max_block_size st i hnw hI)
        ⟨g, buffer⟩ (writes_inv_refl _ _ _)
      exact this

end resource_grid_impl
end srsran

namespace srsran
open bounded_bitset resource_grid_impl

/-- C10 as stated fails with two ports: the buffered `map` of two layers onto two ports with all 12 subcarriers of symbol 0 selected returns normally, and it writes the 12 cells of symbol 0 on port 0 and then the same 12 (symbol, subcarrier) positions on port 1, so the sequence of cells written is not strictly ascending in (symbol, subcarrier). -/
theorem C10_write_order_counterexample :
    (match map scenario.grid2 scenario.input2x12 scenario.pattern []
        scenario.precoding_identity with
      | .ok _ => true
      | .error _ => false) = true ∧
    ¬ cells_ascending (written_cells
      ((map scenario.grid2 scenario.input2x12 scenario.pattern []
        scenario.precoding_identity).state.put_log.drop scenario.grid2.put_log.length)) := by
  decide

/-- C10 amended (write ordering, port by port). In every run of the buffered `map`, and in every run of the streamed `map` when the PRG windows together fit `unsigned` (`nof_prg * prg_size * 12 < 2^32`), the cells written by the call, in the order the writes are issued, satisfy: the symbol index never decreases (once a cell of symbol `s` has been written no cell of a symbol below `s` is written afterwards), and the cells written to any one port are strictly ascending in (symbol, subcarrier) lexicographic order. -/
theorem C10_write_ordering {α : Type} [CommSemiring α] [DecidableEq α] (MAX_RB fuel : Nat)
    (g : resource_grid_impl α) (input : re_buffer α) (buffer : symbol_buffer α)
    (pattern reserved : re_pattern_list) (precoding : precoding_configuration α) :
    cells_ordered (written_cells
      ((map g input pattern reserved precoding).state.put_log.drop g.put_log.length)) ∧
    (precoding.get_nof_prg * (precoding.get_prg_size * NRE) < 2 ^ 32 →
      cells_ordered (written_cells
        ((map_stream MAX_RB fuel g buffer pattern reserved precoding).state.grid.put_log.drop
          g.put_log.length))) := by
  constructor
  · obtain ⟨added, h1, h2⟩ := map_writes_ordered g input pattern reserved precoding
    rw [h1, List.drop_left]
    exact h2
  · intro hnw
    have hnw1 : precoding.get_nof_prg * u32 (precoding.get_prg_size * NRE) < 2 ^ 32 :=
      Nat.lt_of_le_of_lt (Nat.mul_le_mul_left _ (u32_le _)) hnw
    obtain ⟨added, h1, h2⟩ :=
      map_stream_writes_ordered MAX_RB fuel g buffer pattern reserved precoding hnw1
    rw [h1, List.drop_left]
    exact h2

/-- C10 amended, at two layers on two ports of a one-PRB grid, buffered and streamed. -/
theorem C10_write_ordering_witness :
    scenario.precoding_identity.get_nof_prg * (scenario.precoding_identity.get_prg_size * NRE)
      < 2 ^ 32 ∧
    cells_ordered (written_cells
      ((map scenario.grid2 scenario.input2x12 scenario.pattern []
        scenario.precoding_identity).state.put_log.drop scenario.grid2.put_log.length)) ∧
    cells_ordered (written_cells
      ((map_stream 275 8 scenario.grid2 scenario.stream4 scenario.pattern []
        scenario.precoding_identity).state.grid.put_log.drop scenario.grid2.put_log.length)) :=
  ⟨by decide,
    (C10_write_ordering 275 8 scenario.grid2 scenario.input2x12 scenario.stream4
      scenario.pattern [] scenario.precoding_identity).1,
    (C10_write_ordering 275 8 scenario.grid2 scenario.input2x12 scenario.stream4
      scenario.pattern [] scenario.precoding_identity).2 (by decide)⟩

end srsran

namespace srsran
open bounded_bitset resource_grid_impl

/-- A fatal check that stops a loop is one that stopped an iteration of its body. -/
theorem for_loop_error_kind {σ : Type} (K : fatal → Prop) (body : σ → Nat → outcome σ)
    (hbody : ∀ s i e, body s i = .error e → K e.1) (l : List Nat) (s : σ) (e : fatal × σ)
    (h : for_loop body l s = .error e) : K e.1 := by
  induction l generalizing s with
  | nil => exact Except.noConfusion h
  | cons i rest ih =>
    simp only [for_loop] at h
    cases hb : body s i with
    | ok s1 =>
      rw [hb] at h
      exact ih s1 h
    | error e1 =>
      rw [hb] at h
      simp only [Except.error.injEq] at h
      subst h
      exact hbody s i e1 hb

namespace resource_grid_impl

variable {α : Type} [CommSemiring α] [DecidableEq α]

theorem map_port_error_kind (s : Nat) (m : List Bool) (g : resource_grid_impl α) (i : Nat)
    (e : fatal × resource_grid_impl α) (h : map_port s m g i = .error e) : e.1 = .unmapped := by
  unfold map_port at h
  simp only at h
  split at h
  · exact Except.noConfusion h
  · simp only [Except.error.injEq] at h
    subst h
    rfl

theorem map_general_error_kind (input : re_buffer α) (precoding : precoding_configuration α)
    (s : Nat) (m : List Bool) (st : map_state α) (e : fatal × map_state α)
    (h : map_general input precoding s m st = .error e) :
    e.1 = .unmapped ∨ e.1 = .precoding_fill := by
  generalize hpb1 : (if count m ≠ st.grid.precoding_buffer.nof_re ∨
      precoding.get_nof_ports ≠ st.grid.precoding_buffer.nof_slices then
      st.grid.precoding_buffer.resize precoding.get_nof_ports (count m)
    else st.grid.precoding_buffer) = pb1
  generalize hprg : (List.range precoding.get_nof_prg).foldl
    (map_prg input precoding (u32 (precoding.get_prg_size * NRE)) m)
    ⟨pb1, st.i_re_buffer, 0, 0⟩ = prg
  unfold map_general at h
  simp only [hpb1, hprg] at h
  by_cases hfill : prg.i_precoding_buffer = prg.precoding_buffer.nof_re
  · rw [if_neg (not_not.mpr hfill)] at h
    cases hloop : for_loop (map_port s m) (List.range precoding.get_nof_ports)
        { st.grid with precoding_buffer := prg.precoding_buffer } with
    | ok g1 =>
      rw [hloop] at h
      exact Except.noConfusion h
    | error e1 =>
      rw [hloop] at h
      simp only [Except.error.injEq] at h
      subst h
      exact Or.inl (for_loop_error_kind (fun k => k = .unmapped) _
        (fun g i e2 h2 => map_port_error_kind _ _ g i e2 h2) _ _ e1 hloop)
  · rw [if_pos hfill] at h
    simp only [Except.error.injEq] at h
    subst h
    exact Or.inr rfl

theorem map_symbol_error_kind (input : re_buffer α) (pattern reserved : re_pattern_list)
    (precoding : precoding_configuration α) (st : map_state α) (s : Nat)
    (e : fatal × map_state α) (h : map_symbol input pattern reserved precoding st s = .error e) :
    e.1 = .unmapped ∨ e.1 = .precoding_fill := by
  unfold map_symbol at h
  simp only at h
  split at h
  · exact Except.noConfusion h
  · split at h
    · unfold map_bypass at h
      simp only at h
      split at h
      · exact Except.noConfusion h
      · simp only [Except.error.injEq] at h
        subst h
        exact Or.inl rfl
    · exact map_general_error_kind _ _ _ _ _ _ h

theorem map_block_error_kind (w : precoding_weight_matrix α) (L A s k : Nat) (m : List Bool)
    (st : stream_state α) (e : fatal × stream_state α)
    (h : map_block w L A s k m st = .error e) : e.1 = .pop_symbols := by
  unfold map_block at h
  simp only at h
  split at h
  · simp only [Except.error.injEq] at h
    subst h
    rfl
  · split at h <;> exact Except.noConfusion h

theorem map_blocks_error_kind (w : precoding_weight_matrix α) (mx L A s i_subc : Nat)
    (m : List Bool) (nsp fuel off : Nat) (st : stream_state α) (e : fatal × stream_state α)
    (h : map_blocks w mx L A s i_subc m nsp fuel off st = .error e) :
    e.1 = .pop_symbols ∨ e.1 = .pending_zero ∨ e.1 = .out_of_fuel := by
  induction fuel generalizing off st with
  | zero =>
    unfold map_blocks at h
    split at h
    · exact Except.noConfusion h
    · simp only [Except.error.injEq] at h
      subst h
      exact Or.inr (Or.inr rfl)
  | succ fuel ih =>
    unfold map_blocks at h
    simp only at h
    split at h
    · exact Except.noConfusion h
    · split at h
      · simp only [Except.error.injEq] at h
        subst h
        exact Or.inr (Or.inl rfl)
      · split at h
        · rename_i e1 he1
          simp only [Except.error.injEq] at h
          subst h
          exact Or.inl (map_block_error_kind _ _ _ _ _ _ _ _ he1)
        · exact ih _ _ h

theorem map_stream_symbol_error_kind (MAX_RB fuel : Nat) (pattern reserved : re_pattern_list)
    (precoding : precoding_configuration α) (mx : Nat) (st : stream_state α) (s : Nat)
    (e : fatal × stream_state α)
    (h : map_stream_symbol MAX_RB fuel pattern reserved precoding mx st s = .error e) :
    e.1 = .pop_symbols ∨ e.1 = .pending_zero ∨ e.1 = .out_of_fuel := by
  unfold map_stream_symbol at h
  simp only at h
  split at h
  · exact Except.noConfusion h
  · refine for_loop_error_kind
      (fun k => k = .pop_symbols ∨ k = .pending_zero ∨ k = .out_of_fuel) _ ?_ _ _ e h
    intro st1 i e1 h1
    unfold map_stream_prg at h1
    simp only at h1
    split at h1
    · exact Except.noConfusion h1
    · exact map_blocks_error_kind _ _ _ _ _ _ _ _ _ _ _ _ h1

/-- The fatal checks that can stop the symbol loop of the streamed `map`. -/
theorem map_stream_loop_error_kind (MAX_RB fuel : Nat) (pattern reserved : re_pattern_list)
    (precoding : precoding_configuration α) (mx : Nat) (l : List Nat) (st : stream_state α)
    (e : fatal × stream_state α)
    (h : for_loop (map_stream_symbol MAX_RB fuel pattern reserved precoding mx) l st = .error e) :
    e.1 = .pop_symbols ∨ e.1 = .pending_zero ∨ e.1 = .out_of_fuel :=
  for_loop_error_kind (fun k => k = .pop_symbols ∨ k = .pending_zero ∨ k = .out_of_fuel) _
    (fun st1 i e1 h1 => map_stream_symbol_error_kind _ _ _ _ _ _ st1 i e1 h1) l st e h

end resource_grid_impl

/-- C12 (configuration checks of the buffered map). If the number of slices of the input differs from the number of layers of the precoding, `map` stops at the first check, and if it matches but the precoding has more ports than the grid, at the second; in both cases the state at the stop is the grid `map` was given, unchanged in its cells, flags, scratch buffers and writer log. If both conditions are satisfied, whatever fatal check stops `map` is neither of the two. -/
theorem C12_buffered_configuration_checks {α : Type} [CommSemiring α] [DecidableEq α]
    (g : resource_grid_impl α) (input : re_buffer α) (pattern reserved : re_pattern_list)
    (precoding : precoding_configuration α) :
    (input.nof_slices ≠ precoding.get_nof_layers →
      map g input pattern reserved precoding = .error (.input_layers, g)) ∧
    (input.nof_slices = precoding.get_nof_layers → ¬ precoding.get_nof_ports ≤ g.nof_ports →
      map g input pattern reserved precoding = .error (.precoding_ports, g)) ∧
    (input.nof_slices = precoding.get_nof_layers → precoding.get_nof_ports ≤ g.nof_ports →
      ∀ e, map g input pattern reserved precoding = .error e →
        e.1 ≠ .input_layers ∧ e.1 ≠ .precoding_ports) := by
  refine ⟨?_, ?_, ?_⟩
  · intro hl
    unfold map
    rw [if_pos hl]
  · intro hl hp
    unfold map
    rw [if_neg (not_not.mpr hl), if_pos hp]
  · intro hl hp e h
    unfold map at h
    rw [if_neg (not_not.mpr hl), if_neg (not_not.mpr hp)] at h
    split at h
    · rename_i e1 he1
      simp only [Except.error.injEq] at h
      subst h
      have hk := for_loop_error_kind (fun k => k = .unmapped ∨ k = .precoding_fill) _
        (fun st i e2 h2 => map_symbol_error_kind input pattern reserved precoding st i e2 h2)
        _ _ e1 he1
      rcases hk with hk | hk <;> simp [hk]
    · split at h
      · exact Except.noConfusion h
      · simp only [Except.error.injEq] at h
        subst h
        simp

/-- C12 at a one-port grid: an input of two layers against a one-layer precoding stops at the first check, a one-layer precoding on two ports stops at the second, both with the grid as it was; the matching one-layer, one-port configuration is stopped by neither. -/
theorem C12_buffered_configuration_checks_witness :
    (scenario.input2x12.nof_slices ≠ scenario.precoding.get_nof_layers ∧
      map scenario.grid scenario.input2x12 scenario.pattern [] scenario.precoding =
        .error (.input_layers, scenario.grid)) ∧
    (scenario.input12.nof_slices = scenario.precoding_1x2.get_nof_layers ∧
      ¬ scenario.precoding_1x2.get_nof_ports ≤ scenario.grid.nof_ports ∧
      map scenario.grid scenario.input12 scenario.pattern [] scenario.precoding_1x2 =
        .error (.precoding_ports, scenario.grid)) ∧
    (scenario.input12.nof_slices = scenario.precoding.get_nof_layers ∧
      scenario.precoding.get_nof_ports ≤ scenario.grid.nof_ports ∧
      ∀ e, map scenario.grid scenario.input12 scenario.pattern [] scenario.precoding =
          .error e → e.1 ≠ .input_layers ∧ e.1 ≠ .precoding_ports) :=
  ⟨⟨by decide, (C12_buffered_configuration_checks scenario.grid scenario.input2x12
      scenario.pattern [] scenario.precoding).1 (by decide)⟩,
    ⟨by decide, by decide, (C12_buffered_configuration_checks scenario.grid scenario.input12
      scenario.pattern [] scenario.precoding_1x2).2.1 (by decide) (by decide)⟩,
    ⟨by decide, by decide, (C12_buffered_configuration_checks scenario.grid scenario.input12
      scenario.pattern [] scenario.precoding).2.2 (by decide) (by decide)⟩⟩

/-- C13 (configuration checks of the streamed map). The streamed `map` is stopped by one of its two initial range checks if and only if `1 ≤ nof_layers ≤ nof_ports ≤ grid nof_ports` fails; when it is, the state at the stop is the grid and the symbol source it was given: nothing was popped and nothing written. -/
theorem C13_streamed_configuration_checks {α : Type} [CommSemiring α] [DecidableEq α]
    (MAX_RB fuel : Nat) (g : resource_grid_impl α) (buffer : symbol_buffer α)
    (pattern reserved : re_pattern_list) (precoding : precoding_configuration α) :
    ((∀ e, map_stream MAX_RB fuel g buffer pattern reserved precoding = .error e →
        e.1 ≠ .antennas_range ∧ e.1 ≠ .layers_range) ↔
      (1 ≤ precoding.get_nof_layers ∧ precoding.get_nof_layers ≤ precoding.get_nof_ports ∧
        precoding.get_nof_ports ≤ g.nof_ports)) ∧
    (¬ (1 ≤ precoding.get_nof_layers ∧ precoding.get_nof_layers ≤ precoding.get_nof_ports ∧
        precoding.get_nof_ports ≤ g.nof_ports) →
      map_stream MAX_RB fuel g buffer pattern reserved precoding =
          .error (.antennas_range, ⟨g, buffer⟩) ∨
        map_stream MAX_RB fuel g buffer pattern reserved precoding =
          .error (.layers_range, ⟨g, buffer⟩)) := by
  have hfail : ¬ (1 ≤ precoding.get_nof_layers ∧
      precoding.get_nof_layers ≤ precoding.get_nof_ports ∧
        precoding.get_nof_ports ≤ g.nof_ports) →
      map_stream MAX_RB fuel g buffer pattern reserved precoding =
          .error (.antennas_range, ⟨g, buffer⟩) ∨
        map_stream MAX_RB fuel g buffer pattern reserved precoding =
          .error (.layers_range, ⟨g, buffer⟩) := by
    intro hc
    unfold map_stream
    simp only
    by_cases ha : 1 ≤ precoding.get_nof_ports ∧ precoding.get_nof_ports ≤ g.nof_ports
    · have hl : ¬ (1 ≤ precoding.get_nof_layers ∧
          precoding.get_nof_layers ≤ precoding.get_nof_ports) :=
        fun hl => hc ⟨hl.1, hl.2, ha.2⟩
      rw [if_neg (not_not.mpr ha), if_pos hl]
      exact Or.inr rfl
    · rw [if_pos ha]
      exact Or.inl rfl
  refine ⟨⟨?_, ?_⟩, hfail⟩
  · intro h
    by_contra hc
    rcases hfail hc with h1 | h1
    · exact (h _ h1).1 rfl
    · exact (h _ h1).2 rfl
  · intro hc e h
    unfold map_stream at h
    simp only at h
    rw [if_neg (not_not.mpr ⟨by omega, hc.2.2⟩), if_neg (not_not.mpr ⟨hc.1, hc.2.1⟩)] at h
    have hk := map_stream_loop_error_kind _ _ _ _ _ _ _ _ e h
    rcases hk with hk | hk | hk <;> simp [hk]

/-- C13 on a two-port grid: one layer on two ports passes the checks; two layers on one port, and one layer on two ports of a one-port grid, are stopped with the grid and the source untouched. -/
theorem C13_streamed_configuration_checks_witness :
    (∀ e, map_stream 1 8 scenario.grid2 scenario.stream4 scenario.pattern4 []
        scenario.precoding_1x2 = .error e → e.1 ≠ .antennas_range ∧ e.1 ≠ .layers_range) ∧
    (¬ (1 ≤ scenario.precoding_1x2.get_nof_layers ∧
        scenario.precoding_1x2.get_nof_layers ≤ scenario.precoding_1x2.get_nof_ports ∧
        scenario.precoding_1x2.get_nof_ports ≤ scenario.grid.nof_ports) ∧
      (map_stream 1 8 scenario.grid scenario.stream4 scenario.pattern4 []
          scenario.precoding_1x2 = .error (.antennas_range, ⟨scenario.grid, scenario.stream4⟩) ∨
        map_stream 1 8 scenario.grid scenario.stream4 scenario.pattern4 []
          scenario.precoding_1x2 = .error (.layers_range, ⟨scenario.grid, scenario.stream4⟩))) :=
  ⟨(C13_streamed_configuration_checks 1 8 scenario.grid2 scenario.stream4 scenario.pattern4 []
      scenario.precoding_1x2).1.2 (by decide),
    by decide,
    (C13_streamed_configuration_checks 1 8 scenario.grid scenario.stream4 scenario.pattern4 []
      scenario.precoding_1x2).2 (by decide)⟩

/-- C17 (the three-argument map). The three-argument `map` gives, for every grid, input, pattern list and precoding configuration, the outcome of the four-argument buffered `map` with an empty list of reserved patterns: the same grid when it returns and the same fatal check with the same state when it stops; with that list the selected REs of a symbol are the REs of the inclusion patterns inside the grid. -/
theorem C17_map_without_reserved {α : Type} [CommSemiring α] [DecidableEq α]
    (g : resource_grid_impl α) (input : re_buffer α) (pattern : re_pattern_list)
    (precoding : precoding_configuration α) :
    map3 g input pattern precoding = map g input pattern [] precoding ∧
      ∀ s k, test (selection_mask g.nof_subc pattern [] s) k =
        (decide (k < g.nof_subc) && re_pattern_list.covers pattern s k) := by
  refine ⟨rfl, ?_⟩
  intro s k
  rw [test_selection_mask]
  simp [re_pattern_list.covers]

end srsran

namespace srsran
open bounded_bitset resource_grid_impl

namespace resource_grid_impl

theorem foldl_zero_port {α : Type} [Zero α] (g : resource_grid_impl α) (n : Nat) :
    ((List.range n).foldl zero_port g).nof_ports = g.nof_ports ∧
    (∀ p, ((List.range n).foldl zero_port g).empty p = if p < n then true else g.empty p) ∧
    (∀ p l k, ((List.range n).foldl zero_port g).rg_buffer p l k =
      if p < n then 0 else g.rg_buffer p l k) := by
  induction n with
  | zero => simp
  | succ n ih =>
    rw [List.range_succ, List.foldl_append]
    simp only [List.foldl_cons, List.foldl_nil]
    obtain ⟨h1, h2, h3⟩ := ih
    refine ⟨h1, ?_, ?_⟩
    · intro p
      show (if p = n then true else ((List.range n).foldl zero_port g).empty p) = _
      rw [h2]
      by_cases hp : p = n
      · subst hp; simp
      · by_cases hlt : p < n
        · simp [hp, hlt, Nat.lt_succ_of_lt hlt]
        · have : ¬ p < n + 1 := by omega
          simp [hp, hlt, this]
    · intro p l k
      show (if p = n then 0 else ((List.range n).foldl zero_port g).rg_buffer p l k) = _
      rw [h3]
      by_cases hp : p = n
      · subst hp; simp
      · by_cases hlt : p < n
        · simp [hp, hlt, Nat.lt_succ_of_lt hlt]
        · have : ¬ p < n + 1 := by omega
          simp [hp, hlt, this]

theorem foldl_set_all_zero_port {α : Type} [Zero α] (g : resource_grid_impl α) (n : Nat) :
    ((List.range n).foldl set_all_zero_port g).nof_ports = g.nof_ports ∧
    (∀ p, ((List.range n).foldl set_all_zero_port g).empty p =
      if p < n then true else g.empty p) ∧
    (∀ p l k, ((List.range n).foldl set_all_zero_port g).rg_buffer p l k =
      if p < n ∧ g.empty p = false then 0 else g.rg_buffer p l k) := by
  induction n with
  | zero => simp
  | succ n ih =>
    rw [List.range_succ, List.foldl_append]
    simp only [List.foldl_cons, List.foldl_nil]
    obtain ⟨h1, h2, h3⟩ := ih
    generalize (List.range n).foldl set_all_zero_port g = h at h1 h2 h3
    have hn : h.empty n = g.empty n := by rw [h2]; simp
    unfold set_all_zero_port
    by_cases he : g.empty n = true
    · have hc : (!h.empty n) = false := by rw [hn, he]; rfl
      simp only [hc, Bool.false_eq_true, if_false]
      refine ⟨h1, ?_, ?_⟩
      · intro p
        rw [h2]
        by_cases hp : p = n
        · subst hp; simp [he]
        · by_cases hlt : p < n
          · simp [hlt, Nat.lt_succ_of_lt hlt]
          · have : ¬ p < n + 1 := by omega
            simp [hlt, this]
      · intro p l k
        rw [h3]
        by_cases hp : p = n
        · subst hp; simp [he]
        · have hiff : p < n + 1 ↔ p < n := by omega
          simp only [hiff]
    · have he1 : g.empty n = false := by simpa using he
      have hc : (!h.empty n) = true := by rw [hn, he1]; rfl
      simp only [hc, if_true]
      refine ⟨h1, ?_, ?_⟩
      · intro p
        show (if p = n then true else h.empty p) = _
        rw [h2]
        by_cases hp : p = n
        · subst hp; simp
        · have hiff : p < n + 1 ↔ p < n := by omega
          simp only [hp, if_false, hiff]
      · intro p l k
        show (if p = n then 0 else h.rg_buffer p l k) = _
        rw [h3]
        by_cases hp : p = n
        · subst hp; simp [he1]
        · have hiff : p < n + 1 ↔ p < n := by omega
          simp only [hp, if_false, hiff]

end resource_grid_impl

/-- C15 (empty-flag invariant of the grid). After construction the grid has the ports asked for, every one of them flagged empty with every cell zero, whatever the memory held before. After `set_all_zero()` every port is flagged empty, and every cell of every port is zero provided that before the call every port flagged empty had all its cells zero. And `set_all_zero()` zeroes only the ports that were flagged non-empty: a cell after the call is zero if its port was flagged non-empty and else is what it was. -/
theorem C15_empty_flag_invariant {α : Type} [Zero α] (nof_ports_ nof_symb_ nof_subc_ : Nat)
    (raw : Nat → Nat → Nat → α) (raw_empty : Nat → Bool) (scratch : Nat → Nat → α)
    (g : resource_grid_impl α) :
    ((create nof_ports_ nof_symb_ nof_subc_ raw raw_empty scratch).nof_ports = nof_ports_ ∧
      ∀ p, p < nof_ports_ →
        (create nof_ports_ nof_symb_ nof_subc_ raw raw_empty scratch).empty p = true ∧
        ∀ l k, (create nof_ports_ nof_symb_ nof_subc_ raw raw_empty scratch).rg_buffer p l k
          = 0) ∧
    ((set_all_zero g).nof_ports = g.nof_ports ∧
      ∀ p, p < g.nof_ports → (set_all_zero g).empty p = true) ∧
    ((∀ p, p < g.nof_ports → g.empty p = true → ∀ l k, g.rg_buffer p l k = 0) →
      ∀ p, p < g.nof_ports → ∀ l k, (set_all_zero g).rg_buffer p l k = 0) ∧
    (∀ p l k, (set_all_zero g).rg_buffer p l k =
      if p < g.nof_ports ∧ g.empty p = false then 0 else g.rg_buffer p l k) := by
  refine ⟨?_, ?_, ?_, ?_⟩
  · obtain ⟨h1, h2, h3⟩ := foldl_zero_port
      ({ nof_ports := nof_ports_, nof_symb := nof_symb_, nof_subc := nof_subc_,
         empty := raw_empty, rg_buffer := raw,
         layer_mapping_buffer := ⟨nof_ports_, nof_subc_ * nof_symb_, scratch⟩,
         precoding_buffer := ⟨nof_ports_, nof_subc_ * nof_symb_, scratch⟩,
         put_log := [] } : resource_grid_impl α) nof_ports_
    refine ⟨h1, ?_⟩
    intro p hp
    refine ⟨?_, ?_⟩
    · show ((List.range nof_ports_).foldl zero_port _).empty p = true
      rw [h2, if_pos hp]
    · intro l k
      show ((List.range nof_ports_).foldl zero_port _).rg_buffer p l k = 0
      rw [h3, if_pos hp]
  · obtain ⟨h1, h2, _⟩ := foldl_set_all_zero_port g g.nof_ports
    refine ⟨h1, ?_⟩
    intro p hp
    show ((List.range g.nof_ports).foldl set_all_zero_port g).empty p = true
    rw [h2, if_pos hp]
  · intro hinv p hp l k
    obtain ⟨_, _, h3⟩ := foldl_set_all_zero_port g g.nof_ports
    show ((List.range g.nof_ports).foldl set_all_zero_port g).rg_buffer p l k = 0
    rw [h3]
    by_cases he : g.empty p = true
    · rw [if_neg (by simp [he])]
      exact hinv p hp he l k
    · rw [if_pos ⟨hp, by simpa using he⟩]
  · intro p l k
    obtain ⟨_, _, h3⟩ := foldl_set_all_zero_port g g.nof_ports
    exact h3 p l k

/-- C15 at a two-port grid in use, whose port 0 is flagged empty and zero and whose port 1 is flagged non-empty and holds 7: after `set_all_zero()` every cell of both ports is zero. -/
theorem C15_empty_flag_invariant_witness :
    (∀ p, p < scenario.grid_dirty.nof_ports → scenario.grid_dirty.empty p = true →
      ∀ l k, scenario.grid_dirty.rg_buffer p l k = 0) ∧
    ∀ p, p < scenario.grid_dirty.nof_ports →
      ∀ l k, (set_all_zero scenario.grid_dirty).rg_buffer p l k = 0 :=
  have h : ∀ p, p < scenario.grid_dirty.nof_ports → scenario.grid_dirty.empty p = true →
      ∀ l k, scenario.grid_dirty.rg_buffer p l k = 0 := by
    intro p _ he l k
    simp only [scenario.grid_dirty, decide_eq_true_eq] at he
    simp [scenario.grid_dirty, he]
  ⟨h, (C15_empty_flag_invariant 0 0 0 (fun _ _ _ => 0) (fun _ => true) (fun _ _ => 0)
    scenario.grid_dirty).2.2.1 h⟩

end srsran

namespace srsran
open bounded_bitset resource_grid_impl

/-- The value of the precoding kernel written with the coefficients of the configuration: the sum over the layers of `coefficient(layer, port, PRG) * layer`. -/
theorem precoded_re_eq {α : Type} [CommSemiring α] (input : re_buffer α)
    (precoding : precoding_configuration α) (i_prg p j : Nat)
    (hl : input.nof_slices = precoding.get_nof_layers) :
    precoded_re input precoding i_prg p j =
      ((List.range precoding.get_nof_layers).map (fun l =>
        precoding.get_coefficient l p i_prg * input.data l j)).sum := by
  unfold precoded_re
  rw [hl]
  congr 1
  apply List.map_congr_left
  intro l hmem
  have hlt : l < precoding.get_nof_layers := List.mem_range.mp hmem
  rw [getD_get_port_coefficients _ _ _ hlt]
  rfl

/-- C20 (per-PRG weights of the buffered map). With a grid width and a PRG width (`12 * G` subcarriers for a PRG size of `G` resource blocks) that fit `unsigned`, matching layer and port counts, PRGs that cover every selected subcarrier and an input of as many REs as are selected, `map` returns a grid in which the selected RE at subcarrier `k` of symbol `s` is precoded with the weights of PRG `k / (12 * G)`, one of the PRGs of the configuration: port `p` holds there the sum over the layers `l` of `coefficient(l, p, PRG) * input[l][j]`, `j` being the rank of the RE among the selected REs ordered by symbol then subcarrier. -/
theorem C20_prg_weights {α : Type} [CommSemiring α] [DecidableEq α]
    (g : resource_grid_impl α) (input : re_buffer α) (pattern reserved : re_pattern_list)
    (precoding : precoding_configuration α) (hsize : g.nof_subc + NRE ≤ 2 ^ 32)
    (hG : precoding.get_prg_size * NRE < 2 ^ 32)
    (hl : input.nof_slices = precoding.get_nof_layers)
    (hp : precoding.get_nof_ports ≤ g.nof_ports)
    (hcov : prgs_cover g.nof_subc pattern reserved precoding)
    (hre : input.nof_re = total_selected g.nof_subc pattern reserved MAX_NSYMB_PER_SLOT) :
    ∃ g1, map g input pattern reserved precoding = .ok g1 ∧
      ∀ p s k, p < precoding.get_nof_ports → s < MAX_NSYMB_PER_SLOT →
        test (selection_mask g.nof_subc pattern reserved s) k = true →
        k / (NRE * precoding.get_prg_size) < precoding.get_nof_prg ∧
        g1.rg_buffer p s k =
          ((List.range precoding.get_nof_layers).map (fun l =>
            precoding.get_coefficient l p (k / (NRE * precoding.get_prg_size)) *
              input.data l (total_selected g.nof_subc pattern reserved s +
                rank (selection_mask g.nof_subc pattern reserved s) k))).sum := by
  obtain ⟨st, _, hinv, hmap⟩ :=
    map_result g input pattern reserved precoding hsize (Or.inr hcov) hl hp
  rw [if_pos hre.symm] at hmap
  refine ⟨st.grid, hmap, ?_⟩
  intro p s k hpp hs hk
  have hP : u32 (precoding.get_prg_size * NRE) = NRE * precoding.get_prg_size := by
    rw [u32_of_lt hG, Nat.mul_comm]
  have hdiv := prg_index_lt_of_cover g.nof_subc pattern reserved precoding s k hcov hs hk
  rw [hP] at hdiv
  refine ⟨hdiv, ?_⟩
  rw [hinv.cell, if_pos ⟨hpp, hs, hk⟩]
  unfold mapped_value symbol_value
  by_cases hb : bypass precoding = true
  · rw [if_pos hb]
    have hb1 := hb
    simp only [bypass, decide_eq_true_eq] at hb1
    obtain ⟨hL, hPt, hGr, hc⟩ := hb1
    have hp0 : p = 0 := by omega
    have hk0 : k / (NRE * precoding.get_prg_size) = 0 :=
      Nat.lt_one_iff.mp (by rw [hGr] at hdiv; exact hdiv)
    rw [hL, hk0, hp0]
    simp [List.range_succ, hc]
  · rw [if_neg hb, precoded_re_eq input precoding _ p _ hl, hP]

set_option maxRecDepth 4000 in
/-- C20 at a two-port grid of two resource blocks with two PRGs of one resource block each: two layers of 24 REs, all subcarriers of symbol 0 selected. -/
theorem C20_prg_weights_witness :
    scenario.grid2x24.nof_subc + NRE ≤ 2 ^ 32 ∧
    scenario.precoding_2prg.get_prg_size * NRE < 2 ^ 32 ∧
    scenario.input2x24.nof_slices = scenario.precoding_2prg.get_nof_layers ∧
    scenario.precoding_2prg.get_nof_ports ≤ scenario.grid2x24.nof_ports ∧
    prgs_cover scenario.grid2x24.nof_subc scenario.pattern24 [] scenario.precoding_2prg ∧
    scenario.input2x24.nof_re =
      total_selected scenario.grid2x24.nof_subc scenario.pattern24 [] MAX_NSYMB_PER_SLOT ∧
    ∃ g1, map scenario.grid2x24 scenario.input2x24 scenario.pattern24 []
        scenario.precoding_2prg = .ok g1 ∧
      ∀ p s k, p < scenario.precoding_2prg.get_nof_ports → s < MAX_NSYMB_PER_SLOT →
        test (selection_mask scenario.grid2x24.nof_subc scenario.pattern24 [] s) k = true →
        k / (NRE * scenario.precoding_2prg.get_prg_size) < scenario.precoding_2prg.get_nof_prg ∧
        g1.rg_buffer p s k =
          ((List.range scenario.precoding_2prg.get_nof_layers).map (fun l =>
            scenario.precoding_2prg.get_coefficient l p
                (k / (NRE * scenario.precoding_2prg.get_prg_size)) *
              scenario.input2x24.data l
                (total_selected scenario.grid2x24.nof_subc scenario.pattern24 [] s +
                  rank (selection_mask scenario.grid2x24.nof_subc scenario.pattern24 [] s)
                    k))).sum :=
  ⟨by decide, by decide, by decide, by decide, by decide, by decide,
    C20_prg_weights scenario.grid2x24 scenario.input2x24 scenario.pattern24 []
      scenario.precoding_2prg (by decide) (by decide) (by decide) (by decide) (by decide)
      (by decide)⟩

end srsran

namespace srsran
open bounded_bitset resource_grid_impl

theorem views_nof_re_append (a b : List input_view) :
    views_nof_re (a ++ b) = views_nof_re a + views_nof_re b := by
  simp [views_nof_re]

theorem contiguous_from_append (o : Nat) (a b : List input_view) :
    contiguous_from o (a ++ b) ↔
      contiguous_from o a ∧ contiguous_from (o + views_nof_re a) b := by
  induction a generalizing o with
  | nil => simp [contiguous_from, views_nof_re]
  | cons v a ih =>
    show (v.offset = o ∧ contiguous_from (o + v.nof_re) (a ++ b)) ↔
      (v.offset = o ∧ contiguous_from (o + v.nof_re) a) ∧
        contiguous_from (o + views_nof_re (v :: a)) b
    have hsum : o + views_nof_re (v :: a) = o + v.nof_re + views_nof_re a := by
      simp only [views_nof_re, List.map_cons, List.sum_cons]
      omega
    rw [ih, hsum, and_assoc]

/-- Views that are consecutive from `o` all start at or after `o`. -/
theorem contiguous_from_le (o : Nat) (vs : List input_view) (h : contiguous_from o vs)
    (v : input_view) (hv : v ∈ vs) : o ≤ v.offset := by
  induction vs generalizing o with
  | nil => simp at hv
  | cons w vs ih =>
    obtain ⟨h1, h2⟩ := h
    rcases List.mem_cons.mp hv with rfl | hmem
    · omega
    · have := ih _ h2 hmem
      omega

/-- Consecutive views are taken in increasing order: each ends at or before the start of every later one. -/
theorem contiguous_from_pairwise (o : Nat) (vs : List input_view) (h : contiguous_from o vs) :
    List.Pairwise (fun a b => a.offset + a.nof_re ≤ b.offset) vs := by
  induction vs generalizing o with
  | nil => exact List.Pairwise.nil
  | cons w vs ih =>
    obtain ⟨h1, h2⟩ := h
    refine List.Pairwise.cons ?_ (ih _ h2)
    intro b hb
    have := contiguous_from_le _ _ h2 b hb
    omega

/-- Consecutive views from `o` read every index from `o` up to their end exactly once. -/
theorem contiguous_from_reads_once (o : Nat) (vs : List input_view) (h : contiguous_from o vs)
    (j : Nat) (h1 : o ≤ j) (h2 : j < o + views_nof_re vs) :
    (vs.filter (fun v => v.reads j)).length = 1 := by
  induction vs generalizing o with
  | nil => simp [views_nof_re] at h2; omega
  | cons w vs ih =>
    obtain ⟨hw, hrest⟩ := h
    simp only [views_nof_re, List.map_cons, List.sum_cons] at h2
    by_cases hj : j < o + w.nof_re
    · have hr : w.reads j = true := by
        simp only [input_view.reads, decide_eq_true_eq]
        omega
      have hnone : vs.filter (fun v => v.reads j) = [] := by
        rw [List.filter_eq_nil_iff]
        intro b hb
        have := contiguous_from_le _ _ hrest b hb
        simp only [input_view.reads, decide_eq_true_eq]
        omega
      rw [List.filter_cons, if_pos hr, hnone]
      rfl
    · have hr : ¬ w.reads j = true := by
        simp only [input_view.reads, decide_eq_true_eq]
        omega
      rw [List.filter_cons, if_neg hr]
      exact ih _ hrest (by omega) (by
        show j < o + w.nof_re + views_nof_re vs
        unfold views_nof_re
        omega)

namespace resource_grid_impl

variable {α : Type} [CommSemiring α] [DecidableEq α]

/-- The views of the PRG loop are consecutive from the counter at the start of the loop, end at the counter after the loop, and each has one RE per set bit of its mask slice. -/
theorem prg_views_spec (input : re_buffer α) (precoding : precoding_configuration α) (P : Nat)
    (m : List Bool) (st0 : prg_state α) (n : Nat) :
    contiguous_from st0.i_re_buffer (prg_views input precoding P m st0 n) ∧
    ((List.range n).foldl (map_prg input precoding P m) st0).i_re_buffer =
      st0.i_re_buffer + views_nof_re (prg_views input precoding P m st0 n) ∧
    ∀ v, v ∈ prg_views input precoding P m st0 n → v.nof_re = count v.mask := by
  induction n with
  | zero =>
    refine ⟨trivial, ?_, ?_⟩
    · simp [prg_views, views_nof_re]
    · intro v hv
      simp [prg_views] at hv
  | succ n ih =>
    obtain ⟨h1, h2, h3⟩ := ih
    unfold prg_views
    refine ⟨?_, ?_, ?_⟩
    · rw [contiguous_from_append]
      refine ⟨h1, ?_, trivial⟩
      show ((List.range n).foldl (map_prg input precoding P m) st0).i_re_buffer = _
      exact h2
    · rw [List.range_succ, List.foldl_append, views_nof_re_append]
      simp only [List.foldl_cons, List.foldl_nil]
      show ((List.range n).foldl (map_prg input precoding P m) st0).i_re_buffer +
        (prg_view P m ((List.range n).foldl (map_prg input precoding P m) st0)).nof_re = _
      rw [h2]
      simp [views_nof_re, Nat.add_assoc]
    · intro v hv
      rcases List.mem_append.mp hv with hv | hv
      · exact h3 v hv
      · rw [List.mem_singleton] at hv
        subst hv
        rfl

theorem map_general_i_re (input : re_buffer α) (precoding : precoding_configuration α)
    (s : Nat) (m : List Bool) (st st1 : map_state α)
    (h : map_general input precoding s m st = .ok st1) :
    st1.i_re_buffer = ((List.range precoding.get_nof_prg).foldl
      (map_prg input precoding (u32 (precoding.get_prg_size * NRE)) m)
      ⟨(if count m ≠ st.grid.precoding_buffer.nof_re ∨
          precoding.get_nof_ports ≠ st.grid.precoding_buffer.nof_slices then
          st.grid.precoding_buffer.resize precoding.get_nof_ports (count m)
        else st.grid.precoding_buffer), st.i_re_buffer, 0, 0⟩).i_re_buffer := by
  generalize hpb1 : (if count m ≠ st.grid.precoding_buffer.nof_re ∨
      precoding.get_nof_ports ≠ st.grid.precoding_buffer.nof_slices then
      st.grid.precoding_buffer.resize precoding.get_nof_ports (count m)
    else st.grid.precoding_buffer) = pb1
  generalize hprg : (List.range precoding.get_nof_prg).foldl
    (map_prg input precoding (u32 (precoding.get_prg_size * NRE)) m)
    ⟨pb1, st.i_re_buffer, 0, 0⟩ = prg
  unfold map_general at h
  simp only [hpb1, hprg] at h
  by_cases hfill : prg.i_precoding_buffer = prg.precoding_buffer.nof_re
  · rw [if_neg (not_not.mpr hfill)] at h
    cases hloop : for_loop (map_port s m) (List.range precoding.get_nof_ports)
        { st.grid with precoding_buffer := prg.precoding_buffer } with
    | ok g1 =>
      rw [hloop] at h
      simp only [Except.ok.injEq] at h
      subst h
      rfl
    | error e1 =>
      rw [hloop] at h
      exact Except.noConfusion h
  · rw [if_pos hfill] at h
    exact Except.noConfusion h

/-- The views of one iteration of the symbol loop are consecutive from the counter at its start, each has one RE per set bit of its mask, and when the iteration returns the counter is at their end. -/
theorem symbol_views_spec (input : re_buffer α) (pattern reserved : re_pattern_list)
    (precoding : precoding_configuration α) (st : map_state α) (s : Nat) :
    contiguous_from st.i_re_buffer (symbol_views input pattern reserved precoding st s) ∧
    (∀ v, v ∈ symbol_views input pattern reserved precoding st s → v.nof_re = count v.mask) ∧
    ∀ st1, map_symbol input pattern reserved precoding st s = .ok st1 →
      st1.i_re_buffer =
        st.i_re_buffer + views_nof_re (symbol_views input pattern reserved precoding st s) := by
  unfold symbol_views map_symbol
  simp only
  by_cases hh : find_highest (selection_mask st.grid.nof_subc pattern reserved s) < 0
  · simp only [hh, if_true]
    refine ⟨trivial, ?_, ?_⟩
    · intro v hv
      simp at hv
    · intro st1 h1
      simp only [Except.ok.injEq] at h1
      subst h1
      simp [views_nof_re]
  · simp only [hh, if_false]
    by_cases hb : bypass precoding = true
    · simp only [hb, if_true]
      refine ⟨⟨rfl, trivial⟩, ?_, ?_⟩
      · intro v hv
        rw [List.mem_singleton] at hv
        subst hv
        rfl
      · intro st1 h1
        rw [map_bypass_eq] at h1
        simp only [Except.ok.injEq] at h1
        subst h1
        simp [views_nof_re]
    · simp only [hb, Bool.false_eq_true, if_false]
      have hspec := prg_views_spec input precoding (u32 (precoding.get_prg_size * NRE))
        (resize (selection_mask st.grid.nof_subc pattern reserved s)
          (divide_ceil (find_highest (selection_mask st.grid.nof_subc pattern reserved s)
            + 1).toNat NRE * NRE))
        ⟨(if count (resize (selection_mask st.grid.nof_subc pattern reserved s)
            (divide_ceil (find_highest (selection_mask st.grid.nof_subc pattern reserved s)
              + 1).toNat NRE * NRE)) ≠ st.grid.precoding_buffer.nof_re ∨
            precoding.get_nof_ports ≠ st.grid.precoding_buffer.nof_slices then
            st.grid.precoding_buffer.resize precoding.get_nof_ports
              (count (resize (selection_mask st.grid.nof_subc pattern reserved s)
                (divide_ceil (find_highest (selection_mask st.grid.nof_subc pattern reserved s)
                  + 1).toNat NRE * NRE)))
          else st.grid.precoding_buffer), st.i_re_buffer, 0, 0⟩ precoding.get_nof_prg
      obtain ⟨h1, h2, h3⟩ := hspec
      refine ⟨h1, h3, ?_⟩
      intro st1 hst1
      rw [map_general_i_re input precoding s _ st st1 hst1]
      exact h2

/-- The views of the first `n` iterations of the symbol loop are consecutive from 0, each has one RE per set bit of its mask, and when the iterations return the counter is at their end. -/
theorem map_views_spec (g : resource_grid_impl α) (input : re_buffer α)
    (pattern reserved : re_pattern_list) (precoding : precoding_configuration α) (n : Nat) :
    contiguous_from 0 (map_views g input pattern reserved precoding n) ∧
    (∀ v, v ∈ map_views g input pattern reserved precoding n → v.nof_re = count v.mask) ∧
    ∀ st, for_loop (map_symbol input pattern reserved precoding) (List.range n) ⟨g, 0⟩ = .ok st →
      st.i_re_buffer = views_nof_re (map_views g input pattern reserved precoding n) := by
  induction n with
  | zero =>
    refine ⟨trivial, ?_, ?_⟩
    · intro v hv
      simp [map_views] at hv
    · intro st h
      simp only [List.range_zero, for_loop, Except.ok.injEq] at h
      subst h
      simp [map_views, views_nof_re]
  | succ n ih =>
    obtain ⟨h1, h2, h3⟩ := ih
    unfold map_views
    cases hprev : for_loop (map_symbol input pattern reserved precoding) (List.range n)
        ⟨g, 0⟩ with
    | error e =>
      simp only [List.append_nil]
      refine ⟨h1, h2, ?_⟩
      intro st h
      rw [for_loop_range_succ_error _ _ _ _ hprev] at h
      exact Except.noConfusion h
    | ok st0 =>
      simp only
      obtain ⟨s1, s2, s3⟩ := symbol_views_spec input pattern reserved precoding st0 n
      have hc := h3 st0 hprev
      refine ⟨?_, ?_, ?_⟩
      · rw [contiguous_from_append, Nat.zero_add, ← hc]
        exact ⟨h1, s1⟩
      · intro v hv
        rcases List.mem_append.mp hv with hv | hv
        · exact h2 v hv
        · exact s2 v hv
      · intro st h
        rw [for_loop_range_succ _ _ _ _ hprev] at h
        rw [s3 st h, views_nof_re_append, hc]

end resource_grid_impl

/-- The views of the first `n` iterations of the symbol loop: consecutive from 0, one RE per set bit, in increasing order, and reading every index below the counter exactly once when the iterations return. -/
theorem input_views_spec {α : Type} [CommSemiring α] [DecidableEq α]
    (g : resource_grid_impl α) (input : re_buffer α) (pattern reserved : re_pattern_list)
    (precoding : precoding_configuration α) (n : Nat) :
    contiguous_from 0 (map_views g input pattern reserved precoding n) ∧
    (∀ v, v ∈ map_views g input pattern reserved precoding n → v.nof_re = count v.mask) ∧
    List.Pairwise (fun a b => a.offset + a.nof_re ≤ b.offset)
      (map_views g input pattern reserved precoding n) ∧
    ∀ st, for_loop (map_symbol input pattern reserved precoding) (List.range n) ⟨g, 0⟩ = .ok st →
      st.i_re_buffer = views_nof_re (map_views g input pattern reserved precoding n) ∧
      ∀ j, j < st.i_re_buffer →
        ((map_views g input pattern reserved precoding n).filter
          (fun v => v.reads j)).length = 1 := by
  obtain ⟨h1, h2, h3⟩ := map_views_spec g input pattern reserved precoding n
  refine ⟨h1, h2, contiguous_from_pairwise 0 _ h1, ?_⟩
  intro st hst
  have hc := h3 st hst
  refine ⟨hc, ?_⟩
  intro j hj
  exact contiguous_from_reads_once 0 _ h1 j (Nat.zero_le _) (by rw [Nat.zero_add, ← hc]; exact hj)

/-- C11 (input consumption of the buffered map). The views the symbol loop of the buffered `map` takes over the input, one per symbol on the bypass path and one per PRG on the general path, are consecutive ranges from 0, each starting exactly where the one before it ended; each has as many REs as its mask (slice) has set bits; they are taken in increasing order; and when the loop returns, the counter is the end of the last range and every input RE index below it is read by exactly one view. -/
theorem C11_input_views {α : Type} [CommSemiring α] [DecidableEq α]
    (g : resource_grid_impl α) (input : re_buffer α) (pattern reserved : re_pattern_list)
    (precoding : precoding_configuration α) :
    contiguous_from 0 (map_views g input pattern reserved precoding MAX_NSYMB_PER_SLOT) ∧
    (∀ v, v ∈ map_views g input pattern reserved precoding MAX_NSYMB_PER_SLOT →
      v.nof_re = count v.mask) ∧
    List.Pairwise (fun a b => a.offset + a.nof_re ≤ b.offset)
      (map_views g input pattern reserved precoding MAX_NSYMB_PER_SLOT) ∧
    ∀ st, map_loop g input pattern reserved precoding = .ok st →
      st.i_re_buffer =
        views_nof_re (map_views g input pattern reserved precoding MAX_NSYMB_PER_SLOT) ∧
      ∀ j, j < st.i_re_buffer →
        ((map_views g input pattern reserved precoding MAX_NSYMB_PER_SLOT).filter
          (fun v => v.reads j)).length = 1 := by
  unfold map_loop
  exact input_views_spec g input pattern reserved precoding MAX_NSYMB_PER_SLOT

set_option maxRecDepth 8000 in
/-- C11 at a two-port grid of two resource blocks with two PRGs: the loop returns with the counter at 24 after the two views `[0, 12)` and `[12, 24)` of symbol 0, and every index below 24 is read exactly once. -/
theorem C11_input_views_witness :
    (map_views scenario.grid2x24 scenario.input2x24 scenario.pattern24 []
      scenario.precoding_2prg MAX_NSYMB_PER_SLOT).map (fun v => (v.offset, v.nof_re)) =
        [(0, 12), (12, 12)] ∧
    ∃ st, map_loop scenario.grid2x24 scenario.input2x24 scenario.pattern24 []
        scenario.precoding_2prg = .ok st ∧
      st.i_re_buffer = 24 ∧
      ∀ j, j < st.i_re_buffer →
        ((map_views scenario.grid2x24 scenario.input2x24 scenario.pattern24 []
          scenario.precoding_2prg MAX_NSYMB_PER_SLOT).filter (fun v => v.reads j)).length = 1 :=
  have hv : (map_views scenario.grid2x24 scenario.input2x24 scenario.pattern24 []
      scenario.precoding_2prg MAX_NSYMB_PER_SLOT).map (fun v => (v.offset, v.nof_re)) =
        [(0, 12), (12, 12)] := by rfl
  have hloop := map_loop_ok scenario.grid2x24 scenario.input2x24 scenario.pattern24 []
    scenario.precoding_2prg (by decide) (Or.inr (by decide))
  ⟨hv, hloop.choose, hloop.choose_spec.1,
    by rw [hloop.choose_spec.2.i_re]; decide,
    ((C11_input_views scenario.grid2x24 scenario.input2x24 scenario.pattern24 []
      scenario.precoding_2prg).2.2.2 _ hloop.choose_spec.1).2⟩

end srsran

namespace srsran
open bounded_bitset resource_grid_impl

/-- A loop whose first iteration stops at a fatal check stops there. -/
theorem for_loop_first_error {σ : Type} (body : σ → Nat → outcome σ) (n : Nat) (s : σ)
    (e : fatal × σ) (h : body s 0 = .error e) :
    for_loop body (List.range (n + 1)) s = .error e := by
  rw [List.range_succ_eq_map]
  simp only [for_loop, h]

namespace resource_grid_impl

variable {α : Type} [CommSemiring α] [DecidableEq α]

/-- A block with an empty mask pops no symbol and returns. -/
theorem map_block_nil (w : precoding_weight_matrix α) (L A s k : Nat) (st : stream_state α) :
    ∃ st1, map_block w L A s k [] st = .ok st1 := by
  unfold map_block
  have hpop : (st.buffer.pop_symbols (count [] * L)).1 = some (st.buffer.symbols.take 0) := by
    simp [symbol_buffer.pop_symbols, count]
  simp only [hpop]
  split
  · exact ⟨_, rfl⟩
  · exact ⟨_, rfl⟩

/-- With a maximum pull size below the number of layers the block loop makes no progress: entered before the end of the PRG, it exhausts every budget. -/
theorem map_blocks_stuck (w : precoding_weight_matrix α) (mx L A s i_subc : Nat)
    (m : List Bool) (nsp : Nat) (hmx : mx / L = 0) (hnsp : nsp < 2 ^ 32) (fuel off : Nat)
    (hoff : off < nsp) (st : stream_state α) :
    ∃ st1, map_blocks w mx L A s i_subc m nsp fuel off st = .error (.out_of_fuel, st1) := by
  induction fuel generalizing st with
  | zero =>
    unfold map_blocks
    rw [if_neg (by omega)]
    exact ⟨st, rfl⟩
  | succ fuel ih =>
    unfold map_blocks
    have hsub : u32_sub nsp off = nsp - off := u32_sub_of_le (Nat.le_of_lt hoff) hnsp
    have hpend : ¬ u32_sub nsp off = 0 := by omega
    have hblk : slice m off (off + min (u32_sub nsp off) (mx / L)) = [] := by
      rw [hmx, Nat.min_zero, Nat.add_zero]
      simp [bounded_bitset.slice]
    simp only [if_neg (show ¬ off = nsp by omega), if_neg hpend, hblk]
    obtain ⟨st1, h1⟩ := map_block_nil w L A s (i_subc + off) st
    rw [h1]
    simp only [hmx, Nat.min_zero, Nat.add_zero]
    exact ih st1

/-- On at least the budget `nsp - off` the block loop is stopped by no check other than a failed pop, when the maximum pull size is at least the number of layers. -/
theorem map_blocks_pop_only (w : precoding_weight_matrix α) (mx L A s i_subc : Nat)
    (m : List Bool) (nsp : Nat) (hmx : 1 ≤ mx / L) (hnsp : nsp < 2 ^ 32) (fuel off : Nat)
    (st : stream_state α) (hoff : off ≤ nsp) (hfuel : nsp - off ≤ fuel)
    (e : fatal × stream_state α)
    (h : map_blocks w mx L A s i_subc m nsp fuel off st = .error e) : e.1 = .pop_symbols := by
  induction fuel generalizing off st with
  | zero =>
    unfold map_blocks at h
    rw [if_pos (by omega)] at h
    exact Except.noConfusion h
  | succ fuel ih =>
    unfold map_blocks at h
    by_cases h1 : off = nsp
    · rw [if_pos h1] at h
      exact Except.noConfusion h
    · have hsub : u32_sub nsp off = nsp - off := u32_sub_of_le hoff hnsp
      have hpend : ¬ u32_sub nsp off = 0 := by omega
      simp only [if_neg h1, if_neg hpend] at h
      have hle : min (u32_sub nsp off) (mx / L) ≤ nsp - off := by
        rw [hsub]; exact Nat.min_le_left _ _
      have hpos : 1 ≤ min (u32_sub nsp off) (mx / L) := by
        rw [hsub]; exact Nat.le_min.mpr ⟨by omega, hmx⟩
      cases hmb : map_block w L A s (i_subc + off)
          (slice m off (off + min (u32_sub nsp off) (mx / L))) st with
      | error e1 =>
        rw [hmb] at h
        simp only [Except.error.injEq] at h
        subst h
        exact map_block_error_kind _ _ _ _ _ _ _ _ hmb
      | ok st1 =>
        rw [hmb] at h
        exact ih (off + min (u32_sub nsp off) (mx / L)) st1 (by omega) (by omega) h

/-- Two budgets of at least `nsp - off` give the block loop the same outcome, when the maximum pull size is at least the number of layers. -/
theorem map_blocks_fuel (w : precoding_weight_matrix α) (mx L A s i_subc : Nat)
    (m : List Bool) (nsp : Nat) (hmx : 1 ≤ mx / L) (hnsp : nsp < 2 ^ 32) (f1 f2 off : Nat)
    (st : stream_state α) (hoff : off ≤ nsp) (h1 : nsp - off ≤ f1) (h2 : nsp - off ≤ f2) :
    map_blocks w mx L A s i_subc m nsp f1 off st =
      map_blocks w mx L A s i_subc m nsp f2 off st := by
  induction f1 generalizing f2 off st with
  | zero =>
    have heq : off = nsp := by omega
    cases f2 with
    | zero => rfl
    | succ f2 =>
      unfold map_blocks
      rw [if_pos heq, if_pos heq]
  | succ f1 ih =>
    by_cases heq : off = nsp
    · cases f2 with
      | zero =>
        unfold map_blocks
        rw [if_pos heq, if_pos heq]
      | succ f2 =>
        unfold map_blocks
        rw [if_pos heq, if_pos heq]
    · cases f2 with
      | zero => omega
      | succ f2 =>
        unfold map_blocks
        have hsub : u32_sub nsp off = nsp - off := u32_sub_of_le hoff hnsp
        have hpend : ¬ u32_sub nsp off = 0 := by omega
        simp only [if_neg heq, if_neg hpend]
        have hle : min (u32_sub nsp off) (mx / L) ≤ nsp - off := by
          rw [hsub]; exact Nat.min_le_left _ _
        have hpos : 1 ≤ min (u32_sub nsp off) (mx / L) := by
          rw [hsub]; exact Nat.le_min.mpr ⟨by omega, hmx⟩
        cases hmb : map_block w L A s (i_subc + off)
            (slice m off (off + min (u32_sub nsp off) (mx / L))) st with
        | error e1 => rfl
        | ok st1 =>
          exact ih f2 (off + min (u32_sub nsp off) (mx / L)) st1 (by omega) (by omega)
            (by omega)

/-- The block loop of a PRG is entered at an offset inside the PRG. -/
theorem stream_prg_offset_le (m : List Bool) (a nsp : Nat) :
    (find_lowest (slice m a (u32 (a + nsp)))).toNat ≤ nsp := by
  have h1 := find_lowest_lt_length (slice m a (u32 (a + nsp)))
  have h2 := length_slice m a (u32 (a + nsp))
  have h3 := u32_le (a + nsp)
  have h4 := Nat.min_le_left (u32 (a + nsp) - a) (m.length - a)
  omega

theorem map_stream_prg_pop_only (fuel : Nat) (precoding : precoding_configuration α)
    (mx s : Nat) (m : List Bool) (hh : Int) (st : stream_state α) (i_prg : Nat)
    (hmx : 1 ≤ mx / precoding.get_nof_layers)
    (hfuel : u32 (precoding.get_prg_size * NRE) ≤ fuel) (e : fatal × stream_state α)
    (h : map_stream_prg fuel precoding mx s m hh st i_prg = .error e) :
    e.1 = .pop_symbols := by
  unfold map_stream_prg at h
  simp only at h
  generalize hnsp : min (u32 (precoding.get_prg_size * NRE))
    (u32_sub (hh + 1).toNat (u32 (i_prg * u32 (precoding.get_prg_size * NRE)))) = nsp at h
  have hnspP : nsp ≤ u32 (precoding.get_prg_size * NRE) := by
    rw [← hnsp]; exact Nat.min_le_left _ _
  have hnsplt : nsp < 2 ^ 32 := Nat.lt_of_le_of_lt hnspP (u32_lt _)
  split at h
  · exact Except.noConfusion h
  · exact map_blocks_pop_only _ _ _ _ _ _ _ _ hmx hnsplt fuel _ st
      (stream_prg_offset_le m _ nsp) (by omega) e h

theorem map_stream_prg_fuel (f1 f2 : Nat) (precoding : precoding_configuration α)
    (mx s : Nat) (m : List Bool) (hh : Int) (st : stream_state α) (i_prg : Nat)
    (hmx : 1 ≤ mx / precoding.get_nof_layers)
    (h1 : u32 (precoding.get_prg_size * NRE) ≤ f1)
    (h2 : u32 (precoding.get_prg_size * NRE) ≤ f2) :
    map_stream_prg f1 precoding mx s m hh st i_prg =
      map_stream_prg f2 precoding mx s m hh st i_prg := by
  unfold map_stream_prg
  simp only
  generalize hnsp : min (u32 (precoding.get_prg_size * NRE))
    (u32_sub (hh + 1).toNat (u32 (i_prg * u32 (precoding.get_prg_size * NRE)))) = nsp
  have hnspP : nsp ≤ u32 (precoding.get_prg_size * NRE) := by
    rw [← hnsp]; exact Nat.min_le_left _ _
  have hnsplt : nsp < 2 ^ 32 := Nat.lt_of_le_of_lt hnspP (u32_lt _)
  split
  · rfl
  · exact map_blocks_fuel _ _ _ _ _ _ _ _ hmx hnsplt f1 f2 _ st
      (stream_prg_offset_le m _ nsp) (by omega) (by omega)

/-- The streamed `map` has the same outcome on every budget of at least the width of a PRG, and is then stopped by no check other than a failed pop, when the initial checks pass and the maximum pull size is at least the number of layers. -/
theorem map_stream_terminates (MAX_RB : Nat) (g : resource_grid_impl α)
    (buffer : symbol_buffer α) (pattern reserved : re_pattern_list)
    (precoding : precoding_configuration α)
    (hchk : 1 ≤ precoding.get_nof_layers ∧ precoding.get_nof_layers ≤ precoding.get_nof_ports ∧
      precoding.get_nof_ports ≤ g.nof_ports)
    (hmx : precoding.get_nof_layers ≤ buffer.get_max_block_size) (fuel : Nat)
    (hfuel : u32 (precoding.get_prg_size * NRE) ≤ fuel) :
    map_stream MAX_RB fuel g buffer pattern reserved precoding =
        map_stream MAX_RB (u32 (precoding.get_prg_size * NRE)) g buffer pattern reserved
          precoding ∧
      ∀ e, map_stream MAX_RB fuel g buffer pattern reserved precoding = .error e →
        e.1 = .pop_symbols := by
  have hdiv : 1 ≤ buffer.get_max_block_size / precoding.get_nof_layers :=
    (Nat.one_le_div_iff (by omega)).mpr hmx
  have hsym : map_stream_symbol MAX_RB fuel pattern reserved precoding
      buffer.get_max_block_size =
      map_stream_symbol MAX_RB (u32 (precoding.get_prg_size * NRE)) pattern reserved precoding
        buffer.get_max_block_size := by
    funext st s
    unfold map_stream_symbol
    simp only
    split
    · rfl
    · congr 1
      funext st1 i
      exact map_stream_prg_fuel _ _ _ _ _ _ _ _ _ hdiv hfuel (Nat.le_refl _)
  refine ⟨?_, ?_⟩
  · unfold map_stream
    simp only [hsym]
  · intro e h
    unfold map_stream at h
    simp only at h
    rw [if_neg (not_not.mpr ⟨by omega, hchk.2.2⟩), if_neg (not_not.mpr ⟨hchk.1, hchk.2.1⟩)] at h
    refine for_loop_error_kind (fun k => k = .pop_symbols) _ ?_ _ _ e h
    intro st s e1 h1
    unfold map_stream_symbol at h1
    simp only at h1
    split at h1
    · exact Except.noConfusion h1
    · refine for_loop_error_kind (fun k => k = .pop_symbols) _ ?_ _ _ e1 h1
      intro st2 i e2 h2
      exact map_stream_prg_pop_only _ _ _ _ _ _ _ _ hdiv hfuel e2 h2

/-- With a maximum pull size below the number of layers, the streamed `map` that passes its initial checks and has subcarrier 0 of symbol 0 selected exhausts every budget in the block loop of the first PRG. -/
theorem map_stream_stuck (MAX_RB fuel : Nat) (g : resource_grid_impl α)
    (buffer : symbol_buffer α) (pattern reserved : re_pattern_list)
    (precoding : precoding_configuration α)
    (hchk : 1 ≤ precoding.get_nof_layers ∧ precoding.get_nof_layers ≤ precoding.get_nof_ports ∧
      precoding.get_nof_ports ≤ g.nof_ports)
    (hmx : buffer.get_max_block_size < precoding.get_nof_layers)
    (hrb : MAX_RB * NRE < 2 ^ 32) (hprg : 1 ≤ precoding.get_nof_prg)
    (hP : 1 ≤ u32 (precoding.get_prg_size * NRE))
    (hsel : test (selection_mask (MAX_RB * NRE) pattern reserved 0) 0 = true) :
    ∃ st, map_stream MAX_RB fuel g buffer pattern reserved precoding =
      .error (.out_of_fuel, st) := by
  have hdiv : buffer.get_max_block_size / precoding.get_nof_layers = 0 :=
    Nat.div_eq_of_lt hmx
  have hh0 := le_find_highest _ _ hsel
  have hhlt := find_highest_lt_length (selection_mask (MAX_RB * NRE) pattern reserved 0)
  rw [length_selection_mask] at hhlt
  have hprg0 : ∃ st, map_stream_prg fuel precoding buffer.get_max_block_size 0
      (selection_mask (MAX_RB * NRE) pattern reserved 0)
      (find_highest (selection_mask (MAX_RB * NRE) pattern reserved 0)) ⟨g, buffer⟩ 0 =
        .error (.out_of_fuel, st) := by
    unfold map_stream_prg
    simp only [Nat.zero_mul]
    have hu0 : u32 0 = 0 := rfl
    rw [hu0]
    generalize hnsp : min (u32 (precoding.get_prg_size * NRE))
      (u32_sub (find_highest (selection_mask (MAX_RB * NRE) pattern reserved 0) + 1).toNat 0)
      = nsp
    have hsub : u32_sub (find_highest (selection_mask (MAX_RB * NRE) pattern reserved 0)
        + 1).toNat 0 =
        (find_highest (selection_mask (MAX_RB * NRE) pattern reserved 0) + 1).toNat :=
      u32_sub_of_le (Nat.zero_le _) (by omega)
    have hnspP : nsp ≤ u32 (precoding.get_prg_size * NRE) := by
      rw [← hnsp]; exact Nat.min_le_left _ _
    have hnsplt : nsp < 2 ^ 32 := Nat.lt_of_le_of_lt hnspP (u32_lt _)
    have hnsp1 : 1 ≤ nsp := by
      rw [← hnsp, hsub]
      exact Nat.le_min.mpr ⟨hP, by omega⟩
    have hu : u32 (0 + nsp) = nsp := by rw [Nat.zero_add]; exact u32_of_lt hnsplt
    rw [hu]
    have hbit : test (slice (selection_mask (MAX_RB * NRE) pattern reserved 0) 0 nsp) 0 = true := by
      rw [test_slice, Nat.zero_add, hsel]
      simp
      omega
    have hnone : ¬ none (slice (selection_mask (MAX_RB * NRE) pattern reserved 0) 0 nsp)
        = true := by
      intro hn
      have := (none_eq_true_iff _).mp hn 0
      rw [hbit] at this
      exact Bool.noConfusion this
    rw [if_neg hnone]
    have hlow := find_lowest_lt_length (slice (selection_mask (MAX_RB * NRE) pattern reserved 0)
      0 nsp)
    have hlen := length_slice (selection_mask (MAX_RB * NRE) pattern reserved 0) 0 nsp
    have hmin := Nat.min_le_left (nsp - 0)
      ((selection_mask (MAX_RB * NRE) pattern reserved 0).length - 0)
    exact map_blocks_stuck _ _ _ _ _ _ _ _ hdiv hnsplt fuel _ (by omega) _
  obtain ⟨st, hst⟩ := hprg0
  have hsym : map_stream_symbol MAX_RB fuel pattern reserved precoding
      buffer.get_max_block_size ⟨g, buffer⟩ 0 = .error (.out_of_fuel, st) := by
    unfold map_stream_symbol
    simp only
    rw [if_neg (by omega)]
    obtain ⟨n, hn⟩ : ∃ n, precoding.get_nof_prg = n + 1 := ⟨precoding.get_nof_prg - 1, by omega⟩
    rw [hn]
    exact for_loop_first_error _ n _ _ hst
  refine ⟨st, ?_⟩
  unfold map_stream
  simp only
  rw [if_neg (not_not.mpr ⟨by omega, hchk.2.2⟩), if_neg (not_not.mpr ⟨hchk.1, hchk.2.1⟩)]
  exact for_loop_first_error _ 13 _ _ hsym

end resource_grid_impl

/-- C16, as stated, fails: two layers on two ports of a two-port grid pass the initial checks, and with a symbol source whose maximum pull size is 1 the block loop of the first PRG pulls blocks of zero subcarriers for ever: for every mask capacity `MAX_RB` that fits `unsigned` and every loop budget the streamed `map` ends with the budget exhausted. -/
theorem C16_narrow_source_never_ends :
    (1 ≤ scenario.precoding_identity.get_nof_layers ∧
      scenario.precoding_identity.get_nof_layers ≤ scenario.precoding_identity.get_nof_ports ∧
      scenario.precoding_identity.get_nof_ports ≤ scenario.grid2.nof_ports) ∧
    ∀ MAX_RB fuel, 1 ≤ MAX_RB → MAX_RB * NRE < 2 ^ 32 →
      ∃ st, map_stream MAX_RB fuel scenario.grid2 scenario.stream_narrow scenario.pattern4 []
        scenario.precoding_identity = .error (.out_of_fuel, st) := by
  refine ⟨by decide, ?_⟩
  intro MAX_RB fuel h1 h2
  refine map_stream_stuck MAX_RB fuel scenario.grid2 scenario.stream_narrow scenario.pattern4 []
    scenario.precoding_identity (by decide) (by decide) h2 (by decide) (by decide) ?_
  rw [test_selection_mask]
  have : 0 < MAX_RB * NRE := Nat.mul_pos h1 (by decide)
  simp [this, scenario.pattern4, re_pattern_list.covers]

/-- C16 amended (termination of the streamed map). When the initial checks pass and the maximum pull size of the symbol source is at least the number of layers, the streamed `map` terminates: on every loop budget of at least the width of a PRG its outcome is the same, and it either returns or stops at the source running out of symbols, never at an exhausted budget; in the block loop the subcarrier offset strictly increases at every iteration and does not pass the subcarrier count of the PRG. -/
theorem C16_stream_termination {α : Type} [CommSemiring α] [DecidableEq α]
    (MAX_RB : Nat) (g : resource_grid_impl α) (buffer : symbol_buffer α)
    (pattern reserved : re_pattern_list) (precoding : precoding_configuration α)
    (hchk : 1 ≤ precoding.get_nof_layers ∧ precoding.get_nof_layers ≤ precoding.get_nof_ports ∧
      precoding.get_nof_ports ≤ g.nof_ports)
    (hmx : precoding.get_nof_layers ≤ buffer.get_max_block_size) :
    (∀ fuel, u32 (precoding.get_prg_size * NRE) ≤ fuel →
      map_stream MAX_RB fuel g buffer pattern reserved precoding =
          map_stream MAX_RB (u32 (precoding.get_prg_size * NRE)) g buffer pattern reserved
            precoding ∧
        ∀ e, map_stream MAX_RB fuel g buffer pattern reserved precoding = .error e →
          e.1 = .pop_symbols) ∧
    ∀ nof_subc_prg subc_offset, nof_subc_prg < 2 ^ 32 → subc_offset < nof_subc_prg →
      subc_offset < subc_offset + min (u32_sub nof_subc_prg subc_offset)
          (buffer.get_max_block_size / precoding.get_nof_layers) ∧
        subc_offset + min (u32_sub nof_subc_prg subc_offset)
          (buffer.get_max_block_size / precoding.get_nof_layers) ≤ nof_subc_prg := by
  refine ⟨fun fuel hfuel =>
    map_stream_terminates MAX_RB g buffer pattern reserved precoding hchk hmx fuel hfuel, ?_⟩
  intro nsp off hnsp hoff
  have hdiv : 1 ≤ buffer.get_max_block_size / precoding.get_nof_layers :=
    (Nat.one_le_div_iff (by omega)).mpr hmx
  have hsub : u32_sub nsp off = nsp - off := u32_sub_of_le (Nat.le_of_lt hoff) hnsp
  have hle : min (u32_sub nsp off) (buffer.get_max_block_size / precoding.get_nof_layers) ≤
      nsp - off := by
    rw [hsub]; exact Nat.min_le_left _ _
  have hpos : 1 ≤ min (u32_sub nsp off)
      (buffer.get_max_block_size / precoding.get_nof_layers) := by
    rw [hsub]; exact Nat.le_min.mpr ⟨by omega, hdiv⟩
  omega

/-- C16 amended, with two layers on two ports and a maximum pull size of 4: on every budget of at least 12 the streamed `map` has the outcome it has on the budget 12, and that outcome is a normal return. -/
theorem C16_stream_termination_witness :
    (1 ≤ scenario.precoding_identity.get_nof_layers ∧
      scenario.precoding_identity.get_nof_layers ≤ scenario.precoding_identity.get_nof_ports ∧
      scenario.precoding_identity.get_nof_ports ≤ scenario.grid2.nof_ports) ∧
    scenario.precoding_identity.get_nof_layers ≤ scenario.stream8.get_max_block_size ∧
    (∀ fuel, u32 (scenario.precoding_identity.get_prg_size * NRE) ≤ fuel →
      map_stream 1 fuel scenario.grid2 scenario.stream8 scenario.pattern4 []
          scenario.precoding_identity =
        map_stream 1 (u32 (scenario.precoding_identity.get_prg_size * NRE)) scenario.grid2
          scenario.stream8 scenario.pattern4 [] scenario.precoding_identity) ∧
    (match map_stream 1 (u32 (scenario.precoding_identity.get_prg_size * NRE)) scenario.grid2
        scenario.stream8 scenario.pattern4 [] scenario.precoding_identity with
      | .ok _ => true
      | .error _ => false) = true :=
  ⟨by decide, by decide,
    fun fuel hfuel => ((C16_stream_termination 1 scenario.grid2 scenario.stream8
      scenario.pattern4 [] scenario.precoding_identity (by decide) (by decide)).1 fuel hfuel).1,
    by decide⟩

end srsran

namespace srsran

namespace log_likelihood_ratio

theorem is_finite_iff (LLR_MAX : Int) (a : log_likelihood_ratio) :
    is_finite LLR_MAX a = true ↔ -LLR_MAX ≤ a.value ∧ a.value ≤ LLR_MAX := by
  simp [is_finite]

theorem add_finite (LLR_MAX : Int) (a b : log_likelihood_ratio)
    (ha : is_finite LLR_MAX a = true) (hb : is_finite LLR_MAX b = true) :
    add LLR_MAX a b = ⟨max (-LLR_MAX) (min (a.value + b.value) LLR_MAX)⟩ := by
  unfold add clamp_value
  rw [if_pos ⟨ha, hb⟩]

theorem is_finite_neg (LLR_MAX : Int) (a : log_likelihood_ratio)
    (ha : is_finite LLR_MAX a = true) : is_finite LLR_MAX (neg a) = true := by
  rw [is_finite_iff] at ha ⊢
  simp only [neg]
  omega

theorem is_finite_mk (LLR_MAX v : Int) (h1 : -LLR_MAX ≤ v) (h2 : v ≤ LLR_MAX) :
    is_finite LLR_MAX ⟨v⟩ = true := (is_finite_iff LLR_MAX ⟨v⟩).mpr ⟨h1, h2⟩

theorem not_is_finite_mk (LLR_MAX v : Int) (h : LLR_MAX < v ∨ v < -LLR_MAX) :
    ¬ is_finite LLR_MAX ⟨v⟩ = true := by
  rw [is_finite_iff]
  show ¬ (-LLR_MAX ≤ v ∧ v ≤ LLR_MAX)
  omega

theorem promotion_sum_of_le (LLR_MAX LLR_INFTY : Int) (a b : log_likelihood_ratio)
    (h : |a.value + b.value| ≤ LLR_MAX) :
    promotion_sum LLR_MAX LLR_INFTY a b = ⟨a.value + b.value⟩ := by
  unfold promotion_sum
  simp only
  rw [if_neg (by omega)]

theorem promotion_sum_of_gt (LLR_MAX LLR_INFTY : Int) (a b : log_likelihood_ratio)
    (h0 : 0 ≤ LLR_MAX) (h : LLR_MAX < a.value + b.value) :
    promotion_sum LLR_MAX LLR_INFTY a b = ⟨LLR_INFTY⟩ := by
  unfold promotion_sum
  simp only
  have habs : LLR_MAX < |a.value + b.value| := lt_of_lt_of_le h (le_abs_self _)
  rw [if_pos habs, if_pos (by omega)]

end log_likelihood_ratio

open log_likelihood_ratio

/-- C18 (saturating arithmetic of log-likelihood ratios). For all finite values `a` and `b`, `a + b` has the integer sum clamped to `[-LLR_MAX, LLR_MAX]` as its value, `a - b` the integer difference clamped to the same range, and `-a` the value `-a`. With `LLR_MAX` between 119 and 121, which is what the test needs of it, the witnesses of the test hold: `0 + 2 = 2`, `0 - 2 = -2`, `2 + 119 = LLR_MAX`, `-100 - 100 = -LLR_MAX`, and the assertions of the test on negation, sum, difference and saturation pass. -/
theorem C18_llr_saturating_arithmetic (LLR_MAX LLR_INFTY : Int) (hlo : 119 ≤ LLR_MAX)
    (hhi : LLR_MAX ≤ 121) :
    (∀ a b, is_finite LLR_MAX a = true → is_finite LLR_MAX b = true →
      (add LLR_MAX a b).value = max (-LLR_MAX) (min (a.value + b.value) LLR_MAX) ∧
      (sub LLR_MAX a b).value = max (-LLR_MAX) (min (a.value - b.value) LLR_MAX) ∧
      (neg a).value = -a.value) ∧
    add LLR_MAX ⟨0⟩ ⟨2⟩ = ⟨2⟩ ∧ sub LLR_MAX ⟨0⟩ ⟨2⟩ = ⟨-2⟩ ∧
    add LLR_MAX ⟨2⟩ ⟨119⟩ = ⟨LLR_MAX⟩ ∧ sub LLR_MAX ⟨-100⟩ ⟨100⟩ = ⟨-LLR_MAX⟩ ∧
    test_arithmetic LLR_MAX LLR_INFTY = true := by
  have hgen : ∀ a b, is_finite LLR_MAX a = true → is_finite LLR_MAX b = true →
      (add LLR_MAX a b).value = max (-LLR_MAX) (min (a.value + b.value) LLR_MAX) ∧
      (sub LLR_MAX a b).value = max (-LLR_MAX) (min (a.value - b.value) LLR_MAX) ∧
      (neg a).value = -a.value := by
    intro a b ha hb
    refine ⟨?_, ?_, rfl⟩
    · rw [add_finite LLR_MAX a b ha hb]
    · unfold sub
      rw [add_finite LLR_MAX a (neg b) ha (is_finite_neg LLR_MAX b hb)]
      show max (-LLR_MAX) (min (a.value + -b.value) LLR_MAX) = _
      rw [← Int.sub_eq_add_neg]
  have f0 : is_finite LLR_MAX ⟨0⟩ = true := is_finite_mk _ _ (by omega) (by omega)
  have f2 : is_finite LLR_MAX ⟨2⟩ = true := is_finite_mk _ _ (by omega) (by omega)
  have fm2 : is_finite LLR_MAX ⟨-2⟩ = true := is_finite_mk _ _ (by omega) (by omega)
  have f119 : is_finite LLR_MAX ⟨119⟩ = true := is_finite_mk _ _ (by omega) (by omega)
  have f100 : is_finite LLR_MAX ⟨100⟩ = true := is_finite_mk _ _ (by omega) (by omega)
  have fm100 : is_finite LLR_MAX ⟨-100⟩ = true := is_finite_mk _ _ (by omega) (by omega)
  have w1 : add LLR_MAX ⟨0⟩ ⟨2⟩ = ⟨2⟩ := by
    rw [add_finite _ _ _ f0 f2]
    congr 1
    show max (-LLR_MAX) (min (0 + 2) LLR_MAX) = 2
    omega
  have w2 : sub LLR_MAX ⟨0⟩ ⟨2⟩ = ⟨-2⟩ := by
    unfold sub
    rw [add_finite _ _ _ f0 (is_finite_neg _ _ f2)]
    congr 1
    show max (-LLR_MAX) (min (0 + -2) LLR_MAX) = -2
    omega
  have w3 : add LLR_MAX ⟨2⟩ ⟨119⟩ = ⟨LLR_MAX⟩ := by
    rw [add_finite _ _ _ f2 f119]
    congr 1
    show max (-LLR_MAX) (min (2 + 119) LLR_MAX) = LLR_MAX
    omega
  have w4 : sub LLR_MAX ⟨-100⟩ ⟨100⟩ = ⟨-LLR_MAX⟩ := by
    unfold sub
    rw [add_finite _ _ _ fm100 (is_finite_neg _ _ f100)]
    congr 1
    show max (-LLR_MAX) (min (-100 + -100) LLR_MAX) = -LLR_MAX
    omega
  have w5 : promotion_sum LLR_MAX LLR_INFTY ⟨0⟩ ⟨2⟩ = ⟨2⟩ := by
    rw [promotion_sum_of_le]
    · rfl
    · show |(0 : Int) + 2| ≤ LLR_MAX
      rw [abs_of_nonneg (by norm_num)]
      omega
  refine ⟨hgen, w1, w2, w3, w4, ?_⟩
  unfold test_arithmetic
  simp only [w1, w2, w3, w4, w5, neg]
  simp

/-- C18 at `LLR_MAX = 120` and `LLR_INFINITY = 127`. -/
theorem C18_llr_saturating_arithmetic_witness :
    (119 : Int) ≤ 120 ∧ (120 : Int) ≤ 121 ∧
    add 120 ⟨2⟩ ⟨119⟩ = ⟨120⟩ ∧ sub 120 ⟨-100⟩ ⟨100⟩ = ⟨-120⟩ ∧
    test_arithmetic 120 127 = true :=
  ⟨by decide, by decide,
    (C18_llr_saturating_arithmetic 120 127 (by decide) (by decide)).2.2.2.1,
    (C18_llr_saturating_arithmetic 120 127 (by decide) (by decide)).2.2.2.2.1,
    (C18_llr_saturating_arithmetic 120 127 (by decide) (by decide)).2.2.2.2.2⟩

/-- C19 (infinity rules of log-likelihood ratios). With `0 ≤ LLR_MAX < LLR_INFINITY`: for every finite `x`, `LLR_INFINITY - x` and `x + LLR_INFINITY` are `LLR_INFINITY`; `LLR_INFINITY - LLR_INFINITY` is 0; the promotion sum of `a` and `b` is the integer sum when its magnitude does not exceed `LLR_MAX`, and `LLR_INFINITY` when the integer sum exceeds `LLR_MAX` or one operand is `LLR_INFINITY` and the other `LLR_MAX`; and with `LLR_MAX` at least 2 the assertions of the test on these cases pass. -/
theorem C19_llr_infinity_rules (LLR_MAX LLR_INFTY : Int) (h0 : 0 ≤ LLR_MAX)
    (hinf : LLR_MAX < LLR_INFTY) :
    (∀ x, is_finite LLR_MAX x = true →
      sub LLR_MAX ⟨LLR_INFTY⟩ x = ⟨LLR_INFTY⟩ ∧ add LLR_MAX x ⟨LLR_INFTY⟩ = ⟨LLR_INFTY⟩) ∧
    sub LLR_MAX ⟨LLR_INFTY⟩ ⟨LLR_INFTY⟩ = ⟨0⟩ ∧
    (∀ a b, |a.value + b.value| ≤ LLR_MAX →
      promotion_sum LLR_MAX LLR_INFTY a b = ⟨a.value + b.value⟩) ∧
    (∀ a b, LLR_MAX < a.value + b.value →
      promotion_sum LLR_MAX LLR_INFTY a b = ⟨LLR_INFTY⟩) ∧
    promotion_sum LLR_MAX LLR_INFTY ⟨LLR_INFTY⟩ ⟨LLR_MAX⟩ = ⟨LLR_INFTY⟩ ∧
    promotion_sum LLR_MAX LLR_INFTY ⟨LLR_MAX⟩ ⟨LLR_INFTY⟩ = ⟨LLR_INFTY⟩ ∧
    (2 ≤ LLR_MAX → test_infinity LLR_MAX LLR_INFTY = true) := by
  have hni : ¬ is_finite LLR_MAX ⟨LLR_INFTY⟩ = true := not_is_finite_mk _ _ (Or.inl hinf)
  have hnn : ¬ is_finite LLR_MAX (neg ⟨LLR_INFTY⟩) = true :=
    not_is_finite_mk _ _ (Or.inr (by show -LLR_INFTY < -LLR_MAX; omega))
  have hfin : ∀ x, is_finite LLR_MAX x = true →
      sub LLR_MAX ⟨LLR_INFTY⟩ x = ⟨LLR_INFTY⟩ ∧ add LLR_MAX x ⟨LLR_INFTY⟩ = ⟨LLR_INFTY⟩ := by
    intro x hx
    have hnx := is_finite_neg LLR_MAX x hx
    refine ⟨?_, ?_⟩
    · unfold sub add
      rw [if_neg (fun h => hni h.1), if_neg (fun h => h.2.1 hnx), if_pos hni]
    · unfold add
      rw [if_neg (fun h => hni h.2), if_neg (fun h => h.1 hx), if_neg (not_not.mpr hx)]
  have hsub : sub LLR_MAX ⟨LLR_INFTY⟩ ⟨LLR_INFTY⟩ = ⟨0⟩ := by
    unfold sub add
    rw [if_neg (fun h => hni h.1), if_pos ⟨hni, hnn, by simp [neg]⟩]
  have hp1 : promotion_sum LLR_MAX LLR_INFTY ⟨LLR_INFTY⟩ ⟨LLR_MAX⟩ = ⟨LLR_INFTY⟩ :=
    promotion_sum_of_gt _ _ _ _ h0 (by show LLR_MAX < LLR_INFTY + LLR_MAX; omega)
  have hp2 : promotion_sum LLR_MAX LLR_INFTY ⟨LLR_MAX⟩ ⟨LLR_INFTY⟩ = ⟨LLR_INFTY⟩ :=
    promotion_sum_of_gt _ _ _ _ h0 (by show LLR_MAX < LLR_MAX + LLR_INFTY; omega)
  refine ⟨hfin, hsub, fun a b h => promotion_sum_of_le _ _ a b h,
    fun a b h => promotion_sum_of_gt _ _ a b h0 h, hp1, hp2, ?_⟩
  intro h2
  have f0 : is_finite LLR_MAX ⟨0⟩ = true := is_finite_mk _ _ (by omega) (by omega)
  have f2 : is_finite LLR_MAX ⟨2⟩ = true := is_finite_mk _ _ (by omega) (by omega)
  have w1 : add LLR_MAX ⟨0⟩ ⟨2⟩ = ⟨2⟩ := by
    rw [add_finite _ _ _ f0 f2]
    congr 1
    show max (-LLR_MAX) (min (0 + 2) LLR_MAX) = 2
    omega
  have w2 : sub LLR_MAX ⟨2⟩ ⟨2⟩ = ⟨0⟩ := by
    unfold sub
    rw [add_finite _ _ _ f2 (is_finite_neg _ _ f2)]
    congr 1
    show max (-LLR_MAX) (min (2 + -2) LLR_MAX) = 0
    omega
  have w3 : promotion_sum LLR_MAX LLR_INFTY ⟨LLR_MAX⟩ ⟨LLR_MAX⟩ = ⟨LLR_INFTY⟩ :=
    promotion_sum_of_gt _ _ _ _ h0 (by show LLR_MAX < LLR_MAX + LLR_MAX; omega)
  unfold test_infinity
  simp only [w1, w2, w3, hp1, hsub, (hfin ⟨2⟩ f2).1, (hfin ⟨2⟩ f2).2]
  simp

/-- C19 at `LLR_MAX = 120` and `LLR_INFINITY = 127`. -/
theorem C19_llr_infinity_rules_witness :
    (0 : Int) ≤ 120 ∧ (120 : Int) < 127 ∧
    sub 120 ⟨127⟩ ⟨127⟩ = ⟨0⟩ ∧
    promotion_sum 120 127 ⟨127⟩ ⟨120⟩ = ⟨127⟩ ∧
    test_infinity 120 127 = true :=
  ⟨by decide, by decide,
    (C19_llr_infinity_rules 120 127 (by decide) (by decide)).2.1,
    (C19_llr_infinity_rules 120 127 (by decide) (by decide)).2.2.2.2.1,
    (C19_llr_infinity_rules 120 127 (by decide) (by decide)).2.2.2.2.2.2 (by decide)⟩

end srsran

namespace srsran
open bounded_bitset resource_grid_impl

/-- For a mask whose highest set bit is `h ≥ 0`, the resize to `divide_ceil(h + 1, 12) * 12` gives a mask of that length; the length is a multiple of 12, greater than `h` and at most `h + 12`, that is, `12 * ceil((h + 1) / 12)`; every bit of the resized mask is the bit of the mask at the same index, so the set bits and their count are unchanged; and a bit at or above the old length is zero. -/
theorem resize_to_rb_spec (m : List Bool) (h0 : 0 ≤ find_highest m) :
    (resize m (divide_ceil (find_highest m + 1).toNat NRE * NRE)).length =
      divide_ceil (find_highest m + 1).toNat NRE * NRE ∧
    (divide_ceil (find_highest m + 1).toNat NRE * NRE) % 12 = 0 ∧
    find_highest m < ((divide_ceil (find_highest m + 1).toNat NRE * NRE : Nat) : Int) ∧
    ((divide_ceil (find_highest m + 1).toNat NRE * NRE : Nat) : Int) ≤ find_highest m + 12 ∧
    (∀ k, test (resize m (divide_ceil (find_highest m + 1).toNat NRE * NRE)) k = test m k) ∧
    count (resize m (divide_ceil (find_highest m + 1).toNat NRE * NRE)) = count m ∧
    (∀ k, m.length ≤ k →
      test (resize m (divide_ceil (find_highest m + 1).toNat NRE * NRE)) k = false) := by
  have hb := divide_ceil_NRE_bounds (find_highest m + 1).toNat
  have hmul : (divide_ceil (find_highest m + 1).toNat NRE * NRE) % 12 = 0 :=
    Nat.mul_mod_left _ _
  generalize divide_ceil (find_highest m + 1).toNat NRE * NRE = n at hb hmul ⊢
  have hN : NRE = 12 := rfl
  rw [hN] at hb
  have htest : ∀ k, test (resize m n) k = test m k := by
    intro k
    rw [test_resize]
    by_cases h : test m k = true
    · have h1 := le_find_highest _ _ h
      have hk : k < n := by omega
      simp [hk]
    · have hf : test m k = false := by simpa using h
      simp [hf]
  refine ⟨length_resize m n, hmul, by omega, by omega, htest, count_eq_of_test_eq htest, ?_⟩
  intro k hk
  rw [htest, test_of_length_le hk]

/-- C27 (PRGs above the allocation are inert in the streamed map). For a symbol whose highest selected subcarrier is `h` and a PRG whose first subcarrier `i_prg * prg_size * 12` is at least `h + 1` and whose window stays within the mask capacity `MAX_RB * 12`, itself within `unsigned`, the iteration of the PRG loop returns the state it was given: no symbol is popped and nothing is written. When the first subcarrier is greater than `h + 1` the unsigned difference `(h + 1) - i_subc` wraps to `2^32 - (i_subc - (h + 1))` and the window size is the full PRG size; when it equals `h + 1` the window size is 0. -/
theorem C27_prg_above_allocation_inert {α : Type} [CommSemiring α] [DecidableEq α]
    (MAX_RB fuel : Nat) (pattern reserved : re_pattern_list)
    (precoding : precoding_configuration α) (mx s : Nat) (st : stream_state α) (i_prg : Nat)
    (hrb : MAX_RB * NRE < 2 ^ 32)
    (hge : find_highest (selection_mask (MAX_RB * NRE) pattern reserved s) + 1 ≤
      ((i_prg * (precoding.get_prg_size * NRE) : Nat) : Int))
    (hcap : i_prg * (precoding.get_prg_size * NRE) + precoding.get_prg_size * NRE ≤
      MAX_RB * NRE) :
    map_stream_prg fuel precoding mx s (selection_mask (MAX_RB * NRE) pattern reserved s)
      (find_highest (selection_mask (MAX_RB * NRE) pattern reserved s)) st i_prg = .ok st ∧
    (find_highest (selection_mask (MAX_RB * NRE) pattern reserved s) + 1 <
        ((i_prg * (precoding.get_prg_size * NRE) : Nat) : Int) →
      u32_sub (find_highest (selection_mask (MAX_RB * NRE) pattern reserved s) + 1).toNat
          (u32 (i_prg * u32 (precoding.get_prg_size * NRE))) =
        2 ^ 32 - (i_prg * (precoding.get_prg_size * NRE) -
          (find_highest (selection_mask (MAX_RB * NRE) pattern reserved s) + 1).toNat) ∧
      min (u32 (precoding.get_prg_size * NRE))
          (u32_sub (find_highest (selection_mask (MAX_RB * NRE) pattern reserved s) + 1).toNat
            (u32 (i_prg * u32 (precoding.get_prg_size * NRE)))) =
        precoding.get_prg_size * NRE) ∧
    (find_highest (selection_mask (MAX_RB * NRE) pattern reserved s) + 1 =
        ((i_prg * (precoding.get_prg_size * NRE) : Nat) : Int) →
      min (u32 (precoding.get_prg_size * NRE))
          (u32_sub (find_highest (selection_mask (MAX_RB * NRE) pattern reserved s) + 1).toNat
            (u32 (i_prg * u32 (precoding.get_prg_size * NRE)))) = 0) := by
  have hP : u32 (precoding.get_prg_size * NRE) = precoding.get_prg_size * NRE :=
    u32_of_lt (by omega)
  have hI : u32 (i_prg * (precoding.get_prg_size * NRE)) =
      i_prg * (precoding.get_prg_size * NRE) := u32_of_lt (by omega)
  have hhi := find_highest_ge (selection_mask (MAX_RB * NRE) pattern reserved s)
  have hlt := find_highest_lt_length (selection_mask (MAX_RB * NRE) pattern reserved s)
  rw [length_selection_mask] at hlt
  rw [hP, hI]
  generalize hP0 : precoding.get_prg_size * NRE = P at hge hcap hP hI ⊢
  generalize hh : find_highest (selection_mask (MAX_RB * NRE) pattern reserved s) = h
    at hge hhi hlt ⊢
  refine ⟨?_, ?_, ?_⟩
  · unfold map_stream_prg
    simp only [hP0, hP, hI]
    have hnone : none (slice (selection_mask (MAX_RB * NRE) pattern reserved s) (i_prg * P)
        (u32 (i_prg * P + min P (u32_sub (h + 1).toNat (i_prg * P))))) = true := by
      rw [none_eq_true_iff]
      intro k
      rw [test_slice]
      have : test (selection_mask (MAX_RB * NRE) pattern reserved s) (i_prg * P + k) = false := by
        by_contra hc
        have ht : test (selection_mask (MAX_RB * NRE) pattern reserved s) (i_prg * P + k)
            = true := by simpa using hc
        have := le_find_highest _ _ ht
        rw [hh] at this
        omega
      rw [this, Bool.and_false]
    rw [if_pos hnone]
  · intro hgt
    have hsub : u32_sub (h + 1).toNat (i_prg * P) =
        2 ^ 32 - (i_prg * P - (h + 1).toNat) := by
      unfold u32_sub
      rw [Nat.mod_eq_of_lt (by omega : (h + 1).toNat < 2 ^ 32),
        Nat.mod_eq_of_lt (by omega : i_prg * P < 2 ^ 32), Nat.mod_eq_of_lt (by omega)]
      omega
    refine ⟨hsub, ?_⟩
    rw [hsub]
    exact Nat.min_eq_left (by omega)
  · intro heq
    have hsub : u32_sub (h + 1).toNat (i_prg * P) = 0 := by
      rw [u32_sub_of_le (by omega) (by omega)]
      omega
    rw [hsub, Nat.min_zero]

set_option maxRecDepth 8000 in
/-- C27 with a mask capacity of 3 resource blocks, PRGs of one resource block, subcarriers 0..3 of symbol 0 selected (`h = 3`), at PRG 1, whose first subcarrier is 12: the iteration returns the state it was given, after a wrapped difference. -/
theorem C27_prg_above_allocation_inert_witness :
    3 * NRE < 2 ^ 32 ∧
    find_highest (selection_mask (3 * NRE) scenario.pattern4 [] 0) + 1 <
      ((1 * (scenario.precoding_2prg.get_prg_size * NRE) : Nat) : Int) ∧
    1 * (scenario.precoding_2prg.get_prg_size * NRE) + scenario.precoding_2prg.get_prg_size * NRE
      ≤ 3 * NRE ∧
    map_stream_prg 8 scenario.precoding_2prg 4 0 (selection_mask (3 * NRE) scenario.pattern4 [] 0)
      (find_highest (selection_mask (3 * NRE) scenario.pattern4 [] 0))
      ⟨scenario.grid2, scenario.stream8⟩ 1 = .ok ⟨scenario.grid2, scenario.stream8⟩ ∧
    min (u32 (scenario.precoding_2prg.get_prg_size * NRE))
        (u32_sub (find_highest (selection_mask (3 * NRE) scenario.pattern4 [] 0) + 1).toNat
          (u32 (1 * u32 (scenario.precoding_2prg.get_prg_size * NRE)))) =
      scenario.precoding_2prg.get_prg_size * NRE :=
  have hlt : find_highest (selection_mask (3 * NRE) scenario.pattern4 [] 0) + 1 <
      ((1 * (scenario.precoding_2prg.get_prg_size * NRE) : Nat) : Int) := by decide
  ⟨by decide, hlt, by decide,
    (C27_prg_above_allocation_inert 3 8 scenario.pattern4 [] scenario.precoding_2prg 4 0
      ⟨scenario.grid2, scenario.stream8⟩ 1 (by decide) (Int.le_of_lt hlt) (by decide)).1,
    ((C27_prg_above_allocation_inert 3 8 scenario.pattern4 [] scenario.precoding_2prg 4 0
      ⟨scenario.grid2, scenario.stream8⟩ 1 (by decide) (Int.le_of_lt hlt) (by decide)).2.1
        hlt).2⟩

end srsran

namespace srsran
open bounded_bitset resource_grid_impl

/-- An invariant kept by every iteration of the body, whether it returns or stops, holds of the state the loop ends in. -/
theorem for_loop_inv_all {σ : Type} (I : σ → Prop) (body : σ → Nat → outcome σ)
    (hbody : ∀ s i, I s → I (body s i).state) (l : List Nat) (s : σ) (hs : I s) :
    I (for_loop body l s).state := by
  induction l generalizing s with
  | nil => exact hs
  | cons i rest ih =>
    simp only [for_loop]
    have h1 := hbody s i hs
    cases hb : body s i with
    | ok s1 =>
      rw [hb] at h1
      exact ih s1 h1
    | error e =>
      rw [hb] at h1
      exact h1

theorem puts_sized_refl {α : Type} (log0 : List (put_call α)) : puts_sized log0 log0 :=
  ⟨[], by simp, by simp⟩

theorem puts_sized_trans {α : Type} (a b c : List (put_call α)) (h1 : puts_sized a b)
    (h2 : puts_sized b c) : puts_sized a c := by
  obtain ⟨x, hx, px⟩ := h1
  obtain ⟨y, hy, py⟩ := h2
  refine ⟨x ++ y, by rw [hy, hx, List.append_assoc], ?_⟩
  intro d hd
  rcases List.mem_append.mp hd with h | h
  · exact px d h
  · exact py d h

theorem puts_sized_snoc {α : Type} (log0 log : List (put_call α)) (c : put_call α)
    (h : puts_sized log0 log) (hc : c.values.length = count c.mask) :
    puts_sized log0 (log ++ [c]) :=
  puts_sized_trans _ _ _ h ⟨[c], rfl, by
    intro d hd
    rw [List.mem_singleton] at hd
    subst hd
    exact hc⟩

theorem puts_sized_drop {α : Type} (log0 log : List (put_call α)) (h : puts_sized log0 log)
    (c : put_call α) (hc : c ∈ log.drop log0.length) :
    c.values.length = count c.mask ∧ unmapped_tail c = [] := by
  obtain ⟨added, h1, h2⟩ := h
  rw [h1, List.drop_left] at hc
  have hlen := h2 c hc
  refine ⟨hlen, ?_⟩
  unfold unmapped_tail
  exact List.drop_eq_nil_of_le (by omega)

namespace resource_grid_impl

variable {α : Type} [CommSemiring α] [DecidableEq α]

omit [DecidableEq α] in
/-- The PRG loop of the buffered `map` keeps the dimensions of the precoding buffer. -/
theorem foldl_map_prg_nof_re (input : re_buffer α) (precoding : precoding_configuration α)
    (P : Nat) (m : List Bool) (st0 : prg_state α) (n : Nat) :
    ((List.range n).foldl (map_prg input precoding P m) st0).precoding_buffer.nof_re =
      st0.precoding_buffer.nof_re := by
  induction n with
  | zero => rfl
  | succ n ih =>
    rw [List.range_succ, List.foldl_append]
    simp only [List.foldl_cons, List.foldl_nil]
    rw [← ih]
    rfl

/-- The precoding buffer the port loop of the general path reads has one RE per set bit of the mask. -/
theorem general_buffer_nof_re (input : re_buffer α) (precoding : precoding_configuration α)
    (m : List Bool) (pb0 : re_buffer α) (i_re : Nat) :
    ((List.range precoding.get_nof_prg).foldl
      (map_prg input precoding (u32 (precoding.get_prg_size * NRE)) m)
      ⟨(if count m ≠ pb0.nof_re ∨ precoding.get_nof_ports ≠ pb0.nof_slices then
          pb0.resize precoding.get_nof_ports (count m)
        else pb0), i_re, 0, 0⟩).precoding_buffer.nof_re = count m := by
  rw [foldl_map_prg_nof_re]
  show (if count m ≠ pb0.nof_re ∨ precoding.get_nof_ports ≠ pb0.nof_slices then
      pb0.resize precoding.get_nof_ports (count m) else pb0).nof_re = count m
  split
  · rfl
  · rename_i hc
    have := not_or.mp hc
    exact (not_not.mp this.1).symm

/-- The general path of a symbol is stopped by no check other than the one on the fill of the precoding buffer, and its `put` calls pass one value per set bit of the mask. -/
theorem map_general_sized (log0 : List (put_call α)) (input : re_buffer α)
    (precoding : precoding_configuration α) (s : Nat) (m : List Bool) (st : map_state α)
    (h : puts_sized log0 st.grid.put_log) :
    puts_sized log0 (map_general input precoding s m st).state.grid.put_log ∧
      ∀ e, map_general input precoding s m st = .error e → e.1 = .precoding_fill := by
  have hre := general_buffer_nof_re input precoding m st.grid.precoding_buffer st.i_re_buffer
  generalize hpb1 : (if count m ≠ st.grid.precoding_buffer.nof_re ∨
      precoding.get_nof_ports ≠ st.grid.precoding_buffer.nof_slices then
      st.grid.precoding_buffer.resize precoding.get_nof_ports (count m)
    else st.grid.precoding_buffer) = pb1 at hre
  generalize hprg : (List.range precoding.get_nof_prg).foldl
    (map_prg input precoding (u32 (precoding.get_prg_size * NRE)) m)
    ⟨pb1, st.i_re_buffer, 0, 0⟩ = prg at hre
  unfold map_general
  simp only [hpb1, hprg]
  by_cases hfill : prg.i_precoding_buffer = prg.precoding_buffer.nof_re
  · rw [if_neg (not_not.mpr hfill)]
    have hloop := for_loop_map_port s m
      { st.grid with precoding_buffer := prg.precoding_buffer } hre precoding.get_nof_ports
    rw [hloop]
    refine ⟨?_, fun e he => Except.noConfusion he⟩
    show puts_sized log0 (st.grid.put_log ++
      (List.range precoding.get_nof_ports).map
        (fun p => (⟨p, s, 0, m, prg.precoding_buffer.get_slice p⟩ : put_call α)))
    refine puts_sized_trans _ _ _ h ⟨_, rfl, ?_⟩
    intro c hc
    obtain ⟨p, _, rfl⟩ := List.mem_map.mp hc
    show (prg.precoding_buffer.get_slice p).length = count m
    rw [length_get_slice, hre]
  · rw [if_pos hfill]
    refine ⟨h, ?_⟩
    intro e he
    simp only [Except.error.injEq] at he
    subst he
    rfl

theorem map_symbol_sized (log0 : List (put_call α)) (input : re_buffer α)
    (pattern reserved : re_pattern_list) (precoding : precoding_configuration α)
    (st : map_state α) (s : Nat) (h : puts_sized log0 st.grid.put_log) :
    puts_sized log0 (map_symbol input pattern reserved precoding st s).state.grid.put_log ∧
      ∀ e, map_symbol input pattern reserved precoding st s = .error e →
        e.1 = .precoding_fill := by
  unfold map_symbol
  simp only
  split
  · exact ⟨h, fun e he => Except.noConfusion he⟩
  · split
    · rw [map_bypass_eq]
      refine ⟨?_, fun e he => Except.noConfusion he⟩
      show puts_sized log0 (st.grid.put 0 s 0 _ _).1.put_log
      rw [put_put_log]
      exact puts_sized_snoc _ _ _ h (by
        show (re_buffer.get_slice _ 0).length = _
        rw [length_get_slice]
        rfl)
    · exact map_general_sized log0 input precoding s _ st h

/-- The `put` calls of the buffered `map`, in every run, pass one value per set bit of the mask, and the check on the span returned by `put` never stops it. -/
theorem map_sized (g : resource_grid_impl α) (input : re_buffer α)
    (pattern reserved : re_pattern_list) (precoding : precoding_configuration α) :
    puts_sized g.put_log (map g input pattern reserved precoding).state.put_log ∧
      ∀ e, map g input pattern reserved precoding = .error e → e.1 ≠ .unmapped := by
  have hloop := for_loop_inv_all
    (fun st : map_state α => puts_sized g.put_log st.grid.put_log)
    (map_symbol input pattern reserved precoding)
    (fun st i hI => (map_symbol_sized g.put_log input pattern reserved precoding st i hI).1)
    (List.range MAX_NSYMB_PER_SLOT) ⟨g, 0⟩ (puts_sized_refl g.put_log)
  have hkind : ∀ e, for_loop (map_symbol input pattern reserved precoding)
      (List.range MAX_NSYMB_PER_SLOT) ⟨g, 0⟩ = .error e → e.1 = .precoding_fill := by
    intro e he
    exact for_loop_error_kind (fun k => k = .precoding_fill) _
      (fun st i e1 h1 => (map_symbol_sized st.grid.put_log input pattern reserved precoding st i
        (puts_sized_refl _)).2 e1 h1) _ _ e he
  unfold map map_loop
  by_cases hl : input.nof_slices = precoding.get_nof_layers
  swap
  · rw [if_pos hl]
    exact ⟨puts_sized_refl _, fun e he => by
      simp only [Except.error.injEq] at he
      subst he
      simp⟩
  rw [if_neg (not_not.mpr hl)]
  by_cases hp : precoding.get_nof_ports ≤ g.nof_ports
  swap
  · rw [if_pos hp]
    exact ⟨puts_sized_refl _, fun e he => by
      simp only [Except.error.injEq] at he
      subst he
      simp⟩
  rw [if_neg (not_not.mpr hp)]
  cases hres : for_loop (map_symbol input pattern reserved precoding)
      (List.range MAX_NSYMB_PER_SLOT) ⟨g, 0⟩ with
  | ok st =>
    rw [hres] at hloop
    simp only
    by_cases hre : st.i_re_buffer = input.nof_re
    · rw [if_pos hre]
      exact ⟨hloop, fun e he => Except.noConfusion he⟩
    · rw [if_neg hre]
      exact ⟨hloop, fun e he => by
        simp only [Except.error.injEq] at he
        subst he
        simp⟩
  | error e =>
    rw [hres] at hloop
    simp only
    refine ⟨hloop, ?_⟩
    intro e1 he1
    simp only [Except.error.injEq] at he1
    subst he1
    rw [hkind e hres]
    simp

end resource_grid_impl
end srsran

namespace srsran
open bounded_bitset resource_grid_impl

namespace resource_grid_impl

variable {α : Type} [CommSemiring α] [DecidableEq α]

/-- A relation between states of the streamed `map` that is reflexive, transitive and kept by every block is kept by the block loop. -/
theorem map_blocks_rel (R : stream_state α → stream_state α → Prop) (hrefl : ∀ s, R s s)
    (htrans : ∀ a b c, R a b → R b c → R a c)
    (hblock : ∀ w L A s k m st, R st (map_block w L A s k m st).state)
    (w : precoding_weight_matrix α) (mx L A s i_subc : Nat) (m : List Bool)
    (nsp fuel off : Nat) (st : stream_state α) :
    R st (map_blocks w mx L A s i_subc m nsp fuel off st).state := by
  induction fuel generalizing off st with
  | zero =>
    unfold map_blocks
    split <;> exact hrefl _
  | succ fuel ih =>
    unfold map_blocks
    by_cases h1 : off = nsp
    · rw [if_pos h1]; exact hrefl _
    · rw [if_neg h1]
      by_cases h2 : u32_sub nsp off = 0
      · simp only [h2, if_true]; exact hrefl _
      · simp only [h2, if_false]
        have hb := hblock w L A s (i_subc + off)
          (slice m off (off + min (u32_sub nsp off) (mx / L))) st
        cases hmb : map_block w L A s (i_subc + off)
            (slice m off (off + min (u32_sub nsp off) (mx / L))) st with
        | error e =>
          rw [hmb] at hb
          exact hb
        | ok st1 =>
          rw [hmb] at hb
          exact htrans _ _ _ hb (ih _ st1)

/-- A relation between states of the streamed `map` that is reflexive, transitive and kept by every block holds between the state the streamed `map` starts in and the state it ends in, in every run. -/
theorem map_stream_rel (R : stream_state α → stream_state α → Prop) (hrefl : ∀ s, R s s)
    (htrans : ∀ a b c, R a b → R b c → R a c)
    (hblock : ∀ w L A s k m st, R st (map_block w L A s k m st).state)
    (MAX_RB fuel : Nat) (g : resource_grid_impl α) (buffer : symbol_buffer α)
    (pattern reserved : re_pattern_list) (precoding : precoding_configuration α) :
    R ⟨g, buffer⟩ (map_stream MAX_RB fuel g buffer pattern reserved precoding).state := by
  have hprg : ∀ mx s m hh st i,
      R st (map_stream_prg fuel precoding mx s m hh st i).state := by
    intro mx s m hh st i
    unfold map_stream_prg
    simp only
    split
    · exact hrefl _
    · exact map_blocks_rel R hrefl htrans hblock _ _ _ _ _ _ _ _ _ _ _
  have hsym : ∀ mx st s,
      R st (map_stream_symbol MAX_RB fuel pattern reserved precoding mx st s).state := by
    intro mx st s
    unfold map_stream_symbol
    simp only
    split
    · exact hrefl _
    · exact for_loop_state_rel R hrefl htrans _ (fun s1 i => hprg _ _ _ _ s1 i) _ _
  unfold map_stream
  simp only
  split
  · exact hrefl _
  · split
    · exact hrefl _
    · exact for_loop_state_rel R hrefl htrans _ (fun s1 i => hsym _ s1 i) _ _

omit [DecidableEq α] in
/-- The port loop of a block issues one `put` per port, in ascending port order, each at the block mask with as many values as the precoding buffer has REs. -/
theorem stream_ports_calls (w : precoding_weight_matrix α) (s k : Nat) (m : List Bool) (n : Nat)
    (g : resource_grid_impl α) :
    ∃ calls, ((List.range n).foldl (stream_port w s k m) g).put_log = g.put_log ++ calls ∧
      calls.map put_call.shape =
        (List.range n).map (fun j => (j, s, k, m, g.precoding_buffer.nof_re)) ∧
      ((List.range n).foldl (stream_port w s k m) g).precoding_buffer.nof_re =
        g.precoding_buffer.nof_re := by
  induction n with
  | zero => exact ⟨[], by simp, by simp, rfl⟩
  | succ n ih =>
    obtain ⟨calls, h1, h2, h3⟩ := ih
    rw [List.range_succ, List.foldl_append]
    simp only [List.foldl_cons, List.foldl_nil]
    generalize (List.range n).foldl (stream_port w s k m) g = g1 at h1 h2 h3
    refine ⟨calls ++ [⟨n, s, k, m,
      (g1.precoding_buffer.write_slice 0
        (channel_precoder.apply_precoding_port g1.layer_mapping_buffer
          (w.get_port_coefficients n))).get_slice 0⟩], ?_, ?_, ?_⟩
    · show g1.put_log ++ [_] = _
      rw [h1, List.append_assoc]
    · rw [List.map_append, List.map_append, h2]
      congr 1
      simp only [List.map_cons, List.map_nil, put_call.shape, List.cons.injEq, Prod.mk.injEq,
        and_true, true_and]
      rw [re_buffer.get_slice, List.length_map, List.length_range]
      exact h3
    · exact h3

/-- A block whose pull succeeds returns after one `put` per layer index, in ascending order, each at the block mask with one value per set bit. -/
theorem map_block_calls (w : precoding_weight_matrix α) (L A s k : Nat) (m : List Bool)
    (st : stream_state α) (hpop : count m * L ≤ st.buffer.symbols.length) :
    ∃ g1 calls, map_block w L A s k m st =
        .ok ⟨g1, (st.buffer.pop_symbols (count m * L)).2⟩ ∧
      g1.put_log = st.grid.put_log ++ calls ∧
      calls.map put_call.shape = (List.range L).map (fun j => (j, s, k, m, count m)) := by
  unfold map_block
  have h1 : (st.buffer.pop_symbols (count m * L)).1 =
      some (st.buffer.symbols.take (count m * L)) := by
    simp [symbol_buffer.pop_symbols, hpop]
  simp only [h1]
  by_cases hb : L = 1 ∧ A = 1
  · rw [if_pos hb]
    refine ⟨_, [⟨0, s, k, m, _⟩], rfl, rfl, ?_⟩
    rw [hb.1]
    simp only [List.range_succ, List.range_zero, List.nil_append, List.map_cons, List.map_nil,
      put_call.shape, List.cons.injEq, Prod.mk.injEq, and_true, true_and]
    rw [re_buffer.get_slice, List.length_map, List.length_range]
    rfl
  · rw [if_neg hb]
    obtain ⟨calls, c1, c2, _⟩ := stream_ports_calls w s k m L
      { st.grid with
        layer_mapping_buffer := layer_map L (count m) (st.buffer.symbols.take (count m * L))
          (st.grid.layer_mapping_buffer.resize L (count m))
        precoding_buffer := st.grid.precoding_buffer.resize A (count m) }
    exact ⟨_, calls, rfl, c1, c2⟩

/-- A block whose pull fails stops with the grid it was given. -/
theorem map_block_pop_fails (w : precoding_weight_matrix α) (L A s k : Nat) (m : List Bool)
    (st : stream_state α) (hpop : ¬ count m * L ≤ st.buffer.symbols.length) :
    map_block w L A s k m st =
      .error (.pop_symbols, ⟨st.grid, (st.buffer.pop_symbols (count m * L)).2⟩) := by
  unfold map_block
  have h1 : (st.buffer.pop_symbols (count m * L)).1 = Option.none := by
    simp [symbol_buffer.pop_symbols, hpop]
  simp only [h1]

theorem map_block_sized (w : precoding_weight_matrix α) (L A s k : Nat) (m : List Bool)
    (st : stream_state α) :
    puts_sized st.grid.put_log (map_block w L A s k m st).state.grid.put_log := by
  by_cases hpop : count m * L ≤ st.buffer.symbols.length
  · obtain ⟨g1, calls, h1, h2, h3⟩ := map_block_calls w L A s k m st hpop
    rw [h1]
    refine ⟨calls, h2, ?_⟩
    intro c hc
    have hmem : c.shape ∈ calls.map put_call.shape := List.mem_map_of_mem _ hc
    rw [h3] at hmem
    obtain ⟨j, _, hj⟩ := List.mem_map.mp hmem
    simp only [put_call.shape, Prod.mk.injEq] at hj
    rw [← hj.2.2.2.2, ← hj.2.2.2.1]
  · rw [map_block_pop_fails w L A s k m st hpop]
    exact puts_sized_refl _

/-- The `put` calls of the streamed `map`, in every run, pass one value per set bit of the mask. -/
theorem map_stream_sized (MAX_RB fuel : Nat) (g : resource_grid_impl α)
    (buffer : symbol_buffer α) (pattern reserved : re_pattern_list)
    (precoding : precoding_configuration α) :
    puts_sized g.put_log
      (map_stream MAX_RB fuel g buffer pattern reserved precoding).state.grid.put_log :=
  map_stream_rel (fun a b => puts_sized a.grid.put_log b.grid.put_log)
    (fun _ => puts_sized_refl _) (fun _ _ _ => puts_sized_trans _ _ _)
    (fun w L A s k m st => map_block_sized w L A s k m st) MAX_RB fuel g buffer pattern reserved
    precoding

end resource_grid_impl

/-- C26 (every write has one value per selected RE). In every run of the buffered `map` and of the streamed `map`, whether it returns or stops, every `put` call issued passes as many values as its mask has set bits, so the span a writer that consumes one value per set bit returns is empty; and no run of the buffered `map` is stopped by the check on that span. -/
theorem C26_put_values_sized {α : Type} [CommSemiring α] [DecidableEq α]
    (g : resource_grid_impl α) (input : re_buffer α) (pattern reserved : re_pattern_list)
    (precoding : precoding_configuration α) (MAX_RB fuel : Nat) (buffer : symbol_buffer α) :
    (∀ c, c ∈ (map g input pattern reserved precoding).state.put_log.drop g.put_log.length →
      c.values.length = count c.mask ∧ unmapped_tail c = []) ∧
    (∀ e, map g input pattern reserved precoding = .error e → e.1 ≠ .unmapped) ∧
    (∀ c, c ∈ (map_stream MAX_RB fuel g buffer pattern reserved
        precoding).state.grid.put_log.drop g.put_log.length →
      c.values.length = count c.mask ∧ unmapped_tail c = []) :=
  ⟨fun c hc => puts_sized_drop _ _ (map_sized g input pattern reserved precoding).1 c hc,
    (map_sized g input pattern reserved precoding).2,
    fun c hc => puts_sized_drop _ _
      (map_stream_sized MAX_RB fuel g buffer pattern reserved precoding) c hc⟩

/-- C26 on concrete runs: the buffered `map` of two layers on two ports and the streamed `map` of the same configuration each issue `put` calls, and each call passes one value per set bit. -/
theorem C26_put_values_sized_witness :
    ((map scenario.grid2 scenario.input2x12 scenario.pattern []
        scenario.precoding_identity).state.put_log.drop scenario.grid2.put_log.length).length
      = 2 ∧
    ((map_stream 1 12 scenario.grid2 scenario.stream8 scenario.pattern4 []
        scenario.precoding_identity).state.grid.put_log.drop
          scenario.grid2.put_log.length).length = 4 ∧
    (∀ c, c ∈ (map scenario.grid2 scenario.input2x12 scenario.pattern []
        scenario.precoding_identity).state.put_log.drop scenario.grid2.put_log.length →
      c.values.length = count c.mask ∧ unmapped_tail c = []) ∧
    (∀ c, c ∈ (map_stream 1 12 scenario.grid2 scenario.stream8 scenario.pattern4 []
        scenario.precoding_identity).state.grid.put_log.drop scenario.grid2.put_log.length →
      c.values.length = count c.mask ∧ unmapped_tail c = []) :=
  ⟨by decide, by decide,
    (C26_put_values_sized scenario.grid2 scenario.input2x12 scenario.pattern []
      scenario.precoding_identity 1 12 scenario.stream8).1,
    (C26_put_values_sized scenario.grid2 scenario.input2x12 scenario.pattern4 []
      scenario.precoding_identity 1 12 scenario.stream8).2.2⟩

end srsran

namespace srsran
open bounded_bitset resource_grid_impl

namespace resource_grid_impl

variable {α : Type} [CommSemiring α] [DecidableEq α]

/-- An iteration of the symbol loop of the buffered `map` for a symbol with a selected subcarrier goes on with the mask resized to the highest subcarrier, ceiled to a resource block. -/
theorem map_symbol_truncated (input : re_buffer α) (pattern reserved : re_pattern_list)
    (precoding : precoding_configuration α) (st : map_state α) (s : Nat)
    (h0 : 0 ≤ find_highest (selection_mask st.grid.nof_subc pattern reserved s)) :
    map_symbol input pattern reserved precoding st s =
      if bypass precoding then
        map_bypass input s (truncated_mask st.grid.nof_subc pattern reserved s) st
      else map_general input precoding s (truncated_mask st.grid.nof_subc pattern reserved s)
        st := by
  unfold map_symbol truncated_mask
  simp only
  rw [if_neg (not_lt.mpr h0)]

/-- The `put` calls of the general path of a symbol are all at the symbol, from subcarrier 0, with the mask of the symbol. -/
theorem map_general_calls_mask (input : re_buffer α) (precoding : precoding_configuration α)
    (s : Nat) (m : List Bool) (st : map_state α) :
    ∃ added, (map_general input precoding s m st).state.grid.put_log =
        st.grid.put_log ++ added ∧
      ∀ c, c ∈ added → c.symbol = s ∧ c.k_init = 0 ∧ c.mask = m := by
  have hre := general_buffer_nof_re input precoding m st.grid.precoding_buffer st.i_re_buffer
  generalize hpb1 : (if count m ≠ st.grid.precoding_buffer.nof_re ∨
      precoding.get_nof_ports ≠ st.grid.precoding_buffer.nof_slices then
      st.grid.precoding_buffer.resize precoding.get_nof_ports (count m)
    else st.grid.precoding_buffer) = pb1 at hre
  generalize hprg : (List.range precoding.get_nof_prg).foldl
    (map_prg input precoding (u32 (precoding.get_prg_size * NRE)) m)
    ⟨pb1, st.i_re_buffer, 0, 0⟩ = prg at hre
  unfold map_general
  simp only [hpb1, hprg]
  by_cases hfill : prg.i_precoding_buffer = prg.precoding_buffer.nof_re
  · rw [if_neg (not_not.mpr hfill)]
    have hloop := for_loop_map_port s m
      { st.grid with precoding_buffer := prg.precoding_buffer } hre precoding.get_nof_ports
    rw [hloop]
    refine ⟨(List.range precoding.get_nof_ports).map
      (fun p => (⟨p, s, 0, m, prg.precoding_buffer.get_slice p⟩ : put_call α)), rfl, ?_⟩
    intro c hc
    obtain ⟨p, _, rfl⟩ := List.mem_map.mp hc
    exact ⟨rfl, rfl, rfl⟩
  · rw [if_pos hfill]
    exact ⟨[], (List.append_nil _).symm, fun c hc => absurd hc (List.not_mem_nil c)⟩

end resource_grid_impl

/-- C22 (mask truncation in the buffered map). For a symbol whose mask has a highest set bit `h ≥ 0`, the iteration of the symbol loop of the buffered `map` goes on, on the bypass path or the general path, with the mask resized to `divide_ceil(h + 1, 12) * 12` bits, and every `put` it issues is at that resized mask. The length of the resized mask is `12 * ceil((h + 1) / 12)`: a multiple of 12, greater than `h` and at most `h + 12`. Every bit of the resized mask is the bit of the symbol mask at the same index, so the set bits and their count are unchanged, and a bit at or above the old length is zero. -/
theorem C22_mask_truncation {α : Type} [CommSemiring α] [DecidableEq α]
    (input : re_buffer α) (pattern reserved : re_pattern_list)
    (precoding : precoding_configuration α) (st : map_state α) (s : Nat)
    (h0 : 0 ≤ find_highest (selection_mask st.grid.nof_subc pattern reserved s)) :
    map_symbol input pattern reserved precoding st s =
      (if bypass precoding then
        map_bypass input s
          (resize (selection_mask st.grid.nof_subc pattern reserved s)
            (divide_ceil
              (find_highest (selection_mask st.grid.nof_subc pattern reserved s) + 1).toNat
              NRE * NRE)) st
      else
        map_general input precoding s
          (resize (selection_mask st.grid.nof_subc pattern reserved s)
            (divide_ceil
              (find_highest (selection_mask st.grid.nof_subc pattern reserved s) + 1).toNat
              NRE * NRE)) st) ∧
    (∃ added, (map_symbol input pattern reserved precoding st s).state.grid.put_log =
        st.grid.put_log ++ added ∧
      ∀ c, c ∈ added → c.symbol = s ∧ c.k_init = 0 ∧
        c.mask = resize (selection_mask st.grid.nof_subc pattern reserved s)
          (divide_ceil
            (find_highest (selection_mask st.grid.nof_subc pattern reserved s) + 1).toNat
            NRE * NRE)) ∧
    (resize (selection_mask st.grid.nof_subc pattern reserved s)
      (divide_ceil
        (find_highest (selection_mask st.grid.nof_subc pattern reserved s) + 1).toNat
        NRE * NRE)).length =
      12 * divide_ceil
        (find_highest (selection_mask st.grid.nof_subc pattern reserved s) + 1).toNat 12 ∧
    (12 * divide_ceil
      (find_highest (selection_mask st.grid.nof_subc pattern reserved s) + 1).toNat 12) % 12
        = 0 ∧
    find_highest (selection_mask st.grid.nof_subc pattern reserved s) <
      ((12 * divide_ceil
        (find_highest (selection_mask st.grid.nof_subc pattern reserved s) + 1).toNat 12 : Nat)
          : Int) ∧
    ((12 * divide_ceil
        (find_highest (selection_mask st.grid.nof_subc pattern reserved s) + 1).toNat 12 : Nat)
          : Int) ≤ find_highest (selection_mask st.grid.nof_subc pattern reserved s) + 12 ∧
    (∀ k, test (resize (selection_mask st.grid.nof_subc pattern reserved s)
        (divide_ceil
          (find_highest (selection_mask st.grid.nof_subc pattern reserved s) + 1).toNat
          NRE * NRE)) k =
      test (selection_mask st.grid.nof_subc pattern reserved s) k) ∧
    count (resize (selection_mask st.grid.nof_subc pattern reserved s)
        (divide_ceil
          (find_highest (selection_mask st.grid.nof_subc pattern reserved s) + 1).toNat
          NRE * NRE)) =
      count (selection_mask st.grid.nof_subc pattern reserved s) ∧
    (∀ k, (selection_mask st.grid.nof_subc pattern reserved s).length ≤ k →
      test (resize (selection_mask st.grid.nof_subc pattern reserved s)
        (divide_ceil
          (find_highest (selection_mask st.grid.nof_subc pattern reserved s) + 1).toNat
          NRE * NRE)) k = false) := by
  have hmul : ∀ x : Nat, divide_ceil x NRE * NRE = 12 * divide_ceil x 12 := by
    intro x
    show divide_ceil x 12 * 12 = 12 * divide_ceil x 12
    exact Nat.mul_comm _ _
  have hsym := map_symbol_truncated input pattern reserved precoding st s h0
  unfold truncated_mask at hsym
  obtain ⟨r1, r2, r3, r4, r5, r6, r7⟩ :=
    resize_to_rb_spec (selection_mask st.grid.nof_subc pattern reserved s) h0
  refine ⟨hsym, ?_, ?_, ?_, ?_, ?_, r5, r6, r7⟩
  · rw [hsym]
    by_cases hb : bypass precoding = true
    · rw [if_pos hb, map_bypass_eq]
      refine ⟨[⟨0, s, 0, _, _⟩], rfl, ?_⟩
      intro c hc
      rw [List.mem_singleton] at hc
      subst hc
      exact ⟨rfl, rfl, rfl⟩
    · rw [if_neg hb]
      exact map_general_calls_mask input precoding s _ st
  · rw [r1, hmul]
  · rw [← hmul]
    exact r2
  · rw [← hmul]
    exact r3
  · rw [← hmul]
    exact r4

set_option maxRecDepth 8000 in
/-- C22 on a grid of 24 subcarriers with the subcarriers 0..3 of symbol 0 selected: the highest set bit is 3, the mask of 24 bits is resized to 12 bits with the same 4 set bits, and the two `put` calls of the iteration are at the mask of 12 bits. -/
theorem C22_mask_truncation_witness :
    0 ≤ find_highest (selection_mask scenario.grid2x24.nof_subc scenario.pattern4 [] 0) ∧
    (selection_mask scenario.grid2x24.nof_subc scenario.pattern4 [] 0).length = 24 ∧
    (resize (selection_mask scenario.grid2x24.nof_subc scenario.pattern4 [] 0)
      (divide_ceil
        (find_highest (selection_mask scenario.grid2x24.nof_subc scenario.pattern4 [] 0)
          + 1).toNat NRE * NRE)).length = 12 ∧
    ((map_symbol scenario.input2x24 scenario.pattern4 [] scenario.precoding_2prg
      ⟨scenario.grid2x24, 0⟩ 0).state.grid.put_log.map (fun c => c.mask.length)) = [12, 12] ∧
    (∃ added, (map_symbol scenario.input2x24 scenario.pattern4 [] scenario.precoding_2prg
        ⟨scenario.grid2x24, 0⟩ 0).state.grid.put_log = scenario.grid2x24.put_log ++ added ∧
      ∀ c, c ∈ added → c.symbol = 0 ∧ c.k_init = 0 ∧
        c.mask = resize (selection_mask scenario.grid2x24.nof_subc scenario.pattern4 [] 0)
          (divide_ceil
            (find_highest (selection_mask scenario.grid2x24.nof_subc scenario.pattern4 [] 0)
              + 1).toNat NRE * NRE)) :=
  ⟨by decide, by decide, by decide, by decide,
    (C22_mask_truncation scenario.input2x24 scenario.pattern4 [] scenario.precoding_2prg
      ⟨scenario.grid2x24, 0⟩ 0 (by decide)).2.1⟩

end srsran

namespace srsran
open bounded_bitset resource_grid_impl

end srsran

namespace srsran
open bounded_bitset resource_grid_impl

theorem rank_length (m : List Bool) : rank m m.length = count m := by
  unfold rank
  rw [List.take_length]

/-- C25 (PRG windows of the buffered map). For a symbol mask whose length fits `unsigned` and a PRG width `prg_size * 12` that fits `unsigned`: after `n` iterations of the PRG loop the running subcarrier index is `min(n * prg_size * 12, mask length)`, so it is at most the mask length and the unsigned difference `mask size - i_subc` does not wrap, and the sub-mask of iteration `n` is the window of the mask from that index to `min((n + 1) * prg_size * 12, mask length)`: the windows are consecutive and disjoint. If `nof_prg * prg_size * 12` is at least the mask length, the RE counts of the PRGs add up to the count of the mask and the general path returns: the check on the fill of the precoding buffer passes. If some set bit lies at or beyond subcarrier `nof_prg * prg_size * 12`, that check fires. -/
theorem C25_prg_windows {α : Type} [CommSemiring α] [DecidableEq α]
    (input : re_buffer α) (precoding : precoding_configuration α) (s : Nat) (m : List Bool)
    (st : map_state α) (pb1 : re_buffer α) (i_re0 : Nat)
    (hlen : m.length < 2 ^ 32) (hG : precoding.get_prg_size * NRE < 2 ^ 32) :
    (∀ n,
      ((List.range n).foldl (map_prg input precoding (u32 (precoding.get_prg_size * NRE)) m)
        ⟨pb1, i_re0, 0, 0⟩).i_subc = min (n * (precoding.get_prg_size * NRE)) m.length ∧
      u32_sub m.length
        ((List.range n).foldl (map_prg input precoding (u32 (precoding.get_prg_size * NRE)) m)
          ⟨pb1, i_re0, 0, 0⟩).i_subc =
        m.length - min (n * (precoding.get_prg_size * NRE)) m.length ∧
      (prg_view (u32 (precoding.get_prg_size * NRE)) m
        ((List.range n).foldl (map_prg input precoding (u32 (precoding.get_prg_size * NRE)) m)
          ⟨pb1, i_re0, 0, 0⟩)).mask =
        slice m (min (n * (precoding.get_prg_size * NRE)) m.length)
          (min ((n + 1) * (precoding.get_prg_size * NRE)) m.length)) ∧
    (m.length ≤ precoding.get_nof_prg * (precoding.get_prg_size * NRE) →
      views_nof_re (prg_views input precoding (u32 (precoding.get_prg_size * NRE)) m
        ⟨pb1, i_re0, 0, 0⟩ precoding.get_nof_prg) = count m ∧
      ∃ st1, map_general input precoding s m st = .ok st1) ∧
    ((∃ k, precoding.get_nof_prg * (precoding.get_prg_size * NRE) ≤ k ∧ test m k = true) →
      ∃ st1, map_general input precoding s m st = .error (.precoding_fill, st1)) := by
  have hP : u32 (precoding.get_prg_size * NRE) = precoding.get_prg_size * NRE := u32_of_lt hG
  rw [hP]
  refine ⟨?_, ?_, ?_⟩
  · intro n
    have hinv := prg_inv_fold input precoding (precoding.get_prg_size * NRE) m pb1 i_re0 hlen n
    generalize (List.range n).foldl (map_prg input precoding (precoding.get_prg_size * NRE) m)
      ⟨pb1, i_re0, 0, 0⟩ = stn at hinv
    have hi := hinv.i_subc
    have hile : stn.i_subc ≤ m.length := by rw [hi]; exact Nat.min_le_right _ _
    have hsub : u32_sub m.length stn.i_subc = m.length - stn.i_subc := u32_sub_of_le hile hlen
    refine ⟨hi, by rw [hsub, hi], ?_⟩
    show slice m stn.i_subc
      (stn.i_subc + min (precoding.get_prg_size * NRE) (u32_sub m.length stn.i_subc)) = _
    rw [hsub, hi]
    congr 1
    rw [Nat.add_mul, Nat.one_mul]
    simp only [Nat.min_def]
    split_ifs <;> omega
  · intro hcov
    have hinv := prg_inv_fold input precoding (precoding.get_prg_size * NRE) m pb1 i_re0 hlen
      precoding.get_nof_prg
    have hv := (prg_views_spec input precoding (precoding.get_prg_size * NRE) m
      ⟨pb1, i_re0, 0, 0⟩ precoding.get_nof_prg).2.1
    have h1 := hinv.i_re
    rw [hv, hinv.i_subc, Nat.min_eq_right hcov, rank_length] at h1
    refine ⟨by simpa using h1, ?_⟩
    obtain ⟨st1, hst1, _⟩ := map_general_ok input precoding s m st hlen (by
      intro k hk
      rw [hP]
      have := test_lt_length hk
      omega)
    exact ⟨st1, hst1⟩
  · rintro ⟨k, hk, hkt⟩
    have hklt := test_lt_length hkt
    have hre := general_buffer_nof_re input precoding m st.grid.precoding_buffer st.i_re_buffer
    rw [hP] at hre
    have hinv := prg_inv_fold input precoding (precoding.get_prg_size * NRE) m
      (if count m ≠ st.grid.precoding_buffer.nof_re ∨
          precoding.get_nof_ports ≠ st.grid.precoding_buffer.nof_slices then
          st.grid.precoding_buffer.resize precoding.get_nof_ports (count m)
        else st.grid.precoding_buffer) st.i_re_buffer hlen precoding.get_nof_prg
    generalize hpb1 : (if count m ≠ st.grid.precoding_buffer.nof_re ∨
        precoding.get_nof_ports ≠ st.grid.precoding_buffer.nof_slices then
        st.grid.precoding_buffer.resize precoding.get_nof_ports (count m)
      else st.grid.precoding_buffer) = pb at hre hinv
    generalize hprg : (List.range precoding.get_nof_prg).foldl
      (map_prg input precoding (precoding.get_prg_size * NRE) m) ⟨pb, st.i_re_buffer, 0, 0⟩ = prg
      at hre hinv
    unfold map_general
    simp only [hP, hpb1, hprg]
    have hfill : prg.i_precoding_buffer ≠ prg.precoding_buffer.nof_re := by
      rw [hinv.i_pb, hinv.i_subc, hre, Nat.min_eq_left (by omega)]
      have h1 := rank_mono m hk
      have h2 := rank_lt_count hkt
      omega
    rw [if_pos hfill]
    exact ⟨_, rfl⟩

set_option maxRecDepth 8000 in
/-- C25 on a mask of 24 bits, all set: with two PRGs of one resource block the general path returns; with one PRG of one resource block the set bits from subcarrier 12 on are outside the PRG and the check on the fill fires. -/
theorem C25_prg_windows_witness :
    (truncated_mask 24 scenario.pattern24 [] 0).length < 2 ^ 32 ∧
    scenario.precoding_2prg.get_prg_size * NRE < 2 ^ 32 ∧
    (truncated_mask 24 scenario.pattern24 [] 0).length ≤
      scenario.precoding_2prg.get_nof_prg * (scenario.precoding_2prg.get_prg_size * NRE) ∧
    (∃ st1, map_general scenario.input2x24 scenario.precoding_2prg 0
      (truncated_mask 24 scenario.pattern24 [] 0) ⟨scenario.grid2x24, 0⟩ = .ok st1) ∧
    (∃ k, scenario.precoding_gain.get_nof_prg * (scenario.precoding_gain.get_prg_size * NRE) ≤ k ∧
      test (truncated_mask 24 scenario.pattern24 [] 0) k = true) ∧
    (∃ st1, map_general scenario.input12 scenario.precoding_gain 0
      (truncated_mask 24 scenario.pattern24 [] 0) ⟨scenario.grid2x24, 0⟩ =
        .error (.precoding_fill, st1)) :=
  have hk : ∃ k, scenario.precoding_gain.get_nof_prg *
      (scenario.precoding_gain.get_prg_size * NRE) ≤ k ∧
      test (truncated_mask 24 scenario.pattern24 [] 0) k = true := ⟨12, by decide, by decide⟩
  ⟨by decide, by decide, by decide,
    ((C25_prg_windows scenario.input2x24 scenario.precoding_2prg 0
      (truncated_mask 24 scenario.pattern24 [] 0) ⟨scenario.grid2x24, 0⟩
      scenario.grid2x24.precoding_buffer 0 (by decide) (by decide)).2.1 (by decide)).2,
    hk,
    (C25_prg_windows scenario.input12 scenario.precoding_gain 0
      (truncated_mask 24 scenario.pattern24 [] 0) ⟨scenario.grid2x24, 0⟩
      scenario.grid2x24.precoding_buffer 0 (by decide) (by decide)).2.2 hk⟩

end srsran

namespace srsran
open bounded_bitset resource_grid_impl

/-- A fold whose step keeps an observation of the state keeps it. -/
theorem foldl_preserve {σ β γ : Type} (f : σ → β → σ) (obs : σ → γ)
    (h : ∀ s b, obs (f s b) = obs s) (l : List β) (s : σ) : obs (l.foldl f s) = obs s := by
  induction l generalizing s with
  | nil => rfl
  | cons b l ih =>
    simp only [List.foldl_cons]
    rw [ih, h]

/-- The slice read back after a kernel stored as many values as the buffer has REs is those values. -/
theorem get_slice_write_slice {α : Type} [Zero α] (b : re_buffer α) (vals : List α)
    (h : vals.length = b.nof_re) : (b.write_slice 0 vals).get_slice 0 = vals := by
  apply List.ext_getElem?
  intro i
  unfold re_buffer.get_slice re_buffer.write_slice
  simp only [List.getElem?_map]
  by_cases hi : i < b.nof_re
  · rw [List.getElem?_range hi]
    have hiv : i < vals.length := by omega
    simp only [Option.map_some', true_and, hiv, if_true]
    rw [List.getD_eq_getElem?_getD, List.getElem?_eq_getElem hiv]
    rfl
  · have h1 : (List.range b.nof_re)[i]? = Option.none :=
      List.getElem?_eq_none (by simp; omega)
    have h2 : vals[i]? = Option.none := List.getElem?_eq_none (by omega)
    rw [h1, h2]
    rfl

namespace resource_grid_impl

variable {α : Type} [CommSemiring α] [DecidableEq α]

omit [DecidableEq α] in
theorem layer_map_dims (L R : Nat) (block : List α) (lmb : re_buffer α) :
    (layer_map L R block lmb).nof_re = lmb.nof_re ∧
      (layer_map L R block lmb).nof_slices = lmb.nof_slices := by
  unfold layer_map
  have inner_re : ∀ (i_layer : Nat) (b : re_buffer α),
      ((List.range R).foldl
        (fun b1 i_re => b1.set i_layer i_re (block.getD (i_re * L + i_layer) 0)) b).nof_re =
        b.nof_re :=
    fun i_layer b => foldl_preserve
      (fun (b1 : re_buffer α) i_re => b1.set i_layer i_re (block.getD (i_re * L + i_layer) 0))
      (fun b : re_buffer α => b.nof_re) (fun _ _ => rfl) _ b
  have inner_sl : ∀ (i_layer : Nat) (b : re_buffer α),
      ((List.range R).foldl
        (fun b1 i_re => b1.set i_layer i_re (block.getD (i_re * L + i_layer) 0)) b).nof_slices =
        b.nof_slices :=
    fun i_layer b => foldl_preserve
      (fun (b1 : re_buffer α) i_re => b1.set i_layer i_re (block.getD (i_re * L + i_layer) 0))
      (fun b : re_buffer α => b.nof_slices) (fun _ _ => rfl) _ b
  constructor
  · exact foldl_preserve
      (fun (b : re_buffer α) i_layer => (List.range R).foldl
        (fun b1 i_re => b1.set i_layer i_re (block.getD (i_re * L + i_layer) 0)) b)
      (fun b : re_buffer α => b.nof_re) (fun b i => inner_re i b) _ lmb
  · exact foldl_preserve
      (fun (b : re_buffer α) i_layer => (List.range R).foldl
        (fun b1 i_re => b1.set i_layer i_re (block.getD (i_re * L + i_layer) 0)) b)
      (fun b : re_buffer α => b.nof_slices) (fun b i => inner_sl i b) _ lmb

omit [DecidableEq α] in
/-- With one layer, the precoding kernel for a port on the layer-mapped block is the scalar product of the block with coefficient 0 of the port. -/
theorem apply_precoding_port_one_layer (block : List α) (lmb : re_buffer α) (coefs : List α) :
    channel_precoder.apply_precoding_port
      (layer_map 1 block.length block (lmb.resize 1 block.length)) coefs =
        sc_prod block (coefs.getD 0 0) := by
  have hd := layer_map_dims 1 block.length block (lmb.resize 1 block.length)
  apply List.ext_getElem?
  intro i
  unfold channel_precoder.apply_precoding_port sc_prod
  rw [hd.1, hd.2]
  show ((List.range block.length).map _)[i]? = _
  simp only [List.getElem?_map]
  by_cases hi : i < block.length
  · rw [List.getElem?_range hi, List.getElem?_eq_getElem hi]
    simp only [Option.map_some', Option.some.injEq]
    show ((List.range 1).map _).sum = _
    simp only [List.range_succ, List.range_zero, List.nil_append, List.map_cons, List.map_nil,
      List.sum_cons, List.sum_nil, add_zero]
    rw [layer_map_data, if_pos ⟨by decide, hi⟩, Nat.mul_one, Nat.add_zero,
      List.getD_eq_getElem?_getD block i, List.getElem?_eq_getElem hi, mul_comm]
    rfl
  · have h1 : (List.range block.length)[i]? = Option.none :=
      List.getElem?_eq_none (by simp; omega)
    have h2 : block[i]? = Option.none := List.getElem?_eq_none (by omega)
    rw [h1, h2]
    rfl

end resource_grid_impl

/-- C23 (single-layer shortcut of the streamed map). With one layer and one precoding port, a block whose pull succeeds returns after a single `put`, on port 0, at the subcarrier offset and block mask it is given, of the popped symbols each multiplied by coefficient 0 of port 0 of the weight matrix of the PRG; the multi-layer path (layer map with one layer, then the precoding kernel for port 0) on the same block issues the same `put` and leaves the same cells, empty flags, precoding buffer and symbol source. A block whose pull fails stops the same way on both paths. -/
theorem C23_single_layer_shortcut {α : Type} [CommSemiring α] [DecidableEq α]
    (w : precoding_weight_matrix α) (s k : Nat) (m : List Bool) (st : stream_state α) :
    (count m ≤ st.buffer.symbols.length →
      ∃ st1 st2, map_block w 1 1 s k m st = .ok st1 ∧
        map_block_general w 1 1 s k m st = .ok st2 ∧
        st1.grid.put_log = st.grid.put_log ++
          [⟨0, s, k, m, (st.buffer.symbols.take (count m)).map
            (fun v => v * (w.get_port_coefficients 0).getD 0 0)⟩] ∧
        st1.buffer.symbols = st.buffer.symbols.drop (count m) ∧
        st2.grid.put_log = st1.grid.put_log ∧
        (∀ p l j, st2.grid.rg_buffer p l j = st1.grid.rg_buffer p l j) ∧
        (∀ p, st2.grid.empty p = st1.grid.empty p) ∧
        st2.grid.precoding_buffer = st1.grid.precoding_buffer ∧
        st2.buffer = st1.buffer) ∧
    (¬ count m ≤ st.buffer.symbols.length →
      map_block w 1 1 s k m st = map_block_general w 1 1 s k m st ∧
      ∃ st1, map_block w 1 1 s k m st = .error (.pop_symbols, st1)) := by
  constructor
  · intro hpop
    have hpop1 : count m * 1 ≤ st.buffer.symbols.length := by omega
    have h1 : (st.buffer.pop_symbols (count m * 1)).1 =
        some (st.buffer.symbols.take (count m * 1)) := by
      simp [symbol_buffer.pop_symbols, hpop]
    have h2 : (st.buffer.pop_symbols (count m * 1)).2.symbols =
        st.buffer.symbols.drop (count m) := by
      simp [symbol_buffer.pop_symbols, hpop]
    have hlen : (st.buffer.symbols.take (count m * 1)).length = count m := by
      rw [List.length_take]
      omega
    have hvals : channel_precoder.apply_precoding_port
        (layer_map 1 (count m) (st.buffer.symbols.take (count m * 1))
          (st.grid.layer_mapping_buffer.resize 1 (count m))) (w.get_port_coefficients 0) =
        sc_prod (st.buffer.symbols.take (count m * 1))
          ((w.get_port_coefficients 0).getD 0 0) := by
      have := apply_precoding_port_one_layer (st.buffer.symbols.take (count m * 1))
        st.grid.layer_mapping_buffer (w.get_port_coefficients 0)
      rw [hlen] at this
      exact this
    have hsl : ((st.grid.precoding_buffer.resize 1 (count m)).write_slice 0
        (sc_prod (st.buffer.symbols.take (count m * 1))
          ((w.get_port_coefficients 0).getD 0 0))).get_slice 0 =
        (st.buffer.symbols.take (count m)).map
          (fun v => v * (w.get_port_coefficients 0).getD 0 0) := by
      rw [get_slice_write_slice _ _ (by
        show (sc_prod _ _).length = count m
        unfold sc_prod
        rw [List.length_map, hlen])]
      rw [Nat.mul_one]
      rfl
    have e1 : map_block w 1 1 s k m st = .ok
        ⟨(put { st.grid with
            precoding_buffer := (st.grid.precoding_buffer.resize 1 (count m)).write_slice 0
              (sc_prod (st.buffer.symbols.take (count m * 1))
                ((w.get_port_coefficients 0).getD 0 0)) } 0 s k m
          (((st.grid.precoding_buffer.resize 1 (count m)).write_slice 0
            (sc_prod (st.buffer.symbols.take (count m * 1))
              ((w.get_port_coefficients 0).getD 0 0))).get_slice 0)).1,
          (st.buffer.pop_symbols (count m * 1)).2⟩ := by
      unfold map_block
      simp only [h1, and_self, if_true]
    have e2 : map_block_general w 1 1 s k m st = .ok
        ⟨stream_port w s k m
          { st.grid with
            layer_mapping_buffer := layer_map 1 (count m) (st.buffer.symbols.take (count m * 1))
              (st.grid.layer_mapping_buffer.resize 1 (count m))
            precoding_buffer := st.grid.precoding_buffer.resize 1 (count m) } 0,
          (st.buffer.pop_symbols (count m * 1)).2⟩ := by
      unfold map_block_general
      simp only [h1, List.range_succ, List.range_zero, List.nil_append, List.foldl_cons,
        List.foldl_nil]
    refine ⟨_, _, e1, e2, ?_, h2, ?_, ?_, ?_, ?_, rfl⟩
    · show (put _ 0 s k m _).1.put_log = _
      rw [put_put_log, hsl]
    · show (stream_port w s k m _ 0).put_log = (put _ 0 s k m _).1.put_log
      unfold stream_port
      simp only [hvals]
      rfl
    · intro p l j
      show (stream_port w s k m _ 0).rg_buffer p l j = (put _ 0 s k m _).1.rg_buffer p l j
      unfold stream_port
      simp only [hvals]
      rfl
    · intro p
      show (stream_port w s k m _ 0).empty p = (put _ 0 s k m _).1.empty p
      unfold stream_port
      simp only [hvals]
      rfl
    · show (stream_port w s k m _ 0).precoding_buffer = (put _ 0 s k m _).1.precoding_buffer
      unfold stream_port
      simp only [hvals]
      rfl
  · intro hpop
    have hpop1 : ¬ count m * 1 ≤ st.buffer.symbols.length := by omega
    have h1 : (st.buffer.pop_symbols (count m * 1)).1 = Option.none := by
      simp [symbol_buffer.pop_symbols, hpop]
    constructor
    · unfold map_block map_block_general
      simp only [h1]
    · exact ⟨_, map_block_pop_fails w 1 1 s k m st hpop1⟩

/-- C23 on a one-port grid with coefficient 2: the block of the four selected subcarriers pops 1, 2, 3, 4 and both paths put 2, 4, 6, 8 on port 0. -/
theorem C23_single_layer_shortcut_witness :
    count [true, true, true, true] ≤ scenario.stream4.symbols.length ∧
    ∃ st1 st2,
      map_block (scenario.precoding_gain.get_prg_coefficients 0) 1 1 0 0
        [true, true, true, true] ⟨scenario.grid, scenario.stream4⟩ = .ok st1 ∧
      map_block_general (scenario.precoding_gain.get_prg_coefficients 0) 1 1 0 0
        [true, true, true, true] ⟨scenario.grid, scenario.stream4⟩ = .ok st2 ∧
      st1.grid.put_log = scenario.grid.put_log ++
        [⟨0, 0, 0, [true, true, true, true], [2, 4, 6, 8]⟩] ∧
      st2.grid.put_log = st1.grid.put_log :=
  have h := (C23_single_layer_shortcut (scenario.precoding_gain.get_prg_coefficients 0) 0 0
    [true, true, true, true] ⟨scenario.grid, scenario.stream4⟩).1 (by decide)
  ⟨by decide, h.choose, h.choose_spec.choose, h.choose_spec.choose_spec.1,
    h.choose_spec.choose_spec.2.1, h.choose_spec.choose_spec.2.2.1,
    h.choose_spec.choose_spec.2.2.2.2.1⟩

end srsran

namespace srsran
open bounded_bitset resource_grid_impl

/-- A mask whose bits are all set has as many set bits as bits. -/
theorem count_eq_length_of_all (m : List Bool) (h : ∀ j, j < m.length → test m j = true) :
    count m = m.length := by
  induction m with
  | nil => rfl
  | cons b m ih =>
    have h0 := h 0 (by simp)
    rw [test_cons_zero] at h0
    subst h0
    rw [count_cons, List.length_cons, ih (fun j hj => by
      have := h (j + 1) (by simpa using hj)
      rw [test_cons_succ] at this
      exact this)]
    simp
    omega

/-- C21, as stated, fails for a mask with unselected subcarriers between the selected ones: with a maximum pull size of 4 and two layers, so at most 2 subcarriers per block, and the subcarriers 0 and 2 of symbol 0 selected, the PRG has 2 selected REs and `min(2, 4 / 2)` is 2 REs, that is one pull of 4 symbols; the streamed `map` returns after two pulls of 2 symbols, one RE per block. -/
theorem C21_sparse_block_counterexample :
    (match map_stream 1 12 scenario.grid2 scenario.stream4 scenario.pattern4
        scenario.reserved_odd scenario.precoding_identity with
      | .ok _ => true
      | .error _ => false) = true ∧
    (map_stream 1 12 scenario.grid2 scenario.stream4 scenario.pattern4 scenario.reserved_odd
      scenario.precoding_identity).state.buffer.pop_log = [2, 2] ∧
    count (selection_mask (1 * NRE) scenario.pattern4 scenario.reserved_odd 0) = 2 ∧
    min (count (selection_mask (1 * NRE) scenario.pattern4 scenario.reserved_odd 0))
        (scenario.stream4.get_max_block_size / scenario.precoding_identity.get_nof_layers) *
      scenario.precoding_identity.get_nof_layers = 4 := by
  refine ⟨by decide, by decide, by decide, by decide⟩

/-- C21 amended (block size of the streamed map). An iteration of the block loop entered at offset `off` below the subcarrier count `nsp` of the PRG takes the block of the next `min(nsp - off, max_pull / nof_layers)` subcarriers of the PRG mask, pulls `nof_layers` symbols per set bit of that block, and goes on from the offset advanced by that many subcarriers. The number of REs of the block is at most `min(R, max_pull / nof_layers)`, `R` being the number of selected REs of the PRG from `off` on, and equals it when every subcarrier of the block is selected. -/
theorem C21_block_size {α : Type} [CommSemiring α] [DecidableEq α]
    (w : precoding_weight_matrix α) (mx L A s i_subc : Nat) (m : List Bool)
    (nsp fuel off : Nat) (st : stream_state α) (hnsp : nsp < 2 ^ 32) (hoff : off < nsp) :
    map_blocks w mx L A s i_subc m nsp (fuel + 1) off st =
      (match map_block w L A s (i_subc + off)
          (slice m off (off + min (nsp - off) (mx / L))) st with
        | .error e => .error e
        | .ok st1 =>
          map_blocks w mx L A s i_subc m nsp fuel (off + min (nsp - off) (mx / L)) st1) ∧
    (map_block w L A s (i_subc + off)
        (slice m off (off + min (nsp - off) (mx / L))) st).state.buffer.pop_log =
      st.buffer.pop_log ++ [count (slice m off (off + min (nsp - off) (mx / L))) * L] ∧
    count (slice m off (off + min (nsp - off) (mx / L))) ≤
      min (count (m.drop off)) (mx / L) ∧
    ((∀ j, j < min (nsp - off) (mx / L) → test m (off + j) = true) → m.length ≤ nsp →
      count (slice m off (off + min (nsp - off) (mx / L))) =
        min (count (m.drop off)) (mx / L)) := by
  have hsub : u32_sub nsp off = nsp - off := u32_sub_of_le (Nat.le_of_lt hoff) hnsp
  have hlen := length_slice m off (off + min (nsp - off) (mx / L))
  rw [Nat.add_sub_cancel_left] at hlen
  have hcl := count_le_length (slice m off (off + min (nsp - off) (mx / L)))
  have hcd : count (slice m off (off + min (nsp - off) (mx / L))) ≤ count (m.drop off) := by
    have := rank_le_count (m.drop off) (off + min (nsp - off) (mx / L) - off)
    exact this
  have hdl : count (m.drop off) ≤ m.length - off := by
    have := count_le_length (m.drop off)
    rw [List.length_drop] at this
    exact this
  refine ⟨?_, map_block_pop_log _ _ _ _ _ _ _, ?_, ?_⟩
  · rw [map_blocks]
    simp only [if_neg (show ¬ off = nsp by omega), hsub,
      if_neg (show ¬ nsp - off = 0 by omega)]
    all_goals
      cases map_block w L A s (i_subc + off) (slice m off (off + min (nsp - off) (mx / L))) st
        <;> rfl
  · have h1 := Nat.min_le_left (min (nsp - off) (mx / L)) (m.length - off)
    have h2 := Nat.min_le_right (nsp - off) (mx / L)
    exact Nat.le_min.mpr ⟨hcd, by omega⟩
  · intro hall hml
    have hin : ∀ j, j < min (nsp - off) (mx / L) → off + j < m.length :=
      fun j hj => test_lt_length (hall j hj)
    have hlen2 : (slice m off (off + min (nsp - off) (mx / L))).length =
        min (nsp - off) (mx / L) := by
      rw [hlen]
      apply Nat.min_eq_left
      rcases Nat.eq_zero_or_pos (min (nsp - off) (mx / L)) with h0 | hpos
      · omega
      · have := hin (min (nsp - off) (mx / L) - 1) (by omega)
        omega
    have hcnt : count (slice m off (off + min (nsp - off) (mx / L))) =
        min (nsp - off) (mx / L) := by
      rw [count_eq_length_of_all _ (fun j hj => by
        rw [test_slice, Nat.add_sub_cancel_left]
        rw [hlen2] at hj
        simp [hj, hall j hj]), hlen2]
    rw [hcnt]
    rw [hcnt] at hcd
    simp only [Nat.min_def] at hcd ⊢
    split_ifs at hcd ⊢ <;> omega

/-- C21 amended at the witness of the claim: with a maximum pull size of 4 and two layers, the PRG of the four selected subcarriers 0..3 is mapped in two pulls of 4 symbols, and the first block has `min(4, 4 / 2) = 2` REs. -/
theorem C21_block_size_witness :
    (4 : Nat) < 2 ^ 32 ∧ (0 : Nat) < 4 ∧
    (map_stream 1 12 scenario.grid2 scenario.stream8 scenario.pattern4 []
      scenario.precoding_identity).state.buffer.pop_log = [4, 4] ∧
    count (slice [true, true, true, true] 0 (0 + min (4 - 0) (4 / 2))) =
      min (count ([true, true, true, true].drop 0)) (4 / 2) :=
  ⟨by decide, by decide, by decide,
    (C21_block_size (scenario.precoding_identity.get_prg_coefficients 0) 4 2 2 0 0
      [true, true, true, true] 4 3 0 ⟨scenario.grid2, scenario.stream8⟩ (by decide)
      (by decide)).2.2.2 (by decide) (by decide)⟩

end srsran

namespace srsran

namespace du_ue_bearer_manager

/-- The element the iterator of `allocate_lcid` ends on, after the step back from the end when no gap was found, is the last value of the run of consecutive values at the head of the list. -/
theorem getD_adjacent_find (a : Nat) (rest : List Nat) :
    adjacent_find (fun l r => decide (l + 1 < r)) (a :: rest) ≤ (a :: rest).length ∧
    (a :: rest).getD
      (if adjacent_find (fun l r => decide (l + 1 < r)) (a :: rest) = (a :: rest).length then
        adjacent_find (fun l r => decide (l + 1 < r)) (a :: rest) - 1
      else adjacent_find (fun l r => decide (l + 1 < r)) (a :: rest)) 0 = run_end a rest := by
  induction rest generalizing a with
  | nil => simp [adjacent_find, run_end]
  | cons b r ih =>
    obtain ⟨h1, h2⟩ := ih b
    by_cases hab : a + 1 < b
    · simp [adjacent_find, run_end, hab]
    · simp only [adjacent_find, run_end, hab, decide_False, Bool.false_eq_true, if_false,
        List.length_cons] at h1 h2 ⊢
      refine ⟨by omega, ?_⟩
      by_cases he : adjacent_find (fun l r => decide (l + 1 < r)) (b :: r) = r.length + 1
      · rw [if_pos he] at h2
        rw [if_pos (by omega)]
        have : adjacent_find (fun l r => decide (l + 1 < r)) (b :: r) + 1 - 1 =
            (adjacent_find (fun l r => decide (l + 1 < r)) (b :: r) - 1) + 1 := by omega
        rw [this, List.getD_cons_succ]
        exact h2
      · rw [if_neg he] at h2
        rw [if_neg (by omega), List.getD_cons_succ]
        exact h2

/-- In an ascending list, every value from the head to the end of the head run is in the list, the value after the end of the run is not, and the end of the run is in the list. -/
theorem run_end_spec (a : Nat) (rest : List Nat) (hs : List.Sorted (fun x y => x ≤ y) (a :: rest)) :
    a ≤ run_end a rest ∧ run_end a rest ∈ a :: rest ∧
    (∀ x, a ≤ x → x ≤ run_end a rest → x ∈ a :: rest) ∧
    run_end a rest + 1 ∉ a :: rest := by
  induction rest generalizing a with
  | nil =>
    refine ⟨Nat.le_refl _, List.mem_cons_self _ _, ?_, ?_⟩
    · intro x h1 h2
      have hx : x = a := Nat.le_antisymm h2 h1
      rw [hx]
      exact List.mem_cons_self _ _
    · intro hmem
      have hx := List.mem_singleton.mp hmem
      have hr : run_end a [] = a := rfl
      omega
  | cons b r ih =>
    have hs1 := List.sorted_cons.mp hs
    have hab : a ≤ b := hs1.1 b (List.mem_cons_self _ _)
    obtain ⟨i1, i2, i3, i4⟩ := ih b hs1.2
    by_cases hgap : a + 1 < b
    · simp only [run_end, hgap, if_true]
      refine ⟨Nat.le_refl _, List.mem_cons_self _ _, ?_, ?_⟩
      · intro x h1 h2
        have : x = a := by omega
        rw [this]
        exact List.mem_cons_self _ _
      · intro hmem
        rcases List.mem_cons.mp hmem with h | h
        · omega
        · have := hs1.2
          have hb := List.sorted_cons.mp this
          rcases List.mem_cons.mp h with h | h
          · omega
          · have := hb.1 _ h
            omega
    · simp only [run_end, hgap, if_false]
      refine ⟨by omega, List.mem_cons_of_mem _ i2, ?_, ?_⟩
      · intro x h1 h2
        by_cases hx : x = a
        · rw [hx]
          exact List.mem_cons_self _ _
        · exact List.mem_cons_of_mem _ (i3 x (by omega) h2)
      · intro hmem
        rcases List.mem_cons.mp hmem with h | h
        · omega
        · exact i4 h

end du_ue_bearer_manager

open du_ue_bearer_manager

/-- C29 (the smallest free DRB LCID). With `LCID_MIN_DRB ≤ LCID_MAX_DRB`, `LCID_MAX_DRB + 1` representable as an LCID, and every DRB on an LCID of the range, possibly shared: an LCID returned by `allocate_lcid` is in the range, is used by no DRB, and every LCID of the range below it is used; and `allocate_lcid` returns nothing exactly when every LCID of the range is used. -/
theorem C29_allocate_lcid (LCID_MIN_DRB LCID_MAX_DRB : Nat) (drb_lcids : List Nat)
    (hmm : LCID_MIN_DRB ≤ LCID_MAX_DRB) (hmax : LCID_MAX_DRB + 1 < 2 ^ 16)
    (hrange : ∀ l, l ∈ drb_lcids → LCID_MIN_DRB ≤ l ∧ l ≤ LCID_MAX_DRB) :
    (∀ l, allocate_lcid LCID_MIN_DRB LCID_MAX_DRB drb_lcids = some l →
      LCID_MIN_DRB ≤ l ∧ l ≤ LCID_MAX_DRB ∧ l ∉ drb_lcids ∧
        ∀ x, LCID_MIN_DRB ≤ x → x < l → x ∈ drb_lcids) ∧
    (allocate_lcid LCID_MIN_DRB LCID_MAX_DRB drb_lcids = none ↔
      ∀ x, LCID_MIN_DRB ≤ x → x ≤ LCID_MAX_DRB → x ∈ drb_lcids) := by
  have hperm := List.perm_insertionSort (fun a b : Nat => a ≤ b) drb_lcids
  have hsorted := List.sorted_insertionSort (fun a b : Nat => a ≤ b) drb_lcids
  have hmem : ∀ x, x ∈ List.insertionSort (fun a b : Nat => a ≤ b) drb_lcids ↔ x ∈ drb_lcids :=
    fun x => hperm.mem_iff
  have key : (∀ l, allocate_lcid LCID_MIN_DRB LCID_MAX_DRB drb_lcids = some l →
      LCID_MIN_DRB ≤ l ∧ l ≤ LCID_MAX_DRB ∧ l ∉ drb_lcids ∧
        ∀ x, LCID_MIN_DRB ≤ x → x < l → x ∈ drb_lcids) ∧
      (allocate_lcid LCID_MIN_DRB LCID_MAX_DRB drb_lcids = none →
        ∀ x, LCID_MIN_DRB ≤ x → x ≤ LCID_MAX_DRB → x ∈ drb_lcids) := by
    unfold allocate_lcid
    simp only
    generalize List.insertionSort (fun a b : Nat => a ≤ b) drb_lcids = u at hsorted hmem
    cases u with
    | nil =>
      simp only [List.isEmpty_nil, true_or, if_true]
      refine ⟨?_, fun h => Option.noConfusion h⟩
      intro l hl
      simp only [Option.some.injEq] at hl
      subst hl
      refine ⟨Nat.le_refl _, hmm, ?_, fun x h1 h2 => by omega⟩
      intro hc
      have := (hmem _).mpr hc
      simp at this
    | cons a rest =>
      have ha := hrange a ((hmem a).mp (List.mem_cons_self _ _))
      obtain ⟨r1, r2, r3, r4⟩ := run_end_spec a rest hsorted
      have hv := hrange _ ((hmem _).mp r2)
      simp only [List.isEmpty_cons, Bool.false_eq_true, false_or, List.getD_cons_zero]
      by_cases hgt : a > LCID_MIN_DRB
      · rw [if_pos hgt]
        refine ⟨?_, fun h => Option.noConfusion h⟩
        intro l hl
        simp only [Option.some.injEq] at hl
        subst hl
        refine ⟨Nat.le_refl _, hmm, ?_, fun x h1 h2 => by omega⟩
        intro hc
        have hin := (hmem _).mpr hc
        rcases List.mem_cons.mp hin with h | h
        · omega
        · have := (List.sorted_cons.mp hsorted).1 _ h
          omega
      · rw [if_neg hgt, (getD_adjacent_find a rest).2]
        have hlc : uint_to_lcid (u32 (run_end a rest + 1)) = run_end a rest + 1 := by
          unfold uint_to_lcid
          rw [u32_of_lt (by omega), Nat.mod_eq_of_lt (by omega)]
        rw [hlc]
        by_cases hover : run_end a rest + 1 > LCID_MAX_DRB
        · rw [if_pos hover]
          refine ⟨fun l hl => Option.noConfusion hl, ?_⟩
          intro _ x h1 h2
          exact (hmem x).mp (r3 x (by omega) (by omega))
        · rw [if_neg hover]
          refine ⟨?_, fun h => Option.noConfusion h⟩
          intro l hl
          simp only [Option.some.injEq] at hl
          subst hl
          refine ⟨by omega, by omega, fun hc => r4 ((hmem _).mpr hc), ?_⟩
          intro x h1 h2
          exact (hmem x).mp (r3 x (by omega) (by omega))
  refine ⟨key.1, key.2, ?_⟩
  intro hall
  cases hres : allocate_lcid LCID_MIN_DRB LCID_MAX_DRB drb_lcids with
  | none => rfl
  | some l =>
    obtain ⟨h1, h2, h3, _⟩ := key.1 l hres
    exact absurd (hall l h1 h2) h3

/-- C29 with the range 4..32: DRBs on the LCIDs 5, 4, 7 and 4 get 6, the smallest free LCID. -/
theorem C29_allocate_lcid_witness :
    (4 : Nat) ≤ 32 ∧ 32 + 1 < 2 ^ 16 ∧
    (∀ l, l ∈ [5, 4, 7, 4] → 4 ≤ l ∧ l ≤ 32) ∧
    allocate_lcid 4 32 [5, 4, 7, 4] = some 6 ∧
    (∀ l, allocate_lcid 4 32 [5, 4, 7, 4] = some l →
      4 ≤ l ∧ l ≤ 32 ∧ l ∉ [5, 4, 7, 4] ∧ ∀ x, 4 ≤ x → x < l → x ∈ [5, 4, 7, 4]) :=
  ⟨by decide, by decide, by decide, by decide,
    (C29_allocate_lcid 4 32 [5, 4, 7, 4] (by decide) (by decide) (by decide)).1⟩

/-- C28: what the conversion of the SSB MTC does. When the first of `sf5`, `sf10`, `sf20`, `sf40`, `sf80`, `sf160` that holds a value is not `sf80`, the choice of the output is set to the same-named alternative and carries the value; when none holds a value the error is logged and no alternative is selected. When it is `sf80`, the code selects the alternative `sf10` and then stores the value through the accessor of `sf80`: at the input whose only periodicity is `sf80 = 7` the output has the alternative `sf10` selected, with the value 7 stored by an access that does not match the alternative. -/
theorem C28_ssb_mtc_sf80_selects_sf10 :
    (ssb_mtc_to_rrc_asn1 scenario.ssb_mtc_sf80).periodicity_and_offset =
      ⟨.sf10, 7, true⟩ ∧
    (ssb_mtc_to_rrc_asn1 scenario.ssb_mtc_sf80).errors = [] ∧
    (∀ ssb_mtc t v, first_periodicity ssb_mtc.periodicity_and_offset = some (t, v) →
      t ≠ .sf80 →
      (ssb_mtc_to_rrc_asn1 ssb_mtc).periodicity_and_offset = ⟨t, v, false⟩ ∧
        (ssb_mtc_to_rrc_asn1 ssb_mtc).errors = []) ∧
    (∀ ssb_mtc v, first_periodicity ssb_mtc.periodicity_and_offset = some (.sf80, v) →
      (ssb_mtc_to_rrc_asn1 ssb_mtc).periodicity_and_offset = ⟨.sf10, v, true⟩) ∧
    (∀ ssb_mtc, first_periodicity ssb_mtc.periodicity_and_offset = none →
      (ssb_mtc_to_rrc_asn1 ssb_mtc).periodicity_and_offset.type_ = .nulltype ∧
        (ssb_mtc_to_rrc_asn1 ssb_mtc).errors = ["Invalid SSB MTC configuration."]) := by
  refine ⟨by decide, by decide, ?_, ?_, ?_⟩
  · rintro ⟨⟨a, b, c, d, e, f⟩, dur⟩ t v h ht
    cases a <;> cases b <;> cases c <;> cases d <;> cases e <;> cases f <;>
      simp [first_periodicity] at h <;>
      obtain ⟨rfl, rfl⟩ := h <;>
      first
        | exact absurd rfl ht
        | simp [ssb_mtc_to_rrc_asn1, periodicity_and_offset_c.set,
            periodicity_and_offset_c.assign]
  · rintro ⟨⟨a, b, c, d, e, f⟩, dur⟩ v h
    cases a <;> cases b <;> cases c <;> cases d <;> cases e <;> cases f <;>
      simp [first_periodicity] at h <;>
      subst h <;>
      simp [ssb_mtc_to_rrc_asn1, periodicity_and_offset_c.set,
        periodicity_and_offset_c.assign]
  · rintro ⟨⟨a, b, c, d, e, f⟩, dur⟩ h
    cases a <;> cases b <;> cases c <;> cases d <;> cases e <;> cases f <;>
      simp [first_periodicity] at h
    simp [ssb_mtc_to_rrc_asn1]

/-- C30: what the conversion of the measurement gaps does. For a gap sharing for FR2 that is not a release and has no setup, the section calls `value()` on the empty setup and the conversion stops there: nothing is logged and nothing is returned. For a gap for FR2 in the same situation the section logs `Invalid gap fr2.` and returns. -/
theorem C30_gap_sharing_reads_absent_setup :
    meas_gaps_to_rrc_asn1 scenario.gaps_sharing_no_setup scenario.gaps_asn1_init =
      .error .bad_optional_access ∧
    meas_gaps_to_rrc_asn1 scenario.gaps_fr2_no_setup scenario.gaps_asn1_init =
      .ok ⟨true, true, .nulltype, false, false, .nulltype, ["Invalid gap fr2."]⟩ ∧
    (∀ meas_cfg a, meas_cfg.meas_gap_sharing_cfg = some (some ⟨false, Option.none⟩) →
      meas_gap_sharing_cfg_to_rrc_asn1 meas_cfg a = .error .bad_optional_access) ∧
    (∀ meas_cfg a, meas_cfg.meas_gap_cfg = some (some ⟨false, Option.none⟩) →
      meas_gap_cfg_to_rrc_asn1 meas_cfg a =
        .ok { a with meas_gap_cfg_present := true, gap_fr2_present := true,
                     errors := a.errors ++ ["Invalid gap fr2."] }) := by
  refine ⟨rfl, rfl, ?_, ?_⟩
  · intro meas_cfg a h
    unfold meas_gap_sharing_cfg_to_rrc_asn1
    rw [h]
    rfl
  · intro meas_cfg a h
    unfold meas_gap_cfg_to_rrc_asn1
    rw [h]
    rfl

end srsran

namespace srsran
open bounded_bitset resource_grid_impl

/-- A loop whose body returns at every index under the invariant returns, with the invariant at the end. -/
theorem for_loop_range_total {σ : Type} (body : σ → Nat → outcome σ) (I : Nat → σ → Prop)
    (n : Nat) (hstep : ∀ i s, i < n → I i s → ∃ s1, body s i = .ok s1 ∧ I (i + 1) s1)
    (s0 : σ) (h0 : I 0 s0) :
    ∃ s1, for_loop body (List.range n) s0 = .ok s1 ∧ I n s1 := by
  induction n with
  | zero => exact ⟨s0, rfl, h0⟩
  | succ n ih =>
    obtain ⟨s1, h1, h2⟩ := ih (fun i s hi hI => hstep i s (by omega) hI)
    obtain ⟨s2, h3, h4⟩ := hstep n s1 (by omega) h2
    exact ⟨s2, by rw [for_loop_range_succ body n s0 s1 h1]; exact h3, h4⟩

/-- The bits below the lowest set bit are unset. -/
theorem test_lt_find_lowest (m : List Bool) (k : Nat) (h : k < (find_lowest m).toNat) :
    test m k = false := by
  induction m generalizing k with
  | nil => exact test_nil k
  | cons b m ih =>
    cases b with
    | true => simp [find_lowest] at h
    | false =>
      cases k with
      | zero => exact test_cons_zero _ _
      | succ k =>
        rw [test_cons_succ]
        apply ih
        simp only [find_lowest] at h
        split at h <;> omega

/-- The number of set bits below `a + n` is the number below `a` plus the number of set bits of the window `a .. a + n - 1`. -/
theorem rank_add_window (sel bm : List Bool) (a n : Nat)
    (h : ∀ j, test bm j = (decide (j < n) && test sel (a + j))) :
    rank sel (a + n) = rank sel a + count bm := by
  unfold rank
  rw [count_take_add]
  congr 1
  apply count_eq_of_test_eq
  intro k
  rw [test_slice, h, Nat.add_sub_cancel_left]

/-- Moving over unset bits does not change the rank. -/
theorem rank_eq_of_unset (sel : List Bool) (a b : Nat) (hab : a ≤ b)
    (hz : ∀ k, a ≤ k → k < b → test sel k = false) : rank sel b = rank sel a := by
  have h := rank_add_window sel [] a (b - a) (fun j => by
    rw [test_nil]
    by_cases hj : j < b - a
    · simp [hj, hz (a + j) (by omega) (by omega)]
    · simp [hj])
  have e : a + (b - a) = b := by omega
  rw [e] at h
  rw [h]
  rfl

/-- The rank at a position from which no bit is set is the number of set bits. -/
theorem rank_eq_count_of_unset (sel : List Bool) (a : Nat)
    (hz : ∀ k, a ≤ k → test sel k = false) : rank sel a = count sel := by
  have h := rank_eq_of_unset sel a (max a sel.length) (Nat.le_max_left _ _)
    (fun k hk _ => hz k hk)
  rw [← h]
  exact count_take_of_le (Nat.le_max_right _ _)

theorem total_selected_mono (size : Nat) (pattern reserved : re_pattern_list) {a b : Nat}
    (h : a ≤ b) : total_selected size pattern reserved a ≤ total_selected size pattern reserved b := by
  induction b with
  | zero =>
    have : a = 0 := by omega
    rw [this]
  | succ b ih =>
    by_cases hab : a = b + 1
    · rw [hab]
    · have := ih (by omega)
      simp only [total_selected]
      omega

theorem selected_before_le (size : Nat) (pattern reserved : re_pattern_list) (s k n : Nat)
    (h : s < n) :
    selected_before size pattern reserved s k ≤ total_selected size pattern reserved n := by
  have h1 := total_selected_mono size pattern reserved (Nat.succ_le_of_lt h)
  have h2 := rank_le_count (selection_mask size pattern reserved s) k
  simp only [total_selected] at h1
  unfold selected_before
  omega

/-- The state of the streamed map at one position is its state at any other position with the same selected REs before it. -/
theorem stream_inv_move {α : Type} (L size : Nat) (pattern reserved : re_pattern_list)
    (g0 : resource_grid_impl α) (b0 : symbol_buffer α) (s a s1 b : Nat) (st : stream_state α)
    (h : stream_inv L size pattern reserved g0 b0 s a st)
    (hsb : selected_before size pattern reserved s1 b =
      selected_before size pattern reserved s a)
    (hcells : ∀ l k, test (selection_mask size pattern reserved l) k = true →
      ((l < s ∨ (l = s ∧ k < a)) ↔ (l < s1 ∨ (l = s1 ∧ k < b)))) :
    stream_inv L size pattern reserved g0 b0 s1 b st := by
  obtain ⟨hp, hs, hq⟩ := h
  refine ⟨?_, ?_, ?_⟩
  · rw [hsb]; exact hp
  · rw [hsb]; exact hs
  · obtain ⟨added, e, hc⟩ := hq
    refine ⟨added, e, fun c => ?_⟩
    rw [hc c]
    constructor
    · rintro ⟨h1, h2, h3⟩
      exact ⟨h1, h2, (hcells _ _ h2).mp h3⟩
    · rintro ⟨h1, h2, h3⟩
      exact ⟨h1, h2, (hcells _ _ h2).mpr h3⟩

/-- Moving the position of the streamed map over unset bits of the symbol. -/
theorem stream_inv_skip {α : Type} (L size : Nat) (pattern reserved : re_pattern_list)
    (g0 : resource_grid_impl α) (b0 : symbol_buffer α) (s a b : Nat) (st : stream_state α)
    (hab : a ≤ b)
    (hz : ∀ k, a ≤ k → k < b → test (selection_mask size pattern reserved s) k = false)
    (h : stream_inv L size pattern reserved g0 b0 s a st) :
    stream_inv L size pattern reserved g0 b0 s b st := by
  refine stream_inv_move L size pattern reserved g0 b0 s a s b st h ?_ ?_
  · unfold selected_before
    rw [rank_eq_of_unset _ a b hab hz]
  · intro l k hk
    constructor
    · rintro (h1 | ⟨h1, h2⟩)
      · exact Or.inl h1
      · exact Or.inr ⟨h1, by omega⟩
    · rintro (h1 | ⟨h1, h2⟩)
      · exact Or.inl h1
      · refine Or.inr ⟨h1, ?_⟩
        by_contra hlt
        rw [h1] at hk
        rw [hz k (by omega) h2] at hk
        exact Bool.noConfusion hk

/-- Moving the position of the streamed map to the next symbol when no bit is set from the position on. -/
theorem stream_inv_next_symbol {α : Type} (L size : Nat) (pattern reserved : re_pattern_list)
    (g0 : resource_grid_impl α) (b0 : symbol_buffer α) (s a : Nat) (st : stream_state α)
    (hz : ∀ k, a ≤ k → test (selection_mask size pattern reserved s) k = false)
    (h : stream_inv L size pattern reserved g0 b0 s a st) :
    stream_inv L size pattern reserved g0 b0 (s + 1) 0 st := by
  refine stream_inv_move L size pattern reserved g0 b0 s a (s + 1) 0 st h ?_ ?_
  · unfold selected_before
    rw [rank_eq_count_of_unset _ a hz, rank_zero]
    simp only [total_selected]
    omega
  · intro l k hk
    constructor
    · rintro (h1 | ⟨h1, _⟩)
      · exact Or.inl (by omega)
      · exact Or.inl (by omega)
    · rintro (h1 | ⟨_, h2⟩)
      · by_cases hl : l < s
        · exact Or.inl hl
        · have hl1 : l = s := by omega
          refine Or.inr ⟨hl1, ?_⟩
          by_contra hlt
          rw [hl1] at hk
          rw [hz k (by omega)] at hk
          exact Bool.noConfusion hk
      · omega

end srsran

namespace srsran
open bounded_bitset resource_grid_impl

namespace resource_grid_impl

variable {α : Type} [CommSemiring α] [DecidableEq α]

/-- One block of the streamed map over the window `a .. a + n - 1` of the symbol returns, when the source holds a symbol per layer for every selected RE, and moves the position to the end of the window. -/
theorem stream_inv_block (w : precoding_weight_matrix α) (L A size : Nat)
    (pattern reserved : re_pattern_list) (g0 : resource_grid_impl α) (b0 : symbol_buffer α)
    (s a n N : Nat) (bm : List Bool) (st : stream_state α)
    (hbm : ∀ j, test bm j =
      (decide (j < n) && test (selection_mask size pattern reserved s) (a + j)))
    (hs : s < N)
    (henough : L * total_selected size pattern reserved N ≤ b0.symbols.length)
    (h : stream_inv L size pattern reserved g0 b0 s a st) :
    ∃ st1, map_block w L A s a bm st = .ok st1 ∧
      stream_inv L size pattern reserved g0 b0 s (a + n) st1 := by
  have hr := rank_add_window (selection_mask size pattern reserved s) bm a n hbm
  have hsb : selected_before size pattern reserved s (a + n) =
      selected_before size pattern reserved s a + count bm := by
    unfold selected_before
    omega
  have hle := selected_before_le size pattern reserved s (a + n) N hs
  have hmul : L * selected_before size pattern reserved s (a + n) =
      L * selected_before size pattern reserved s a + count bm * L := by
    rw [hsb, Nat.mul_add, Nat.mul_comm L (count bm)]
  have hle2 : L * selected_before size pattern reserved s (a + n) ≤
      L * total_selected size pattern reserved N := Nat.mul_le_mul_left _ hle
  have hpop : count bm * L ≤ st.buffer.symbols.length := by
    rw [h.symbols, List.length_drop]
    omega
  obtain ⟨g1, calls, e1, e2, e3⟩ := map_block_calls w L A s a bm st hpop
  refine ⟨_, e1, ?_, ?_, ?_⟩
  · obtain ⟨added, p1, p2⟩ := h.pops
    refine ⟨added ++ [count bm * L], ?_, ?_⟩
    · show (st.buffer.pop_symbols (count bm * L)).2.pop_log = _
      unfold symbol_buffer.pop_symbols
      rw [if_pos hpop]
      show st.buffer.pop_log ++ [count bm * L] = _
      rw [p1, List.append_assoc]
    · rw [List.sum_append, p2, hmul]
      simp
  · show (st.buffer.pop_symbols (count bm * L)).2.symbols = _
    unfold symbol_buffer.pop_symbols
    rw [if_pos hpop]
    show st.buffer.symbols.drop (count bm * L) = _
    rw [h.symbols, List.drop_drop, hmul]
  · obtain ⟨added, q1, q2⟩ := h.puts
    refine ⟨added ++ calls, ?_, fun c => ?_⟩
    · show g1.put_log = _
      rw [e2, q1, List.append_assoc]
    · rw [written_cells_append, List.mem_append, q2 c, written_cells_eq_shape_cells calls, e3,
        mem_shape_cells]
      constructor
      · rintro (⟨h1, h2, h3⟩ | ⟨x, hx, hc⟩)
        · refine ⟨h1, h2, ?_⟩
          rcases h3 with h3 | ⟨h3, h4⟩
          · exact Or.inl h3
          · exact Or.inr ⟨h3, by omega⟩
        · obtain ⟨j, hj, rfl⟩ := List.mem_map.mp hx
          rw [mem_mask_cells] at hc
          obtain ⟨c1, c2, c3, c4, _⟩ := hc
          simp only at c1 c2 c3 c4
          rw [hbm] at c4
          have e : a + (c.2.2 - a) = c.2.2 := by omega
          rw [e] at c4
          simp only [Bool.and_eq_true, decide_eq_true_eq] at c4
          refine ⟨by rw [c1]; exact List.mem_range.mp hj, by rw [c2]; exact c4.2,
            Or.inr ⟨c2, by omega⟩⟩
      · rintro ⟨h1, h2, h3⟩
        by_cases hold : c.2.1 < s ∨ (c.2.1 = s ∧ c.2.2 < a)
        · exact Or.inl ⟨h1, h2, hold⟩
        · right
          have hs1 : c.2.1 = s := by omega
          have ha : a ≤ c.2.2 := by omega
          have hb : c.2.2 < a + n := by omega
          have htest : test bm (c.2.2 - a) = true := by
            rw [hbm]
            have e : a + (c.2.2 - a) = c.2.2 := by omega
            rw [e, ← hs1, h2]
            simp
            omega
          refine ⟨(c.1, s, a, bm, count bm),
            List.mem_map.mpr ⟨c.1, List.mem_range.mpr h1, rfl⟩, ?_⟩
          rw [mem_mask_cells]
          exact ⟨rfl, hs1, ha, htest, rank_lt_count htest⟩

/-- The block loop of a PRG whose mask is the window `i_subc .. i_subc + nsp - 1` of the symbol returns on a budget of at least the subcarriers left, and moves the position from the entry offset to the end of the window. -/
theorem map_blocks_inv (w : precoding_weight_matrix α) (mx L A size : Nat)
    (pattern reserved : re_pattern_list) (g0 : resource_grid_impl α) (b0 : symbol_buffer α)
    (s i_subc : Nat) (prm : List Bool) (nsp N : Nat)
    (hprm : ∀ j, test prm j =
      (decide (j < nsp) && test (selection_mask size pattern reserved s) (i_subc + j)))
    (hmx : 1 ≤ mx / L) (hnsp : nsp < 2 ^ 32) (hs : s < N)
    (henough : L * total_selected size pattern reserved N ≤ b0.symbols.length)
    (fuel off : Nat) (st : stream_state α) (hoff : off ≤ nsp) (hfuel : nsp - off ≤ fuel)
    (h : stream_inv L size pattern reserved g0 b0 s (i_subc + off) st) :
    ∃ st1, map_blocks w mx L A s i_subc prm nsp fuel off st = .ok st1 ∧
      stream_inv L size pattern reserved g0 b0 s (i_subc + nsp) st1 := by
  induction fuel generalizing off st with
  | zero =>
    have heq : off = nsp := by omega
    unfold map_blocks
    rw [if_pos heq]
    exact ⟨st, rfl, by rw [← heq]; exact h⟩
  | succ fuel ih =>
    by_cases heq : off = nsp
    · unfold map_blocks
      rw [if_pos heq]
      exact ⟨st, rfl, by rw [← heq]; exact h⟩
    · unfold map_blocks
      have hsub : u32_sub nsp off = nsp - off := u32_sub_of_le hoff hnsp
      have hpend : ¬ u32_sub nsp off = 0 := by omega
      simp only [if_neg heq, if_neg hpend]
      have hle : min (u32_sub nsp off) (mx / L) ≤ nsp - off := by
        rw [hsub]; exact Nat.min_le_left _ _
      have hpos : 1 ≤ min (u32_sub nsp off) (mx / L) := by
        rw [hsub]; exact Nat.le_min.mpr ⟨by omega, hmx⟩
      generalize min (u32_sub nsp off) (mx / L) = nsb at hle hpos ⊢
      have hbm : ∀ j, test (slice prm off (off + nsb)) j =
          (decide (j < nsb) &&
            test (selection_mask size pattern reserved s) (i_subc + off + j)) := by
        intro j
        rw [test_slice, hprm, Nat.add_sub_cancel_left, Nat.add_assoc]
        by_cases hj : j < nsb
        · have : off + j < nsp := by omega
          simp [hj, this]
        · simp [hj]
      obtain ⟨st1, b1, b2⟩ := stream_inv_block w L A size pattern reserved g0 b0 s
        (i_subc + off) nsb N (slice prm off (off + nsb)) st hbm hs henough h
      rw [b1]
      exact ih (off + nsb) st1 (by omega) (by omega) (by rw [← Nat.add_assoc]; exact b2)

end resource_grid_impl
end srsran

namespace srsran
open bounded_bitset resource_grid_impl

namespace resource_grid_impl

variable {α : Type} [CommSemiring α] [DecidableEq α]

/-- One iteration of the PRG loop of the streamed map returns and moves the position from the first subcarrier of the PRG to the first subcarrier of the next one, when the PRG windows fit `unsigned` and cover the allocation. -/
theorem map_stream_prg_inv (fuel : Nat) (precoding : precoding_configuration α)
    (mx size : Nat) (pattern reserved : re_pattern_list) (g0 : resource_grid_impl α)
    (b0 : symbol_buffer α) (s N n : Nat) (st : stream_state α) (i_prg : Nat)
    (hmx : 1 ≤ mx / precoding.get_nof_layers)
    (hi : i_prg < n)
    (hnw : n * (precoding.get_prg_size * NRE) < 2 ^ 32)
    (hcov : find_highest (selection_mask size pattern reserved s) <
      ((n * (precoding.get_prg_size * NRE) : Nat) : Int))
    (hfuel : precoding.get_prg_size * NRE ≤ fuel) (hs : s < N)
    (henough : precoding.get_nof_layers * total_selected size pattern reserved N ≤
      b0.symbols.length)
    (h : stream_inv precoding.get_nof_layers size pattern reserved g0 b0 s
      (i_prg * (precoding.get_prg_size * NRE)) st) :
    ∃ st1, map_stream_prg fuel precoding mx s (selection_mask size pattern reserved s)
        (find_highest (selection_mask size pattern reserved s)) st i_prg = .ok st1 ∧
      stream_inv precoding.get_nof_layers size pattern reserved g0 b0 s
        ((i_prg + 1) * (precoding.get_prg_size * NRE)) st1 := by
  have hsucc : (i_prg + 1) * (precoding.get_prg_size * NRE) =
      i_prg * (precoding.get_prg_size * NRE) + precoding.get_prg_size * NRE := Nat.succ_mul _ _
  have hle : (i_prg + 1) * (precoding.get_prg_size * NRE) ≤
      n * (precoding.get_prg_size * NRE) := Nat.mul_le_mul_right _ hi
  have hP : precoding.get_prg_size * NRE < 2 ^ 32 := by omega
  have hiP : i_prg * (precoding.get_prg_size * NRE) < 2 ^ 32 := by omega
  unfold map_stream_prg
  simp only
  rw [u32_of_lt hP, u32_of_lt hiP, hsucc]
  generalize precoding.get_prg_size * NRE = PP at h hP hiP hsucc hle hnw hcov hfuel ⊢
  generalize hsel : selection_mask size pattern reserved s = sel at h hcov ⊢
  generalize hisubc : i_prg * PP = i_subc at h hP hiP hsucc hle ⊢
  have hge := find_highest_ge sel
  have hhi : ∀ k, (find_highest sel + 1).toNat ≤ k → test sel k = false := by
    intro k hk
    by_contra hc
    have ht : test sel k = true := by
      cases hv : test sel k with
      | true => rfl
      | false => exact absurd hv hc
    have := le_find_highest sel k ht
    omega
  have hH : (find_highest sel + 1).toNat < 2 ^ 32 := by omega
  generalize (find_highest sel + 1).toNat = H at hhi hH
  have skip_all : (∀ k, i_subc ≤ k → k < i_subc + PP → test sel k = false) →
      stream_inv precoding.get_nof_layers size pattern reserved g0 b0 s (i_subc + PP) st := by
    intro hz
    refine stream_inv_skip _ size pattern reserved g0 b0 s i_subc (i_subc + PP) st
      (by omega) ?_ h
    rw [hsel]
    exact hz
  by_cases hcase : i_subc ≤ H
  · have hsub : u32_sub H i_subc = H - i_subc := u32_sub_of_le hcase hH
    rw [hsub]
    have hnsp_le : min PP (H - i_subc) ≤ PP := Nat.min_le_left _ _
    have hnsp_le2 : min PP (H - i_subc) ≤ H - i_subc := Nat.min_le_right _ _
    have hnsp_eq : min PP (H - i_subc) = PP ∨ min PP (H - i_subc) = H - i_subc := by
      rcases Nat.le_total PP (H - i_subc) with h1 | h1
      · exact Or.inl (Nat.min_eq_left h1)
      · exact Or.inr (Nat.min_eq_right h1)
    generalize min PP (H - i_subc) = nsp at hnsp_le hnsp_le2 hnsp_eq ⊢
    rw [u32_of_lt (by omega : i_subc + nsp < 2 ^ 32)]
    have hprm : ∀ j, test (slice sel i_subc (i_subc + nsp)) j =
        (decide (j < nsp) && test sel (i_subc + j)) := by
      intro j
      rw [test_slice, Nat.add_sub_cancel_left]
    have htail : ∀ k, i_subc + nsp ≤ k → k < i_subc + PP → test sel k = false := by
      intro k h1 h2
      exact hhi k (by omega)
    by_cases hn : bounded_bitset.none (slice sel i_subc (i_subc + nsp)) = true
    · rw [if_pos hn]
      refine ⟨st, rfl, skip_all ?_⟩
      intro k h1 h2
      by_cases hk : k < i_subc + nsp
      · have := (none_eq_true_iff _).mp hn (k - i_subc)
        rw [hprm] at this
        have e : i_subc + (k - i_subc) = k := by omega
        rw [e] at this
        have hd : decide (k - i_subc < nsp) = true := by
          simp only [decide_eq_true_eq]; omega
        rw [hd, Bool.true_and] at this
        exact this
      · exact htail k (by omega) h2
    · rw [if_neg hn]
      have hoff : (find_lowest (slice sel i_subc (i_subc + nsp))).toNat ≤ nsp := by
        have h1 := find_lowest_lt_length (slice sel i_subc (i_subc + nsp))
        have h2 := length_slice sel i_subc (i_subc + nsp)
        have h4 := Nat.min_le_left (i_subc + nsp - i_subc) (sel.length - i_subc)
        omega
      have hlow := test_lt_find_lowest (slice sel i_subc (i_subc + nsp))
      generalize (find_lowest (slice sel i_subc (i_subc + nsp))).toNat = off at hoff hlow ⊢
      have h1 : stream_inv precoding.get_nof_layers size pattern reserved g0 b0 s
          (i_subc + off) st := by
        refine stream_inv_skip _ size pattern reserved g0 b0 s i_subc (i_subc + off) st
          (by omega) ?_ h
        intro k k1 k2
        have := hlow (k - i_subc) (by omega)
        rw [hprm] at this
        have e : i_subc + (k - i_subc) = k := by omega
        rw [e] at this
        have hd : decide (k - i_subc < nsp) = true := by
          simp only [decide_eq_true_eq]; omega
        rw [hd, Bool.true_and] at this
        rw [hsel]
        exact this
      obtain ⟨st1, r1, r2⟩ := map_blocks_inv (precoding.get_prg_coefficients i_prg) mx
        precoding.get_nof_layers precoding.get_nof_ports size pattern reserved g0 b0 s i_subc
        (slice sel i_subc (i_subc + nsp)) nsp N (by rw [hsel]; exact hprm) hmx (by omega) hs
        henough fuel off st hoff (by omega) h1
      refine ⟨st1, r1, ?_⟩
      refine stream_inv_skip _ size pattern reserved g0 b0 s (i_subc + nsp) (i_subc + PP) st1
        (by omega) ?_ r2
      rw [hsel]
      exact htail
  · have hz : ∀ k, i_subc ≤ k → test sel k = false := fun k hk => hhi k (by omega)
    have hn : bounded_bitset.none (slice sel i_subc
        (u32 (i_subc + min PP (u32_sub H i_subc)))) = true := by
      rw [none_eq_true_iff]
      intro k
      rw [test_slice, hz (i_subc + k) (by omega), Bool.and_false]
    rw [if_pos hn]
    exact ⟨st, rfl, skip_all (fun k h1 _ => hz k h1)⟩

/-- One iteration of the symbol loop of the streamed map returns and moves the position to the next symbol. -/
theorem map_stream_symbol_inv (MAX_RB fuel : Nat) (pattern reserved : re_pattern_list)
    (precoding : precoding_configuration α) (mx : Nat) (g0 : resource_grid_impl α)
    (b0 : symbol_buffer α) (N : Nat) (st : stream_state α) (s : Nat)
    (hmx : 1 ≤ mx / precoding.get_nof_layers)
    (hnw : precoding.get_nof_prg * (precoding.get_prg_size * NRE) < 2 ^ 32)
    (hcov : find_highest (selection_mask (MAX_RB * NRE) pattern reserved s) <
      ((precoding.get_nof_prg * (precoding.get_prg_size * NRE) : Nat) : Int))
    (hfuel : precoding.get_prg_size * NRE ≤ fuel) (hs : s < N)
    (henough : precoding.get_nof_layers * total_selected (MAX_RB * NRE) pattern reserved N ≤
      b0.symbols.length)
    (h : stream_inv precoding.get_nof_layers (MAX_RB * NRE) pattern reserved g0 b0 s 0 st) :
    ∃ st1, map_stream_symbol MAX_RB fuel pattern reserved precoding mx st s = .ok st1 ∧
      stream_inv precoding.get_nof_layers (MAX_RB * NRE) pattern reserved g0 b0 (s + 1) 0
        st1 := by
  unfold map_stream_symbol
  simp only
  by_cases hneg : find_highest (selection_mask (MAX_RB * NRE) pattern reserved s) < 0
  · rw [if_pos hneg]
    refine ⟨st, rfl, stream_inv_next_symbol _ _ pattern reserved g0 b0 s 0 st ?_ h⟩
    intro k _
    exact (find_highest_neg_iff _).mp hneg k
  · rw [if_neg hneg]
    obtain ⟨st1, r1, r2⟩ := for_loop_range_total
      (map_stream_prg fuel precoding mx s (selection_mask (MAX_RB * NRE) pattern reserved s)
        (find_highest (selection_mask (MAX_RB * NRE) pattern reserved s)))
      (fun i st => stream_inv precoding.get_nof_layers (MAX_RB * NRE) pattern reserved g0 b0 s
        (i * (precoding.get_prg_size * NRE)) st)
      precoding.get_nof_prg
      (fun i st2 hi hI => map_stream_prg_inv fuel precoding mx (MAX_RB * NRE) pattern reserved
        g0 b0 s N precoding.get_nof_prg st2 i hmx hi hnw hcov hfuel hs henough hI)
      st (by
        show stream_inv precoding.get_nof_layers (MAX_RB * NRE) pattern reserved g0 b0 s
          (0 * (precoding.get_prg_size * NRE)) st
        rw [Nat.zero_mul]
        exact h)
    refine ⟨st1, r1, stream_inv_next_symbol _ _ pattern reserved g0 b0 s _ st1 ?_ r2⟩
    intro k hk
    by_contra hc
    have ht : test (selection_mask (MAX_RB * NRE) pattern reserved s) k = true := by
      cases hv : test (selection_mask (MAX_RB * NRE) pattern reserved s) k with
      | true => rfl
      | false => exact absurd hv hc
    have := le_find_highest _ k ht
    omega

/-- The symbol loop of the streamed map over the symbols below `n` returns after mapping exactly the selected REs of those symbols. -/
theorem map_stream_loop_inv (MAX_RB fuel : Nat) (g : resource_grid_impl α)
    (buffer : symbol_buffer α) (pattern reserved : re_pattern_list)
    (precoding : precoding_configuration α) (mx n : Nat)
    (hmx : 1 ≤ mx / precoding.get_nof_layers)
    (hnw : precoding.get_nof_prg * (precoding.get_prg_size * NRE) < 2 ^ 32)
    (hcov : ∀ s, s < n → find_highest (selection_mask (MAX_RB * NRE) pattern reserved s) <
      ((precoding.get_nof_prg * (precoding.get_prg_size * NRE) : Nat) : Int))
    (hfuel : precoding.get_prg_size * NRE ≤ fuel)
    (henough : precoding.get_nof_layers * total_selected (MAX_RB * NRE) pattern reserved n ≤
      buffer.symbols.length) :
    ∃ st1, for_loop (map_stream_symbol MAX_RB fuel pattern reserved precoding mx)
        (List.range n) ⟨g, buffer⟩ = .ok st1 ∧
      stream_inv precoding.get_nof_layers (MAX_RB * NRE) pattern reserved g buffer n 0 st1 := by
  refine for_loop_range_total
    (map_stream_symbol MAX_RB fuel pattern reserved precoding mx)
    (fun s st => stream_inv precoding.get_nof_layers (MAX_RB * NRE) pattern reserved g buffer
      s 0 st) n
    (fun s st hs hI => map_stream_symbol_inv MAX_RB fuel pattern reserved precoding mx g buffer
      n st s hmx hnw (hcov s hs) hfuel hs henough hI)
    ⟨g, buffer⟩ ?_
  have h0 : selected_before (MAX_RB * NRE) pattern reserved 0 0 = 0 := by
    unfold selected_before
    rw [rank_zero]
    rfl
  refine ⟨⟨[], ?_, ?_⟩, ?_, ⟨[], ?_, ?_⟩⟩
  · simp
  · rw [h0]; simp
  · rw [h0]; simp
  · simp
  · intro c
    simp [written_cells]

end resource_grid_impl
end srsran

namespace srsran
open bounded_bitset resource_grid_impl

/-- Cells written in port-by-port order are pairwise different. -/
theorem nodup_of_cells_ordered (cs : List (Nat × Nat × Nat)) (h : cells_ordered cs) :
    cs.Nodup := by
  unfold cells_ordered at h
  refine List.Pairwise.imp ?_ h
  intro a b hab heq
  subst heq
  have := hab.2 rfl
  unfold cell_before at this
  omega

/-- An element of a list without duplicates occurs in it once. -/
theorem count_eq_one_of_nodup {β : Type} [BEq β] [LawfulBEq β] (l : List β) (a : β)
    (hnd : l.Nodup) (hm : a ∈ l) : l.count a = 1 := by
  induction l with
  | nil => simp at hm
  | cons x xs ih =>
    have hx := List.nodup_cons.mp hnd
    rw [List.count_cons]
    by_cases hxa : x = a
    · subst hxa
      rw [List.count_eq_zero_of_not_mem hx.1]
      simp
    · have hmem : a ∈ xs := by
        rcases List.mem_cons.mp hm with h | h
        · exact absurd h.symm hxa
        · exact h
      rw [ih hx.2 hmem]
      simp [hxa]

/-- C24 (conservation in the streamed map). When the initial checks pass, the maximum pull size is at least the number of layers, for every symbol the highest selected subcarrier lies below `nof_prg * prg_size * 12`, that product fits `unsigned`, the budget of the block loop is at least the width of a PRG, and the source holds `nof_layers` symbols for every selected RE: the streamed `map` returns, the sizes pulled add up to `nof_layers` times the sum over the symbols of the count of the selection mask, the source has lost exactly that many symbols, and the writes of the call write every selected RE `(s, k)` exactly once on each port below `nof_layers` and write no other cell, so that every selected RE falls in exactly one block. -/
theorem C24_stream_conservation {α : Type} [CommSemiring α] [DecidableEq α]
    (MAX_RB fuel : Nat) (g : resource_grid_impl α) (buffer : symbol_buffer α)
    (pattern reserved : re_pattern_list) (precoding : precoding_configuration α)
    (hports : 1 ≤ precoding.get_nof_ports ∧ precoding.get_nof_ports ≤ g.nof_ports)
    (hlayers : 1 ≤ precoding.get_nof_layers ∧
      precoding.get_nof_layers ≤ precoding.get_nof_ports)
    (hmx : precoding.get_nof_layers ≤ buffer.get_max_block_size)
    (hcov : ∀ s, s < MAX_NSYMB_PER_SLOT →
      find_highest (selection_mask (MAX_RB * NRE) pattern reserved s) <
        ((precoding.get_nof_prg * (precoding.get_prg_size * NRE) : Nat) : Int))
    (hnw : precoding.get_nof_prg * (precoding.get_prg_size * NRE) < 2 ^ 32)
    (hfuel : precoding.get_prg_size * NRE ≤ fuel)
    (henough : precoding.get_nof_layers *
      total_selected (MAX_RB * NRE) pattern reserved MAX_NSYMB_PER_SLOT ≤
        buffer.symbols.length) :
    ∃ st, map_stream MAX_RB fuel g buffer pattern reserved precoding = .ok st ∧
      (∃ pops, st.buffer.pop_log = buffer.pop_log ++ pops ∧
        pops.sum = precoding.get_nof_layers *
          total_selected (MAX_RB * NRE) pattern reserved MAX_NSYMB_PER_SLOT) ∧
      st.buffer.symbols = buffer.symbols.drop (precoding.get_nof_layers *
        total_selected (MAX_RB * NRE) pattern reserved MAX_NSYMB_PER_SLOT) ∧
      ∃ added, st.grid.put_log = g.put_log ++ added ∧
        ∀ p s k, (written_cells added).count (p, s, k) =
          if p < precoding.get_nof_layers ∧ s < MAX_NSYMB_PER_SLOT ∧
            test (selection_mask (MAX_RB * NRE) pattern reserved s) k = true then 1 else 0 := by
  have hmx1 : 1 ≤ buffer.get_max_block_size / precoding.get_nof_layers :=
    (Nat.one_le_div_iff (by omega)).mpr hmx
  obtain ⟨st, r1, r2⟩ := map_stream_loop_inv MAX_RB fuel g buffer pattern reserved precoding
    buffer.get_max_block_size MAX_NSYMB_PER_SLOT hmx1 hnw hcov hfuel henough
  have hrun : map_stream MAX_RB fuel g buffer pattern reserved precoding = .ok st := by
    unfold map_stream
    simp only
    rw [if_neg (not_not.mpr hports), if_neg (not_not.mpr hlayers)]
    exact r1
  have hsb : selected_before (MAX_RB * NRE) pattern reserved MAX_NSYMB_PER_SLOT 0 =
      total_selected (MAX_RB * NRE) pattern reserved MAX_NSYMB_PER_SLOT := by
    unfold selected_before
    rw [rank_zero, Nat.add_zero]
  obtain ⟨hp, hsym, added, q1, q2⟩ := r2
  rw [hsb] at hp hsym
  refine ⟨st, hrun, hp, hsym, added, q1, ?_⟩
  have hnw1 : precoding.get_nof_prg * u32 (precoding.get_prg_size * NRE) < 2 ^ 32 :=
    Nat.lt_of_le_of_lt (Nat.mul_le_mul_left _ (u32_le _)) hnw
  obtain ⟨added1, o1, o2⟩ :=
    map_stream_writes_ordered MAX_RB fuel g buffer pattern reserved precoding hnw1
  rw [hrun] at o1
  have o3 : st.grid.put_log = g.put_log ++ added1 := o1
  rw [q1] at o3
  have hadd : added = added1 := List.append_cancel_left o3
  rw [← hadd] at o2
  have hnd := nodup_of_cells_ordered _ o2
  intro p s k
  by_cases hc : p < precoding.get_nof_layers ∧ s < MAX_NSYMB_PER_SLOT ∧
      test (selection_mask (MAX_RB * NRE) pattern reserved s) k = true
  · rw [if_pos hc]
    apply count_eq_one_of_nodup _ _ hnd
    rw [q2 (p, s, k)]
    exact ⟨hc.1, hc.2.2, Or.inl hc.2.1⟩
  · rw [if_neg hc]
    apply List.count_eq_zero_of_not_mem
    intro hm
    rw [q2 (p, s, k)] at hm
    obtain ⟨m1, m2, m3⟩ := hm
    apply hc
    refine ⟨m1, ?_, m2⟩
    rcases m3 with m3 | ⟨_, m4⟩
    · exact m3
    · exact absurd m4 (Nat.not_lt_zero _)

set_option maxRecDepth 8000 in
/-- C24 at two layers on two ports of a one-PRB grid with the subcarriers 0..3 of symbol 0 selected and a source of 8 symbols pulled at most 4 at a time: the 4 selected REs need 8 symbols, and the call returns after pulling them and writing each selected RE once on each of the two ports. -/
theorem C24_stream_conservation_witness :
    (1 ≤ scenario.precoding_identity.get_nof_ports ∧
      scenario.precoding_identity.get_nof_ports ≤ scenario.grid2.nof_ports) ∧
    (1 ≤ scenario.precoding_identity.get_nof_layers ∧
      scenario.precoding_identity.get_nof_layers ≤ scenario.precoding_identity.get_nof_ports) ∧
    scenario.precoding_identity.get_nof_layers ≤ scenario.stream8.get_max_block_size ∧
    (∀ s, s < MAX_NSYMB_PER_SLOT →
      find_highest (selection_mask (1 * NRE) scenario.pattern4 [] s) <
        ((scenario.precoding_identity.get_nof_prg *
          (scenario.precoding_identity.get_prg_size * NRE) : Nat) : Int)) ∧
    scenario.precoding_identity.get_nof_layers *
      total_selected (1 * NRE) scenario.pattern4 [] MAX_NSYMB_PER_SLOT = 8 ∧
    ∃ st, map_stream 1 12 scenario.grid2 scenario.stream8 scenario.pattern4 []
        scenario.precoding_identity = .ok st ∧
      (∃ pops, st.buffer.pop_log = scenario.stream8.pop_log ++ pops ∧
        pops.sum = scenario.precoding_identity.get_nof_layers *
          total_selected (1 * NRE) scenario.pattern4 [] MAX_NSYMB_PER_SLOT) ∧
      st.buffer.symbols = scenario.stream8.symbols.drop
        (scenario.precoding_identity.get_nof_layers *
          total_selected (1 * NRE) scenario.pattern4 [] MAX_NSYMB_PER_SLOT) ∧
      ∃ added, st.grid.put_log = scenario.grid2.put_log ++ added ∧
        ∀ p s k, (written_cells added).count (p, s, k) =
          if p < scenario.precoding_identity.get_nof_layers ∧ s < MAX_NSYMB_PER_SLOT ∧
            test (selection_mask (1 * NRE) scenario.pattern4 [] s) k = true then 1 else 0 :=
  ⟨by decide, by decide, by decide, by decide, by decide,
    C24_stream_conservation 1 12 scenario.grid2 scenario.stream8 scenario.pattern4 []
      scenario.precoding_identity (by decide) (by decide) (by decide) (by decide) (by decide)
      (by decide) (by decide)⟩

end srsran
